import Mathlib

/-!
# Expression-Parser: tokenizer, lookahead buffer and parser

A shallow embedding of `include/CircularQueue.hpp`, `include/Token.hpp`,
`include/Lexer.hpp`, `include/ASTNode.hpp` and `src/Parser.cpp`, followed by the
properties established about them.

Conventions of the embedding.

* A C++ exception is a value of `Error`, named after the exception class and carrying the
  `what()` text; every operation that can throw returns `Except Error _`.
* The input stream `m_file` is the list of the bytes not read yet, each byte as the
  character of its code. `peekChar()` returns a `char`, which the source compares with
  `EOF`; `char` is taken as signed, so the comparison holds at the end of the stream and
  at the byte 0xFF, and `peekChar` is `none` in both cases.
* `std::size_t` values are natural numbers.
* Recursion that the source leaves unbounded (the recursive `skipWhitespace`, the parser)
  is driven by a fuel argument; running out of fuel is the separate error `out_of_fuel`.
-/

namespace frontend

/-! ## Exceptions -/

/-- The exceptions thrown by the sources, by class, each with its `what()` text.
`uninitialized` stands for reading a buffer slot that holds no constructed object
(undefined behaviour in the source) and `out_of_fuel` for an exhausted recursion budget
of the embedding. -/
inductive Error where
  | overflow_error (what : String)
  | underflow_error (what : String)
  | out_of_range (what : String)
  | range_error (what : String)
  | logic_error (what : String)
  | runtime_error (what : String)
  | uninitialized
  | out_of_fuel
  deriving DecidableEq, Repr

/-! ## `Token.hpp` -/

inductive TokenType where
  | EndOfFile
  | Identifier
  | NumericLiteral
  | StringLiteral
  | OpenBracket
  | CloseBracket
  | OpenParenthesis
  | CloseParenthesis
  | Dot
  | Comma
  | Plus
  | Minus
  | Star
  | Slash
  | Percent
  | Increment
  | Decrement
  | Exclamation
  | Tilde
  | LessThan
  | LessEquals
  | GreaterThan
  | GreaterEquals
  | DoubleLessThan
  | DoubleGreaterThan
  | TripleGreaterThan
  | Equals
  | DoubleEquals
  | ExclamationEquals
  deriving DecidableEq, Repr

/-- The struct `Token`; the members `from` and `to` are spelled `from_` and `to_`. -/
structure Token where
  lexeme : String
  type : TokenType
  from_ : Nat
  to_ : Nat
  deriving DecidableEq, Repr

/-! ## `CircularQueue.hpp` -/

/-- The class `CircularQueue<T, n>`: `m_buffer` is the raw storage of `n` slots, a slot
being `none` while it holds no constructed object. -/
structure CircularQueue (T : Type) (n : Nat) where
  m_buffer : List (Option T)
  m_front : Nat
  m_back : Nat
  m_size : Nat
  deriving DecidableEq, Repr

namespace CircularQueue

variable {T : Type} {n : Nat}

/-- The default constructor (`m_back` starts at `n - 1`). -/
def new : CircularQueue T n :=
  ⟨List.replicate n none, 0, n - 1, 0⟩

def size (q : CircularQueue T n) : Nat := q.m_size

def empty (q : CircularQueue T n) : Bool := q.m_size == 0

def full (q : CircularQueue T n) : Bool := q.m_size == n

/-- The object stored at `m_buffer[i]`. -/
def slot (q : CircularQueue T n) (i : Nat) : Except Error T :=
  match q.m_buffer.getD i none with
  | some x => .ok x
  | none => .error .uninitialized

def front (q : CircularQueue T n) : Except Error T :=
  if q.m_size = 0 then
    .error (.underflow_error "CircularQueue: trying to access front in an empty queue")
  else q.slot q.m_front

def back (q : CircularQueue T n) : Except Error T :=
  if q.m_size = 0 then
    .error (.underflow_error "CircularQueue: trying to access back in an empty queue")
  else q.slot q.m_back

def push (q : CircularQueue T n) (element : T) : Except Error (CircularQueue T n) :=
  if q.m_size = n then
    .error (.overflow_error "CircularQueue: size limit exceeded")
  else
    let m_back := (q.m_back + 1) % n
    .ok ⟨q.m_buffer.set m_back (some element), q.m_front, m_back, q.m_size + 1⟩

def pop (q : CircularQueue T n) : Except Error (CircularQueue T n) :=
  if q.m_size = 0 then
    .error (.underflow_error "CircularQueue: trying to pop from an empty queue")
  else
    .ok ⟨q.m_buffer.set q.m_front none, (q.m_front + 1) % n, q.m_back, q.m_size - 1⟩

/-- The accessor `operator[]`. -/
def item (q : CircularQueue T n) (index : Nat) : Except Error T :=
  if index ≥ q.m_size then
    .error (.out_of_range "CircularQueue: index out of bounds")
  else q.slot ((q.m_front + index) % n)

/-- The loop `while (m_size > 0) pop();` of `clear`, which runs at most `m_size` times. -/
def clearLoop : Nat → CircularQueue T n → CircularQueue T n
  | 0, q => q
  | fuel + 1, q =>
    if q.m_size > 0 then
      match q.pop with
      | .ok q' => clearLoop fuel q'
      | .error _ => q
    else q

def clear (q : CircularQueue T n) : CircularQueue T n := clearLoop q.m_size q

/-- The loop `for (i = 0; i < other.m_size; ++i) push(other[i]);` of the copy constructor
and of the copy assignment, from the index `i` on; it runs at most `m_size` times. -/
def copyLoop (other : CircularQueue T n) :
    Nat → Nat → CircularQueue T n → Except Error (CircularQueue T n)
  | 0, _, q => .ok q
  | fuel + 1, i, q =>
    if i < other.m_size then
      match other.item i with
      | .error e => .error e
      | .ok x =>
        match q.push x with
        | .error e => .error e
        | .ok q' => copyLoop other fuel (i + 1) q'
    else .ok q

/-- The copy constructor `CircularQueue(const CircularQueue& other)`. -/
def copy (other : CircularQueue T n) : Except Error (CircularQueue T n) :=
  copyLoop other other.m_size 0 new

/-- The copy assignment `operator=(const CircularQueue& other)` on the object `self`;
`sameObject` is the outcome of the test `this != &other` being false. -/
def assign (self other : CircularQueue T n) (sameObject : Bool) :
    Except Error (CircularQueue T n) :=
  if sameObject then .ok self
  else
    let cleared := self.clear
    copyLoop other other.m_size 0 ⟨cleared.m_buffer, 0, n - 1, 0⟩

end CircularQueue

/-! ## `<cctype>` in the "C" locale -/

def isspace (c : Char) : Bool :=
  c == ' ' || c == '\t' || c == '\n' || c == '\x0b' || c == '\x0c' || c == '\r'

def isdigit (c : Char) : Bool := decide ('0' ≤ c ∧ c ≤ '9')

def isalpha (c : Char) : Bool :=
  decide ('a' ≤ c ∧ c ≤ 'z') || decide ('A' ≤ c ∧ c ≤ 'Z')

def isalnum (c : Char) : Bool := isalpha c || isdigit c

def toupper (c : Char) : Char :=
  if 'a' ≤ c ∧ c ≤ 'z' then Char.ofNat (c.toNat - 32) else c

/-! ## `Lexer.hpp` -/

/-- The class `Lexer<numberOfLookaheads>`. The list `m_file` holds the bytes of the stream
that are not read yet, the byte `b` as the character `Char.ofNat b`. -/
structure Lexer (numberOfLookaheads : Nat) where
  m_file : List Char
  m_index : Nat
  m_tokens : CircularQueue Token numberOfLookaheads
  deriving DecidableEq, Repr

namespace Lexer

variable {n : Nat}

def peek (L : Lexer n) : Except Error Token := L.m_tokens.front

def lookahead (L : Lexer n) (index : Nat) : Except Error Token := L.m_tokens.item index

/-- The method `char peekChar() { return m_file.peek(); }`: `none` stands for a result
that compares equal to `EOF`. The type `char` is signed (as on x86-64), so `peek()`
narrows to the `char` -1 both at the end of the stream and at the byte 0xFF, and the
callers, which test `peekChar() == EOF`, cannot tell that byte from the end. -/
def peekChar (L : Lexer n) : Option Char :=
  match L.m_file with
  | [] => none
  | c :: _ => if c = '\xff' then none else some c

def skipChar (L : Lexer n) : Lexer n :=
  ⟨L.m_file.tail, L.m_index + 1, L.m_tokens⟩

/-- The statement `m_tokens.push({ lexeme, type, from, m_index })`. -/
def pushToken (L : Lexer n) (lexeme : String) (type : TokenType) (from_ : Nat) :
    Except Error (Lexer n) :=
  match L.m_tokens.push ⟨lexeme, type, from_, L.m_index⟩ with
  | .error e => .error e
  | .ok q => .ok ⟨L.m_file, L.m_index, q⟩

/-- The loop `while (isspace(peekChar())) skipChar();`, on `m_file` and `m_index`. -/
def skipSpaces : List Char → Nat → List Char × Nat
  | [], i => ([], i)
  | c :: cs, i => if isspace c then skipSpaces cs (i + 1) else (c :: cs, i)

/-- The loop `do { skipChar(); } while (peekChar() != '\n' && peekChar() != EOF);`,
entered after the first `skipChar()` of its body; `peekChar() != EOF` fails at the end of
the list and at the byte 0xFF. -/
def skipLine : List Char → Nat → List Char × Nat
  | [], i => ([], i)
  | c :: cs, i => if c = '\n' ∨ c = '\xff' then (c :: cs, i) else skipLine cs (i + 1)

/-- The loop `while (peekChar() != EOF)` over the body of a `/* */` comment, which ends
at the end of the list and at the byte 0xFF; the first component is `terminated`. -/
def skipBlock : List Char → Nat → Bool × List Char × Nat
  | [], i => (false, [], i)
  | c :: cs, i =>
    if c = '\xff' then (false, c :: cs, i)
    else if c = '*' then
      match cs with
      | [] => (false, [], i + 1)
      | d :: ds => if d = '/' then (true, ds, i + 2) else skipBlock (d :: ds) (i + 1)
    else skipBlock cs (i + 1)

/-- The method `skipWhitespace`, with `fuel` bounding its recursion. The result of the
recursive calls is discarded, as in the source; their effect on the lexer is kept. -/
def skipWhitespaceAux : Nat → Lexer n → Except Error (Bool × Lexer n)
  | 0, _ => .error .out_of_fuel
  | fuel + 1, L =>
    let s := skipSpaces L.m_file L.m_index
    let L : Lexer n := ⟨s.1, s.2, L.m_tokens⟩
    if L.peekChar = some '/' then
      let L := L.skipChar
      if L.peekChar = some '/' then
        let L := L.skipChar
        let s := skipLine L.m_file L.m_index
        let L : Lexer n := ⟨s.1, s.2, L.m_tokens⟩
        match skipWhitespaceAux fuel L with
        | .error e => .error e
        | .ok r => .ok (false, r.2)
      else if L.peekChar = some '*' then
        let L := L.skipChar
        let s := skipBlock L.m_file L.m_index
        let L : Lexer n := ⟨s.2.1, s.2.2, L.m_tokens⟩
        if !s.1 then
          .error (.range_error "Unterminated multiline comment.")
        else
          match skipWhitespaceAux fuel L with
          | .error e => .error e
          | .ok r => .ok (false, r.2)
      else
        match L.pushToken "/" .Slash (L.m_index - 1) with
        | .error e => .error e
        | .ok L => .ok (true, L)
    else .ok (false, L)

/-- The method `skipWhitespace`: every recursive call follows a comment of at least two
characters, so the length of the unread input bounds the recursion. -/
def skipWhitespace (L : Lexer n) : Except Error (Bool × Lexer n) :=
  skipWhitespaceAux (L.m_file.length + 1) L

/-- The loop `while (p(peekChar())) { literal.push_back(peekChar()); skipChar(); }`. -/
def takeWhile (p : Char → Bool) : String → List Char → Nat → String × List Char × Nat
  | literal, [], i => (literal, [], i)
  | literal, c :: cs, i =>
    if p c then takeWhile p (literal.push c) cs (i + 1) else (literal, c :: cs, i)

/-- One `literal.push_back(peekChar()); skipChar();`. Every caller has seen a character
at this point; a result of `peekChar()` equal to `EOF` is appended as the `char` -1, the
byte 0xFF. -/
def takeChar (literal : String) (L : Lexer n) : String × Lexer n :=
  match L.peekChar with
  | some c => (literal.push c, L.skipChar)
  | none => (literal.push '\xff', L.skipChar)

def isbinary (c : Char) : Bool := c == '0' || c == '1'

def isoctal (c : Char) : Bool := decide ('0' ≤ c ∧ c ≤ '7')

def ishex (c : Char) : Bool :=
  isdigit c || decide ('A' ≤ toupper c ∧ toupper c ≤ 'F')

/-- The shared shape of the three prefixed branches of `getNumericLiteral`: append the
prefix letter, append the digits, fail when nothing followed the prefix. -/
def getPrefixed (p : Char → Bool) (what : String) (literal : String) (L : Lexer n) :
    Except Error (String × Lexer n) :=
  let r := takeChar literal L
  let s := takeWhile p r.1 r.2.m_file r.2.m_index
  if s.1.length = 2 then .error (.range_error what)
  else .ok (s.1, ⟨s.2.1, s.2.2, L.m_tokens⟩)

def getNumericLiteral (L : Lexer n) : Except Error (String × Lexer n) :=
  if L.peekChar = some '0' then
    let r := takeChar "" L
    let literal := r.1
    let L := r.2
    if L.peekChar = some 'b' then
      getPrefixed isbinary "Binary prefix without a number." literal L
    else if L.peekChar = some 'o' then
      getPrefixed isoctal "Octal prefix without a number." literal L
    else if L.peekChar = some 'x' then
      getPrefixed ishex "Hexadecimal prefix without a number." literal L
    else if L.peekChar.any isdigit then
      .error (.range_error
        "Decimal numbers cannot start with 0 (use \"0o\" prefix for octal base).")
    else .ok (literal, L)
  else
    let r := takeChar "" L
    let s := takeWhile isdigit r.1 r.2.m_file r.2.m_index
    .ok (s.1, ⟨s.2.1, s.2.2, L.m_tokens⟩)

/-- The method `getStringLiteral`; its loop runs while `peekChar()` is no quote, no
newline and not `EOF`, that is, not the byte 0xFF either. -/
def getStringLiteral (L : Lexer n) : Except Error (String × Lexer n) :=
  let L := L.skipChar
  let s := takeWhile (fun c => c != '"' && c != '\n' && c != '\xff') "" L.m_file L.m_index
  let L : Lexer n := ⟨s.2.1, s.2.2, L.m_tokens⟩
  if L.peekChar = some '\n' then
    .error (.range_error "Reached end-of-line before ending string literal.")
  else if L.peekChar = none then
    .error (.range_error "Reached end-of-file before ending string literal.")
  else .ok (s.1, L.skipChar)

def getIdentifier (L : Lexer n) : Except Error (String × Lexer n) :=
  let r := takeChar "" L
  let s := takeWhile (fun c => isalnum c || c == '_') r.1 r.2.m_file r.2.m_index
  .ok (s.1, ⟨s.2.1, s.2.2, L.m_tokens⟩)

/-- The method `addNextToken`; the `switch` is the chain of tests on `peekChar`. -/
def addNextToken (L : Lexer n) : Except Error (Lexer n) :=
  match skipWhitespace L with
  | .error e => .error e
  | .ok (true, L) => .ok L
  | .ok (false, L) =>
    let from_ := L.m_index
    if L.peekChar = none then
      L.pushToken "" .EndOfFile from_
    else if L.peekChar = some '[' then
      L.skipChar.pushToken "[" .OpenBracket from_
    else if L.peekChar = some ']' then
      L.skipChar.pushToken "]" .CloseBracket from_
    else if L.peekChar = some '(' then
      L.skipChar.pushToken "(" .OpenParenthesis from_
    else if L.peekChar = some ')' then
      L.skipChar.pushToken ")" .CloseParenthesis from_
    else if L.peekChar = some '.' then
      L.skipChar.pushToken "." .Dot from_
    else if L.peekChar = some ',' then
      L.skipChar.pushToken "," .Comma from_
    else if L.peekChar = some '+' then
      let L := L.skipChar
      if L.peekChar = some '+' then
        L.skipChar.pushToken "++" .Increment from_
      else
        L.pushToken "+" .Plus from_
    else if L.peekChar = some '-' then
      let L := L.skipChar
      if L.peekChar = some '-' then
        L.skipChar.pushToken "--" .Decrement from_
      else
        L.pushToken "-" .Minus from_
    else if L.peekChar = some '*' then
      L.skipChar.pushToken "*" .Star from_
    else if L.peekChar = some '/' then
      L.skipChar.pushToken "/" .Slash from_
    else if L.peekChar = some '%' then
      L.skipChar.pushToken "%" .Percent from_
    else if L.peekChar = some '!' then
      let L := L.skipChar
      if L.peekChar = some '=' then
        L.skipChar.pushToken "!=" .ExclamationEquals from_
      else
        L.pushToken "!" .Exclamation from_
    else if L.peekChar = some '~' then
      L.skipChar.pushToken "~" .Tilde from_
    else if L.peekChar = some '<' then
      let L := L.skipChar
      if L.peekChar = some '<' then
        L.skipChar.pushToken "<<" .DoubleLessThan from_
      else if L.peekChar = some '=' then
        L.skipChar.pushToken "<=" .LessEquals from_
      else
        L.pushToken "<" .LessThan from_
    else if L.peekChar = some '>' then
      let L := L.skipChar
      if L.peekChar = some '>' then
        let L := L.skipChar
        if L.peekChar = some '>' then
          L.skipChar.pushToken ">>>" .TripleGreaterThan from_
        else
          L.pushToken ">>" .DoubleGreaterThan from_
      else if L.peekChar = some '=' then
        L.skipChar.pushToken ">=" .GreaterEquals from_
      else
        L.pushToken ">" .GreaterThan from_
    else if L.peekChar = some '=' then
      let L := L.skipChar
      if L.peekChar = some '=' then
        L.skipChar.pushToken "==" .DoubleEquals from_
      else
        L.pushToken "=" .Equals from_
    else if L.peekChar = some '"' then
      match getStringLiteral L with
      | .error e => .error e
      | .ok r => r.2.pushToken r.1 .StringLiteral from_
    else if L.peekChar.any isdigit then
      match getNumericLiteral L with
      | .error e => .error e
      | .ok r => r.2.pushToken r.1 .NumericLiteral from_
    else if L.peekChar.any isalpha || L.peekChar = some '_' then
      match getIdentifier L with
      | .error e => .error e
      | .ok r => r.2.pushToken r.1 .Identifier from_
    else
      .error (.logic_error "Unrecognized token.")

/-- The loop of the constructor: `count` calls of `addNextToken`. -/
def fill : Nat → Lexer n → Except Error (Lexer n)
  | 0, L => .ok L
  | count + 1, L =>
    match addNextToken L with
    | .error e => .error e
    | .ok L => fill count L

/-- The constructor `Lexer(std::ifstream&& file)`. -/
def new (n : Nat) (file : List Char) : Except Error (Lexer n) :=
  fill n ⟨file, 0, CircularQueue.new⟩

def skip (L : Lexer n) : Except Error (Lexer n) :=
  match L.m_tokens.pop with
  | .error e => .error e
  | .ok q => addNextToken ⟨L.m_file, L.m_index, q⟩

/-- The tokens `lookahead(i)`, ..., `lookahead(i + count - 1)`. -/
def readAhead (L : Lexer n) : Nat → Nat → Except Error (List Token)
  | _, 0 => .ok []
  | i, count + 1 =>
    match L.lookahead i with
    | .error e => .error e
    | .ok t =>
      match readAhead L (i + 1) count with
      | .error e => .error e
      | .ok ts => .ok (t :: ts)

/-- The buffered tokens `lookahead(0)`, ..., `lookahead(n - 1)`. -/
def window (L : Lexer n) : Except Error (List Token) := readAhead L 0 n

/-- The tokens a caller gets out of `L` by the loop of `tests/unit/testLexer.cpp`,
`peek()` then `skip()`, run `k` times, followed by the tokens still buffered then. -/
def produced : Nat → Lexer n → Except Error (List Token)
  | 0, L => L.window
  | k + 1, L =>
    match L.peek with
    | .error e => .error e
    | .ok t =>
      match L.skip with
      | .error e => .error e
      | .ok L =>
        match produced k L with
        | .error e => .error e
        | .ok ts => .ok (t :: ts)

/-- The first `k + n` tokens of `file`, as a `Lexer<n>` hands them out. -/
def tokenize (n : Nat) (file : List Char) (k : Nat) : Except Error (List Token) :=
  match Lexer.new n file with
  | .error e => .error e
  | .ok L => L.produced k

end Lexer

/-! ## `ASTNode.hpp` -/

inductive NodeType where
  | Identifier
  | NumericLiteral
  | StringLiteral
  | ArrayLiteral
  | Addition
  | Subtraction
  | Multiplication
  | Division
  | Remainder
  | MemberAccess
  | FunctionCall
  | SubscriptAccess
  | PostIncrement
  | PostDecrement
  | PreIncrement
  | PreDecrement
  | Negative
  | Positive
  | LogicalNegation
  | BitwiseNot
  | ShiftLeft
  | ShiftRight
  | ShiftRightLogic
  | LessThan
  | LessEquals
  | GreaterThan
  | GreaterEquals
  | Equals
  | NotEquals
  deriving DecidableEq, Repr

/-- The class `Identifier` with the members it inherits from `ASTNode`. -/
structure Identifier where
  m_identifier : String
  m_from : Nat
  m_to : Nat
  deriving DecidableEq, Repr

/-- The objects of the classes derived from `Expression`, one constructor per shape of
class, each with its own members and the inherited `m_nodeType` (where the class does not
fix it), `m_from` and `m_to`. -/
inductive Expression where
  | identifier (node : Identifier)
  | numericLiteral (m_literal : String) (m_from m_to : Nat)
  | stringLiteral (m_literal : String) (m_from m_to : Nat)
  | arrayLiteral (m_array : List Expression) (m_from m_to : Nat)
  | unaryOperator (m_nodeType : NodeType) (m_argument : Expression) (m_from m_to : Nat)
  | binaryOperator (m_nodeType : NodeType) (m_lhs m_rhs : Expression) (m_from m_to : Nat)
  | memberAccess (m_argument : Expression) (m_identifier : Identifier) (m_from m_to : Nat)
  | functionCall (m_function : Expression) (m_arguments : List Expression)
      (m_from m_to : Nat)
  | subscriptAccess (m_argument m_subscript : Expression) (m_from m_to : Nat)
  deriving Repr

namespace Expression

def nodeType : Expression → NodeType
  | identifier _ => .Identifier
  | numericLiteral _ _ _ => .NumericLiteral
  | stringLiteral _ _ _ => .StringLiteral
  | arrayLiteral _ _ _ => .ArrayLiteral
  | unaryOperator t _ _ _ => t
  | binaryOperator t _ _ _ _ => t
  | memberAccess _ _ _ _ => .MemberAccess
  | functionCall _ _ _ _ => .FunctionCall
  | subscriptAccess _ _ _ _ => .SubscriptAccess

/-- The accessor `from()`. -/
def from_ : Expression → Nat
  | identifier node => node.m_from
  | numericLiteral _ f _ => f
  | stringLiteral _ f _ => f
  | arrayLiteral _ f _ => f
  | unaryOperator _ _ f _ => f
  | binaryOperator _ _ _ f _ => f
  | memberAccess _ _ f _ => f
  | functionCall _ _ f _ => f
  | subscriptAccess _ _ f _ => f

/-- The accessor `to()`. -/
def to_ : Expression → Nat
  | identifier node => node.m_to
  | numericLiteral _ _ t => t
  | stringLiteral _ _ t => t
  | arrayLiteral _ _ t => t
  | unaryOperator _ _ _ t => t
  | binaryOperator _ _ _ _ t => t
  | memberAccess _ _ _ t => t
  | functionCall _ _ _ t => t
  | subscriptAccess _ _ _ t => t

end Expression

/-- The helper `ASTNode::printIndent`. -/
def printIndent (indent : Nat) : String := String.mk (List.replicate indent ' ')

/-- The method `Identifier::dump`. -/
def Identifier.dump (node : Identifier) (indent : Nat) : String :=
  printIndent indent ++ "Identifier\n" ++ printIndent indent ++ "Value: " ++
    node.m_identifier ++ "\n"

/-- The text `#CLASS_NAME` of the classes declared by the three macros; the macros pass
the same name to `NodeType::CLASS_NAME`. -/
def className : NodeType → String
  | .Identifier => "Identifier"
  | .NumericLiteral => "NumericLiteral"
  | .StringLiteral => "StringLiteral"
  | .ArrayLiteral => "ArrayLiteral"
  | .Addition => "Addition"
  | .Subtraction => "Subtraction"
  | .Multiplication => "Multiplication"
  | .Division => "Division"
  | .Remainder => "Remainder"
  | .MemberAccess => "MemberAccess"
  | .FunctionCall => "FunctionCall"
  | .SubscriptAccess => "SubscriptAccess"
  | .PostIncrement => "PostIncrement"
  | .PostDecrement => "PostDecrement"
  | .PreIncrement => "PreIncrement"
  | .PreDecrement => "PreDecrement"
  | .Negative => "Negative"
  | .Positive => "Positive"
  | .LogicalNegation => "LogicalNegation"
  | .BitwiseNot => "BitwiseNot"
  | .ShiftLeft => "ShiftLeft"
  | .ShiftRight => "ShiftRight"
  | .ShiftRightLogic => "ShiftRightLogic"
  | .LessThan => "LessThan"
  | .LessEquals => "LessEquals"
  | .GreaterThan => "GreaterThan"
  | .GreaterEquals => "GreaterEquals"
  | .Equals => "Equals"
  | .NotEquals => "NotEquals"

namespace Expression

mutual

/-- The virtual method `dump`: the text written to `os`. -/
def dump : Expression → Nat → String
  | identifier node, indent => node.dump indent
  | numericLiteral m_literal _ _, indent =>
    printIndent indent ++ "NumericLiteral\n" ++ printIndent indent ++ "Value: " ++
      m_literal ++ "\n"
  | stringLiteral m_literal _ _, indent =>
    printIndent indent ++ "StringLiteral\n" ++ printIndent indent ++ "Value: " ++
      m_literal ++ "\n"
  | arrayLiteral m_array _ _, indent =>
    printIndent indent ++ "ArrayLiteral\n" ++ printIndent indent ++ " [\n" ++
      dumpArray m_array (indent + 2) true ++ printIndent indent ++ " ]\n"
  | unaryOperator m_nodeType m_argument _ _, indent =>
    printIndent indent ++ className m_nodeType ++ "\n" ++ dump m_argument (indent + 1)
  | binaryOperator m_nodeType m_lhs m_rhs _ _, indent =>
    printIndent indent ++ className m_nodeType ++ "\n" ++ dump m_lhs (indent + 1) ++
      dump m_rhs (indent + 1)
  | memberAccess m_argument m_identifier _ _, indent =>
    printIndent indent ++ "MemberAccess\n" ++ printIndent indent ++ " Argument\n" ++
      dump m_argument (indent + 2) ++ m_identifier.dump (indent + 1)
  | functionCall m_function m_arguments _ _, indent =>
    printIndent indent ++ "FunctionCall\n" ++ printIndent indent ++ " Function\n" ++
      dump m_function (indent + 2) ++ printIndent indent ++ " Arguments\n" ++
      dumpArguments m_arguments (indent + 2)
  | subscriptAccess m_argument m_subscript _ _, indent =>
    printIndent indent ++ "SubscriptAccess\n" ++ printIndent indent ++ " Argument\n" ++
      dump m_argument (indent + 2) ++ printIndent indent ++ " Subscript\n" ++
      dump m_subscript (indent + 2)

/-- The loop of `ArrayLiteral::dump` over the elements, `first` as in the source. -/
def dumpArray : List Expression → Nat → Bool → String
  | [], _, _ => ""
  | element :: rest, indent, first =>
    (if first then "" else "\n") ++ dump element indent ++ dumpArray rest indent false

/-- The loop of `FunctionCall::dump` over the arguments. -/
def dumpArguments : List Expression → Nat → String
  | [], _ => ""
  | argument :: rest, indent => dump argument indent ++ dumpArguments rest indent

end

end Expression

/-! The constructors of the classes: each computes the span it hands to `ASTNode`. -/

def NumericLiteral (literal : String) (from_ to_ : Nat) : Expression :=
  .numericLiteral literal from_ to_

def StringLiteral (literal : String) (from_ to_ : Nat) : Expression :=
  .stringLiteral literal from_ to_

def ArrayLiteral (array : List Expression) (from_ to_ : Nat) : Expression :=
  .arrayLiteral array from_ to_

def BinaryOperator (type : NodeType) (lhs rhs : Expression) : Expression :=
  .binaryOperator type lhs rhs lhs.from_ rhs.to_

def MemberAccess (argument : Expression) (identifier : Identifier) : Expression :=
  .memberAccess argument identifier argument.from_ identifier.m_to

def FunctionCall (function : Expression) (arguments : List Expression) (to_ : Nat) :
    Expression :=
  .functionCall function arguments function.from_ to_

def SubscriptAccess (argument subscript : Expression) (to_ : Nat) : Expression :=
  .subscriptAccess argument subscript argument.from_ to_

/-- The classes of `DECLARE_RIGHT_UNARY_OPERATOR` (the postfix operators). -/
def RightUnaryOperator (type : NodeType) (argument : Expression) (to_ : Nat) : Expression :=
  .unaryOperator type argument argument.from_ to_

/-- The classes of `DECLARE_LEFT_UNARY_OPERATOR` (the operators written before their
operand). -/
def LeftUnaryOperator (type : NodeType) (argument : Expression) (from_ : Nat) : Expression :=
  .unaryOperator type argument from_ argument.to_

def Addition := BinaryOperator .Addition
def Subtraction := BinaryOperator .Subtraction
def Multiplication := BinaryOperator .Multiplication
def Division := BinaryOperator .Division
def Remainder := BinaryOperator .Remainder
def PostIncrement := RightUnaryOperator .PostIncrement
def PostDecrement := RightUnaryOperator .PostDecrement
def PreIncrement := LeftUnaryOperator .PreIncrement
def PreDecrement := LeftUnaryOperator .PreDecrement
def Positive := LeftUnaryOperator .Positive
def Negative := LeftUnaryOperator .Negative
def LogicalNegation := LeftUnaryOperator .LogicalNegation
def BitwiseNot := LeftUnaryOperator .BitwiseNot
def ShiftLeft := BinaryOperator .ShiftLeft
def ShiftRight := BinaryOperator .ShiftRight
def ShiftRightLogic := BinaryOperator .ShiftRightLogic
def LessThan := BinaryOperator .LessThan
def LessEquals := BinaryOperator .LessEquals
def GreaterThan := BinaryOperator .GreaterThan
def GreaterEquals := BinaryOperator .GreaterEquals
def Equals := BinaryOperator .Equals
def NotEquals := BinaryOperator .NotEquals

/-! ## `Parser.hpp`, `Parser.cpp`

The class `Parser` has the single member `m_lexer`; its methods pass it explicitly and
return it next to their result. Each `while` loop is a function of the variables it
updates. Every call spends one unit of `fuel`. -/

namespace Parser

/-- The text of the `std::runtime_error` raised at an unexpected token. -/
def unexpected (expected : String) (t : Token) : Error :=
  .runtime_error ("Expected " ++ expected ++ ", but got '" ++ t.lexeme ++ "' from " ++
    toString t.from_ ++ " to " ++ toString t.to_ ++ ".")

mutual

def parseList : Nat → TokenType → Lexer 2 → Except Error (List Expression × Lexer 2)
  | 0, _, _ => .error .out_of_fuel
  | fuel + 1, delimiter, m_lexer => do
    if (← m_lexer.peek).type = delimiter then
      return ([], m_lexer)
    let (first, m_lexer) ← parseEquality fuel m_lexer
    let opType := (← m_lexer.peek).type
    parseListLoop fuel [first] opType m_lexer

def parseListLoop :
    Nat → List Expression → TokenType → Lexer 2 → Except Error (List Expression × Lexer 2)
  | 0, _, _, _ => .error .out_of_fuel
  | fuel + 1, list, opType, m_lexer => do
    if opType = .Comma then
      let m_lexer ← m_lexer.skip
      let (element, m_lexer) ← parseEquality fuel m_lexer
      let opType := (← m_lexer.peek).type
      parseListLoop fuel (list ++ [element]) opType m_lexer
    else
      return (list, m_lexer)

def parseEquality : Nat → Lexer 2 → Except Error (Expression × Lexer 2)
  | 0, _ => .error .out_of_fuel
  | fuel + 1, m_lexer => do
    let (lhs, m_lexer) ← parseRelational fuel m_lexer
    let opType := (← m_lexer.peek).type
    parseEqualityLoop fuel lhs opType m_lexer

def parseEqualityLoop :
    Nat → Expression → TokenType → Lexer 2 → Except Error (Expression × Lexer 2)
  | 0, _, _, _ => .error .out_of_fuel
  | fuel + 1, lhs, opType, m_lexer => do
    if opType = .DoubleEquals ∨ opType = .ExclamationEquals then
      let m_lexer ← m_lexer.skip
      let (rhs, m_lexer) ← parseRelational fuel m_lexer
      let lhs :=
        if opType = .DoubleEquals then Equals lhs rhs
        else NotEquals lhs rhs
      let opType := (← m_lexer.peek).type
      parseEqualityLoop fuel lhs opType m_lexer
    else
      return (lhs, m_lexer)

def parseRelational : Nat → Lexer 2 → Except Error (Expression × Lexer 2)
  | 0, _ => .error .out_of_fuel
  | fuel + 1, m_lexer => do
    let (lhs, m_lexer) ← parseShift fuel m_lexer
    let opType := (← m_lexer.peek).type
    parseRelationalLoop fuel lhs opType m_lexer

def parseRelationalLoop :
    Nat → Expression → TokenType → Lexer 2 → Except Error (Expression × Lexer 2)
  | 0, _, _, _ => .error .out_of_fuel
  | fuel + 1, lhs, opType, m_lexer => do
    if opType = .LessThan ∨ opType = .LessEquals ∨ opType = .GreaterThan ∨
        opType = .GreaterEquals then
      let m_lexer ← m_lexer.skip
      let (rhs, m_lexer) ← parseShift fuel m_lexer
      let lhs :=
        if opType = .LessThan then LessThan lhs rhs
        else if opType = .LessEquals then LessEquals lhs rhs
        else if opType = .GreaterThan then GreaterThan lhs rhs
        else GreaterEquals lhs rhs
      let opType := (← m_lexer.peek).type
      parseRelationalLoop fuel lhs opType m_lexer
    else
      return (lhs, m_lexer)

def parseShift : Nat → Lexer 2 → Except Error (Expression × Lexer 2)
  | 0, _ => .error .out_of_fuel
  | fuel + 1, m_lexer => do
    let (lhs, m_lexer) ← parseAdditive fuel m_lexer
    let opType := (← m_lexer.peek).type
    parseShiftLoop fuel lhs opType m_lexer

def parseShiftLoop :
    Nat → Expression → TokenType → Lexer 2 → Except Error (Expression × Lexer 2)
  | 0, _, _, _ => .error .out_of_fuel
  | fuel + 1, lhs, opType, m_lexer => do
    if opType = .DoubleLessThan ∨ opType = .DoubleGreaterThan ∨
        opType = .TripleGreaterThan then
      let m_lexer ← m_lexer.skip
      let (rhs, m_lexer) ← parseAdditive fuel m_lexer
      let lhs :=
        if opType = .DoubleLessThan then ShiftLeft lhs rhs
        else if opType = .DoubleGreaterThan then ShiftRight lhs rhs
        else ShiftRightLogic lhs rhs
      let opType := (← m_lexer.peek).type
      parseShiftLoop fuel lhs opType m_lexer
    else
      return (lhs, m_lexer)

def parseAdditive : Nat → Lexer 2 → Except Error (Expression × Lexer 2)
  | 0, _ => .error .out_of_fuel
  | fuel + 1, m_lexer => do
    let (lhs, m_lexer) ← parseMultiplicative fuel m_lexer
    let opType := (← m_lexer.peek).type
    parseAdditiveLoop fuel lhs opType m_lexer

def parseAdditiveLoop :
    Nat → Expression → TokenType → Lexer 2 → Except Error (Expression × Lexer 2)
  | 0, _, _, _ => .error .out_of_fuel
  | fuel + 1, lhs, opType, m_lexer => do
    if opType = .Plus ∨ opType = .Minus then
      let m_lexer ← m_lexer.skip
      let (rhs, m_lexer) ← parseMultiplicative fuel m_lexer
      let lhs :=
        if opType = .Plus then Addition lhs rhs
        else Subtraction lhs rhs
      let opType := (← m_lexer.peek).type
      parseAdditiveLoop fuel lhs opType m_lexer
    else
      return (lhs, m_lexer)

def parseMultiplicative : Nat → Lexer 2 → Except Error (Expression × Lexer 2)
  | 0, _ => .error .out_of_fuel
  | fuel + 1, m_lexer => do
    let (lhs, m_lexer) ← parseUnaryRightAssociative fuel m_lexer
    let opType := (← m_lexer.peek).type
    parseMultiplicativeLoop fuel lhs opType m_lexer

def parseMultiplicativeLoop :
    Nat → Expression → TokenType → Lexer 2 → Except Error (Expression × Lexer 2)
  | 0, _, _, _ => .error .out_of_fuel
  | fuel + 1, lhs, opType, m_lexer => do
    if opType = .Star ∨ opType = .Slash ∨ opType = .Percent then
      let m_lexer ← m_lexer.skip
      let (rhs, m_lexer) ← parseUnaryRightAssociative fuel m_lexer
      let lhs :=
        if opType = .Star then Multiplication lhs rhs
        else if opType = .Slash then Division lhs rhs
        else Remainder lhs rhs
      let opType := (← m_lexer.peek).type
      parseMultiplicativeLoop fuel lhs opType m_lexer
    else
      return (lhs, m_lexer)

def parseUnaryRightAssociative : Nat → Lexer 2 → Except Error (Expression × Lexer 2)
  | 0, _ => .error .out_of_fuel
  | fuel + 1, m_lexer => do
    let opType := (← m_lexer.peek).type
    if opType = .Increment then
      let from_ := (← m_lexer.peek).from_
      let m_lexer ← m_lexer.skip
      let (argument, m_lexer) ← parseUnaryRightAssociative fuel m_lexer
      return (PreIncrement argument from_, m_lexer)
    else if opType = .Decrement then
      let from_ := (← m_lexer.peek).from_
      let m_lexer ← m_lexer.skip
      let (argument, m_lexer) ← parseUnaryRightAssociative fuel m_lexer
      return (PreDecrement argument from_, m_lexer)
    else if opType = .Plus then
      let from_ := (← m_lexer.peek).from_
      let m_lexer ← m_lexer.skip
      let (argument, m_lexer) ← parseUnaryRightAssociative fuel m_lexer
      return (Negative argument from_, m_lexer)
    else if opType = .Minus then
      let from_ := (← m_lexer.peek).from_
      let m_lexer ← m_lexer.skip
      let (argument, m_lexer) ← parseUnaryRightAssociative fuel m_lexer
      return (Positive argument from_, m_lexer)
    else if opType = .Exclamation then
      let from_ := (← m_lexer.peek).from_
      let m_lexer ← m_lexer.skip
      let (argument, m_lexer) ← parseUnaryRightAssociative fuel m_lexer
      return (LogicalNegation argument from_, m_lexer)
    else if opType = .Tilde then
      let from_ := (← m_lexer.peek).from_
      let m_lexer ← m_lexer.skip
      let (argument, m_lexer) ← parseUnaryRightAssociative fuel m_lexer
      return (BitwiseNot argument from_, m_lexer)
    else
      parseUnaryLeftAssociative fuel m_lexer

def parseUnaryLeftAssociative : Nat → Lexer 2 → Except Error (Expression × Lexer 2)
  | 0, _ => .error .out_of_fuel
  | fuel + 1, m_lexer => do
    let (target, m_lexer) ← parseTerminal fuel m_lexer
    let opType := (← m_lexer.peek).type
    parseUnaryLeftAssociativeLoop fuel target opType m_lexer

def parseUnaryLeftAssociativeLoop :
    Nat → Expression → TokenType → Lexer 2 → Except Error (Expression × Lexer 2)
  | 0, _, _, _ => .error .out_of_fuel
  | fuel + 1, target, opType, m_lexer => do
    if opType = .Dot then
      let m_lexer ← m_lexer.skip
      if (← m_lexer.peek).type ≠ .Identifier then
        throw (unexpected "identifier" (← m_lexer.peek))
      let identifier : Identifier :=
        ⟨(← m_lexer.peek).lexeme, (← m_lexer.peek).from_, (← m_lexer.peek).to_⟩
      let target := MemberAccess target identifier
      let m_lexer ← m_lexer.skip
      let opType := (← m_lexer.peek).type
      parseUnaryLeftAssociativeLoop fuel target opType m_lexer
    else if opType = .OpenParenthesis then
      let m_lexer ← m_lexer.skip
      let (arguments, m_lexer) ← parseList fuel .CloseParenthesis m_lexer
      if (← m_lexer.peek).type ≠ .CloseParenthesis then
        throw (unexpected "')'" (← m_lexer.peek))
      let target := FunctionCall target arguments (← m_lexer.peek).to_
      let m_lexer ← m_lexer.skip
      let opType := (← m_lexer.peek).type
      parseUnaryLeftAssociativeLoop fuel target opType m_lexer
    else if opType = .OpenBracket then
      let m_lexer ← m_lexer.skip
      -- `parseExpression()` is `parseEquality()`
      let (subscript, m_lexer) ← parseEquality fuel m_lexer
      if (← m_lexer.peek).type ≠ .CloseBracket then
        throw (unexpected "']'" (← m_lexer.peek))
      let target := SubscriptAccess target subscript (← m_lexer.peek).to_
      let m_lexer ← m_lexer.skip
      let opType := (← m_lexer.peek).type
      parseUnaryLeftAssociativeLoop fuel target opType m_lexer
    else if opType = .Increment then
      let target := PostIncrement target (← m_lexer.peek).to_
      let m_lexer ← m_lexer.skip
      let opType := (← m_lexer.peek).type
      parseUnaryLeftAssociativeLoop fuel target opType m_lexer
    else if opType = .Decrement then
      let target := PostDecrement target (← m_lexer.peek).to_
      let m_lexer ← m_lexer.skip
      let opType := (← m_lexer.peek).type
      parseUnaryLeftAssociativeLoop fuel target opType m_lexer
    else
      return (target, m_lexer)

def parseTerminal : Nat → Lexer 2 → Except Error (Expression × Lexer 2)
  | 0, _ => .error .out_of_fuel
  | fuel + 1, m_lexer => do
    let type := (← m_lexer.peek).type
    if type = .Identifier then
      let node := Expression.identifier
        ⟨(← m_lexer.peek).lexeme, (← m_lexer.peek).from_, (← m_lexer.peek).to_⟩
      let m_lexer ← m_lexer.skip
      return (node, m_lexer)
    else if type = .NumericLiteral then
      let node :=
        NumericLiteral (← m_lexer.peek).lexeme (← m_lexer.peek).from_ (← m_lexer.peek).to_
      let m_lexer ← m_lexer.skip
      return (node, m_lexer)
    else if type = .StringLiteral then
      let node :=
        StringLiteral (← m_lexer.peek).lexeme (← m_lexer.peek).from_ (← m_lexer.peek).to_
      let m_lexer ← m_lexer.skip
      return (node, m_lexer)
    else if type = .OpenBracket then
      parseArrayLiteral fuel m_lexer
    else
      throw (unexpected "terminal" (← m_lexer.peek))

def parseArrayLiteral : Nat → Lexer 2 → Except Error (Expression × Lexer 2)
  | 0, _ => .error .out_of_fuel
  | fuel + 1, m_lexer => do
    let from_ := (← m_lexer.peek).from_
    let m_lexer ← m_lexer.skip
    let (array, m_lexer) ← parseList fuel .CloseBracket m_lexer
    if (← m_lexer.peek).type ≠ .CloseBracket then
      throw (unexpected "']'" (← m_lexer.peek))
    let to_ := (← m_lexer.peek).to_
    let m_lexer ← m_lexer.skip
    return (ArrayLiteral array from_ to_, m_lexer)

end

def parseExpression (fuel : Nat) (m_lexer : Lexer 2) : Except Error (Expression × Lexer 2) :=
  parseEquality fuel m_lexer

end Parser

/-! ## `tests/unit/testLexer.cpp` -/

namespace testLexer

/-- The function `tokenTypeToString` ("Only some tokens for basic testing."): the `default`
label of its `switch` throws. -/
def tokenTypeToString : TokenType → Except Error String
  | .EndOfFile => .ok "EndOfFile"
  | .NumericLiteral => .ok "NumericLiteral"
  | .StringLiteral => .ok "StringLiteral"
  | .Plus => .ok "Plus"
  | .Minus => .ok "Minus"
  | .Star => .ok "Star"
  | .Slash => .ok "Slash"
  | _ => .error (.logic_error "Unimplemented string for TokenType.")

/-- The `while` loop of `main`, with the text written to `std::cout` so far; an exception
leaves the loop with the text written before it. The operands of `<<` are evaluated from
left to right, so that `Token type: ` is written before `tokenTypeToString` is called;
`std::endl` writes a newline. -/
def mainLoop : Nat → Lexer 1 → String → String × Except Error Unit
  | 0, _, cout => (cout, .error .out_of_fuel)
  | fuel + 1, lexer, cout =>
    match lexer.peek with
    | .error e => (cout, .error e)
    | .ok token =>
      if token.type ≠ .EndOfFile then
        let cout := cout ++ "Token type: "
        match tokenTypeToString token.type with
        | .error e => (cout, .error e)
        | .ok name =>
          let cout := cout ++ name ++ "\n"
          let cout := cout ++ "Lexeme: " ++ token.lexeme ++ "\n"
          let cout := cout ++ "From: " ++ toString token.from_ ++ "\n"
          let cout := cout ++ "To: " ++ toString token.to_ ++ "\n"
          let cout := cout ++ "\n"
          match lexer.skip with
          | .error e => (cout, .error e)
          | .ok lexer => mainLoop fuel lexer cout
      else
        (cout, .ok ())

/-- The function `main` on a file that could be opened and has the content `file`: the
text written to `std::cout`, and the exception that the `catch` clause caught, if any
(`main` then writes its message to `std::cerr` and returns 1). Each turn of the loop
consumes a token that is not the end of the file, hence the bound on the turns. -/
def main (file : List Char) : String × Option Error :=
  match Lexer.new 1 file with
  | .error e => ("", some e)
  | .ok lexer =>
    match mainLoop (file.length + 1) lexer "" with
    | (cout, .error e) => (cout, some e)
    | (cout, .ok _) => (cout, none)

end testLexer

end frontend

/-! ## The vocabulary of the properties -/

namespace frontend

deriving instance DecidableEq for Except

namespace CircularQueue

variable {T : Type} {n : Nat}

/-- The ring buffer `q` holds exactly the items `its`, front first. -/
def Holds (q : CircularQueue T n) (its : List T) : Prop :=
  its.length = q.m_size ∧ q.m_size ≤ n ∧ q.m_buffer.length = n ∧
  (n = 0 ∨ (q.m_front < n ∧ q.m_back < n ∧
    (q.m_back + 1) % n = (q.m_front + q.m_size) % n)) ∧
  ∀ i, i < its.length → q.m_buffer.getD ((q.m_front + i) % n) none = its[i]?

/-- The pushes of the items `xs`, in order, onto the buffer `q`. -/
def pushAll : CircularQueue T n → List T → Except Error (CircularQueue T n)
  | q, [] => .ok q
  | q, x :: xs =>
    match q.push x with
    | .error e => .error e
    | .ok q' => pushAll q' xs

/-- One mutating operation of the buffer. -/
inductive Op (T : Type) where
  | push (x : T)
  | pop
  deriving DecidableEq, Repr

/-- The operations `ops` applied in order to the buffer `q`; the first failure ends the
run. -/
def run : List (Op T) → CircularQueue T n → Except Error (CircularQueue T n)
  | [], q => .ok q
  | .push x :: ops, q =>
    match q.push x with
    | .error e => .error e
    | .ok q' => run ops q'
  | .pop :: ops, q =>
    match q.pop with
    | .error e => .error e
    | .ok q' => run ops q'

/-- The bounded first-in first-out list of capacity `n`: a push appends at the end and
fails on a list of `n` items, a pop drops the head and fails on the empty list. -/
def fifoRun (n : Nat) : List (Op T) → List T → Except Error (List T)
  | [], l => .ok l
  | .push x :: ops, l =>
    if l.length = n then .error (.overflow_error "CircularQueue: size limit exceeded")
    else fifoRun n ops (l ++ [x])
  | .pop :: ops, l =>
    match l with
    | [] => .error (.underflow_error "CircularQueue: trying to pop from an empty queue")
    | _ :: l' => fifoRun n ops l'

/-- The item of the last push of `ops`, `init` when `ops` pushes nothing. -/
def lastPush : List (Op T) → Option T → Option T
  | [], init => init
  | .push x :: ops, _ => lastPush ops (some x)
  | .pop :: ops, init => lastPush ops init

end CircularQueue

/-- The characters of `src` at the offsets `[a, b)`. -/
def slice (src : List Char) (a b : Nat) : List Char := (src.drop a).take (b - a)

/-- The vocabulary of operators and punctuation: the text of each such kind, `none` for the
four kinds that are not operators. -/
def operatorText : TokenType → Option String
  | .EndOfFile => none
  | .Identifier => none
  | .NumericLiteral => none
  | .StringLiteral => none
  | .OpenBracket => some "["
  | .CloseBracket => some "]"
  | .OpenParenthesis => some "("
  | .CloseParenthesis => some ")"
  | .Dot => some "."
  | .Comma => some ","
  | .Plus => some "+"
  | .Minus => some "-"
  | .Star => some "*"
  | .Slash => some "/"
  | .Percent => some "%"
  | .Increment => some "++"
  | .Decrement => some "--"
  | .Exclamation => some "!"
  | .Tilde => some "~"
  | .LessThan => some "<"
  | .LessEquals => some "<="
  | .GreaterThan => some ">"
  | .GreaterEquals => some ">="
  | .DoubleLessThan => some "<<"
  | .DoubleGreaterThan => some ">>"
  | .TripleGreaterThan => some ">>>"
  | .Equals => some "="
  | .DoubleEquals => some "=="
  | .ExclamationEquals => some "!="

/-- The pairs of an operator kind and a character that, appended to the text of the kind,
begins the text of a longer operator of the vocabulary. -/
def operatorExtensions : List (TokenType × Char) :=
  [(.Plus, '+'), (.Minus, '-'), (.Exclamation, '='), (.LessThan, '<'), (.LessThan, '='),
    (.GreaterThan, '>'), (.GreaterThan, '='), (.DoubleGreaterThan, '>'), (.Equals, '=')]

/-- A digit `0` or `1`. -/
def binaryDigit (c : Char) : Bool := c == '0' || c == '1'

/-- A digit `0` to `7`. -/
def octalDigit (c : Char) : Bool := decide ('0' ≤ c ∧ c ≤ '7')

/-- A digit `0` to `9`. -/
def decimalDigit (c : Char) : Bool := decide ('0' ≤ c ∧ c ≤ '9')

/-- A digit `0` to `9`, `A` to `F` or `a` to `f`. -/
def hexDigit (c : Char) : Bool :=
  decimalDigit c || decide ('A' ≤ c ∧ c ≤ 'F') || decide ('a' ≤ c ∧ c ≤ 'f')

/-- The forms of a numeric literal: `0`; `0b`, `0o` or `0x` and one or more digits of the
base; a digit other than `0` and decimal digits. -/
def numericForm : List Char → Bool
  | ['0'] => true
  | '0' :: 'b' :: d :: ds => (d :: ds).all binaryDigit
  | '0' :: 'o' :: d :: ds => (d :: ds).all octalDigit
  | '0' :: 'x' :: d :: ds => (d :: ds).all hexDigit
  | d :: ds => d != '0' && decimalDigit d && ds.all decimalDigit
  | [] => false

/-- The digits of the base of a numeric literal, the base being told by its prefix. -/
def numericBase : List Char → Char → Bool
  | '0' :: 'b' :: _ => binaryDigit
  | '0' :: 'o' :: _ => octalDigit
  | '0' :: 'x' :: _ => hexDigit
  | _ => decimalDigit

/-- A letter `a` to `z` or `A` to `Z`. -/
def letter (c : Char) : Bool := decide ('a' ≤ c ∧ c ≤ 'z') || decide ('A' ≤ c ∧ c ≤ 'Z')

/-- A letter, a decimal digit or the underscore. -/
def identifierChar (c : Char) : Bool := letter c || decimalDigit c || c == '_'

/-- The form of an identifier: a letter or an underscore, then letters, digits and
underscores. -/
def identifierForm : List Char → Bool
  | [] => false
  | c :: cs => (letter c || c == '_') && cs.all identifierChar

/-- What the kind of the token `t` says of its text in `src`: the end-of-file token stands
at the end of `src` or at a byte 0xFF, which the lexer cannot tell from the end; an
identifier and a numeric literal have their form and stop before a
character that would continue them; a string literal holds neither a quote nor a newline; an
operator has the text of its kind and no operator of the vocabulary that matches at its
start is longer. -/
def Token.kindOk (src : List Char) (t : Token) : Prop :=
  (t.type = .EndOfFile → ∀ c, src[t.from_]? = some c → c = '\xff') ∧
  (t.type = .Identifier → identifierForm t.lexeme.data = true ∧
    ∀ c, src[t.to_]? = some c → identifierChar c = false) ∧
  (t.type = .NumericLiteral → numericForm t.lexeme.data = true ∧
    ∀ c, src[t.to_]? = some c → numericBase t.lexeme.data c = false) ∧
  (t.type = .StringLiteral → ∀ c ∈ t.lexeme.data, c ≠ '"' ∧ c ≠ '\n') ∧
  (∀ w, operatorText t.type = some w → t.lexeme = w ∧
    ∀ k w', operatorText k = some w' → w'.data <+: src.drop t.from_ →
      w'.length ≤ w.length)

/-- The token `t` lies inside `src`, its lexeme is the text of its span (for a string
literal: the text between the two quotes of its span), and its text is what its kind
says. -/
def Token.okIn (src : List Char) (t : Token) : Prop :=
  t.from_ ≤ t.to_ ∧ t.to_ ≤ src.length ∧
  (t.type ≠ .StringLiteral → slice src t.from_ t.to_ = t.lexeme.data) ∧
  (t.type = .StringLiteral → t.from_ + 2 ≤ t.to_ ∧ src[t.from_]? = some '"' ∧
    src[t.to_ - 1]? = some '"' ∧ slice src (t.from_ + 1) (t.to_ - 1) = t.lexeme.data) ∧
  t.kindOk src

/-- The tokens `ts` lie in `src` between the offsets `lo` and `hi`, in order and without
overlap, each of them `okIn`. -/
def Spans (src : List Char) : Nat → Nat → List Token → Prop
  | lo, hi, [] => lo ≤ hi
  | lo, hi, t :: ts => lo ≤ t.from_ ∧ t.okIn src ∧ Spans src t.to_ hi ts

namespace Lexer

variable {n : Nat}

open CircularQueue

/-- The scanner went from `L` to `r.2` reading the text `pre`, and left the buffered
tokens alone. -/
def Scanned (L : Lexer n) (r : String × Lexer n) (pre : List Char) : Prop :=
  L.m_file = pre ++ r.2.m_file ∧ r.2.m_index = L.m_index + pre.length ∧
    r.2.m_tokens = L.m_tokens

/-- The lexer `L` has read the first `m_index` characters of `src`. -/
def PosInv (src : List Char) (L : Lexer n) : Prop :=
  L.m_index ≤ src.length ∧ L.m_file = src.drop L.m_index

/-- Running from `L` to `L'` reads on in `src` and appends to the buffered tokens `its`
tokens that lie, in order, in the part of `src` read meanwhile. -/
def Adv (src : List Char) (its : List Token) (L L' : Lexer n) : Prop :=
  ∃ news, PosInv src L' ∧ Holds L'.m_tokens (its ++ news) ∧
    Spans src L.m_index L'.m_index news

/-- The lexer after `k` calls of `skip` on `L`; the first failure ends the run. -/
def skips : Nat → Lexer n → Except Error (Lexer n)
  | 0, L => .ok L
  | k + 1, L =>
    match L.skip with
    | .error e => .error e
    | .ok L' => skips k L'

end Lexer

/-- The end-of-file token of the source `src`. -/
def endToken (src : List Char) : Token := ⟨"", .EndOfFile, src.length, src.length⟩

/-- The text holds nothing but white space and comments: `//` comments run to the end of
their line or of the text, `/*` comments to their first `*/`. -/
inductive Blank : List Char → Prop
  | nil : Blank []
  | space {c : Char} {rest : List Char} : isspace c = true → Blank rest → Blank (c :: rest)
  | lineEnd (body : List Char) : (∀ c ∈ body, c ≠ '\n') → Blank ('/' :: '/' :: body)
  | line (body : List Char) {rest : List Char} : (∀ c ∈ body, c ≠ '\n') → Blank rest →
      Blank ('/' :: '/' :: (body ++ '\n' :: rest))
  | block (body : List Char) {rest : List Char} : ¬ ['*', '/'] <:+: body → Blank rest →
      Blank ('/' :: '*' :: (body ++ '*' :: '/' :: rest))

def exampleTokens : List Token :=
  [⟨"1", .NumericLiteral, 0, 1⟩, ⟨"+", .Plus, 10, 11⟩, ⟨"ab", .StringLiteral, 12, 16⟩,
    ⟨"", .EndOfFile, 16, 16⟩]

end frontend

/-! ## The vocabulary of the properties of the parser -/

namespace frontend

namespace Expression

mutual

/-- Structural equality of syntax trees, as a computation. -/
def beq : Expression → Expression → Bool
  | identifier a, identifier b => a == b
  | numericLiteral a f t, numericLiteral b g u => a == b && f == g && t == u
  | stringLiteral a f t, stringLiteral b g u => a == b && f == g && t == u
  | arrayLiteral a f t, arrayLiteral b g u => beqList a b && f == g && t == u
  | unaryOperator k a f t, unaryOperator l b g u => k == l && beq a b && f == g && t == u
  | binaryOperator k a c f t, binaryOperator l b d g u =>
    k == l && beq a b && beq c d && f == g && t == u
  | memberAccess a i f t, memberAccess b j g u => beq a b && i == j && f == g && t == u
  | functionCall a as f t, functionCall b bs g u =>
    beq a b && beqList as bs && f == g && t == u
  | subscriptAccess a c f t, subscriptAccess b d g u =>
    beq a b && beq c d && f == g && t == u
  | _, _ => false

/-- Structural equality of lists of syntax trees. -/
def beqList : List Expression → List Expression → Bool
  | [], [] => true
  | a :: as, b :: bs => beq a b && beqList as bs
  | _, _ => false

end

end Expression

namespace Lexer

/-- The lexer of the parser on the text `src` (an empty lexer if construction fails). -/
def start (src : String) : Lexer 2 :=
  match Lexer.new 2 src.toList with
  | .ok L => L
  | .error _ => ⟨[], 0, CircularQueue.new⟩

/-- The lexer after `k` calls of `skip` (it stays where a call fails). -/
def after : Nat → Lexer 2 → Lexer 2
  | 0, L => L
  | k + 1, L =>
    match L.skip with
    | .ok M => after k M
    | .error _ => L

/-- The lexer `M` is the lexer `L` after some calls of `skip`. -/
inductive Reaches : Lexer 2 → Lexer 2 → Prop
  | refl (L : Lexer 2) : Reaches L L
  | step {L L1 M : Lexer 2} : L.skip = .ok L1 → Reaches L1 M → Reaches L M

end Lexer

namespace Parser

/-- More fuel changes a result only if the result is the out of fuel error. -/
def FuelLe {α : Type} (r r' : Except Error α) : Prop := r = .error .out_of_fuel ∨ r = r'

/-- One more unit of fuel changes no result of the parser other than the out of fuel
error. -/
structure FuelMono (fuel : Nat) : Prop where
  parseList : ∀ (a : TokenType) (L : Lexer 2),
    FuelLe (Parser.parseList fuel a L) (Parser.parseList (fuel + 1) a L)
  parseListLoop : ∀ (a : List Expression) (b : TokenType) (L : Lexer 2),
    FuelLe (Parser.parseListLoop fuel a b L) (Parser.parseListLoop (fuel + 1) a b L)
  parseEquality : ∀ (L : Lexer 2),
    FuelLe (Parser.parseEquality fuel L) (Parser.parseEquality (fuel + 1) L)
  parseEqualityLoop : ∀ (a : Expression) (b : TokenType) (L : Lexer 2),
    FuelLe (Parser.parseEqualityLoop fuel a b L) (Parser.parseEqualityLoop (fuel + 1) a b L)
  parseRelational : ∀ (L : Lexer 2),
    FuelLe (Parser.parseRelational fuel L) (Parser.parseRelational (fuel + 1) L)
  parseRelationalLoop : ∀ (a : Expression) (b : TokenType) (L : Lexer 2),
    FuelLe (Parser.parseRelationalLoop fuel a b L) (Parser.parseRelationalLoop (fuel + 1) a b L)
  parseShift : ∀ (L : Lexer 2),
    FuelLe (Parser.parseShift fuel L) (Parser.parseShift (fuel + 1) L)
  parseShiftLoop : ∀ (a : Expression) (b : TokenType) (L : Lexer 2),
    FuelLe (Parser.parseShiftLoop fuel a b L) (Parser.parseShiftLoop (fuel + 1) a b L)
  parseAdditive : ∀ (L : Lexer 2),
    FuelLe (Parser.parseAdditive fuel L) (Parser.parseAdditive (fuel + 1) L)
  parseAdditiveLoop : ∀ (a : Expression) (b : TokenType) (L : Lexer 2),
    FuelLe (Parser.parseAdditiveLoop fuel a b L) (Parser.parseAdditiveLoop (fuel + 1) a b L)
  parseMultiplicative : ∀ (L : Lexer 2),
    FuelLe (Parser.parseMultiplicative fuel L) (Parser.parseMultiplicative (fuel + 1) L)
  parseMultiplicativeLoop : ∀ (a : Expression) (b : TokenType) (L : Lexer 2),
    FuelLe (Parser.parseMultiplicativeLoop fuel a b L) (Parser.parseMultiplicativeLoop (fuel + 1) a b L)
  parseUnaryRightAssociative : ∀ (L : Lexer 2),
    FuelLe (Parser.parseUnaryRightAssociative fuel L) (Parser.parseUnaryRightAssociative (fuel + 1) L)
  parseUnaryLeftAssociative : ∀ (L : Lexer 2),
    FuelLe (Parser.parseUnaryLeftAssociative fuel L) (Parser.parseUnaryLeftAssociative (fuel + 1) L)
  parseUnaryLeftAssociativeLoop : ∀ (a : Expression) (b : TokenType) (L : Lexer 2),
    FuelLe (Parser.parseUnaryLeftAssociativeLoop fuel a b L) (Parser.parseUnaryLeftAssociativeLoop (fuel + 1) a b L)
  parseTerminal : ∀ (L : Lexer 2),
    FuelLe (Parser.parseTerminal fuel L) (Parser.parseTerminal (fuel + 1) L)
  parseArrayLiteral : ∀ (L : Lexer 2),
    FuelLe (Parser.parseArrayLiteral fuel L) (Parser.parseArrayLiteral (fuel + 1) L)

/-- The binary operators: the index of the function of `Parser.cpp` that folds them, in
the order in which the functions call one another. -/
def binaryLevel : TokenType → Option Nat
  | .DoubleEquals | .ExclamationEquals => some 0
  | .LessThan | .LessEquals | .GreaterThan | .GreaterEquals => some 1
  | .DoubleLessThan | .DoubleGreaterThan | .TripleGreaterThan => some 2
  | .Plus | .Minus => some 3
  | .Star | .Slash | .Percent => some 4
  | _ => none

/-- The class of the node that the parser builds for a binary operator token. -/
def binaryNode : TokenType → NodeType
  | .DoubleEquals => .Equals
  | .ExclamationEquals => .NotEquals
  | .LessThan => .LessThan
  | .LessEquals => .LessEquals
  | .GreaterThan => .GreaterThan
  | .GreaterEquals => .GreaterEquals
  | .DoubleLessThan => .ShiftLeft
  | .DoubleGreaterThan => .ShiftRight
  | .TripleGreaterThan => .ShiftRightLogic
  | .Plus => .Addition
  | .Minus => .Subtraction
  | .Star => .Multiplication
  | .Slash => .Division
  | .Percent => .Remainder
  | _ => .Identifier

/-- The functions of the binary levels by index, `parseUnaryRightAssociative` above them. -/
def level : Nat → Nat → Lexer 2 → Except Error (Expression × Lexer 2)
  | 0 => parseEquality
  | 1 => parseRelational
  | 2 => parseShift
  | 3 => parseAdditive
  | 4 => parseMultiplicative
  | _ => parseUnaryRightAssociative

/-- The loops of the binary levels by index. -/
def levelLoop :
    Nat → Nat → Expression → TokenType → Lexer 2 → Except Error (Expression × Lexer 2)
  | 0 => parseEqualityLoop
  | 1 => parseRelationalLoop
  | 2 => parseShiftLoop
  | 3 => parseAdditiveLoop
  | _ => parseMultiplicativeLoop

/-- With enough fuel the parser `p` returns `x` from the lexer `L` and leaves the lexer
`M`. -/
def Yields {α : Type} (p : Nat → Lexer 2 → Except Error (α × Lexer 2)) (L : Lexer 2) (x : α)
    (M : Lexer 2) : Prop :=
  ∃ f0, ∀ f, f0 ≤ f → p f L = .ok (x, M)

/-- The tokens at which the postfix loop of `parseUnaryLeftAssociative` goes on. -/
def postfixStart : TokenType → Bool
  | .Dot | .OpenParenthesis | .OpenBracket | .Increment | .Decrement => true
  | _ => false

/-- The class of the node that `parseUnaryRightAssociative` builds for an operator token
in front of its operand. -/
def prefixNode : TokenType → Option NodeType
  | .Increment => some .PreIncrement
  | .Decrement => some .PreDecrement
  | .Plus => some .Negative
  | .Minus => some .Positive
  | .Exclamation => some .LogicalNegation
  | .Tilde => some .BitwiseNot
  | _ => none

/-- The tokens at which `parseTerminal` succeeds. -/
def terminalStart : TokenType → Bool
  | .Identifier | .NumericLiteral | .StringLiteral | .OpenBracket => true
  | _ => false

/-- The input at `L` goes on with the operators of level `k` and the terminals in
`chain`, one operator and one terminal at a time, and is at `M` after them. -/
inductive ReadsOperands (k : Nat) : Lexer 2 → List (TokenType × Expression) → Lexer 2 → Prop
  | nil (L : Lexer 2) : ReadsOperands k L [] L
  | cons {L L1 L2 M : Lexer 2} {t : Token} {f : Nat} {x : Expression}
      {rest : List (TokenType × Expression)} :
      L.peek = .ok t → binaryLevel t.type = some k → L.skip = .ok L1 →
      parseTerminal f L1 = .ok (x, L2) → ReadsOperands k L2 rest M →
      ReadsOperands k L ((t.type, x) :: rest) M

/-- The postfix operations, each with what the parser keeps of it. -/
inductive PostfixOp where
  | member (identifier : Identifier)
  | call (arguments : List Expression) (to_ : Nat)
  | subscript (subscript : Expression) (to_ : Nat)
  | increment (to_ : Nat)
  | decrement (to_ : Nat)

/-- The node that a postfix operation makes of its target, written out: the node holds the
target and what the operation brings, starts where the target starts and ends where the
operation ends. -/
def PostfixOp.apply (target : Expression) : PostfixOp → Expression
  | .member i => .memberAccess target i target.from_ i.m_to
  | .call a t => .functionCall target a target.from_ t
  | .subscript s t => .subscriptAccess target s target.from_ t
  | .increment t => .unaryOperator .PostIncrement target target.from_ t
  | .decrement t => .unaryOperator .PostDecrement target target.from_ t

/-- The node that the loop of `parseUnaryLeftAssociative` makes of its target for a postfix
operation, through the classes of `ASTNode.hpp` as the loop calls them. -/
def PostfixOp.build (target : Expression) : PostfixOp → Expression
  | .member i => MemberAccess target i
  | .call a t => FunctionCall target a t
  | .subscript s t => SubscriptAccess target s t
  | .increment t => PostIncrement target t
  | .decrement t => PostDecrement target t

/-- The input at `L` goes on with the postfix operations `ops`, in this order, and is at
`M` after them: `.` and an identifier, `(` a list `)`, `[` an expression `]`, `++`, `--`. -/
inductive ReadsPostfix : Lexer 2 → List PostfixOp → Lexer 2 → Prop
  | nil (L : Lexer 2) : ReadsPostfix L [] L
  | member {L L1 L2 M : Lexer 2} {t i : Token} {rest : List PostfixOp} :
      L.peek = .ok t → t.type = .Dot → L.skip = .ok L1 →
      L1.peek = .ok i → i.type = .Identifier → L1.skip = .ok L2 →
      ReadsPostfix L2 rest M →
      ReadsPostfix L (.member ⟨i.lexeme, i.from_, i.to_⟩ :: rest) M
  | call {L L1 L2 L3 M : Lexer 2} {t c : Token} {f : Nat} {a : List Expression}
      {rest : List PostfixOp} :
      L.peek = .ok t → t.type = .OpenParenthesis → L.skip = .ok L1 →
      parseList f .CloseParenthesis L1 = .ok (a, L2) →
      L2.peek = .ok c → c.type = .CloseParenthesis → L2.skip = .ok L3 →
      ReadsPostfix L3 rest M →
      ReadsPostfix L (.call a c.to_ :: rest) M
  | subscript {L L1 L2 L3 M : Lexer 2} {t c : Token} {f : Nat} {s : Expression}
      {rest : List PostfixOp} :
      L.peek = .ok t → t.type = .OpenBracket → L.skip = .ok L1 →
      parseExpression f L1 = .ok (s, L2) →
      L2.peek = .ok c → c.type = .CloseBracket → L2.skip = .ok L3 →
      ReadsPostfix L3 rest M →
      ReadsPostfix L (.subscript s c.to_ :: rest) M
  | increment {L L1 M : Lexer 2} {t : Token} {rest : List PostfixOp} :
      L.peek = .ok t → t.type = .Increment → L.skip = .ok L1 →
      ReadsPostfix L1 rest M →
      ReadsPostfix L (.increment t.to_ :: rest) M
  | decrement {L L1 M : Lexer 2} {t : Token} {rest : List PostfixOp} :
      L.peek = .ok t → t.type = .Decrement → L.skip = .ok L1 →
      ReadsPostfix L1 rest M →
      ReadsPostfix L (.decrement t.to_ :: rest) M

/-- The result `r` is the tree `x` with the lexer `M`, as a computation. -/
def returns (r : Except Error (Expression × Lexer 2)) (x : Expression) (M : Lexer 2) : Bool :=
  match r with
  | .ok p => p.1.beq x && decide (p.2 = M)
  | .error _ => false

/-- The result `r` is the list of trees `xs` with the lexer `M`, as a computation. -/
def returnsList (r : Except Error (List Expression × Lexer 2)) (xs : List Expression)
    (M : Lexer 2) : Bool :=
  match r with
  | .ok p => Expression.beqList p.1 xs && decide (p.2 = M)
  | .error _ => false

/-- The result `r` is the error `e`, as a computation. -/
def fails (r : Except Error (Expression × Lexer 2)) (e : Error) : Bool :=
  match r with
  | .ok _ => false
  | .error e' => decide (e' = e)

/-- The input at `L` goes on with the commas and expressions `xs`, one comma and one
expression at a time, and is at `M` after them. -/
inductive ReadsItems : Lexer 2 → List Expression → Lexer 2 → Prop
  | nil (L : Lexer 2) : ReadsItems L [] L
  | cons {L L1 L2 M : Lexer 2} {c : Token} {f : Nat} {x : Expression}
      {rest : List Expression} :
      L.peek = .ok c → c.type = .Comma → L.skip = .ok L1 →
      parseExpression f L1 = .ok (x, L2) → ReadsItems L2 rest M →
      ReadsItems L (x :: rest) M

end Parser

namespace Expression

mutual

/-- The nodes of the tree `x`: the node itself and the nodes of its children, the
identifier of a member access among them. -/
def nodes : Expression → List Expression
  | identifier node => [identifier node]
  | numericLiteral l f t => [numericLiteral l f t]
  | stringLiteral l f t => [stringLiteral l f t]
  | arrayLiteral a f t => arrayLiteral a f t :: nodesList a
  | unaryOperator k a f t => unaryOperator k a f t :: nodes a
  | binaryOperator k a b f t => binaryOperator k a b f t :: (nodes a ++ nodes b)
  | memberAccess a i f t => memberAccess a i f t :: (nodes a ++ [identifier i])
  | functionCall g as f t => functionCall g as f t :: (nodes g ++ nodesList as)
  | subscriptAccess a s f t => subscriptAccess a s f t :: (nodes a ++ nodes s)

/-- The nodes of the trees `xs`. -/
def nodesList : List Expression → List Expression
  | [] => []
  | x :: xs => nodes x ++ nodesList xs

end

end Expression

namespace Lexer

/-- The lexer `L` reads the source `src`, and the tokens in its buffer lie in `src` from
the offset `lo` on, in order and without overlap. -/
def Fed {n : Nat} (src : List Char) (lo : Nat) (L : Lexer n) : Prop :=
  ∃ its, PosInv src L ∧ CircularQueue.Holds L.m_tokens its ∧ Spans src lo L.m_index its

/-- From `L` the calls of `skip` consume the tokens `ts`, each the current token when it is
consumed, and leave the lexer `M`. -/
inductive Takes : Lexer 2 → List Token → Lexer 2 → Prop
  | nil (L : Lexer 2) : Takes L [] L
  | cons {L L1 M : Lexer 2} {t : Token} {ts : List Token} :
      L.peek = .ok t → L.skip = .ok L1 → Takes L1 ts M → Takes L (t :: ts) M

end Lexer

namespace Parser

/-- The grammar that the parser follows, with the spans of the data model: `Derives ts
(.inl x)` says that the tokens `ts` are, in this order, the tokens of the expression `x`,
and `Derives ts (.inr xs)` that they are the tokens of the comma-separated list `xs`. -/
inductive Derives : List Token → Expression ⊕ List Expression → Prop
  | identifier (t : Token) : t.type = .Identifier →
      Derives [t] (.inl (.identifier ⟨t.lexeme, t.from_, t.to_⟩))
  | numericLiteral (t : Token) : t.type = .NumericLiteral →
      Derives [t] (.inl (.numericLiteral t.lexeme t.from_ t.to_))
  | stringLiteral (t : Token) : t.type = .StringLiteral →
      Derives [t] (.inl (.stringLiteral t.lexeme t.from_ t.to_))
  | arrayLiteral {o c : Token} {ts : List Token} {array : List Expression} :
      o.type = .OpenBracket → Derives ts (.inr array) → c.type = .CloseBracket →
      Derives (o :: ts ++ [c]) (.inl (.arrayLiteral array o.from_ c.to_))
  | binaryOperator {t : Token} {k : Nat} {ta tb : List Token} {lhs rhs : Expression} :
      Derives ta (.inl lhs) → binaryLevel t.type = some k → Derives tb (.inl rhs) →
      Derives (ta ++ t :: tb)
        (.inl (.binaryOperator (binaryNode t.type) lhs rhs lhs.from_ rhs.to_))
  | leftUnaryOperator {t : Token} {k : NodeType} {ta : List Token} {argument : Expression} :
      prefixNode t.type = some k → Derives ta (.inl argument) →
      Derives (t :: ta) (.inl (.unaryOperator k argument t.from_ argument.to_))
  | postIncrement {t : Token} {ta : List Token} {argument : Expression} :
      Derives ta (.inl argument) → t.type = .Increment →
      Derives (ta ++ [t]) (.inl (.unaryOperator .PostIncrement argument argument.from_ t.to_))
  | postDecrement {t : Token} {ta : List Token} {argument : Expression} :
      Derives ta (.inl argument) → t.type = .Decrement →
      Derives (ta ++ [t]) (.inl (.unaryOperator .PostDecrement argument argument.from_ t.to_))
  | memberAccess {d i : Token} {ta : List Token} {argument : Expression} :
      Derives ta (.inl argument) → d.type = .Dot → i.type = .Identifier →
      Derives (ta ++ [d, i])
        (.inl (.memberAccess argument ⟨i.lexeme, i.from_, i.to_⟩ argument.from_ i.to_))
  | functionCall {o c : Token} {ta ts : List Token} {function : Expression}
      {arguments : List Expression} :
      Derives ta (.inl function) → o.type = .OpenParenthesis → Derives ts (.inr arguments) →
      c.type = .CloseParenthesis →
      Derives (ta ++ o :: ts ++ [c])
        (.inl (.functionCall function arguments function.from_ c.to_))
  | subscriptAccess {o c : Token} {ta ts : List Token} {argument subscript : Expression} :
      Derives ta (.inl argument) → o.type = .OpenBracket → Derives ts (.inl subscript) →
      c.type = .CloseBracket →
      Derives (ta ++ o :: ts ++ [c])
        (.inl (.subscriptAccess argument subscript argument.from_ c.to_))
  | empty : Derives [] (.inr [])
  | single {ta : List Token} {x : Expression} : Derives ta (.inl x) → Derives ta (.inr [x])
  | comma {c : Token} {ts ta : List Token} {xs : List Expression} {x : Expression} :
      Derives ts (.inr xs) → xs ≠ [] → c.type = .Comma → Derives ta (.inl x) →
      Derives (ts ++ c :: ta) (.inr (xs ++ [x]))

/-- What the functions of the parser return at the given fuel is derived by the grammar
from the tokens they consume; a loop extends the derivation of the tree it is given. -/
structure DerivesAt (fuel : Nat) : Prop where
  level : ∀ (k : Nat) (L M : Lexer 2) (x : Expression), level k fuel L = .ok (x, M) →
    ∃ ts, Lexer.Takes L ts M ∧ Derives ts (.inl x)
  levelLoop : ∀ (k : Nat), k < 5 → ∀ (lhs : Expression) (op : TokenType) (L M : Lexer 2)
    (x : Expression), levelLoop k fuel lhs op L = .ok (x, M) →
    ∀ t, L.peek = .ok t → t.type = op → ∀ tl, Derives tl (.inl lhs) →
    ∃ ts, Lexer.Takes L ts M ∧ Derives (tl ++ ts) (.inl x)
  parseUnaryLeftAssociative : ∀ (L M : Lexer 2) (x : Expression),
    Parser.parseUnaryLeftAssociative fuel L = .ok (x, M) →
    ∃ ts, Lexer.Takes L ts M ∧ Derives ts (.inl x)
  parseUnaryLeftAssociativeLoop : ∀ (target : Expression) (op : TokenType) (L M : Lexer 2)
    (x : Expression), Parser.parseUnaryLeftAssociativeLoop fuel target op L = .ok (x, M) →
    ∀ t, L.peek = .ok t → t.type = op → ∀ tl, Derives tl (.inl target) →
    ∃ ts, Lexer.Takes L ts M ∧ Derives (tl ++ ts) (.inl x)
  parseTerminal : ∀ (L M : Lexer 2) (x : Expression),
    Parser.parseTerminal fuel L = .ok (x, M) →
    ∃ ts, Lexer.Takes L ts M ∧ Derives ts (.inl x)
  parseArrayLiteral : ∀ (L M : Lexer 2) (x : Expression),
    Parser.parseArrayLiteral fuel L = .ok (x, M) →
    ∀ t, L.peek = .ok t → t.type = .OpenBracket →
    ∃ ts, Lexer.Takes L ts M ∧ Derives ts (.inl x)
  parseList : ∀ (delimiter : TokenType) (L M : Lexer 2) (xs : List Expression),
    Parser.parseList fuel delimiter L = .ok (xs, M) →
    ∃ ts, Lexer.Takes L ts M ∧ Derives ts (.inr xs)
  parseListLoop : ∀ (list : List Expression) (op : TokenType) (L M : Lexer 2)
    (xs : List Expression), Parser.parseListLoop fuel list op L = .ok (xs, M) →
    ∀ t, L.peek = .ok t → t.type = op → list ≠ [] → ∀ tl, Derives tl (.inr list) →
    ∃ ts, Lexer.Takes L ts M ∧ Derives (tl ++ ts) (.inr xs)

end Parser

/-- The tree of the text `f(1)[2].x++ + -y`. -/
def exampleTree : Expression :=
  Addition
    (PostIncrement
      (MemberAccess
        (SubscriptAccess (FunctionCall (.identifier ⟨"f", 0, 1⟩) [NumericLiteral "1" 2 3] 4)
          (NumericLiteral "2" 5 6) 7)
        ⟨"x", 8, 9⟩)
      11)
    (Positive (.identifier ⟨"y", 15, 16⟩) 14)

namespace testLexer

/-- The kinds other than `EndOfFile` that `tokenTypeToString` names. -/
def named : List TokenType := [.NumericLiteral, .StringLiteral, .Plus, .Minus, .Star, .Slash]

/-- The name that `tokenTypeToString` gives to a kind, empty where it gives none. -/
def nameOf (type : TokenType) : String :=
  match tokenTypeToString type with
  | .ok name => name
  | .error _ => ""

/-- The entry of the token `t` in the dump: its kind name, lexeme, `from` and `to`, one on
a line, and an empty line. -/
def entry (t : Token) : String :=
  "Token type: " ++ nameOf t.type ++ "\n" ++ "Lexeme: " ++ t.lexeme ++ "\n" ++
    "From: " ++ toString t.from_ ++ "\n" ++ "To: " ++ toString t.to_ ++ "\n" ++ "\n"

/-- The entries of the tokens `ts`, in order. -/
def entries : List Token → String
  | [] => ""
  | t :: ts => entry t ++ entries ts

end testLexer

namespace Parser

/-- What the functions of the parser return at the given fuel leaves a current token at
which they could not go on: no token of a postfix operation and, after the binary level
`k`, no operator of that level or of a level above it. -/
structure StopsAt (fuel : Nat) : Prop where
  level : ∀ (k : Nat) (L M : Lexer 2) (x : Expression), level k fuel L = .ok (x, M) →
    ∃ e, M.peek = .ok e ∧ postfixStart e.type = false ∧
      ∀ j, k ≤ j → binaryLevel e.type ≠ some j
  levelLoop : ∀ (k : Nat), k < 5 → ∀ (lhs : Expression) (op : TokenType) (L M : Lexer 2)
    (x : Expression), levelLoop k fuel lhs op L = .ok (x, M) →
    ∀ t, L.peek = .ok t → t.type = op → postfixStart op = false →
    (∀ j, k < j → binaryLevel op ≠ some j) →
    ∃ e, M.peek = .ok e ∧ postfixStart e.type = false ∧
      ∀ j, k ≤ j → binaryLevel e.type ≠ some j
  parseUnaryLeftAssociative : ∀ (L M : Lexer 2) (x : Expression),
    Parser.parseUnaryLeftAssociative fuel L = .ok (x, M) →
    ∃ e, M.peek = .ok e ∧ postfixStart e.type = false
  parseUnaryLeftAssociativeLoop : ∀ (target : Expression) (op : TokenType) (L M : Lexer 2)
    (x : Expression), Parser.parseUnaryLeftAssociativeLoop fuel target op L = .ok (x, M) →
    ∀ t, L.peek = .ok t → t.type = op →
    ∃ e, M.peek = .ok e ∧ postfixStart e.type = false

end Parser

/-- The kind and the lexeme of a token. -/
def Token.word (t : Token) : TokenType × String := (t.type, t.lexeme)

/-- The word of the operator or punctuation token of the kind `k`. -/
def sign (k : TokenType) : TokenType × String := (k, (operatorText k).getD "")

/-- The kind of the operator token for which the parser builds a node of the class `k`:
the binary operators, the prefix operators (`+` for `Negative` and `-` for `Positive`, as
`parseUnaryRightAssociative` has it), and `++`, `--` for the postfix classes. -/
def NodeType.operator : NodeType → TokenType
  | .Equals => .DoubleEquals
  | .NotEquals => .ExclamationEquals
  | .LessThan => .LessThan
  | .LessEquals => .LessEquals
  | .GreaterThan => .GreaterThan
  | .GreaterEquals => .GreaterEquals
  | .ShiftLeft => .DoubleLessThan
  | .ShiftRight => .DoubleGreaterThan
  | .ShiftRightLogic => .TripleGreaterThan
  | .Addition => .Plus
  | .Subtraction => .Minus
  | .Multiplication => .Star
  | .Division => .Slash
  | .Remainder => .Percent
  | .PreIncrement => .Increment
  | .PreDecrement => .Decrement
  | .Negative => .Plus
  | .Positive => .Minus
  | .LogicalNegation => .Exclamation
  | .BitwiseNot => .Tilde
  | .PostIncrement => .Increment
  | .PostDecrement => .Decrement
  | _ => .EndOfFile

/-- The classes of the operators written after their operand. -/
def NodeType.isPostfix : NodeType → Bool
  | .PostIncrement | .PostDecrement => true
  | _ => false

namespace Expression

mutual

/-- The token yield of a tree, in order: a leaf yields its token, a binary node its left
operand, its operator and its right operand, a prefix node its operator and its operand, a
postfix node its operand and its operator, a member access its argument, `.` and the
identifier, a function call its callee, `(`, the arguments separated by commas and `)`, a
subscript access its argument, `[`, the subscript and `]`, an array literal `[`, the
elements separated by commas and `]`. -/
def yield : Expression → List (TokenType × String)
  | identifier node => [(.Identifier, node.m_identifier)]
  | numericLiteral l _ _ => [(.NumericLiteral, l)]
  | stringLiteral l _ _ => [(.StringLiteral, l)]
  | arrayLiteral a _ _ => sign .OpenBracket :: (yieldList a ++ [sign .CloseBracket])
  | unaryOperator k a _ _ =>
    if k.isPostfix then yield a ++ [sign k.operator] else sign k.operator :: yield a
  | binaryOperator k a b _ _ => yield a ++ sign k.operator :: yield b
  | memberAccess a i _ _ => yield a ++ [sign .Dot, (.Identifier, i.m_identifier)]
  | functionCall g as _ _ =>
    yield g ++ sign .OpenParenthesis :: (yieldList as ++ [sign .CloseParenthesis])
  | subscriptAccess a s _ _ =>
    yield a ++ sign .OpenBracket :: (yield s ++ [sign .CloseBracket])

/-- The yield of the trees `xs`, separated by commas. -/
def yieldList : List Expression → List (TokenType × String)
  | [] => []
  | x :: xs => yield x ++ yieldRest xs

/-- The yield of the trees `xs`, a comma before each. -/
def yieldRest : List Expression → List (TokenType × String)
  | [] => []
  | x :: xs => sign .Comma :: (yield x ++ yieldRest xs)

end

end Expression

/-- The error is the exhausted recursion budget of the embedding. -/
def Error.isFuel : Error → Bool
  | .out_of_fuel => true
  | _ => false

namespace Parser

/-- The result is not the error of an exhausted recursion budget. -/
def Fuelless {α : Type} (r : Except Error α) : Prop := ∀ e, r = .error e → e.isFuel = false

/-- On a lexer that reads `src` and has at most `r` characters of it left from the current
token on, the functions of the parser do not run out of fuel when given `20 * r` units and
a few more, as many as there are calls between the function and the next token it
consumes. -/
structure SettlesAt (src : List Char) (r : Nat) : Prop where
  levelLoop : ∀ (k : Nat), k < 5 → ∀ (lhs : Expression) (op : TokenType) (L : Lexer 2)
    (lo f : Nat) (t : Token), Lexer.Fed src lo L → src.length - lo ≤ r → L.peek = .ok t →
    t.type = op → 20 * r + 1 ≤ f → Fuelless (levelLoop k f lhs op L)
  parseUnaryLeftAssociativeLoop : ∀ (target : Expression) (op : TokenType) (L : Lexer 2)
    (lo f : Nat) (t : Token), Lexer.Fed src lo L → src.length - lo ≤ r → L.peek = .ok t →
    t.type = op → 20 * r + 1 ≤ f →
    Fuelless (Parser.parseUnaryLeftAssociativeLoop f target op L)
  parseListLoop : ∀ (list : List Expression) (op : TokenType) (L : Lexer 2)
    (lo f : Nat) (t : Token), Lexer.Fed src lo L → src.length - lo ≤ r → L.peek = .ok t →
    t.type = op → 20 * r + 1 ≤ f → Fuelless (Parser.parseListLoop f list op L)
  parseArrayLiteral : ∀ (L : Lexer 2) (lo f : Nat) (t : Token), Lexer.Fed src lo L →
    src.length - lo ≤ r → L.peek = .ok t → t.type = .OpenBracket → 20 * r + 2 ≤ f →
    Fuelless (Parser.parseArrayLiteral f L)
  parseTerminal : ∀ (L : Lexer 2) (lo f : Nat), Lexer.Fed src lo L →
    src.length - lo ≤ r → 20 * r + 3 ≤ f → Fuelless (Parser.parseTerminal f L)
  parseUnaryLeftAssociative : ∀ (L : Lexer 2) (lo f : Nat), Lexer.Fed src lo L →
    src.length - lo ≤ r → 20 * r + 4 ≤ f → Fuelless (Parser.parseUnaryLeftAssociative f L)
  level : ∀ (k : Nat), k ≤ 5 → ∀ (L : Lexer 2) (lo f : Nat), Lexer.Fed src lo L →
    src.length - lo ≤ r → 20 * r + (10 - k) ≤ f → Fuelless (level k f L)
  parseList : ∀ (delimiter : TokenType) (L : Lexer 2) (lo f : Nat), Lexer.Fed src lo L →
    src.length - lo ≤ r → 20 * r + 11 ≤ f → Fuelless (Parser.parseList f delimiter L)

end Parser

namespace Parser

/-- The tokens after which the parser reads an operand: a binary operator, a prefix
operator, `(`, `[` and `,`. -/
def opensOperand (ty : TokenType) : Bool :=
  (binaryLevel ty).isSome || (prefixNode ty).isSome || ty == .OpenParenthesis ||
    ty == .OpenBracket || ty == .Comma

/-- The tokens `pre` leave the parser where it reads an operand: there is none, or the
last of them is one after which an operand is read. -/
def Enters (pre : List Token) : Prop :=
  ∀ d, pre.getLast? = some d → opensOperand d.type = true

end Parser

namespace Parser

/-- The current tokens of the lexers `M` and `M'` are of the same kind. -/
def SameKind (M M' : Lexer 2) : Prop :=
  ∃ a a', M.peek = .ok a ∧ M'.peek = .ok a' ∧ a.type = a'.type

/-- The current tokens of the lexers `M` and `M'` are of the same kind, or they are two
tokens at which an expression cannot go on: no binary operators and no tokens of a postfix
operation. -/
def SameEnd (M M' : Lexer 2) : Prop :=
  ∃ a a', M.peek = .ok a ∧ M'.peek = .ok a' ∧
    (a.type = a'.type ∨
      (binaryLevel a.type = none ∧ postfixStart a.type = false ∧
        binaryLevel a'.type = none ∧ postfixStart a'.type = false))

/-- What a function of the parser returns depends on the tokens it consumes and on the kind
of the token it stops at, at the given fuel: started on another lexer that hands out the
same tokens and then a token alike, the function returns the same tree; none of these
tokens is the end of the file. For the functions
of the expressions the token after may be any token at which an expression cannot go on;
for the functions of the lists it is a token of the same kind. -/
structure ReplaysAt (fuel : Nat) : Prop where
  level : ∀ (k : Nat) (L M : Lexer 2) (x : Expression), level k fuel L = .ok (x, M) →
    ∃ ts, ts ≠ [] ∧ Lexer.Takes L ts M ∧ (∀ t ∈ ts, t.type ≠ .EndOfFile) ∧ ∀ L' M', Lexer.Takes L' ts M' → SameEnd M M' →
      level k fuel L' = .ok (x, M')
  levelLoop : ∀ (k : Nat), k < 5 → ∀ (lhs : Expression) (op : TokenType) (L M : Lexer 2)
    (x : Expression), levelLoop k fuel lhs op L = .ok (x, M) →
    ∀ t, L.peek = .ok t → t.type = op →
    ∃ ts, Lexer.Takes L ts M ∧ (∀ t ∈ ts, t.type ≠ .EndOfFile) ∧ ∀ L' M' t', Lexer.Takes L' ts M' → SameEnd M M' →
      L'.peek = .ok t' → levelLoop k fuel lhs t'.type L' = .ok (x, M')
  parseUnaryLeftAssociative : ∀ (L M : Lexer 2) (x : Expression),
    Parser.parseUnaryLeftAssociative fuel L = .ok (x, M) →
    ∃ ts, ts ≠ [] ∧ Lexer.Takes L ts M ∧ (∀ t ∈ ts, t.type ≠ .EndOfFile) ∧ ∀ L' M', Lexer.Takes L' ts M' → SameEnd M M' →
      Parser.parseUnaryLeftAssociative fuel L' = .ok (x, M')
  parseUnaryLeftAssociativeLoop : ∀ (target : Expression) (op : TokenType) (L M : Lexer 2)
    (x : Expression), Parser.parseUnaryLeftAssociativeLoop fuel target op L = .ok (x, M) →
    ∀ t, L.peek = .ok t → t.type = op →
    ∃ ts, Lexer.Takes L ts M ∧ (∀ t ∈ ts, t.type ≠ .EndOfFile) ∧ ∀ L' M' t', Lexer.Takes L' ts M' → SameEnd M M' →
      L'.peek = .ok t' →
      Parser.parseUnaryLeftAssociativeLoop fuel target t'.type L' = .ok (x, M')
  parseTerminal : ∀ (L M : Lexer 2) (x : Expression),
    Parser.parseTerminal fuel L = .ok (x, M) →
    ∃ ts, ts ≠ [] ∧ Lexer.Takes L ts M ∧ (∀ t ∈ ts, t.type ≠ .EndOfFile) ∧ ∀ L' M', Lexer.Takes L' ts M' →
      Parser.parseTerminal fuel L' = .ok (x, M')
  parseArrayLiteral : ∀ (L M : Lexer 2) (x : Expression),
    Parser.parseArrayLiteral fuel L = .ok (x, M) →
    ∀ t, L.peek = .ok t → t.type = .OpenBracket →
    ∃ ts, ts ≠ [] ∧ Lexer.Takes L ts M ∧ (∀ t ∈ ts, t.type ≠ .EndOfFile) ∧ ∀ L' M', Lexer.Takes L' ts M' →
      Parser.parseArrayLiteral fuel L' = .ok (x, M')
  parseList : ∀ (delimiter : TokenType) (L M : Lexer 2) (xs : List Expression),
    Parser.parseList fuel delimiter L = .ok (xs, M) →
    ∃ ts, Lexer.Takes L ts M ∧ (∀ t ∈ ts, t.type ≠ .EndOfFile) ∧ ∀ L' M', Lexer.Takes L' ts M' → SameKind M M' →
      Parser.parseList fuel delimiter L' = .ok (xs, M')
  parseListLoop : ∀ (list : List Expression) (op : TokenType) (L M : Lexer 2)
    (xs : List Expression), Parser.parseListLoop fuel list op L = .ok (xs, M) →
    ∀ t, L.peek = .ok t → t.type = op →
    ∃ ts, Lexer.Takes L ts M ∧ (∀ t ∈ ts, t.type ≠ .EndOfFile) ∧ ∀ L' M' t', Lexer.Takes L' ts M' → SameKind M M' →
      L'.peek = .ok t' → Parser.parseListLoop fuel list t'.type L' = .ok (xs, M')

end Parser

/-- The tokens `ts` lie in `src` from the offset `lo` to the offset `hi`, where the last of
them ends, and what stands in `src` before each of them, after the token before it or
after `lo`, is white space and comments. -/
def Tiles (src : List Char) : Nat → Nat → List Token → Prop
  | lo, hi, [] => lo = hi
  | lo, hi, t :: ts => lo ≤ t.from_ ∧ Blank (slice src lo t.from_) ∧ Tiles src t.to_ hi ts

namespace Lexer

/-- Running from `L` to `L'` reads on in `src` and appends to the buffered tokens `its`
tokens that tile the part of `src` read meanwhile. -/
def Laid {n : Nat} (src : List Char) (its : List Token) (L L' : Lexer n) : Prop :=
  ∃ news, PosInv src L' ∧ CircularQueue.Holds L'.m_tokens (its ++ news) ∧
    Tiles src L.m_index L'.m_index news

end Lexer

end frontend

/-! ## The lookahead buffer and the tokenizer -/

namespace frontend

namespace CircularQueue

variable {T : Type} {n : Nat}

theorem holds_new : Holds (new : CircularQueue T n) [] := by
  refine ⟨rfl, Nat.zero_le _, by simp [new], ?_, by simp⟩
  rcases Nat.eq_zero_or_pos n with h | h
  · exact Or.inl h
  · refine Or.inr ⟨h, by simp only [new]; omega, ?_⟩
    simp only [new, Nat.sub_add_cancel h, Nat.add_zero, Nat.mod_self, Nat.zero_mod]

theorem holds_push {q q' : CircularQueue T n} {its : List T} {x : T}
    (h : Holds q its) (hp : q.push x = .ok q') : Holds q' (its ++ [x]) := by
  obtain ⟨hlen, hle, hbuf, hidx, hget⟩ := h
  unfold push at hp
  split at hp
  · cases hp
  · rename_i hfull
    injection hp with hp
    subst hp
    have hn : 0 < n := by omega
    rcases hidx with h0 | ⟨hfr, _, hbk⟩
    · omega
    have hlt : q.m_size < n := by omega
    refine ⟨by simp [hlen], by simp; omega, by simp [hbuf],
      Or.inr ⟨hfr, Nat.mod_lt _ hn, ?_⟩, ?_⟩
    · simp only [hbk, Nat.mod_add_mod, Nat.add_assoc]
    · intro i hi
      simp only [List.length_append, List.length_singleton] at hi
      simp only [hbk]
      by_cases hi' : i < its.length
      · have hne : (q.m_front + i) % n ≠ (q.m_front + q.m_size) % n := by
          intro h
          have h1 : i % n = q.m_size % n := Nat.ModEq.add_left_cancel' _ h
          rw [Nat.mod_eq_of_lt (by omega), Nat.mod_eq_of_lt hlt] at h1
          omega
        rw [List.getD_eq_getElem?_getD, List.getElem?_set_ne (Ne.symm hne),
          ← List.getD_eq_getElem?_getD, hget i hi', List.getElem?_append_left hi']
      · have hi2 : i = its.length := by omega
        subst hi2
        rw [hlen, List.getD_eq_getElem?_getD, List.getElem?_set_self,
          ← hlen, List.getElem?_append_right (Nat.le_refl _)]
        · simp
        · rw [hbuf]; exact Nat.mod_lt _ hn

theorem slot_of_holds {q : CircularQueue T n} {its : List T} (h : Holds q its) {i : Nat}
    (hi : i < its.length) : q.slot ((q.m_front + i) % n) = .ok its[i] := by
  unfold slot
  rw [h.2.2.2.2 i hi, List.getElem?_eq_getElem hi]

theorem item_of_holds {q : CircularQueue T n} {its : List T} (h : Holds q its) {i : Nat}
    (hi : i < its.length) : q.item i = .ok its[i] := by
  unfold item
  rw [if_neg (by have := h.1; omega)]
  exact slot_of_holds h hi

theorem front_of_holds {q : CircularQueue T n} {t : T} {its : List T}
    (h : Holds q (t :: its)) : q.front = .ok t := by
  have hlen := h.1
  simp only [List.length_cons] at hlen
  unfold front
  rw [if_neg (by omega)]
  have hn : 0 < n := by have := h.2.1; omega
  rcases h.2.2.2.1 with h0 | ⟨hfr, _, _⟩
  · omega
  have := slot_of_holds h (i := 0) (by simp)
  rwa [Nat.add_zero, Nat.mod_eq_of_lt hfr] at this

theorem holds_pop {q : CircularQueue T n} {t : T} {its : List T}
    (h : Holds q (t :: its)) : ∃ q', q.pop = .ok q' ∧ Holds q' its := by
  obtain ⟨hlen, hle, hbuf, hidx, hget⟩ := h
  simp only [List.length_cons] at hlen
  have hn : 0 < n := by omega
  rcases hidx with h0 | ⟨hfr, hbl, hbk⟩
  · omega
  refine ⟨_, by unfold pop; rw [if_neg (by omega)], ?_⟩
  refine ⟨by simp; omega, by simp; omega, by simp [hbuf],
    Or.inr ⟨Nat.mod_lt _ hn, hbl, ?_⟩, ?_⟩
  · simp only [hbk, Nat.mod_add_mod]
    congr 1
    omega
  · intro i hi
    have hne : q.m_front ≠ (q.m_front + (i + 1)) % n := by
      intro h
      have h0 : (q.m_front + 0) % n = (q.m_front + (i + 1)) % n := by
        rw [Nat.add_zero, Nat.mod_eq_of_lt hfr]; exact h
      have h1 : 0 % n = (i + 1) % n := Nat.ModEq.add_left_cancel' _ h0
      rw [Nat.zero_mod, Nat.mod_eq_of_lt (by omega)] at h1
      omega
    have hi1 : i + 1 < (t :: its).length := by simp; omega
    have := hget (i + 1) hi1
    simp only [Nat.mod_add_mod]
    rw [Nat.add_assoc, Nat.add_comm 1 i, List.getD_eq_getElem?_getD,
      List.getElem?_set_ne hne, ← List.getD_eq_getElem?_getD, this]
    simp

theorem not_holds_cons_of_pop_error {q : CircularQueue T n} {its : List T} {e : Error}
    (h : Holds q its) (hp : q.pop = .error e) : its = [] := by
  unfold pop at hp
  split at hp
  · rename_i h0
    have := h.1
    exact List.length_eq_zero.mp (by omega)
  · cases hp

theorem back_of_holds {q : CircularQueue T n} {its : List T} (h : Holds q its)
    (hne : its ≠ []) : q.back = .ok (its.getLast hne) := by
  have hpos : 0 < its.length := List.length_pos.mpr hne
  have hlen := h.1
  have hn : 0 < n := by have := h.2.1; omega
  unfold back
  rw [if_neg (by omega)]
  rcases h.2.2.2.1 with h0 | ⟨hfr, hbl, hbk⟩
  · omega
  have hi : its.length - 1 < its.length := by omega
  have hs := slot_of_holds h hi
  have hm : q.m_back = (q.m_front + (its.length - 1)) % n := by
    have h1 : (q.m_back + 1) % n = ((q.m_front + (its.length - 1)) + 1) % n := by
      rw [hbk]; congr 1; omega
    have h2 : q.m_back % n = (q.m_front + (its.length - 1)) % n :=
      Nat.ModEq.add_right_cancel' 1 h1
    rwa [Nat.mod_eq_of_lt hbl] at h2
  rw [hm, hs, List.getLast_eq_getElem]

theorem push_of_holds {q : CircularQueue T n} {its : List T} (h : Holds q its) (x : T)
    (hlt : its.length < n) : ∃ q', q.push x = .ok q' ∧ Holds q' (its ++ [x]) := by
  have hlen := h.1
  have hp : ∃ q', q.push x = .ok q' := by
    unfold push
    rw [if_neg (by omega)]
    exact ⟨_, rfl⟩
  obtain ⟨q', hq'⟩ := hp
  exact ⟨q', hq', holds_push h hq'⟩

theorem holds_run : ∀ (ops : List (Op T)) {q : CircularQueue T n} {its : List T},
    Holds q its →
    (∀ q', run ops q = .ok q' → ∃ l, fifoRun n ops its = .ok l ∧ Holds q' l) ∧
    (∀ e, run ops q = .error e → fifoRun n ops its = .error e)
  | [], q, its, h => by
    refine ⟨?_, ?_⟩
    · intro q' hq'
      simp only [run, Except.ok.injEq] at hq'
      subst hq'
      exact ⟨its, rfl, h⟩
    · intro e he
      simp only [run] at he
      cases he
  | .push x :: ops, q, its, h => by
    have hlen := h.1
    by_cases hfull : q.m_size = n
    · have hp : q.push x = .error (.overflow_error "CircularQueue: size limit exceeded") := by
        unfold push; rw [if_pos hfull]
      refine ⟨?_, ?_⟩
      · intro q' hq'
        simp only [run, hp] at hq'
        cases hq'
      · intro e he
        simp only [run, hp, Except.error.injEq] at he
        subst he
        simp only [fifoRun]
        rw [if_pos (by omega)]
    · obtain ⟨q1, hq1, hh⟩ := push_of_holds h x (by have := h.2.1; omega)
      have ih := holds_run ops hh
      simp only [run, hq1, fifoRun]
      rw [if_neg (by omega)]
      exact ih
  | .pop :: ops, q, its, h => by
    cases its with
    | nil =>
      have hlen := h.1
      have hp : q.pop = .error
          (.underflow_error "CircularQueue: trying to pop from an empty queue") := by
        unfold pop; rw [if_pos (by simpa using hlen.symm)]
      refine ⟨?_, ?_⟩
      · intro q' hq'
        simp only [run, hp] at hq'
        cases hq'
      · intro e he
        simp only [run, hp, Except.error.injEq] at he
        subst he
        simp only [fifoRun]
    | cons t its =>
      obtain ⟨q1, hq1, hh⟩ := holds_pop h
      have ih := holds_run ops hh
      simp only [run, hq1, fifoRun]
      exact ih

theorem clearLoop_length : ∀ (fuel : Nat) (q : CircularQueue T n),
    (clearLoop fuel q).m_buffer.length = q.m_buffer.length
  | 0, q => rfl
  | fuel + 1, q => by
    unfold clearLoop
    by_cases h : q.m_size > 0
    · rw [if_pos h]
      unfold pop
      rw [if_neg (by omega)]
      simp only
      rw [clearLoop_length fuel]
      simp
    · rw [if_neg h]

theorem holds_reset {buf : List (Option T)} (h : buf.length = n) :
    Holds (⟨buf, 0, n - 1, 0⟩ : CircularQueue T n) [] := by
  refine ⟨rfl, Nat.zero_le _, h, ?_, by simp⟩
  rcases Nat.eq_zero_or_pos n with h0 | h0
  · exact Or.inl h0
  · refine Or.inr ⟨h0, by simp only; omega, ?_⟩
    simp only [Nat.sub_add_cancel h0, Nat.add_zero, Nat.mod_self, Nat.zero_mod]

theorem copyLoop_of_holds {other : CircularQueue T n} {its : List T} (h : Holds other its) :
    ∀ (fuel i : Nat) (q : CircularQueue T n), Holds q (its.take i) → i + fuel = its.length →
      ∃ c, copyLoop other fuel i q = .ok c ∧ Holds c its
  | 0, i, q, hq, hi => by
    refine ⟨q, rfl, ?_⟩
    rwa [List.take_of_length_le (by omega)] at hq
  | fuel + 1, i, q, hq, hi => by
    have hlen := h.1
    have hlt : i < its.length := by omega
    unfold copyLoop
    rw [if_pos (by omega), item_of_holds h hlt]
    obtain ⟨q1, hq1, hh⟩ := push_of_holds hq its[i]
      (by have := h.2.1; simp only [List.length_take]; omega)
    simp only [hq1]
    apply copyLoop_of_holds h fuel (i + 1) q1 _ (by omega)
    rw [List.take_succ, List.getElem?_eq_getElem hlt]
    exact hh

theorem copy_of_holds {other : CircularQueue T n} {its : List T} (h : Holds other its) :
    ∃ c, copy other = .ok c ∧ Holds c its :=
  copyLoop_of_holds h _ 0 _ (by simpa using holds_new) (by simpa using h.1.symm)

theorem assign_of_holds {self other : CircularQueue T n} {its old : List T}
    (h : Holds other its) (hs : Holds self old) :
    ∃ c, assign self other false = .ok c ∧ Holds c its := by
  unfold assign
  simp only [Bool.false_eq_true, if_false]
  refine copyLoop_of_holds h _ 0 _ ?_ (by simpa using h.1.symm)
  simp only [List.take_zero]
  apply holds_reset
  unfold clear
  rw [clearLoop_length]
  exact hs.2.2.1

theorem holds_of_run {ops : List (Op T)} {q : CircularQueue T n}
    (h : run ops (new : CircularQueue T n) = .ok q) :
    ∃ l, fifoRun n ops [] = .ok l ∧ Holds q l :=
  (holds_run ops holds_new).1 q h

theorem fifoRun_getLast : ∀ (ops : List (Op T)) {l l' : List T},
    fifoRun n ops l = .ok l' → l' ≠ [] → ∀ d : Option T,
      l'.getLast? = lastPush ops (if l.length = 0 then d else l.getLast?)
  | [], l, l', h, hne, d => by
    simp only [fifoRun, Except.ok.injEq] at h
    subst h
    simp only [lastPush, if_neg (mt List.length_eq_zero.mp hne)]
  | .push x :: ops, l, l', h, hne, d => by
    simp only [fifoRun] at h
    split at h
    · cases h
    · have := fifoRun_getLast ops h hne d
      simpa [lastPush] using this
  | .pop :: ops, l, l', h, hne, d => by
    cases l with
    | nil => simp only [fifoRun] at h; cases h
    | cons t l0 =>
      simp only [fifoRun] at h
      have := fifoRun_getLast ops h hne (some t)
      rw [this]
      simp only [lastPush]
      congr 1
      cases l0 with
      | nil => simp
      | cons u l1 => simp [List.getLast?_cons_cons]

end CircularQueue


theorem Spans.le {src : List Char} : ∀ {ts : List Token} {lo hi : Nat},
    Spans src lo hi ts → lo ≤ hi
  | [], _, _, h => h
  | t :: ts, _, _, h => by
    have := Spans.le h.2.2
    have := h.2.1.1
    have := h.1
    omega

theorem Spans.append {src : List Char} : ∀ {xs ys : List Token} {lo mid hi : Nat},
    Spans src lo mid xs → Spans src mid hi ys → Spans src lo hi (xs ++ ys)
  | [], [], _, _, _, h1, h2 => by
    have : _ ≤ _ := h1
    have : _ ≤ _ := h2
    show _ ≤ _
    omega
  | [], y :: ys, _, _, _, h1, h2 => by
    have : _ ≤ _ := h1
    exact ⟨by have := h2.1; omega, h2.2.1, h2.2.2⟩
  | x :: xs, ys, _, _, _, h1, h2 => ⟨h1.1, h1.2.1, Spans.append h1.2.2 h2⟩

theorem Spans.weaken {src : List Char} {ts : List Token} {lo lo' hi hi' : Nat}
    (h : Spans src lo hi ts) (hlo : lo' ≤ lo) (hhi : hi ≤ hi') : Spans src lo' hi' ts := by
  have h1 : Spans src lo' lo [] := hlo
  have h2 : Spans src hi hi' [] := hhi
  simpa using (h1.append h).append h2

theorem operatorExtensions_complete {k k' : TokenType} {w w' : String} {d : Char}
    (hk : operatorText k = some w) (hk' : operatorText k' = some w')
    (h : (w.data ++ [d]) <+: w'.data) : (k, d) ∈ operatorExtensions := by
  cases k <;> simp only [operatorText, Option.some.injEq, reduceCtorEq] at hk <;> subst hk <;>
    cases k' <;> simp only [operatorText, Option.some.injEq, reduceCtorEq] at hk' <;>
    subst hk' <;>
    simp [operatorExtensions, List.cons_prefix_cons] at h ⊢ <;>
    first | exact h | exact Or.inl h | exact Or.inr h

theorem longer_match {w w' rest : List Char} (h : w' <+: w ++ rest)
    (hlen : w.length < w'.length) : ∃ d, rest.head? = some d ∧ (w ++ [d]) <+: w' := by
  have h1 := List.prefix_iff_eq_take.mp h
  rw [List.take_append_eq_append_take] at h1
  cases rest with
  | nil =>
    simp only [List.take_nil, List.append_nil] at h1
    have := congrArg List.length h1
    simp only [List.length_take] at this
    omega
  | cons d r =>
    refine ⟨d, rfl, ?_⟩
    obtain ⟨m, hm⟩ : ∃ m, w'.length - w.length = m + 1 := ⟨w'.length - w.length - 1, by omega⟩
    rw [hm, List.take_succ_cons, List.take_of_length_le (by omega)] at h1
    rw [h1]
    exact ⟨List.take m r, by simp⟩

namespace Lexer

variable {n : Nat}

open CircularQueue

theorem peekChar_nil (i : Nat) (q : CircularQueue Token n) :
    peekChar (⟨[], i, q⟩ : Lexer n) = none := rfl

theorem peekChar_cons (c : Char) (cs : List Char) (i : Nat) (q : CircularQueue Token n) :
    peekChar (⟨c :: cs, i, q⟩ : Lexer n) = if c = '\xff' then none else some c := rfl

theorem peekChar_of_file {L : Lexer n} {c : Char} {rest : List Char}
    (hf : L.m_file = c :: rest) : L.peekChar = if c = '\xff' then none else some c := by
  unfold peekChar
  rw [hf]

theorem peekChar_some {L : Lexer n} {c : Char} {rest : List Char}
    (hf : L.m_file = c :: rest) (hc : c ≠ '\xff') : L.peekChar = some c := by
  rw [peekChar_of_file hf, if_neg hc]

theorem peekChar_eq_some {L : Lexer n} {a : Char} :
    L.peekChar = some a ↔ L.m_file.head? = some a ∧ a ≠ '\xff' := by
  unfold peekChar
  cases L.m_file with
  | nil => simp
  | cons c cs =>
    by_cases hc : c = '\xff'
    · subst hc
      simp only [if_true, List.head?_cons, Option.some.injEq]
      constructor
      · intro h; cases h
      · intro h; exact absurd h.1.symm h.2
    · simp only [hc, if_false, List.head?_cons, Option.some.injEq]
      constructor
      · intro h; subst h; exact ⟨rfl, hc⟩
      · exact fun h => h.1

theorem peekChar_eq_none {L : Lexer n} :
    L.peekChar = none ↔ ∀ c, L.m_file.head? = some c → c = '\xff' := by
  unfold peekChar
  cases L.m_file with
  | nil => simp
  | cons c cs =>
    by_cases hc : c = '\xff'
    · subst hc; simp
    · simp [hc]

theorem skipSpaces_spec (file : List Char) (i : Nat) :
    ∃ pre, file = pre ++ (skipSpaces file i).1 ∧ (skipSpaces file i).2 = i + pre.length := by
  induction file generalizing i with
  | nil => exact ⟨[], rfl, rfl⟩
  | cons c cs ih =>
    unfold skipSpaces
    split
    · obtain ⟨pre, h1, h2⟩ := ih (i + 1)
      exact ⟨c :: pre, by rw [List.cons_append, ← h1], by rw [h2, List.length_cons]; omega⟩
    · exact ⟨[], rfl, rfl⟩

theorem skipLine_spec (file : List Char) (i : Nat) :
    ∃ pre, file = pre ++ (skipLine file i).1 ∧ (skipLine file i).2 = i + pre.length := by
  induction file generalizing i with
  | nil => exact ⟨[], rfl, rfl⟩
  | cons c cs ih =>
    unfold skipLine
    split
    · exact ⟨[], rfl, rfl⟩
    · obtain ⟨pre, h1, h2⟩ := ih (i + 1)
      exact ⟨c :: pre, by rw [List.cons_append, ← h1], by rw [h2, List.length_cons]; omega⟩

theorem skipBlock_spec (file : List Char) (i : Nat) :
    ∃ pre, file = pre ++ (skipBlock file i).2.1 ∧
      (skipBlock file i).2.2 = i + pre.length := by
  induction file, i using skipBlock.induct with
  | case1 i => exact ⟨[], rfl, rfl⟩
  | case2 cs i => exact ⟨[], by rw [skipBlock.eq_def]; simp, by rw [skipBlock.eq_def]; simp⟩
  | case3 i h0 => exact ⟨['*'], by simp [skipBlock], by simp [skipBlock]⟩
  | case4 i ds h0 => exact ⟨['*', '/'], by simp [skipBlock], by simp [skipBlock]⟩
  | case5 i d ds hd h0 ih =>
    obtain ⟨pre, h1, h2⟩ := ih
    refine ⟨'*' :: pre, ?_, ?_⟩
    · simp only [skipBlock, h0, if_true, hd, if_false, List.cons_append, ← h1]
    · simp only [skipBlock, h0, if_true, hd, if_false, h2, List.length_cons]; omega
  | case6 c cs i h0 hc ih =>
    obtain ⟨pre, h1, h2⟩ := ih
    have e : skipBlock (c :: cs) i = skipBlock cs (i + 1) := by
      conv_lhs => rw [skipBlock.eq_def]
      simp only [h0, hc, if_false]
    refine ⟨c :: pre, ?_, ?_⟩
    · rw [e, List.cons_append, ← h1]
    · rw [e, h2, List.length_cons]; omega

theorem takeWhile_spec (p : Char → Bool) (literal : String) (file : List Char) (i : Nat) :
    ∃ pre, file = pre ++ (takeWhile p literal file i).2.1 ∧
      (takeWhile p literal file i).2.2 = i + pre.length ∧
      (takeWhile p literal file i).1.data = literal.data ++ pre := by
  induction file generalizing i literal with
  | nil => exact ⟨[], rfl, rfl, by simp [takeWhile]⟩
  | cons c cs ih =>
    unfold takeWhile
    split
    · obtain ⟨pre, h1, h2, h3⟩ := ih (literal.push c) (i + 1)
      refine ⟨c :: pre, by rw [List.cons_append, ← h1], by rw [h2, List.length_cons]; omega, ?_⟩
      rw [h3]; simp [String.push]
    · exact ⟨[], rfl, rfl, by simp⟩


theorem PosInv.advance {src : List Char} {L : Lexer n} (h : PosInv src L)
    {p s : List Char} (hf : L.m_file = p ++ s) (q : CircularQueue Token n) :
    PosInv src ⟨s, L.m_index + p.length, q⟩ := by
  obtain ⟨hi, hd⟩ := h
  rw [hf] at hd
  have hlen : p.length + s.length = src.length - L.m_index := by
    rw [← List.length_append, hd, List.length_drop]
  refine ⟨by simp only; omega, ?_⟩
  show s = src.drop (L.m_index + p.length)
  rw [← List.drop_drop, ← hd, List.drop_left]

/-- An operator token with the text of its kind, lexed at `M`, not followed by a
character that extends it. -/
theorem kindOk_operator {src : List Char} {M : Lexer n} (hpos : PosInv src M)
    {k : TokenType} {w : String} (hop : operatorText k = some w) {s : List Char}
    (hf : M.m_file = w.data ++ s)
    (hnext : ∀ d, s.head? = some d → (k, d) ∉ operatorExtensions) (to_ : Nat) :
    Token.kindOk src ⟨w, k, M.m_index, to_⟩ := by
  refine ⟨fun h => ?_, fun h => ?_, fun h => ?_, fun h => ?_, fun w0 hw0 => ?_⟩
  · simp only at h; rw [h] at hop; cases hop
  · simp only at h; rw [h] at hop; cases hop
  · simp only at h; rw [h] at hop; cases hop
  · simp only at h; rw [h] at hop; cases hop
  · simp only at hw0 ⊢
    rw [hop] at hw0
    injection hw0 with hw0
    subst hw0
    refine ⟨rfl, fun k' w' hk hpre => ?_⟩
    rw [← hpos.2, hf] at hpre
    by_contra hlt
    obtain ⟨d, hd, hext⟩ := longer_match hpre (by
      simp only [String.length] at hlt; omega)
    exact hnext d hd (operatorExtensions_complete hop hk hext)

theorem takeWhile_full (p : Char → Bool) (literal : String) (file : List Char) (i : Nat) :
    ∃ pre, file = pre ++ (takeWhile p literal file i).2.1 ∧
      (takeWhile p literal file i).2.2 = i + pre.length ∧
      (takeWhile p literal file i).1.data = literal.data ++ pre ∧ pre.all p = true ∧
      ∀ d, (takeWhile p literal file i).2.1.head? = some d → p d = false := by
  induction file generalizing i literal with
  | nil => exact ⟨[], rfl, rfl, by simp [takeWhile], rfl, by simp [takeWhile]⟩
  | cons c cs ih =>
    unfold takeWhile
    split
    · rename_i hc
      obtain ⟨pre, h1, h2, h3, h4, h5⟩ := ih (literal.push c) (i + 1)
      refine ⟨c :: pre, by rw [List.cons_append, ← h1], by rw [h2, List.length_cons]; omega,
        ?_, by simp [hc, h4], h5⟩
      rw [h3]; simp [String.push]
    · rename_i hc
      refine ⟨[], rfl, rfl, by simp, rfl, fun d hd => ?_⟩
      simp only [List.head?_cons, Option.some.injEq] at hd
      subst hd
      simpa using hc

theorem isbinary_eq (c : Char) : isbinary c = binaryDigit c := rfl

theorem isoctal_eq (c : Char) : isoctal c = octalDigit c := rfl

theorem isdigit_eq (c : Char) : isdigit c = decimalDigit c := rfl

theorem isalpha_eq (c : Char) : isalpha c = letter c := rfl

theorem char_le_iff (a b : Char) : a ≤ b ↔ a.toNat ≤ b.toNat := by
  exact Iff.rfl

theorem ishex_eq (c : Char) : ishex c = hexDigit c := by
  unfold ishex hexDigit toupper
  rw [isdigit]
  show _ = (decimalDigit c || _ || _)
  unfold decimalDigit
  by_cases hl : 'a' ≤ c ∧ c ≤ 'z'
  · rw [if_pos hl]
    have hc : Char.ofNat c.toNat = c := Char.ofNat_toNat c
    have h1 := (char_le_iff _ _).mp hl.1
    have h2 := (char_le_iff _ _).mp hl.2
    generalize c.toNat = k at hc h1 h2
    subst hc
    have h1' : 97 ≤ k := h1
    have h2' : k ≤ 122 := h2
    clear h1 h2 hl
    interval_cases k <;> decide
  · rw [if_neg hl]
    have : ¬ ('a' ≤ c ∧ c ≤ 'f') := by
      intro h
      apply hl
      refine ⟨h.1, ?_⟩
      rw [char_le_iff] at *
      have h3 := h.2
      have h4 : 'f'.toNat ≤ 'z'.toNat := by decide
      exact Nat.le_trans h3 h4
    simp [this]

theorem PosInv.next {src : List Char} {L : Lexer n} (h : PosInv src L) :
    src[L.m_index]? = L.m_file.head? := by
  rw [h.2, List.head?_drop]

theorem operator_ne_string {ty : TokenType} {w : String} (h : operatorText ty = some w) :
    ty ≠ .StringLiteral := by
  intro h0
  rw [h0] at h
  cases h

theorem okIn_plain {src : List Char} {L : Lexer n} (h : PosInv src L)
    {p s : List Char} (hf : L.m_file = p ++ s) {t : Token}
    (hfrom : t.from_ = L.m_index) (hto : t.to_ = L.m_index + p.length)
    (hlex : t.lexeme.data = p) (hty : t.type ≠ .StringLiteral) (hk : t.kindOk src) :
    t.okIn src := by
  have h2 := (h.advance hf L.m_tokens).1
  simp only at h2
  refine ⟨by omega, by omega, fun _ => ?_, fun h => absurd h hty, hk⟩
  unfold slice
  rw [hfrom, hto, ← h.2, hf, hlex, Nat.add_sub_cancel_left, List.take_left]

theorem pushToken_adv {src : List Char} {its : List Token} {L0 L L' : Lexer n}
    {lexeme : String} {type : TokenType} {from_ : Nat}
    (hpos : PosInv src L) (hq : Holds L.m_tokens its)
    (hp : L.pushToken lexeme type from_ = .ok L')
    (hlo : L0.m_index ≤ from_) (hok : Token.okIn src ⟨lexeme, type, from_, L.m_index⟩) :
    Adv src its L0 L' := by
  unfold pushToken at hp
  split at hp
  · cases hp
  · rename_i q' hq'
    injection hp with hp
    subst hp
    exact ⟨[_], hpos, holds_push hq hq', hlo, hok, Nat.le_refl _⟩

theorem skipWhitespaceAux_adv {src : List Char} {its : List Token} :
    ∀ (fuel : Nat) (L : Lexer n) (r : Bool × Lexer n), PosInv src L →
      Holds L.m_tokens its → skipWhitespaceAux fuel L = .ok r → Adv src its L r.2 := by
  intro fuel
  induction fuel with
  | zero => intro L r _ _ h; cases h
  | succ fuel ih =>
    intro L r hpos hq h
    unfold skipWhitespaceAux at h
    obtain ⟨pre, hpre, hidx⟩ := skipSpaces_spec L.m_file L.m_index
    have hpos1 := hpos.advance hpre L.m_tokens
    rw [← hidx] at hpos1
    generalize skipSpaces L.m_file L.m_index = s at h hpre hidx hpos1
    obtain ⟨file1, idx1⟩ := s
    simp only at h hpre hidx hpos1
    have hle1 : L.m_index ≤ idx1 := by omega
    cases file1 with
    | nil =>
      simp [peekChar] at h
      subst h
      exact ⟨[], hpos1, by simpa using hq, hle1⟩
    | cons c rest1 =>
      by_cases hc : c = '/'
      swap
      · rw [if_neg (by rw [peekChar_eq_some]; simp [hc])] at h
        injection h with h
        subst h
        exact ⟨[], hpos1, by simpa using hq, hle1⟩
      subst hc
      have hpos2 := hpos1.advance (p := ['/']) (s := rest1) rfl L.m_tokens
      simp only [List.length_singleton] at hpos2
      rw [if_pos (peekChar_some rfl (by decide))] at h
      simp only [skipChar, List.tail_cons] at h
      split at h
      · -- line comment
        rename_i h2
        obtain ⟨d, rest2, rfl⟩ : ∃ d rest2, rest1 = d :: rest2 := by
          cases rest1 with
          | nil => simp [peekChar] at h2
          | cons d rest2 => exact ⟨d, rest2, rfl⟩
        have hpos3 := hpos2.advance (p := [d]) (s := rest2) rfl L.m_tokens
        simp only [List.length_singleton, List.tail_cons] at hpos3 h
        obtain ⟨pre3, hpre3, hidx3⟩ := skipLine_spec rest2 (idx1 + 1 + 1)
        have hpos4 := hpos3.advance hpre3 L.m_tokens
        simp only at hpos4
        rw [← hidx3] at hpos4
        split at h
        · cases h
        · rename_i r' hr'
          injection h with h
          subst h
          obtain ⟨news, hp', hq', hs'⟩ := ih _ r' hpos4 hq hr'
          exact ⟨news, hp', hq', hs'.weaken (by simp only; omega) (Nat.le_refl _)⟩
      · split at h
        · -- block comment
          rename_i _ h2
          obtain ⟨d, rest2, rfl⟩ : ∃ d rest2, rest1 = d :: rest2 := by
            cases rest1 with
            | nil => simp [peekChar] at h2
            | cons d rest2 => exact ⟨d, rest2, rfl⟩
          have hpos3 := hpos2.advance (p := [d]) (s := rest2) rfl L.m_tokens
          simp only [List.length_singleton, List.tail_cons] at hpos3 h
          obtain ⟨pre3, hpre3, hidx3⟩ := skipBlock_spec rest2 (idx1 + 1 + 1)
          have hpos4 := hpos3.advance hpre3 L.m_tokens
          simp only at hpos4
          rw [← hidx3] at hpos4
          split at h
          · cases h
          · split at h
            · cases h
            · rename_i r' hr'
              injection h with h
              subst h
              obtain ⟨news, hp', hq', hs'⟩ := ih _ r' hpos4 hq hr'
              exact ⟨news, hp', hq', hs'.weaken (by simp only; omega) (Nat.le_refl _)⟩
        · -- a slash token
          split at h
          · cases h
          · rename_i L' hL'
            injection h with h
            subst h
            refine pushToken_adv hpos2 hq hL' (by omega) ?_
            exact okIn_plain hpos1 (p := ['/']) (s := rest1) rfl (by simp) (by simp) rfl
              (by simp) (by
                have := kindOk_operator hpos1 (k := .Slash) (w := "/") rfl (s := rest1)
                  rfl (fun d _ => by simp [operatorExtensions]) (idx1 + 1)
                simpa using this)


theorem takeChar_cons {L : Lexer n} {c : Char} {rest : List Char} (hf : L.m_file = c :: rest)
    (literal : String) :
    takeChar literal L = (literal.push c, ⟨rest, L.m_index + 1, L.m_tokens⟩) := by
  unfold takeChar
  rw [peekChar_of_file hf]
  by_cases hc : c = '\xff'
  · subst hc
    simp [skipChar, hf]
  · simp [skipChar, hf, hc]

theorem takeWhile_head (p : Char → Bool) (literal : String) (file : List Char) (i : Nat)
    (d : Char) (h : (takeWhile p literal file i).2.1.head? = some d) : p d = false := by
  induction file generalizing i literal with
  | nil => simp [takeWhile] at h
  | cons c cs ih =>
    unfold takeWhile at h
    split at h
    · exact ih _ _ h
    · simp only [List.head?_cons, Option.some.injEq] at h
      subst h
      simpa using ‹¬p c = true›

theorem getPrefixed_spec {L : Lexer n} {c : Char} {s : List Char}
    (hf : L.m_file = c :: s) {p : Char → Bool} {what literal : String}
    {r : String × Lexer n} (h : getPrefixed p what literal L = .ok r) :
    ∃ pre, Scanned L r pre ∧ r.1.data = literal.data ++ pre := by
  unfold getPrefixed at h
  rw [takeChar_cons hf] at h
  simp only at h
  obtain ⟨pre, h1, h2, h3⟩ := takeWhile_spec p (literal.push c) s (L.m_index + 1)
  split at h
  · cases h
  · injection h with h
    subst h
    refine ⟨c :: pre, ⟨?_, ?_, rfl⟩, ?_⟩
    · rw [hf, List.cons_append, ← h1]
    · simp only [h2, List.length_cons]; omega
    · simp only [h3]; simp [String.push]

theorem getIdentifier_spec {L : Lexer n} {c : Char} {rest : List Char}
    (hf : L.m_file = c :: rest) {r : String × Lexer n} (h : getIdentifier L = .ok r) :
    ∃ pre, Scanned L r pre ∧ r.1.data = pre := by
  unfold getIdentifier at h
  rw [takeChar_cons hf] at h
  simp only at h
  obtain ⟨pre, h1, h2, h3⟩ :=
    takeWhile_spec (fun c => isalnum c || c == '_') ("".push c) rest (L.m_index + 1)
  injection h with h
  subst h
  refine ⟨c :: pre, ⟨?_, ?_, rfl⟩, ?_⟩
  · rw [hf, List.cons_append, ← h1]
  · simp only [h2, List.length_cons]; omega
  · simp only [h3]; simp [String.push]

theorem getNumericLiteral_spec {L : Lexer n} {c : Char} {rest : List Char}
    (hf : L.m_file = c :: rest) {r : String × Lexer n} (h : getNumericLiteral L = .ok r) :
    ∃ pre, Scanned L r pre ∧ r.1.data = pre := by
  unfold getNumericLiteral at h
  rw [takeChar_cons hf] at h
  simp only at h
  have key : ∀ {p : Char → Bool} {what : String} {d : Char},
      (⟨rest, L.m_index + 1, L.m_tokens⟩ : Lexer n).peekChar = some d →
      getPrefixed p what ("".push c) ⟨rest, L.m_index + 1, L.m_tokens⟩ = .ok r →
      ∃ pre, Scanned L r pre ∧ r.1.data = pre := by
    intro p what d hd hp
    cases hrest : rest with
    | nil =>
      subst hrest
      simp [peekChar] at hd
    | cons d rest2 =>
      subst hrest
      obtain ⟨pre, ⟨h1, h2, h3⟩, h4⟩ := getPrefixed_spec (c := d) (s := rest2) rfl hp
      refine ⟨c :: pre, ⟨?_, ?_, h3⟩, ?_⟩
      · rw [hf, List.cons_append]; simp only at h1; rw [← h1]
      · simp only at h2; rw [h2, List.length_cons]; omega
      · rw [h4]; simp [String.push]
  split at h
  · split at h
    · exact key ‹_› h
    · split at h
      · exact key ‹_› h
      · split at h
        · exact key ‹_› h
        · split at h
          · cases h
          · injection h with h
            subst h
            exact ⟨[c], ⟨by simp [hf], by simp, rfl⟩, by simp [String.push]⟩
  · obtain ⟨pre, h1, h2, h3⟩ :=
      takeWhile_spec isdigit ("".push c) rest (L.m_index + 1)
    injection h with h
    subst h
    refine ⟨c :: pre, ⟨?_, ?_, rfl⟩, ?_⟩
    · rw [hf, List.cons_append, ← h1]
    · simp only [h2, List.length_cons]; omega
    · simp only [h3]; simp [String.push]

theorem getStringLiteral_spec {L : Lexer n} {c : Char} {rest : List Char}
    (hf : L.m_file = c :: rest) {r : String × Lexer n} (h : getStringLiteral L = .ok r) :
    ∃ body d, L.m_file = c :: (body ++ d :: r.2.m_file) ∧ d = '"' ∧
      r.2.m_index = L.m_index + body.length + 2 ∧ r.2.m_tokens = L.m_tokens ∧
      r.1.data = body := by
  unfold getStringLiteral at h
  simp only [skipChar, hf, List.tail_cons] at h
  obtain ⟨pre, h1, h2, h3⟩ :=
    takeWhile_spec (fun c => c != '"' && c != '\n' && c != '\xff') "" rest (L.m_index + 1)
  generalize hs : takeWhile (fun c => c != '"' && c != '\n' && c != '\xff') "" rest (L.m_index + 1) = s
    at h h1 h2 h3
  obtain ⟨lit, file', idx'⟩ := s
  simp only at h h1 h2 h3
  split at h
  · cases h
  · split at h
    · cases h
    · rename_i hnl heof
      injection h with h
      subst h
      cases file' with
      | nil => simp [peekChar] at heof
      | cons d rest' =>
        have h0 : d ≠ '\xff' := by
          intro h0
          apply heof
          subst h0
          rfl
        have hd : d = '"' := by
          have hp := takeWhile_head (fun c => c != '"' && c != '\n' && c != '\xff') "" rest
            (L.m_index + 1) d (by rw [hs]; rfl)
          rw [peekChar_cons, if_neg h0] at hnl
          simp only [Option.some.injEq] at hnl
          by_contra hne
          have : (d != '"' && d != '\n' && d != '\xff') = true := by simp [hne, hnl, h0]
          simp only [this] at hp
          cases hp
        refine ⟨pre, d, ?_, hd, ?_, rfl, ?_⟩
        · simp only [List.tail_cons]; rw [hf, h1]
        · simp only [h2]; omega
        · simpa using h3


theorem getPrefixed_form {L : Lexer n} {x : Char} {s : List Char}
    (hf : L.m_file = x :: s) {p : Char → Bool} {what literal : String}
    (hl : literal.data.length = 1) {r : String × Lexer n}
    (h : getPrefixed p what literal L = .ok r) :
    ∃ d ds, r.1.data = literal.data ++ x :: d :: ds ∧ (d :: ds).all p = true ∧
      ∀ e, r.2.peekChar = some e → p e = false := by
  unfold getPrefixed at h
  rw [takeChar_cons hf] at h
  simp only at h
  obtain ⟨pre, h1, h2, h3, h4, h5⟩ := takeWhile_full p (literal.push x) s (L.m_index + 1)
  split at h
  · cases h
  · rename_i hlen
    injection h with h
    subst h
    cases pre with
    | nil =>
      exfalso
      apply hlen
      show (takeWhile p (literal.push x) s (L.m_index + 1)).1.data.length = 2
      rw [h3]
      simp [String.push, hl]
    | cons d ds =>
      exact ⟨d, ds, by rw [h3]; simp [String.push], h4,
        fun e he => h5 e (peekChar_eq_some.mp he).1⟩

theorem numericForm_decimal {c : Char} {pre : List Char} (hc0 : c ≠ '0')
    (hd : decimalDigit c = true) (hp : pre.all decimalDigit = true) :
    numericForm (c :: pre) = true := by
  unfold numericForm
  split <;> simp_all

theorem numericBase_decimal {c : Char} {pre : List Char} (hc0 : c ≠ '0') :
    numericBase (c :: pre) = decimalDigit := by
  unfold numericBase
  split <;> simp_all

theorem getNumericLiteral_form {L : Lexer n} {c : Char} {rest : List Char}
    (hf : L.m_file = c :: rest) (hc : isdigit c = true) {r : String × Lexer n}
    (h : getNumericLiteral L = .ok r) :
    numericForm r.1.data = true ∧
      ∀ e, r.2.peekChar = some e → numericBase r.1.data e = false := by
  unfold getNumericLiteral at h
  rw [takeChar_cons hf] at h
  simp only at h
  have key : ∀ {p : Char → Bool} {what : String} {x : Char},
      (⟨rest, L.m_index + 1, L.m_tokens⟩ : Lexer n).peekChar = some x →
      getPrefixed p what ("".push c) ⟨rest, L.m_index + 1, L.m_tokens⟩ = .ok r →
      ∃ d ds, r.1.data = c :: x :: d :: ds ∧ (d :: ds).all p = true ∧
        ∀ e, r.2.peekChar = some e → p e = false := by
    intro p what x hx hp
    cases hrest : rest with
    | nil =>
      subst hrest
      simp [peekChar] at hx
    | cons y rest2 =>
      subst hrest
      have hx := (peekChar_eq_some.mp hx).1
      simp only [List.head?_cons, Option.some.injEq] at hx
      subst hx
      obtain ⟨d, ds, h1, h2, h3⟩ :=
        getPrefixed_form (x := y) (s := rest2) rfl (by simp [String.push]) hp
      exact ⟨d, ds, by simpa [String.push] using h1, h2, h3⟩
  split at h
  · rename_i h0
    have hc0 : c = '0' := by
      have h1 := (peekChar_eq_some.mp h0).1
      rw [hf] at h1
      simpa using h1
    subst hc0
    split at h
    · obtain ⟨d, ds, h1, h2, h3⟩ := key ‹_› h
      rw [h1]
      exact ⟨by simpa [numericForm] using h2, by simpa [numericBase] using h3⟩
    · split at h
      · obtain ⟨d, ds, h1, h2, h3⟩ := key ‹_› h
        rw [h1]
        exact ⟨by simpa [numericForm] using h2, by simpa [numericBase] using h3⟩
      · split at h
        · obtain ⟨d, ds, h1, h2, h3⟩ := key ‹_› h
          rw [h1]
          rw [funext ishex_eq] at h2 h3
          exact ⟨by simpa [numericForm] using h2, by simpa [numericBase] using h3⟩
        · split at h
          · cases h
          · rename_i hnd
            injection h with h
            subst h
            refine ⟨by simp [String.push, numericForm], fun e he => ?_⟩
            simp only at he
            rw [he] at hnd
            simpa [String.push, numericBase, isdigit_eq] using hnd
  · rename_i h0
    have hc0 : c ≠ '0' := by
      intro h1
      subst h1
      exact h0 (peekChar_some hf (by decide))
    obtain ⟨pre, h1, h2, h3, h4, h5⟩ :=
      takeWhile_full isdigit ("".push c) rest (L.m_index + 1)
    injection h with h
    subst h
    simp only [h3]
    have e1 : ("".push c).data ++ pre = c :: pre := by simp [String.push]
    rw [e1]
    refine ⟨numericForm_decimal hc0 hc h4, fun e he => ?_⟩
    rw [numericBase_decimal hc0]
    exact h5 e (peekChar_eq_some.mp he).1

theorem getIdentifier_form {L : Lexer n} {c : Char} {rest : List Char}
    (hf : L.m_file = c :: rest) (hc : (isalpha c || c == '_') = true)
    {r : String × Lexer n} (h : getIdentifier L = .ok r) :
    identifierForm r.1.data = true ∧
      ∀ e, r.2.peekChar = some e → identifierChar e = false := by
  unfold getIdentifier at h
  rw [takeChar_cons hf] at h
  simp only at h
  obtain ⟨pre, h1, h2, h3, h4, h5⟩ :=
    takeWhile_full (fun c => isalnum c || c == '_') ("".push c) rest (L.m_index + 1)
  injection h with h
  subst h
  simp only [h3]
  have e1 : ("".push c).data ++ pre = c :: pre := by simp [String.push]
  rw [e1]
  refine ⟨?_, fun e he => h5 e (peekChar_eq_some.mp he).1⟩
  unfold identifierForm
  rw [Bool.and_eq_true]
  exact ⟨hc, h4⟩

theorem getStringLiteral_body {L : Lexer n} {r : String × Lexer n}
    (h : getStringLiteral L = .ok r) : ∀ c ∈ r.1.data, c ≠ '"' ∧ c ≠ '\n' := by
  unfold getStringLiteral at h
  obtain ⟨pre, h1, h2, h3, h4, h5⟩ := takeWhile_full (fun c => c != '"' && c != '\n' && c != '\xff') ""
    L.skipChar.m_file L.skipChar.m_index
  simp only at h
  split at h
  · cases h
  · split at h
    · cases h
    · injection h with h
      subst h
      simp only [h3]
      intro c hc
      rw [List.nil_append] at hc
      have := List.all_eq_true.mp h4 c hc
      simp only [Bool.and_eq_true, bne_iff_ne, ne_eq] at this
      exact this.1

theorem kindOk_eof {src : List Char} {M : Lexer n} (hpos : PosInv src M)
    (h0 : M.peekChar = none) (to_ : Nat) :
    Token.kindOk src ⟨"", .EndOfFile, M.m_index, to_⟩ := by
  refine ⟨fun _ => ?_, fun h => by simp at h, fun h => by simp at h, fun h => by simp at h,
    fun w hw => by simp [operatorText] at hw⟩
  intro c hc
  simp only at hc
  rw [hpos.next] at hc
  exact peekChar_eq_none.mp h0 c hc

theorem numericBase_eof (l : List Char) : numericBase l '\xff' = false := by
  unfold numericBase
  split <;> decide

theorem identifierChar_eof : identifierChar '\xff' = false := by decide

theorem kindOk_numeric {src : List Char} {X : Lexer n} (hpos : PosInv src X)
    {lexeme : String} (hform : numericForm lexeme.data = true)
    (hmax : ∀ e, X.peekChar = some e → numericBase lexeme.data e = false) (from_ : Nat) :
    Token.kindOk src ⟨lexeme, .NumericLiteral, from_, X.m_index⟩ := by
  refine ⟨fun h => by simp at h, fun h => by simp at h, fun _ => ⟨hform, fun c hc => ?_⟩,
    fun h => by simp at h, fun w hw => by simp [operatorText] at hw⟩
  simp only at hc
  rw [hpos.next] at hc
  by_cases h0 : c = '\xff'
  · subst h0; exact numericBase_eof _
  · exact hmax c (peekChar_eq_some.mpr ⟨hc, h0⟩)

theorem kindOk_identifier {src : List Char} {X : Lexer n} (hpos : PosInv src X)
    {lexeme : String} (hform : identifierForm lexeme.data = true)
    (hmax : ∀ e, X.peekChar = some e → identifierChar e = false) (from_ : Nat) :
    Token.kindOk src ⟨lexeme, .Identifier, from_, X.m_index⟩ := by
  refine ⟨fun h => by simp at h, fun _ => ⟨hform, fun c hc => ?_⟩, fun h => by simp at h,
    fun h => by simp at h, fun w hw => by simp [operatorText] at hw⟩
  simp only at hc
  rw [hpos.next] at hc
  by_cases h0 : c = '\xff'
  · subst h0; exact identifierChar_eof
  · exact hmax c (peekChar_eq_some.mpr ⟨hc, h0⟩)

theorem kindOk_string {src : List Char} {lexeme : String}
    (hbody : ∀ c ∈ lexeme.data, c ≠ '"' ∧ c ≠ '\n') (from_ to_ : Nat) :
    Token.kindOk src ⟨lexeme, .StringLiteral, from_, to_⟩ :=
  ⟨fun h => by simp at h, fun h => by simp at h, fun h => by simp at h, fun _ => hbody,
    fun w hw => by simp [operatorText] at hw⟩

theorem Scanned.posInv {src : List Char} {M : Lexer n} {r : String × Lexer n}
    {pre : List Char} (hpos : PosInv src M) (hs : Scanned M r pre) : PosInv src r.2 := by
  obtain ⟨h1, h2, h3⟩ := hs
  have := hpos.advance h1 r.2.m_tokens
  rwa [← h2] at this

theorem Adv.trans {src : List Char} {its : List Token} {L M L' : Lexer n}
    (h1 : Adv src its L M) (h2 : ∀ its', Holds M.m_tokens its' → Adv src its' M L') :
    Adv src its L L' := by
  obtain ⟨news0, _, hq0, hs0⟩ := h1
  obtain ⟨news1, hp1, hq1, hs1⟩ := h2 _ hq0
  exact ⟨news0 ++ news1, hp1, by rwa [← List.append_assoc], hs0.append hs1⟩

theorem token_adv {src : List Char} {its : List Token} {M L' : Lexer n}
    (hpos : PosInv src M) (hq : Holds M.m_tokens its) {r : String × Lexer n}
    {pre : List Char} (hs : Scanned M r pre) (hlex : r.1.data = pre) {ty : TokenType}
    (hty : ty ≠ .StringLiteral) (hk : Token.kindOk src ⟨r.1, ty, M.m_index, r.2.m_index⟩)
    (hp : r.2.pushToken r.1 ty M.m_index = .ok L') :
    Adv src its M L' := by
  obtain ⟨h1, h2, h3⟩ := hs
  have hpos' : PosInv src r.2 := by
    have := hpos.advance h1 r.2.m_tokens
    rwa [← h2] at this
  refine pushToken_adv hpos' (by rw [h3]; exact hq) hp (Nat.le_refl _) ?_
  exact okIn_plain hpos h1 rfl h2 hlex hty hk

theorem fixed_adv {src : List Char} {its : List Token} {M L' : Lexer n}
    (hpos : PosInv src M) (hq : Holds M.m_tokens its) {lexeme : String} {file' : List Char}
    {idx' : Nat} (hf : M.m_file = lexeme.data ++ file')
    (hidx : idx' = M.m_index + lexeme.data.length) {ty : TokenType}
    (hty : ty ≠ .StringLiteral) (hk : Token.kindOk src ⟨lexeme, ty, M.m_index, idx'⟩)
    (hp : pushToken ⟨file', idx', M.m_tokens⟩ lexeme ty M.m_index = .ok L') :
    Adv src its M L' :=
  token_adv (r := (lexeme, ⟨file', idx', M.m_tokens⟩)) hpos hq ⟨hf, hidx, rfl⟩ rfl hty hk hp

theorem string_adv {src : List Char} {its : List Token} {M L' : Lexer n}
    (hpos : PosInv src M) (hq : Holds M.m_tokens its) {rest : List Char}
    (hf : M.m_file = '"' :: rest) {r : String × Lexer n} (hr : getStringLiteral M = .ok r)
    (hp : r.2.pushToken r.1 .StringLiteral M.m_index = .ok L') : Adv src its M L' := by
  obtain ⟨body, d, h1, hd, h2, h3, h4⟩ := getStringLiteral_spec hf hr
  subst hd
  have h1' : M.m_file = ('"' :: (body ++ ['"'])) ++ r.2.m_file := by simp [h1]
  have hpos' : PosInv src r.2 := by
    have := hpos.advance h1' r.2.m_tokens
    simp only [List.length_cons, List.length_append, List.length_nil] at this
    rwa [show M.m_index + (body.length + (0 + 1) + 1) = r.2.m_index by omega] at this
  refine pushToken_adv hpos' (by rw [h3]; exact hq) hp (Nat.le_refl _) ?_
  have hdrop : src.drop M.m_index = '"' :: (body ++ '"' :: r.2.m_file) := by
    rw [← hpos.2, h1]
  refine ⟨by simp only; omega, hpos'.1, fun h => absurd rfl h,
    fun _ => ⟨by simp only; omega, ?_, ?_, ?_⟩, kindOk_string (getStringLiteral_body hr) _ _⟩
  · have := congrArg (fun l => l[0]?) hdrop
    simpa using this
  · have := congrArg (fun l => l[body.length + 1]?) hdrop
    simp only [List.getElem?_drop, List.getElem?_cons_succ, List.getElem?_append_right (Nat.le_refl _), Nat.sub_self, List.getElem?_cons_zero] at this
    simp only [h2]
    rw [show M.m_index + body.length + 2 - 1 = M.m_index + (body.length + 1) by omega]
    exact this
  · unfold slice
    simp only [h2]
    rw [show M.m_index + body.length + 2 - 1 - (M.m_index + 1) = body.length by omega,
      ← List.drop_drop, hdrop, h4]
    simp


theorem file_of_peek {L : Lexer n} {a : Char} (h : L.peekChar = some a) :
    L.m_file = [a] ++ L.skipChar.m_file := by
  have h := (peekChar_eq_some.mp h).1
  cases hf : L.m_file with
  | nil => simp [hf] at h
  | cons c cs =>
    simp only [hf, List.head?_cons, Option.some.injEq] at h
    simp [skipChar, hf, h]

theorem file_of_peek2 {L : Lexer n} {a b : Char} (h1 : L.peekChar = some a)
    (h2 : L.skipChar.peekChar = some b) : L.m_file = [a, b] ++ L.skipChar.skipChar.m_file := by
  rw [file_of_peek h1, file_of_peek h2]; rfl

theorem file_of_peek3 {L : Lexer n} {a b c : Char} (h1 : L.peekChar = some a)
    (h2 : L.skipChar.peekChar = some b) (h3 : L.skipChar.skipChar.peekChar = some c) :
    L.m_file = [a, b, c] ++ L.skipChar.skipChar.skipChar.m_file := by
  rw [file_of_peek2 h1 h2, file_of_peek h3]; rfl

theorem peek_any {L : Lexer n} {p : Char → Bool} (h : L.peekChar.any p = true) :
    ∃ c rest, L.m_file = c :: rest := by
  unfold peekChar at h
  cases hf : L.m_file with
  | nil => simp [hf] at h
  | cons c cs => exact ⟨c, cs, rfl⟩

theorem peek_any_spec {L : Lexer n} {p : Char → Bool} (h : L.peekChar.any p = true) :
    ∃ c rest, L.m_file = c :: rest ∧ L.peekChar = some c ∧ p c = true := by
  cases hp : L.peekChar with
  | none => simp [hp] at h
  | some c =>
    rw [hp] at h
    exact ⟨c, _, file_of_peek hp, rfl, by simpa using h⟩

theorem extension_eof (ty : TokenType) : (ty, '\xff') ∉ operatorExtensions := by
  simp [operatorExtensions]

theorem ne_eof_of_peek {L : Lexer n} {a : Char} (h : L.peekChar = some a) : a ≠ '\xff' :=
  (peekChar_eq_some.mp h).2

theorem addNextToken_adv {src : List Char} {its : List Token} {L L' : Lexer n}
    (hpos : PosInv src L) (hq : Holds L.m_tokens its) (h : addNextToken L = .ok L') :
    Adv src its L L' := by
  unfold addNextToken at h
  split at h
  · cases h
  · rename_i M hM
    injection h with h
    subst h
    exact skipWhitespaceAux_adv _ _ _ hpos hq hM
  · rename_i M hM
    have hadv := skipWhitespaceAux_adv _ _ _ hpos hq hM
    refine hadv.trans (fun its' hq' => ?_)
    have hposM : PosInv src M := hadv.choose_spec.1
    clear hadv hM hq hpos
    dsimp only at h
    have op : ∀ {lexeme : String} {ty : TokenType} {X : Lexer n},
        X.pushToken lexeme ty M.m_index = .ok L' →
        M.m_file = lexeme.data ++ X.m_file → X.m_index = M.m_index + lexeme.data.length →
        X.m_tokens = M.m_tokens → operatorText ty = some lexeme →
        (∀ d, X.peekChar = some d → (ty, d) ∉ operatorExtensions) → Adv src its' M L' := by
      intro lexeme ty X hp hf hi ht hop hnext
      refine token_adv (r := (lexeme, X)) hposM hq' ⟨hf, hi, ht⟩ rfl (operator_ne_string hop)
        (kindOk_operator hposM hop hf (fun d hd => ?_) _) hp
      by_cases h0 : d = '\xff'
      · subst h0; exact extension_eof ty
      · exact hnext d (peekChar_eq_some.mpr ⟨hd, h0⟩)
    have one : ∀ {a : Char} {lexeme : String} {ty : TokenType}, M.peekChar = some a →
        M.skipChar.pushToken lexeme ty M.m_index = .ok L' → lexeme.data = [a] →
        operatorText ty = some lexeme →
        (∀ d, M.skipChar.peekChar = some d → (ty, d) ∉ operatorExtensions) →
        Adv src its' M L' := by
      intro a lexeme ty h1 hp hl hop hnext
      exact op hp (hl ▸ file_of_peek h1) (by rw [hl]; rfl) rfl hop hnext
    have two : ∀ {a b : Char} {lexeme : String} {ty : TokenType}, M.peekChar = some a →
        M.skipChar.peekChar = some b →
        M.skipChar.skipChar.pushToken lexeme ty M.m_index = .ok L' → lexeme.data = [a, b] →
        operatorText ty = some lexeme →
        (∀ d, M.skipChar.skipChar.peekChar = some d → (ty, d) ∉ operatorExtensions) →
        Adv src its' M L' := by
      intro a b lexeme ty h1 h2 hp hl hop hnext
      exact op hp (hl ▸ file_of_peek2 h1 h2) (by rw [hl]; rfl) rfl hop hnext
    have none_ext : ∀ {ty : TokenType} {X : Lexer n},
        (∀ d, (ty, d) ∉ operatorExtensions) →
        ∀ d, X.peekChar = some d → (ty, d) ∉ operatorExtensions := fun h d _ => h d
    by_cases h0 : M.peekChar = none
    · rw [if_pos h0] at h
      exact token_adv (r := ("", M)) hposM hq' ⟨by simp, by simp, rfl⟩ rfl (by decide)
        (kindOk_eof hposM h0 _) h
    rw [if_neg h0] at h
    by_cases hc : M.peekChar = some '['
    · rw [if_pos hc] at h
      exact one hc h rfl rfl
        (none_ext (fun d => by simp [operatorExtensions]))
    rw [if_neg hc] at h
    clear hc
    by_cases hc : M.peekChar = some ']'
    · rw [if_pos hc] at h
      exact one hc h rfl rfl
        (none_ext (fun d => by simp [operatorExtensions]))
    rw [if_neg hc] at h
    clear hc
    by_cases hc : M.peekChar = some '('
    · rw [if_pos hc] at h
      exact one hc h rfl rfl
        (none_ext (fun d => by simp [operatorExtensions]))
    rw [if_neg hc] at h
    clear hc
    by_cases hc : M.peekChar = some ')'
    · rw [if_pos hc] at h
      exact one hc h rfl rfl
        (none_ext (fun d => by simp [operatorExtensions]))
    rw [if_neg hc] at h
    clear hc
    by_cases hc : M.peekChar = some '.'
    · rw [if_pos hc] at h
      exact one hc h rfl rfl
        (none_ext (fun d => by simp [operatorExtensions]))
    rw [if_neg hc] at h
    clear hc
    by_cases hc : M.peekChar = some ','
    · rw [if_pos hc] at h
      exact one hc h rfl rfl
        (none_ext (fun d => by simp [operatorExtensions]))
    rw [if_neg hc] at h
    clear hc
    by_cases hc : M.peekChar = some '+'
    · rw [if_pos hc] at h
      by_cases hd : M.skipChar.peekChar = some '+'
      · rw [if_pos hd] at h
        exact two hc hd h rfl rfl
          (none_ext (fun d => by simp [operatorExtensions]))
      rw [if_neg hd] at h
      have hd1 := hd
      clear hd
      exact one hc h rfl rfl (fun d hx => by
        rw [hx] at hd1
        simp only [Option.some.injEq] at hd1
        simp [operatorExtensions, hd1])
    rw [if_neg hc] at h
    clear hc
    by_cases hc : M.peekChar = some '-'
    · rw [if_pos hc] at h
      by_cases hd : M.skipChar.peekChar = some '-'
      · rw [if_pos hd] at h
        exact two hc hd h rfl rfl
          (none_ext (fun d => by simp [operatorExtensions]))
      rw [if_neg hd] at h
      have hd1 := hd
      clear hd
      exact one hc h rfl rfl (fun d hx => by
        rw [hx] at hd1
        simp only [Option.some.injEq] at hd1
        simp [operatorExtensions, hd1])
    rw [if_neg hc] at h
    clear hc
    by_cases hc : M.peekChar = some '*'
    · rw [if_pos hc] at h
      exact one hc h rfl rfl
        (none_ext (fun d => by simp [operatorExtensions]))
    rw [if_neg hc] at h
    clear hc
    by_cases hc : M.peekChar = some '/'
    · rw [if_pos hc] at h
      exact one hc h rfl rfl
        (none_ext (fun d => by simp [operatorExtensions]))
    rw [if_neg hc] at h
    clear hc
    by_cases hc : M.peekChar = some '%'
    · rw [if_pos hc] at h
      exact one hc h rfl rfl
        (none_ext (fun d => by simp [operatorExtensions]))
    rw [if_neg hc] at h
    clear hc
    by_cases hc : M.peekChar = some '!'
    · rw [if_pos hc] at h
      by_cases hd : M.skipChar.peekChar = some '='
      · rw [if_pos hd] at h
        exact two hc hd h rfl rfl
          (none_ext (fun d => by simp [operatorExtensions]))
      rw [if_neg hd] at h
      have hd1 := hd
      clear hd
      exact one hc h rfl rfl (fun d hx => by
        rw [hx] at hd1
        simp only [Option.some.injEq] at hd1
        simp [operatorExtensions, hd1])
    rw [if_neg hc] at h
    clear hc
    by_cases hc : M.peekChar = some '~'
    · rw [if_pos hc] at h
      exact one hc h rfl rfl
        (none_ext (fun d => by simp [operatorExtensions]))
    rw [if_neg hc] at h
    clear hc
    by_cases hc : M.peekChar = some '<'
    · rw [if_pos hc] at h
      by_cases hd : M.skipChar.peekChar = some '<'
      · rw [if_pos hd] at h
        exact two hc hd h rfl rfl
          (none_ext (fun d => by simp [operatorExtensions]))
      rw [if_neg hd] at h
      have hd1 := hd
      clear hd
      by_cases hd : M.skipChar.peekChar = some '='
      · rw [if_pos hd] at h
        exact two hc hd h rfl rfl
          (none_ext (fun d => by simp [operatorExtensions]))
      rw [if_neg hd] at h
      have hd2 := hd
      clear hd
      exact one hc h rfl rfl (fun d hx => by
        rw [hx] at hd1 hd2
        simp only [Option.some.injEq] at hd1 hd2
        simp [operatorExtensions, hd1, hd2])
    rw [if_neg hc] at h
    clear hc
    by_cases hc : M.peekChar = some '>'
    · rw [if_pos hc] at h
      by_cases hd : M.skipChar.peekChar = some '>'
      · rw [if_pos hd] at h
        by_cases he : M.skipChar.skipChar.peekChar = some '>'
        · rw [if_pos he] at h
          exact op (X := M.skipChar.skipChar.skipChar) h (file_of_peek3 hc hd he) rfl rfl rfl
            (none_ext (fun d => by simp [operatorExtensions]))
        rw [if_neg he] at h
        have he1 := he
        exact two hc hd h rfl rfl (fun d hx => by
          rw [hx] at he1
          simp only [Option.some.injEq] at he1
          simp [operatorExtensions, he1])
      rw [if_neg hd] at h
      have hd2 := hd
      clear hd
      by_cases hd : M.skipChar.peekChar = some '='
      · rw [if_pos hd] at h
        exact two hc hd h rfl rfl
          (none_ext (fun d => by simp [operatorExtensions]))
      rw [if_neg hd] at h
      have hd3 := hd
      exact one hc h rfl rfl (fun d hx => by
        rw [hx] at hd2 hd3
        simp only [Option.some.injEq] at hd2 hd3
        simp [operatorExtensions, hd2, hd3])
    rw [if_neg hc] at h
    clear hc
    by_cases hc : M.peekChar = some '='
    · rw [if_pos hc] at h
      by_cases hd : M.skipChar.peekChar = some '='
      · rw [if_pos hd] at h
        exact two hc hd h rfl rfl
          (none_ext (fun d => by simp [operatorExtensions]))
      rw [if_neg hd] at h
      have hd1 := hd
      clear hd
      exact one hc h rfl rfl (fun d hx => by
        rw [hx] at hd1
        simp only [Option.some.injEq] at hd1
        simp [operatorExtensions, hd1])
    rw [if_neg hc] at h
    clear hc
    by_cases hc : M.peekChar = some '"'
    · rw [if_pos hc] at h
      cases hr : getStringLiteral M with
      | error e => rw [hr] at h; cases h
      | ok r =>
        rw [hr] at h
        exact string_adv hposM hq' (file_of_peek hc) hr h
    rw [if_neg hc] at h
    clear hc
    by_cases hc : M.peekChar.any isdigit = true
    · rw [if_pos hc] at h
      obtain ⟨c, rest, hf, -, hdig⟩ := peek_any_spec hc
      cases hr : getNumericLiteral M with
      | error e => rw [hr] at h; cases h
      | ok r =>
        rw [hr] at h
        obtain ⟨pre, hs, hl⟩ := getNumericLiteral_spec hf hr
        obtain ⟨hform, hmax⟩ := getNumericLiteral_form hf hdig hr
        exact token_adv hposM hq' hs hl (by decide)
          (kindOk_numeric (hs.posInv hposM) hform hmax _) h
    rw [if_neg hc] at h
    clear hc
    by_cases hc : (M.peekChar.any isalpha || decide (M.peekChar = some '_')) = true
    · rw [if_pos hc] at h
      have hf : ∃ c, M.peekChar = some c := by
        cases hp : M.peekChar with
        | none => exact absurd hp h0
        | some c => exact ⟨c, rfl⟩
      obtain ⟨c, hpc⟩ := hf
      have hf := file_of_peek hpc
      cases hr : getIdentifier M with
      | error e => rw [hr] at h; cases h
      | ok r =>
        rw [hr] at h
        obtain ⟨pre, hs, hl⟩ := getIdentifier_spec hf hr
        have hal : (isalpha c || c == '_') = true := by
          simpa [hpc] using hc
        obtain ⟨hform, hmax⟩ := getIdentifier_form hf hal hr
        exact token_adv hposM hq' hs hl (by decide)
          (kindOk_identifier (hs.posInv hposM) hform hmax _) h
    rw [if_neg hc] at h
    cases h


theorem fill_adv {src : List Char} : ∀ (count : Nat) {its : List Token} {L L' : Lexer n},
    PosInv src L → Holds L.m_tokens its → fill count L = .ok L' → Adv src its L L'
  | 0, its, L, L', hpos, hq, h => by
    injection h with h
    subst h
    exact ⟨[], hpos, by simpa using hq, Nat.le_refl _⟩
  | count + 1, its, L, L', hpos, hq, h => by
    unfold fill at h
    cases hM : addNextToken L with
    | error e => rw [hM] at h; cases h
    | ok M =>
      rw [hM] at h
      have h1 := addNextToken_adv hpos hq hM
      exact h1.trans (fun its' hq' => fill_adv count h1.choose_spec.1 hq' h)

theorem new_adv {src : List Char} {L : Lexer n} (h : Lexer.new n src = .ok L) :
    ∃ its, PosInv src L ∧ Holds L.m_tokens its ∧ Spans src 0 L.m_index its := by
  have h0 : PosInv src (⟨src, 0, CircularQueue.new⟩ : Lexer n) := ⟨Nat.zero_le _, rfl⟩
  obtain ⟨news, h1, h2, h3⟩ := fill_adv n h0 holds_new h
  exact ⟨news, h1, by simpa using h2, h3⟩

theorem skip_adv {src : List Char} {t : Token} {its : List Token} {L L' : Lexer n}
    (hpos : PosInv src L) (hq : Holds L.m_tokens (t :: its)) (h : L.skip = .ok L') :
    ∃ news, PosInv src L' ∧ Holds L'.m_tokens (its ++ news) ∧
      Spans src L.m_index L'.m_index news := by
  obtain ⟨q', hq1, hq2⟩ := holds_pop hq
  unfold skip at h
  rw [hq1] at h
  exact addNextToken_adv (L := ⟨L.m_file, L.m_index, q'⟩) hpos hq2 h

theorem readAhead_of_holds {L : Lexer n} {its : List Token} (hq : Holds L.m_tokens its) :
    ∀ (count i : Nat) (ts : List Token), readAhead L i count = .ok ts →
      ts = (its.drop i).take count
  | 0, i, ts, h => by
    injection h with h
    subst h
    simp
  | count + 1, i, ts, h => by
    unfold readAhead at h
    by_cases hi : i < its.length
    · have ht : L.lookahead i = .ok its[i] := item_of_holds hq hi
      rw [ht] at h
      cases hr : readAhead L (i + 1) count with
      | error e => rw [hr] at h; cases h
      | ok ts' =>
        rw [hr] at h
        injection h with h
        subst h
        rw [readAhead_of_holds hq count (i + 1) ts' hr, List.drop_eq_getElem_cons hi,
          List.take_succ_cons]
    · have ht : L.lookahead i = .error (.out_of_range "CircularQueue: index out of bounds") := by
        unfold lookahead item
        rw [if_pos (by have := hq.1; omega)]
      rw [ht] at h
      cases h

theorem window_of_holds {L : Lexer n} {its ts : List Token} (hq : Holds L.m_tokens its)
    (h : L.window = .ok ts) : ts = its := by
  have := readAhead_of_holds hq n 0 ts h
  rw [this, List.drop_zero, List.take_of_length_le (by have := hq.1; have := hq.2.1; omega)]

theorem produced_spans {src : List Char} : ∀ (k : Nat) {L : Lexer n} {its ts : List Token}
    {lo : Nat}, PosInv src L → Holds L.m_tokens its → Spans src lo L.m_index its →
    L.produced k = .ok ts → ∃ hi, Spans src lo hi ts
  | 0, L, its, ts, lo, _, hq, hs, h => by
    rw [window_of_holds hq h]
    exact ⟨_, hs⟩
  | k + 1, L, its, ts, lo, hpos, hq, hs, h => by
    unfold produced at h
    cases its with
    | nil =>
      have : L.peek = .error
          (.underflow_error "CircularQueue: trying to access front in an empty queue") := by
        unfold peek front
        rw [if_pos (by have := hq.1; simpa using this.symm)]
      rw [this] at h
      cases h
    | cons t its =>
      have hpeek : L.peek = .ok t := front_of_holds hq
      rw [hpeek] at h
      cases hskip : L.skip with
      | error e => rw [hskip] at h; cases h
      | ok L' =>
        rw [hskip] at h
        dsimp only at h
        cases hrest : L'.produced k with
        | error e => rw [hrest] at h; cases h
        | ok ts' =>
          rw [hrest] at h
          injection h with h
          subst h
          obtain ⟨news, hpos', hq', hs'⟩ := skip_adv hpos hq hskip
          obtain ⟨hi, hfin⟩ := produced_spans k hpos' hq' (hs.2.2.append hs') hrest
          exact ⟨hi, hs.1, hs.2.1, hfin⟩

theorem tokenize_spans {src : List Char} {k : Nat} {ts : List Token}
    (h : tokenize n src k = .ok ts) : ∃ hi, Spans src 0 hi ts := by
  unfold tokenize at h
  cases hnew : Lexer.new n src with
  | error e => rw [hnew] at h; cases h
  | ok L =>
    rw [hnew] at h
    obtain ⟨its, hpos, hq, hs⟩ := new_adv hnew
    exact produced_spans k hpos hq hs h

end Lexer

theorem Spans.chain {src : List Char} : ∀ {ts : List Token} {lo hi : Nat},
    Spans src lo hi ts → List.Chain (fun t u => t.to_ ≤ u.from_) ⟨"", .EndOfFile, lo, lo⟩ ts
  | [], _, _, _ => List.Chain.nil
  | t :: ts, _, _, h => by
    refine List.Chain.cons h.1 ?_
    have := Spans.chain h.2.2
    cases ts with
    | nil => exact List.Chain.nil
    | cons u us =>
      cases this with
      | cons h1 h2 => exact List.Chain.cons h1 h2

theorem Spans.okIn {src : List Char} : ∀ {ts : List Token} {lo hi : Nat},
    Spans src lo hi ts → ∀ t ∈ ts, t.okIn src
  | [], _, _, _, t, ht => by cases ht
  | u :: us, _, _, h, t, ht => by
    rcases List.mem_cons.mp ht with rfl | ht
    · exact h.2.1
    · exact Spans.okIn h.2.2 t ht

theorem okIn_at_end {src : List Char} {t : Token} (h : t.okIn src)
    (hlo : src.length ≤ t.from_) : t = endToken src := by
  obtain ⟨h1, h2, h3, h4, _, h6, h7, _, h9⟩ := h
  have hf : t.from_ = src.length := by omega
  have ht : t.to_ = src.length := by omega
  have hns : t.type ≠ .StringLiteral := fun hs => by
    have := (h4 hs).1
    omega
  have hlex : t.lexeme = "" := by
    have := h3 hns
    rw [hf, ht] at this
    unfold slice at this
    simp only [Nat.sub_self, List.take_zero] at this
    exact String.ext this.symm
  have hty : t.type = .EndOfFile := by
    have hop : operatorText t.type = none := by
      cases hw : operatorText t.type with
      | none => rfl
      | some w =>
        exfalso
        have hl := (h9 w hw).1
        rw [hlex] at hl
        subst hl
        generalize t.type = k at hw
        cases k <;> simp [operatorText] at hw
    have hni : t.type ≠ .Identifier := fun hi => by
      have := (h6 hi).1
      rw [hlex] at this
      exact absurd this (by decide)
    have hnn : t.type ≠ .NumericLiteral := fun hi => by
      have := (h7 hi).1
      rw [hlex] at this
      exact absurd this (by decide)
    generalize t.type = k at hop hni hnn hns
    cases k
    case EndOfFile => rfl
    case Identifier => exact absurd rfl hni
    case NumericLiteral => exact absurd rfl hnn
    case StringLiteral => exact absurd rfl hns
    all_goals simp [operatorText] at hop
  obtain ⟨lexeme, type, from_, to_⟩ := t
  simp only at hf ht hlex hty
  subst hf ht hlex hty
  rfl

/-- In a source without the byte 0xFF the end-of-file token stands at the end. -/
theorem eof_from {src : List Char} (hff : ∀ c ∈ src, c ≠ '\xff') {t : Token}
    (h : t.okIn src) (hty : t.type = .EndOfFile) : t.from_ = src.length := by
  have h1 := h.2.2.2.2.1 hty
  have h2 := h.1
  have h3 := h.2.1
  by_contra hne
  have hlt : t.from_ < src.length := by omega
  have h4 : src[t.from_]? = some src[t.from_] := List.getElem?_eq_getElem hlt
  exact hff _ (List.getElem_mem hlt) (h1 _ h4)

theorem Spans.at_end {src : List Char} : ∀ {ts : List Token} {lo hi : Nat},
    Spans src lo hi ts → src.length ≤ lo → ∀ u ∈ ts, u = endToken src
  | [], _, _, _, _, u, hu => by cases hu
  | t :: ts, lo, hi, h, hlo, u, hu => by
    have ht : t = endToken src := okIn_at_end h.2.1 (Nat.le_trans hlo h.1)
    rcases List.mem_cons.mp hu with rfl | hu
    · exact ht
    · refine Spans.at_end h.2.2 ?_ u hu
      rw [ht]
      exact Nat.le_refl _

theorem Spans.after_end {src : List Char} (hff : ∀ c ∈ src, c ≠ '\xff') :
    ∀ {ts : List Token} {lo hi : Nat},
    Spans src lo hi ts → ∀ (i j : Nat) (t u : Token), i ≤ j → ts[i]? = some t →
      t.type = .EndOfFile → ts[j]? = some u → u = endToken src
  | [], _, _, _, i, j, t, u, _, h1, _, _ => by simp at h1
  | x :: ts, lo, hi, h, 0, j, t, u, _, h1, hty, h2 => by
    simp only [List.getElem?_cons_zero, Option.some.injEq] at h1
    subst h1
    have hx : x.from_ = src.length := eof_from hff h.2.1 hty
    have hall := @Spans.at_end src (x :: ts) x.from_ hi
      ⟨Nat.le_refl _, h.2.1, h.2.2⟩ (by omega)
    exact hall u (List.mem_iff_getElem?.mpr ⟨j, h2⟩)
  | x :: ts, lo, hi, h, i + 1, 0, t, u, hle, _, _, _ => by omega
  | x :: ts, lo, hi, h, i + 1, j + 1, t, u, hle, h1, hty, h2 => by
    simp only [List.getElem?_cons_succ] at h1 h2
    exact Spans.after_end hff h.2.2 i j t u (by omega) h1 hty h2

namespace CircularQueue

variable {T : Type} {n : Nat}

theorem pushAll_append : ∀ {xs ys : List T} {q q' q'' : CircularQueue T n},
    q.pushAll xs = .ok q' → q'.pushAll ys = .ok q'' → q.pushAll (xs ++ ys) = .ok q''
  | [], _, q, q', q'', h1, h2 => by
    injection h1 with h1
    subst h1
    exact h2
  | x :: xs, ys, q, q', q'', h1, h2 => by
    simp only [pushAll, List.cons_append] at h1 ⊢
    cases hp : q.push x with
    | error e => rw [hp] at h1; cases h1
    | ok q1 =>
      rw [hp] at h1
      exact pushAll_append h1 h2

theorem push_size {q q' : CircularQueue T n} {x : T} (h : q.push x = .ok q') :
    q'.m_size = q.m_size + 1 ∧ (q.m_size ≤ n → q'.m_size ≤ n) := by
  unfold push at h
  split at h
  · cases h
  · rename_i hne
    injection h with h
    subst h
    exact ⟨rfl, fun hle => by simp only; omega⟩

theorem pushAll_size : ∀ {xs : List T} {q q' : CircularQueue T n}, q.pushAll xs = .ok q' →
    q'.m_size = q.m_size + xs.length ∧ (q.m_size ≤ n → q'.m_size ≤ n)
  | [], q, q', h => by
    injection h with h
    subst h
    exact ⟨rfl, id⟩
  | x :: xs, q, q', h => by
    simp only [pushAll] at h
    cases hp : q.push x with
    | error e => rw [hp] at h; cases h
    | ok q1 =>
      rw [hp] at h
      obtain ⟨h1, h2⟩ := push_size hp
      obtain ⟨h3, h4⟩ := pushAll_size h
      exact ⟨by rw [h3, h1, List.length_cons]; omega, fun hle => h4 (h2 hle)⟩

end CircularQueue

namespace Lexer

variable {n : Nat}

open CircularQueue

theorem pushToken_pushes {L L' : Lexer n} {lexeme : String} {type : TokenType}
    {from_ : Nat} (h : L.pushToken lexeme type from_ = .ok L') :
    L.m_tokens.pushAll [⟨lexeme, type, from_, L.m_index⟩] = .ok L'.m_tokens := by
  unfold pushToken at h
  split at h
  · cases h
  · rename_i q hq
    injection h with h
    subst h
    simp only [pushAll, hq]

theorem skipWhitespaceAux_pushes : ∀ (fuel : Nat) (L : Lexer n) (r : Bool × Lexer n),
    skipWhitespaceAux fuel L = .ok r →
    ∃ news, (r.1 = true → news ≠ []) ∧ L.m_tokens.pushAll news = .ok r.2.m_tokens := by
  intro fuel
  induction fuel with
  | zero => intro L r h; cases h
  | succ fuel ih =>
    intro L r h
    unfold skipWhitespaceAux at h
    dsimp only at h
    split at h
    · split at h
      · split at h
        · cases h
        · rename_i r' hr'
          injection h with h
          subst h
          obtain ⟨news, -, hp⟩ := ih _ _ hr'
          exact ⟨news, fun h => by simp at h, hp⟩
      · split at h
        · split at h
          · cases h
          · split at h
            · cases h
            · rename_i r' hr'
              injection h with h
              subst h
              obtain ⟨news, -, hp⟩ := ih _ _ hr'
              exact ⟨news, fun h => by simp at h, hp⟩
        · split at h
          · cases h
          · rename_i L1 hL1
            injection h with h
            subst h
            have := pushToken_pushes hL1
            exact ⟨_, fun _ => by simp, this⟩
    · injection h with h
      subst h
      exact ⟨[], fun h => by simp at h, rfl⟩

/-- A successful `addNextToken` pushes at least one token, and only pushes. -/
theorem addNextToken_pushes {L L' : Lexer n} (h : addNextToken L = .ok L') :
    ∃ news, news ≠ [] ∧ L.m_tokens.pushAll news = .ok L'.m_tokens := by
  unfold addNextToken at h
  cases hw : skipWhitespace L with
  | error e' => rw [hw] at h; cases h
  | ok r =>
  obtain ⟨b, M⟩ := r
  rw [hw] at h
  obtain ⟨news0, hne0, hp0⟩ := skipWhitespaceAux_pushes _ _ _ hw
  cases b with
  | true =>
    injection h with h
    subst h
    exact ⟨news0, hne0 rfl, hp0⟩
  | false =>
  dsimp only at h hp0
  clear hw hne0
  have leaf : ∀ {X : Lexer n} {lexeme : String} {ty : TokenType},
      X.pushToken lexeme ty M.m_index = .ok L' → X.m_tokens = M.m_tokens →
      ∃ news, news ≠ [] ∧ L.m_tokens.pushAll news = .ok L'.m_tokens := by
    intro X lexeme ty hp ht
    have := pushToken_pushes hp
    rw [ht] at this
    exact ⟨news0 ++ [_], by simp, pushAll_append hp0 this⟩
  by_cases h0 : M.peekChar = none
  · rw [if_pos h0] at h
    exact leaf h rfl
  rw [if_neg h0] at h
  by_cases hc : M.peekChar = some '['
  · rw [if_pos hc] at h
    exact leaf h rfl
  rw [if_neg hc] at h
  clear hc
  by_cases hc : M.peekChar = some ']'
  · rw [if_pos hc] at h
    exact leaf h rfl
  rw [if_neg hc] at h
  clear hc
  by_cases hc : M.peekChar = some '('
  · rw [if_pos hc] at h
    exact leaf h rfl
  rw [if_neg hc] at h
  clear hc
  by_cases hc : M.peekChar = some ')'
  · rw [if_pos hc] at h
    exact leaf h rfl
  rw [if_neg hc] at h
  clear hc
  by_cases hc : M.peekChar = some '.'
  · rw [if_pos hc] at h
    exact leaf h rfl
  rw [if_neg hc] at h
  clear hc
  by_cases hc : M.peekChar = some ','
  · rw [if_pos hc] at h
    exact leaf h rfl
  rw [if_neg hc] at h
  clear hc
  by_cases hc : M.peekChar = some '+'
  · rw [if_pos hc] at h
    by_cases hd : M.skipChar.peekChar = some '+'
    · rw [if_pos hd] at h
      exact leaf h rfl
    rw [if_neg hd] at h
    clear hd
    exact leaf h rfl
  rw [if_neg hc] at h
  clear hc
  by_cases hc : M.peekChar = some '-'
  · rw [if_pos hc] at h
    by_cases hd : M.skipChar.peekChar = some '-'
    · rw [if_pos hd] at h
      exact leaf h rfl
    rw [if_neg hd] at h
    clear hd
    exact leaf h rfl
  rw [if_neg hc] at h
  clear hc
  by_cases hc : M.peekChar = some '*'
  · rw [if_pos hc] at h
    exact leaf h rfl
  rw [if_neg hc] at h
  clear hc
  by_cases hc : M.peekChar = some '/'
  · rw [if_pos hc] at h
    exact leaf h rfl
  rw [if_neg hc] at h
  clear hc
  by_cases hc : M.peekChar = some '%'
  · rw [if_pos hc] at h
    exact leaf h rfl
  rw [if_neg hc] at h
  clear hc
  by_cases hc : M.peekChar = some '!'
  · rw [if_pos hc] at h
    by_cases hd : M.skipChar.peekChar = some '='
    · rw [if_pos hd] at h
      exact leaf h rfl
    rw [if_neg hd] at h
    clear hd
    exact leaf h rfl
  rw [if_neg hc] at h
  clear hc
  by_cases hc : M.peekChar = some '~'
  · rw [if_pos hc] at h
    exact leaf h rfl
  rw [if_neg hc] at h
  clear hc
  by_cases hc : M.peekChar = some '<'
  · rw [if_pos hc] at h
    by_cases hd : M.skipChar.peekChar = some '<'
    · rw [if_pos hd] at h
      exact leaf h rfl
    rw [if_neg hd] at h
    clear hd
    by_cases hd : M.skipChar.peekChar = some '='
    · rw [if_pos hd] at h
      exact leaf h rfl
    rw [if_neg hd] at h
    clear hd
    exact leaf h rfl
  rw [if_neg hc] at h
  clear hc
  by_cases hc : M.peekChar = some '>'
  · rw [if_pos hc] at h
    by_cases hd : M.skipChar.peekChar = some '>'
    · rw [if_pos hd] at h
      by_cases he : M.skipChar.skipChar.peekChar = some '>'
      · rw [if_pos he] at h
        exact leaf h rfl
      rw [if_neg he] at h
      exact leaf h rfl
    rw [if_neg hd] at h
    clear hd
    by_cases hd : M.skipChar.peekChar = some '='
    · rw [if_pos hd] at h
      exact leaf h rfl
    rw [if_neg hd] at h
    exact leaf h rfl
  rw [if_neg hc] at h
  clear hc
  by_cases hc : M.peekChar = some '='
  · rw [if_pos hc] at h
    by_cases hd : M.skipChar.peekChar = some '='
    · rw [if_pos hd] at h
      exact leaf h rfl
    rw [if_neg hd] at h
    clear hd
    exact leaf h rfl
  rw [if_neg hc] at h
  clear hc
  by_cases hc : M.peekChar = some '"'
  · rw [if_pos hc] at h
    cases hr : getStringLiteral M with
    | error e' => rw [hr] at h; cases h
    | ok r =>
      rw [hr] at h
      obtain ⟨_, _, _, _, _, ht, _⟩ := getStringLiteral_spec (file_of_peek hc) hr
      exact leaf h ht
  rw [if_neg hc] at h
  clear hc
  by_cases hc : M.peekChar.any isdigit = true
  · rw [if_pos hc] at h
    obtain ⟨c, rest, hf⟩ := peek_any hc
    cases hr : getNumericLiteral M with
    | error e' => rw [hr] at h; cases h
    | ok r =>
      rw [hr] at h
      obtain ⟨_, ⟨_, _, ht⟩, _⟩ := getNumericLiteral_spec hf hr
      exact leaf h ht
  rw [if_neg hc] at h
  clear hc
  by_cases hc : (M.peekChar.any isalpha || decide (M.peekChar = some '_')) = true
  · rw [if_pos hc] at h
    have hf : ∃ c rest, M.m_file = c :: rest := by
      cases hfile : M.m_file with
      | nil => simp [peekChar, hfile] at h0
      | cons c cs => exact ⟨c, cs, rfl⟩
    obtain ⟨c, rest, hf⟩ := hf
    cases hr : getIdentifier M with
    | error e' => rw [hr] at h; cases h
    | ok r =>
      rw [hr] at h
      obtain ⟨_, ⟨_, _, ht⟩, _⟩ := getIdentifier_spec hf hr
      exact leaf h ht
  rw [if_neg hc] at h
  cases h


theorem fill_size : ∀ (count : Nat) {L L' : Lexer n}, fill count L = .ok L' →
    L.m_tokens.m_size + count ≤ L'.m_tokens.m_size ∧
      (L.m_tokens.m_size ≤ n → L'.m_tokens.m_size ≤ n)
  | 0, L, L', h => by
    injection h with h
    subst h
    exact ⟨Nat.le_refl _, id⟩
  | count + 1, L, L', h => by
    unfold fill at h
    cases hM : addNextToken L with
    | error e => rw [hM] at h; cases h
    | ok M =>
      rw [hM] at h
      obtain ⟨news, hne, hp⟩ := addNextToken_pushes hM
      obtain ⟨h1, h2⟩ := pushAll_size hp
      obtain ⟨h3, h4⟩ := fill_size count h
      have : 0 < news.length := List.length_pos.mpr hne
      exact ⟨by omega, fun hle => h4 (h2 hle)⟩

theorem new_size {src : List Char} {L : Lexer n} (h : Lexer.new n src = .ok L) :
    L.m_tokens.m_size = n := by
  obtain ⟨h1, h2⟩ := fill_size n h
  have h3 := h2 (Nat.zero_le _)
  have h4 : (CircularQueue.new : CircularQueue Token n).m_size = 0 := rfl
  simp only [h4] at h1
  omega

theorem skip_size {L L' : Lexer n} (hn : L.m_tokens.m_size = n) (h : L.skip = .ok L') :
    ∃ q t, L.m_tokens.pop = .ok q ∧ q.push t = .ok L'.m_tokens ∧ L'.m_tokens.m_size = n := by
  unfold skip at h
  cases hq : L.m_tokens.pop with
  | error e => rw [hq] at h; cases h
  | ok q =>
    rw [hq] at h
    obtain ⟨news, hne, hp⟩ := addNextToken_pushes h
    simp only at hp
    obtain ⟨h1, h2⟩ := pushAll_size hp
    have hq' := hq
    unfold pop at hq'
    split at hq'
    · cases hq'
    · rename_i h0
      injection hq' with hq'
      have hs : q.m_size = n - 1 := by rw [← hq']; simp only; omega
      have h3 := h2 (by omega)
      have hlen : news.length = 1 := by
        have : 0 < news.length := List.length_pos.mpr hne
        omega
      obtain ⟨t, rfl⟩ := List.length_eq_one.mp hlen
      refine ⟨q, t, rfl, ?_, by simp only [List.length_singleton] at h1; omega⟩
      simp only [pushAll] at hp
      cases hpush : q.push t with
      | error e => rw [hpush] at hp; cases hp
      | ok q1 =>
        rw [hpush] at hp
        exact hp

theorem skips_size : ∀ (k : Nat) {L L' : Lexer n}, L.m_tokens.m_size = n →
    L.skips k = .ok L' → L'.m_tokens.m_size = n
  | 0, L, L', hn, h => by
    injection h with h
    subst h
    exact hn
  | k + 1, L, L', hn, h => by
    unfold skips at h
    cases hs : L.skip with
    | error e => rw [hs] at h; cases h
    | ok L1 =>
      rw [hs] at h
      obtain ⟨_, _, _, _, h1⟩ := skip_size hn hs
      exact skips_size k h1 h

theorem skip_holds {L L' : Lexer n} {x : Token} {its : List Token}
    (hq : Holds L.m_tokens (x :: its)) (hn : (x :: its).length = n) (h : L.skip = .ok L') :
    ∃ t, Holds L'.m_tokens (its ++ [t]) := by
  obtain ⟨q, t, hpop, hpush, _⟩ := skip_size (by rw [← hq.1]; exact hn) h
  obtain ⟨q', hq1, hq2⟩ := holds_pop hq
  rw [hpop] at hq1
  injection hq1 with hq1
  subst hq1
  exact ⟨t, holds_push hq2 hpush⟩

/-- What holds of every lexer reached from a successful construction by successful skips:
its buffer holds `n` tokens. -/
theorem window_full {src : List Char} {L0 : Lexer n} (hnew : Lexer.new n src = .ok L0) :
    ∀ (i : Nat) {L : Lexer n}, L0.skips i = .ok L →
      ∃ its, Holds L.m_tokens its ∧ its.length = n := by
  have h0 : ∃ its, Holds L0.m_tokens its ∧ its.length = n := by
    obtain ⟨its, _, hq, _⟩ := new_adv hnew
    exact ⟨its, hq, by rw [hq.1]; exact new_size hnew⟩
  suffices key : ∀ (i : Nat) {L1 L : Lexer n}, (∃ its, Holds L1.m_tokens its ∧ its.length = n) →
      L1.skips i = .ok L → ∃ its, Holds L.m_tokens its ∧ its.length = n from
    fun i L h => key i h0 h
  intro i
  induction i with
  | zero =>
    intro L1 L h1 h
    injection h with h
    subst h
    exact h1
  | succ i ih =>
    intro L1 L h1 h
    unfold skips at h
    cases hs : L1.skip with
    | error e => rw [hs] at h; cases h
    | ok L2 =>
      rw [hs] at h
      refine ih ?_ h
      obtain ⟨its, hq, hlen⟩ := h1
      cases its with
      | nil =>
        exfalso
        unfold skip at hs
        have hp : L1.m_tokens.pop = .error (.underflow_error
            "CircularQueue: trying to pop from an empty queue") := by
          unfold pop
          rw [if_pos (by simpa using hq.1.symm)]
        rw [hp] at hs
        cases hs
      | cons x its =>
        obtain ⟨t, ht⟩ := skip_holds hq hlen hs
        exact ⟨_, ht, by simpa using hlen⟩

theorem produced_skips : ∀ (i : Nat) {m : Nat} {L L' : Lexer n} {ts : List Token},
    L.skips i = .ok L' → i ≤ m → L.produced m = .ok ts →
      L'.produced (m - i) = .ok (ts.drop i)
  | 0, m, L, L', ts, hs, _, hp => by
    injection hs with hs
    subst hs
    simpa using hp
  | i + 1, 0, L, L', ts, hs, hle, hp => by omega
  | i + 1, m + 1, L, L', ts, hs, hle, hp => by
    unfold skips at hs
    unfold produced at hp
    cases hpk : L.peek with
    | error e => rw [hpk] at hp; cases hp
    | ok t =>
      rw [hpk] at hp
      cases hsk : L.skip with
      | error e => rw [hsk] at hp; cases hp
      | ok L1 =>
        rw [hsk] at hp hs
        dsimp only at hp hs
        cases hr : L1.produced m with
        | error e => rw [hr] at hp; cases hp
        | ok ts' =>
          rw [hr] at hp
          injection hp with hp
          subst hp
          have := produced_skips i hs (by omega) hr
          simpa using this

theorem produced_starts : ∀ (j : Nat) {L : Lexer n} {its ts : List Token},
    Holds L.m_tokens its → its.length = n → L.produced j = .ok ts → its <+: ts
  | 0, L, its, ts, hq, _, hp => by
    rw [window_of_holds hq hp]
  | j + 1, L, its, ts, hq, hn, hp => by
    unfold produced at hp
    cases hpk : L.peek with
    | error e => rw [hpk] at hp; cases hp
    | ok t =>
      rw [hpk] at hp
      cases hsk : L.skip with
      | error e => rw [hsk] at hp; cases hp
      | ok L1 =>
        rw [hsk] at hp
        dsimp only at hp
        cases hr : L1.produced j with
        | error e => rw [hr] at hp; cases hp
        | ok ts' =>
          rw [hr] at hp
          injection hp with hp
          subst hp
          cases its with
          | nil =>
            have : L.peek = .error
                (.underflow_error "CircularQueue: trying to access front in an empty queue") := by
              unfold peek front
              rw [if_pos (by have := hq.1; simpa using this.symm)]
            rw [this] at hpk
            cases hpk
          | cons x its =>
            have hx : L.peek = .ok x := front_of_holds hq
            rw [hx] at hpk
            injection hpk with hpk
            subst hpk
            obtain ⟨u, hu⟩ := skip_holds hq hn hsk
            have := produced_starts j hu (by simpa using hn) hr
            rw [List.cons_prefix_cons]
            exact ⟨rfl, (List.prefix_append _ _).trans this⟩

theorem takeWhile_stop (p : Char → Bool) (literal : String) (file : List Char) (i : Nat)
    (h : ∀ d, file.head? = some d → p d = false) :
    takeWhile p literal file i = (literal, file, i) := by
  cases file with
  | nil => rfl
  | cons c cs =>
    unfold takeWhile
    rw [if_neg (by rw [h c rfl]; decide)]

theorem takeWhile_append (p : Char → Bool) (rest : List Char) :
    ∀ (pre : List Char) (literal : String) (i : Nat), pre.all p = true →
      takeWhile p literal (pre ++ rest) i
        = takeWhile p ⟨literal.data ++ pre⟩ rest (i + pre.length)
  | [], literal, i, _ => by simp
  | c :: pre, literal, i, h => by
    simp only [List.all_cons, Bool.and_eq_true] at h
    rw [List.cons_append, takeWhile, if_pos h.1, takeWhile_append p rest pre _ _ h.2]
    congr 1
    · simp [String.push]
    · simp only [List.length_cons]; omega

theorem skipSpaces_append (c : Char) (rest : List Char) (hc : isspace c = false) :
    ∀ (ws : List Char) (i : Nat), ws.all isspace = true →
      skipSpaces (ws ++ c :: rest) i = (c :: rest, i + ws.length)
  | [], i, _ => by
    rw [List.nil_append, skipSpaces, if_neg (by rw [hc]; decide)]
    rfl
  | w :: ws, i, h => by
    simp only [List.all_cons, Bool.and_eq_true] at h
    rw [List.cons_append, skipSpaces, if_pos h.1, skipSpaces_append c rest hc ws _ h.2]
    congr 1
    simp only [List.length_cons]; omega

theorem skipBlock_eof (cs : List Char) (i : Nat) :
    skipBlock ('\xff' :: cs) i = (false, '\xff' :: cs, i) := by
  rw [skipBlock.eq_def]
  simp

theorem skipBlock_star_nil (i : Nat) : skipBlock ['*'] i = (false, [], i + 1) := by
  rw [skipBlock]
  simp

theorem skipBlock_star_slash (ds : List Char) (i : Nat) :
    skipBlock ('*' :: '/' :: ds) i = (true, ds, i + 2) := by
  rw [skipBlock]
  simp

theorem skipBlock_star_cons {d : Char} (hd : d ≠ '/') (ds : List Char) (i : Nat) :
    skipBlock ('*' :: d :: ds) i = skipBlock (d :: ds) (i + 1) := by
  rw [skipBlock]
  simp [hd]

theorem skipBlock_cons {c : Char} (h0 : c ≠ '\xff') (hc : c ≠ '*') (cs : List Char)
    (i : Nat) : skipBlock (c :: cs) i = skipBlock cs (i + 1) := by
  conv_lhs => rw [skipBlock.eq_def]
  simp only [h0, hc, if_false]

theorem skipBlock_closed (rest : List Char) : ∀ (body : List Char) (i : Nat),
    ¬ ['*', '/'] <:+: body → (∀ c ∈ body, c ≠ '\xff') →
      skipBlock (body ++ '*' :: '/' :: rest) i = (true, rest, i + body.length + 2)
  | [], i, _, _ => by rw [List.nil_append, skipBlock_star_slash]; simp
  | c :: cs, i, h, hff => by
    have hcs : ¬ ['*', '/'] <:+: cs := fun hin => h (hin.trans (List.suffix_cons c cs).isInfix)
    have ih := skipBlock_closed rest cs (i + 1) hcs
      (fun x hx => hff x (List.mem_cons_of_mem _ hx))
    have h0 : c ≠ '\xff' := hff c (List.mem_cons_self _ _)
    rw [List.cons_append]
    by_cases hc : c = '*'
    · subst hc
      cases cs with
      | nil =>
        simp only [List.nil_append] at ih ⊢
        rw [skipBlock_star_cons (by decide), ih]
        simp only [List.length_nil, List.length_cons]
      | cons d ds =>
        have hd : d ≠ '/' := by
          rintro rfl
          exact h ⟨[], ds, by simp⟩
        rw [List.cons_append] at ih ⊢
        rw [skipBlock_star_cons hd, ih]
        simp only [List.length_cons, Prod.mk.injEq, true_and]
        omega
    · rw [skipBlock_cons h0 hc, ih]
      simp only [List.length_cons, Prod.mk.injEq, true_and]
      omega

theorem skipBlock_open : ∀ (body : List Char) (i : Nat),
    ¬ ['*', '/'] <:+: body → (skipBlock body i).1 = false
  | [], i, _ => by simp [skipBlock]
  | c :: cs, i, h => by
    have hcs : ¬ ['*', '/'] <:+: cs := fun hin => h (hin.trans (List.suffix_cons c cs).isInfix)
    have ih := skipBlock_open cs (i + 1) hcs
    by_cases h0 : c = '\xff'
    · subst h0
      rw [skipBlock_eof]
    by_cases hc : c = '*'
    · subst hc
      cases cs with
      | nil => rw [skipBlock_star_nil]
      | cons d ds =>
        have hd : d ≠ '/' := by
          rintro rfl
          exact h ⟨[], ds, by simp⟩
        rw [skipBlock_star_cons hd, ih]
    · rw [skipBlock_cons h0 hc, ih]

/-- A byte 0xFF in the body of a block comment ends the loop: the comment counts as
unterminated whatever follows. -/
theorem skipBlock_at_eof (rest : List Char) : ∀ (body : List Char) (i : Nat),
    ¬ ['*', '/'] <:+: body → (skipBlock (body ++ '\xff' :: rest) i).1 = false
  | [], i, _ => by rw [List.nil_append, skipBlock_eof]
  | c :: cs, i, h => by
    have hcs : ¬ ['*', '/'] <:+: cs := fun hin => h (hin.trans (List.suffix_cons c cs).isInfix)
    have ih := skipBlock_at_eof rest cs (i + 1) hcs
    rw [List.cons_append]
    by_cases h0 : c = '\xff'
    · subst h0
      rw [skipBlock_eof]
    by_cases hc : c = '*'
    · subst hc
      cases cs with
      | nil =>
        rw [List.nil_append] at ih ⊢
        rw [skipBlock_star_cons (by decide), ih]
      | cons d ds =>
        have hd : d ≠ '/' := by
          rintro rfl
          exact h ⟨[], ds, by simp⟩
        rw [List.cons_append] at ih ⊢
        rw [skipBlock_star_cons hd, ih]
    · rw [skipBlock_cons h0 hc, ih]


theorem skipWhitespaceAux_fuel : ∀ (f f' : Nat) (L : Lexer n), L.m_file.length < f →
    L.m_file.length < f' → skipWhitespaceAux f L = skipWhitespaceAux f' L
  | 0, _, _, h, _ => absurd h (Nat.not_lt_zero _)
  | _ + 1, 0, _, _, h => absurd h (Nat.not_lt_zero _)
  | f + 1, f' + 1, L, h, h' => by
    obtain ⟨pre, hpre, -⟩ := skipSpaces_spec L.m_file L.m_index
    have hlen : (skipSpaces L.m_file L.m_index).1.length ≤ L.m_file.length := by
      conv_rhs => rw [hpre]
      simp
    unfold skipWhitespaceAux
    dsimp only
    generalize skipSpaces L.m_file L.m_index = s at hlen
    obtain ⟨file1, idx1⟩ := s
    simp only at hlen
    cases file1 with
    | nil => simp [peekChar]
    | cons c rest1 =>
      cases rest1 with
      | nil => simp [peekChar, skipChar]
      | cons d rest2 =>
        simp only [List.length_cons] at hlen
        simp only [peekChar, skipChar, List.head?_cons, List.tail_cons, Option.some.injEq]
        have e1 : ∀ X : Lexer n, X.m_file.length ≤ rest2.length →
            skipWhitespaceAux f X = skipWhitespaceAux f' X :=
          fun X hX => skipWhitespaceAux_fuel f f' X (by omega) (by omega)
        have hl : (skipLine rest2 (idx1 + 1 + 1)).1.length ≤ rest2.length := by
          obtain ⟨p, hp, -⟩ := skipLine_spec rest2 (idx1 + 1 + 1)
          conv_rhs => rw [hp]
          simp
        have hb : (skipBlock rest2 (idx1 + 1 + 1)).2.1.length ≤ rest2.length := by
          obtain ⟨p, hp, -⟩ := skipBlock_spec rest2 (idx1 + 1 + 1)
          conv_rhs => rw [hp]
          simp
        rw [e1 _ hl, e1 _ hb]

/-- The method `skipWhitespace` has fuel to spare: more fuel changes nothing. -/
theorem skipWhitespaceAux_eq (f : Nat) (L : Lexer n) (h : L.m_file.length < f) :
    skipWhitespaceAux f L = skipWhitespace L :=
  skipWhitespaceAux_fuel f _ L h (Nat.lt_succ_self _)

theorem addNextToken_digit {L M : Lexer n} (hw : skipWhitespace L = .ok (false, M))
    {c : Char} (hc : M.peekChar = some c) (hd : isdigit c = true) :
    addNextToken L =
      match getNumericLiteral M with
      | .error e => .error e
      | .ok r => r.2.pushToken r.1 .NumericLiteral M.m_index := by
  unfold addNextToken
  rw [hw]
  dsimp only
  have ne : ∀ x : Char, isdigit x = false → ¬ M.peekChar = some x := by
    intro x hx h
    rw [hc] at h
    injection h with h
    subst h
    rw [hd] at hx
    cases hx
  rw [if_neg (by rw [hc]; exact fun h => nomatch h)]
  rw [if_neg (ne '[' (by decide))]
  rw [if_neg (ne ']' (by decide))]
  rw [if_neg (ne '(' (by decide))]
  rw [if_neg (ne ')' (by decide))]
  rw [if_neg (ne '.' (by decide))]
  rw [if_neg (ne ',' (by decide))]
  rw [if_neg (ne '+' (by decide))]
  rw [if_neg (ne '-' (by decide))]
  rw [if_neg (ne '*' (by decide))]
  rw [if_neg (ne '/' (by decide))]
  rw [if_neg (ne '%' (by decide))]
  rw [if_neg (ne '!' (by decide))]
  rw [if_neg (ne '~' (by decide))]
  rw [if_neg (ne '<' (by decide))]
  rw [if_neg (ne '>' (by decide))]
  rw [if_neg (ne '=' (by decide))]
  rw [if_neg (ne '"' (by decide))]
  exact (if_pos (by rw [hc]; exact hd)).trans rfl

theorem addNextToken_quote {L M : Lexer n} (hw : skipWhitespace L = .ok (false, M))
    (hc : M.peekChar = some '"') :
    addNextToken L =
      match getStringLiteral M with
      | .error e => .error e
      | .ok r => r.2.pushToken r.1 .StringLiteral M.m_index := by
  unfold addNextToken
  rw [hw]
  dsimp only
  rw [if_neg (by rw [hc]; exact fun h => nomatch h)]
  rw [if_neg (by rw [hc]; decide)]
  rw [if_neg (by rw [hc]; decide)]
  rw [if_neg (by rw [hc]; decide)]
  rw [if_neg (by rw [hc]; decide)]
  rw [if_neg (by rw [hc]; decide)]
  rw [if_neg (by rw [hc]; decide)]
  rw [if_neg (by rw [hc]; decide)]
  rw [if_neg (by rw [hc]; decide)]
  rw [if_neg (by rw [hc]; decide)]
  rw [if_neg (by rw [hc]; decide)]
  rw [if_neg (by rw [hc]; decide)]
  rw [if_neg (by rw [hc]; decide)]
  rw [if_neg (by rw [hc]; decide)]
  rw [if_neg (by rw [hc]; decide)]
  rw [if_neg (by rw [hc]; decide)]
  rw [if_neg (by rw [hc]; decide)]
  exact (if_pos hc).trans rfl


theorem getPrefixed_none {L : Lexer n} {x : Char} {rest : List Char} {p : Char → Bool}
    (hf : L.m_file = x :: rest) (h : ∀ d, rest.head? = some d → p d = false)
    (what : String) (c : Char) :
    getPrefixed p what ("".push c) L = .error (.range_error what) := by
  unfold getPrefixed
  rw [takeChar_cons hf]
  simp only
  rw [takeWhile_stop p _ rest _ h]
  rw [if_pos (by rfl)]

theorem string_body_all {body : List Char} (hbody : ∀ c ∈ body, c ≠ '"' ∧ c ≠ '\n')
    (hff : ∀ c ∈ body, c ≠ '\xff') :
    body.all (fun c => c != '"' && c != '\n' && c != '\xff') = true := by
  rw [List.all_eq_true]
  intro c hc
  have := hbody c hc
  have := hff c hc
  simp_all

theorem getStringLiteral_closed {L : Lexer n} {body rest : List Char}
    (hf : L.m_file = '"' :: (body ++ '"' :: rest))
    (hbody : ∀ c ∈ body, c ≠ '"' ∧ c ≠ '\n') (hff : ∀ c ∈ body, c ≠ '\xff') :
    getStringLiteral L
      = .ok (⟨body⟩, ⟨rest, L.m_index + 1 + body.length + 1, L.m_tokens⟩) := by
  have hall := string_body_all hbody hff
  unfold getStringLiteral
  simp only [skipChar, hf, List.tail_cons]
  rw [takeWhile_append _ _ _ _ _ hall, takeWhile_stop _ _ _ _ (by simp)]
  simp [peekChar]

theorem getStringLiteral_newline {L : Lexer n} {body rest : List Char}
    (hf : L.m_file = '"' :: (body ++ '\n' :: rest))
    (hbody : ∀ c ∈ body, c ≠ '"' ∧ c ≠ '\n') (hff : ∀ c ∈ body, c ≠ '\xff') :
    getStringLiteral L
      = .error (.range_error "Reached end-of-line before ending string literal.") := by
  have hall := string_body_all hbody hff
  unfold getStringLiteral
  simp only [skipChar, hf, List.tail_cons]
  rw [takeWhile_append _ _ _ _ _ hall, takeWhile_stop _ _ _ _ (by simp)]
  simp [peekChar]

/-- A byte 0xFF in the body of a string literal ends the loop like the end of the file,
whatever follows it. -/
theorem getStringLiteral_at_eof {L : Lexer n} {body rest : List Char}
    (hf : L.m_file = '"' :: (body ++ '\xff' :: rest))
    (hbody : ∀ c ∈ body, c ≠ '"' ∧ c ≠ '\n') (hff : ∀ c ∈ body, c ≠ '\xff') :
    getStringLiteral L
      = .error (.range_error "Reached end-of-file before ending string literal.") := by
  have hall := string_body_all hbody hff
  unfold getStringLiteral
  simp only [skipChar, hf, List.tail_cons]
  rw [takeWhile_append _ _ _ _ _ hall, takeWhile_stop _ _ _ _ (by simp)]
  simp [peekChar]

theorem getStringLiteral_eof {L : Lexer n} {body : List Char}
    (hf : L.m_file = '"' :: body) (hbody : ∀ c ∈ body, c ≠ '"' ∧ c ≠ '\n') :
    getStringLiteral L
      = .error (.range_error "Reached end-of-file before ending string literal.") := by
  unfold getStringLiteral
  simp only [skipChar, hf, List.tail_cons]
  obtain ⟨pre, h1, -, -, -, h5⟩ := takeWhile_full
    (fun c => c != '"' && c != '\n' && c != '\xff') "" body (L.m_index + 1)
  generalize takeWhile (fun c => c != '"' && c != '\n' && c != '\xff') "" body
    (L.m_index + 1) = s at h1 h5
  obtain ⟨lit, file', idx'⟩ := s
  simp only at h1 h5 ⊢
  cases file' with
  | nil => simp [peekChar]
  | cons d rest' =>
    have hd := h5 d rfl
    have hmem : d ∈ body := by rw [h1]; simp
    have := hbody d hmem
    have h0 : d = '\xff' := by
      by_contra h0
      have : (d != '"' && d != '\n' && d != '\xff') = true := by simp [this.1, this.2, h0]
      simp only [this] at hd
      cases hd
    subst h0
    simp [peekChar]

theorem skipLine_body (rest : List Char) : ∀ (body : List Char) (i : Nat),
    (∀ c ∈ body, c ≠ '\n') → (∀ c ∈ body, c ≠ '\xff') →
      skipLine (body ++ '\n' :: rest) i = ('\n' :: rest, i + body.length)
  | [], i, _, _ => by simp [skipLine]
  | c :: cs, i, h, hff => by
    have hc : c ≠ '\n' := h c (List.mem_cons_self _ _)
    have h0 : c ≠ '\xff' := hff c (List.mem_cons_self _ _)
    rw [List.cons_append, skipLine, if_neg (by simp [hc, h0]),
      skipLine_body rest cs (i + 1) (fun d hd => h d (List.mem_cons_of_mem _ hd))
        (fun d hd => hff d (List.mem_cons_of_mem _ hd))]
    simp only [List.length_cons, Prod.mk.injEq, true_and]
    omega

theorem skipLine_all : ∀ (body : List Char) (i : Nat),
    (∀ c ∈ body, c ≠ '\n') → (∀ c ∈ body, c ≠ '\xff') →
      skipLine body i = ([], i + body.length)
  | [], i, _, _ => by simp [skipLine]
  | c :: cs, i, h, hff => by
    have hc : c ≠ '\n' := h c (List.mem_cons_self _ _)
    have h0 : c ≠ '\xff' := hff c (List.mem_cons_self _ _)
    rw [skipLine, if_neg (by simp [hc, h0]),
      skipLine_all cs (i + 1) (fun d hd => h d (List.mem_cons_of_mem _ hd))
        (fun d hd => hff d (List.mem_cons_of_mem _ hd))]
    simp only [List.length_cons, Prod.mk.injEq, true_and]
    omega

/-- A byte 0xFF in a line comment ends the loop there. -/
theorem skipLine_at_eof (rest : List Char) : ∀ (body : List Char) (i : Nat),
    (∀ c ∈ body, c ≠ '\n') → (∀ c ∈ body, c ≠ '\xff') →
      skipLine (body ++ '\xff' :: rest) i = ('\xff' :: rest, i + body.length)
  | [], i, _, _ => by simp [skipLine]
  | c :: cs, i, h, hff => by
    have hc : c ≠ '\n' := h c (List.mem_cons_self _ _)
    have h0 : c ≠ '\xff' := hff c (List.mem_cons_self _ _)
    rw [List.cons_append, skipLine, if_neg (by simp [hc, h0]),
      skipLine_at_eof rest cs (i + 1) (fun d hd => h d (List.mem_cons_of_mem _ hd))
        (fun d hd => hff d (List.mem_cons_of_mem _ hd))]
    simp only [List.length_cons, Prod.mk.injEq, true_and]
    omega

theorem skipWhitespace_space {c : Char} (hc : isspace c = true) (rest : List Char) (i : Nat)
    (q : CircularQueue Token n) :
    skipWhitespace ⟨c :: rest, i, q⟩ = skipWhitespace ⟨rest, i + 1, q⟩ := by
  show skipWhitespaceAux (rest.length + 1 + 1) ⟨c :: rest, i, q⟩
    = skipWhitespaceAux (rest.length + 1) ⟨rest, i + 1, q⟩
  rw [skipWhitespaceAux_fuel (rest.length + 1) (rest.length + 1 + 1) ⟨rest, i + 1, q⟩
    (Nat.lt_succ_self _) (by simp only; omega)]
  conv_lhs => rw [skipWhitespaceAux]
  conv_rhs => rw [skipWhitespaceAux]
  simp only [skipSpaces, if_pos hc]

theorem skipWhitespace_line (i : Nat) (q : CircularQueue Token n) (tail : List Char) :
    skipWhitespace ⟨'/' :: '/' :: tail, i, q⟩ =
      match skipWhitespace ⟨(skipLine tail (i + 1 + 1)).1, (skipLine tail (i + 1 + 1)).2, q⟩ with
      | .error e => .error e
      | .ok r => .ok (false, r.2) := by
  unfold skipWhitespace
  rw [skipWhitespaceAux]
  simp only [skipSpaces, show isspace '/' = false by decide, Bool.false_eq_true, if_false,
    peekChar, skipChar, List.head?_cons, List.tail_cons, if_true]
  rw [skipWhitespaceAux_eq _ _ (by
    obtain ⟨p, hp, -⟩ := skipLine_spec tail (i + 1 + 1)
    simp only [List.length_cons]
    have : tail.length = p.length + (skipLine tail (i + 1 + 1)).1.length := by
      conv_lhs => rw [hp]
      simp
    omega)]
  rfl

theorem skipWhitespace_block (i : Nat) (q : CircularQueue Token n) {body : List Char}
    (rest : List Char) (hbody : ¬ ['*', '/'] <:+: body) (hff : ∀ c ∈ body, c ≠ '\xff') :
    skipWhitespace ⟨'/' :: '*' :: (body ++ '*' :: '/' :: rest), i, q⟩ =
      match skipWhitespace ⟨rest, i + 1 + 1 + body.length + 2, q⟩ with
      | .error e => .error e
      | .ok r => .ok (false, r.2) := by
  unfold skipWhitespace
  rw [skipWhitespaceAux]
  simp only [skipSpaces, show isspace '/' = false by decide, Bool.false_eq_true, if_false,
    peekChar, skipChar, List.head?_cons, List.tail_cons, if_true]
  rw [if_pos (by decide), if_neg (by decide), if_pos (by decide),
    skipBlock_closed rest body _ hbody hff]
  simp only [Bool.not_true, Bool.false_eq_true, if_false]
  rw [skipWhitespaceAux_eq _ _ (by
    simp only [List.length_append, List.length_cons]; omega)]
  rfl

theorem skipWhitespace_blank : ∀ {file : List Char}, Blank file →
    (∀ c ∈ file, c ≠ '\xff') → ∀ (i : Nat) (q : CircularQueue Token n),
      skipWhitespace ⟨file, i, q⟩ = .ok (false, ⟨[], i + file.length, q⟩) := by
  intro file h
  induction h with
  | nil =>
    intro _ i q
    rfl
  | space hc _ ih =>
    intro hff i q
    rw [skipWhitespace_space hc, ih (fun c hc => hff c (List.mem_cons_of_mem _ hc))]
    simp only [List.length_cons, Except.ok.injEq, Prod.mk.injEq, true_and]
    congr 1
    omega
  | lineEnd body hb =>
    intro hff i q
    rw [skipWhitespace_line, skipLine_all body _ hb
      (fun c hc => hff c (List.mem_cons_of_mem _ (List.mem_cons_of_mem _ hc)))]
    simp only [List.length_cons]
    have : skipWhitespace (⟨[], i + 1 + 1 + body.length, q⟩ : Lexer n)
        = .ok (false, ⟨[], i + 1 + 1 + body.length, q⟩) := rfl
    rw [this]
    simp only [Except.ok.injEq, Prod.mk.injEq, true_and]
    congr 1
    omega
  | @line body rest hb _ ih =>
    intro hff i q
    have hff' : ∀ c ∈ body ++ '\n' :: rest, c ≠ '\xff' :=
      fun c hc => hff c (List.mem_cons_of_mem _ (List.mem_cons_of_mem _ hc))
    rw [skipWhitespace_line, skipLine_body rest body _ hb
      (fun c hc => hff' c (List.mem_append_left _ hc))]
    simp only
    rw [skipWhitespace_space (by decide),
      ih (fun c hc => hff' c (List.mem_append_right _ (List.mem_cons_of_mem _ hc)))]
    simp only [List.length_cons, List.length_append, Except.ok.injEq, Prod.mk.injEq,
      true_and]
    congr 1
    omega
  | @block body rest hb _ ih =>
    intro hff i q
    have hff' : ∀ c ∈ body ++ '*' :: '/' :: rest, c ≠ '\xff' :=
      fun c hc => hff c (List.mem_cons_of_mem _ (List.mem_cons_of_mem _ hc))
    rw [skipWhitespace_block i q rest hb (fun c hc => hff' c (List.mem_append_left _ hc)),
      ih (fun c hc => hff' c (List.mem_append_right _
        (List.mem_cons_of_mem _ (List.mem_cons_of_mem _ hc))))]
    simp only [List.length_cons, List.length_append, Except.ok.injEq, Prod.mk.injEq,
      true_and]
    congr 1
    omega

theorem addNextToken_blank {src : List Char} {L : Lexer n} (hpos : PosInv src L)
    (hb : Blank L.m_file) (hff : ∀ c ∈ L.m_file, c ≠ '\xff') :
    addNextToken L = pushToken ⟨[], src.length, L.m_tokens⟩ "" .EndOfFile src.length := by
  have hlen : L.m_index + L.m_file.length = src.length := by
    have := hpos.1
    rw [hpos.2, List.length_drop]
    omega
  have hw := skipWhitespace_blank hb hff L.m_index L.m_tokens
  rw [hlen] at hw
  unfold addNextToken
  have e : L = ⟨L.m_file, L.m_index, L.m_tokens⟩ := rfl
  rw [e, hw]
  rfl

theorem takeWhile_run (p : Char → Bool) : ∀ (file : List Char) (literal : String) (i : Nat),
    takeWhile p literal file i =
      (⟨literal.data ++ file.takeWhile p⟩, file.dropWhile p, i + (file.takeWhile p).length)
  | [], literal, i => by simp [takeWhile]
  | c :: cs, literal, i => by
    unfold takeWhile
    by_cases hc : p c = true
    · rw [if_pos hc, takeWhile_run p cs]
      simp only [List.takeWhile_cons, hc, if_true, List.dropWhile_cons, String.push,
        List.append_assoc, List.singleton_append, List.length_cons, Prod.mk.injEq, true_and]
      omega
    · rw [if_neg hc]
      simp [List.takeWhile_cons, List.dropWhile_cons, hc]

theorem letter_not_digit {c : Char} (h : letter c = true) : isdigit c = false := by
  unfold letter at h
  unfold isdigit
  simp only [Bool.or_eq_true, decide_eq_true_eq] at h
  simp only [decide_eq_false_iff_not, not_and]
  intro h0 h9
  rw [char_le_iff] at h0 h9
  have e0 : '0'.toNat = 48 := rfl
  have e9 : '9'.toNat = 57 := rfl
  rcases h with ⟨h1, h2⟩ | ⟨h1, h2⟩ <;> rw [char_le_iff] at h1 h2
  · have : 'a'.toNat = 97 := rfl
    omega
  · have : 'A'.toNat = 65 := rfl
    omega

theorem addNextToken_alpha {L M : Lexer n} (hw : skipWhitespace L = .ok (false, M))
    {c : Char} (hc : M.peekChar = some c) (hl : letter c = true ∨ c = '_') :
    addNextToken L =
      match getIdentifier M with
      | .error e => .error e
      | .ok r => r.2.pushToken r.1 .Identifier M.m_index := by
  unfold addNextToken
  rw [hw]
  dsimp only
  have ne : ∀ x : Char, (letter x || x == '_') = false → ¬ M.peekChar = some x := by
    intro x hx h
    rw [hc] at h
    injection h with h
    subst h
    rcases hl with hl | hl
    · simp [hl] at hx
    · simp [hl] at hx
  have hdig : isdigit c = false := by
    rcases hl with hl | hl
    · exact letter_not_digit hl
    · rw [hl]; decide
  rw [if_neg (by rw [hc]; exact fun h => nomatch h)]
  rw [if_neg (ne '[' (by decide))]
  rw [if_neg (ne ']' (by decide))]
  rw [if_neg (ne '(' (by decide))]
  rw [if_neg (ne ')' (by decide))]
  rw [if_neg (ne '.' (by decide))]
  rw [if_neg (ne ',' (by decide))]
  rw [if_neg (ne '+' (by decide))]
  rw [if_neg (ne '-' (by decide))]
  rw [if_neg (ne '*' (by decide))]
  rw [if_neg (ne '/' (by decide))]
  rw [if_neg (ne '%' (by decide))]
  rw [if_neg (ne '!' (by decide))]
  rw [if_neg (ne '~' (by decide))]
  rw [if_neg (ne '<' (by decide))]
  rw [if_neg (ne '>' (by decide))]
  rw [if_neg (ne '=' (by decide))]
  rw [if_neg (ne '"' (by decide))]
  rw [if_neg (by rw [hc]; simp [hdig])]
  exact (if_pos (by
    rw [hc]
    rcases hl with hl | hl
    · simp [isalpha_eq, hl]
    · simp [hl])).trans rfl

theorem addNextToken_other {L M : Lexer n} (hw : skipWhitespace L = .ok (false, M))
    {c : Char} (hc : M.peekChar = some c)
    (hop : c ∉ ['[', ']', '(', ')', '.', ',', '+', '-', '*', '/', '%', '!', '~', '<', '>',
      '=', '"'])
    (hd : isdigit c = false) (hl : isalpha c = false) (hu : c ≠ '_') :
    addNextToken L = .error (.logic_error "Unrecognized token.") := by
  unfold addNextToken
  rw [hw]
  dsimp only
  have ne : ∀ x : Char, c ≠ x → ¬ M.peekChar = some x := by
    intro x hx h
    rw [hc] at h
    injection h with h
    exact hx h
  rw [if_neg (by rw [hc]; exact fun h => nomatch h)]
  rw [if_neg (ne '[' (fun h => hop (by rw [h]; decide)))]
  rw [if_neg (ne ']' (fun h => hop (by rw [h]; decide)))]
  rw [if_neg (ne '(' (fun h => hop (by rw [h]; decide)))]
  rw [if_neg (ne ')' (fun h => hop (by rw [h]; decide)))]
  rw [if_neg (ne '.' (fun h => hop (by rw [h]; decide)))]
  rw [if_neg (ne ',' (fun h => hop (by rw [h]; decide)))]
  rw [if_neg (ne '+' (fun h => hop (by rw [h]; decide)))]
  rw [if_neg (ne '-' (fun h => hop (by rw [h]; decide)))]
  rw [if_neg (ne '*' (fun h => hop (by rw [h]; decide)))]
  rw [if_neg (ne '/' (fun h => hop (by rw [h]; decide)))]
  rw [if_neg (ne '%' (fun h => hop (by rw [h]; decide)))]
  rw [if_neg (ne '!' (fun h => hop (by rw [h]; decide)))]
  rw [if_neg (ne '~' (fun h => hop (by rw [h]; decide)))]
  rw [if_neg (ne '<' (fun h => hop (by rw [h]; decide)))]
  rw [if_neg (ne '>' (fun h => hop (by rw [h]; decide)))]
  rw [if_neg (ne '=' (fun h => hop (by rw [h]; decide)))]
  rw [if_neg (ne '"' (fun h => hop (by rw [h]; decide)))]
  rw [if_neg (by rw [hc]; simp [hd])]
  rw [if_neg (by rw [hc]; simp [hl, hu])]

theorem Takes.join {L M N : Lexer 2} {a b : List Token} (h1 : Takes L a M)
    (h2 : Takes M b N) : Takes L (a ++ b) N := by
  induction h1 with
  | nil L => exact h2
  | cons hp hs _ ih => exact .cons hp hs (ih h2)

theorem Takes.one {L M : Lexer 2} {t : Token} (hp : L.peek = .ok t) (hs : L.skip = .ok M) :
    Takes L [t] M := .cons hp hs (.nil M)

theorem Fed.new {src : List Char} {L : Lexer n} (h : Lexer.new n src = .ok L) :
    Fed src 0 L := new_adv h

theorem Fed.skip {src : List Char} {lo : Nat} {L L1 : Lexer n} {t : Token}
    (h : Fed src lo L) (ht : L.peek = .ok t) (hs : L.skip = .ok L1) :
    lo ≤ t.from_ ∧ t.okIn src ∧ Fed src t.to_ L1 := by
  obtain ⟨its, hpos, hq, hsp⟩ := h
  cases its with
  | nil =>
    have h0 : L.m_tokens.m_size = 0 := hq.1.symm
    unfold peek CircularQueue.front at ht
    rw [if_pos h0] at ht
    cases ht
  | cons u rest =>
    have hu := front_of_holds hq
    unfold peek at ht
    rw [hu] at ht
    injection ht with ht
    subst ht
    obtain ⟨news, h1, h2, h3⟩ := skip_adv hpos hq hs
    exact ⟨hsp.1, hsp.2.1, rest ++ news, h1, h2, hsp.2.2.append h3⟩

theorem Fed.step {src : List Char} {lo : Nat} {L L1 : Lexer n} (h : Fed src lo L)
    (hs : L.skip = .ok L1) : ∃ lo1, Fed src lo1 L1 := by
  cases ht : L.peek with
  | ok t => exact ⟨_, (h.skip ht hs).2.2⟩
  | error e =>
    exfalso
    unfold Lexer.peek CircularQueue.front at ht
    unfold Lexer.skip CircularQueue.pop at hs
    by_cases h0 : L.m_tokens.m_size = 0
    · rw [if_pos h0] at hs
      cases hs
    · rw [if_neg h0] at ht
      obtain ⟨its, _, hq, _⟩ := h
      cases its with
      | nil => exact h0 hq.1.symm
      | cons u rest =>
        have hu := front_of_holds hq
        unfold CircularQueue.front at hu
        rw [if_neg h0] at hu
        rw [hu] at ht
        cases ht

theorem Fed.reaches {src : List Char} {L M : Lexer 2} (hr : Reaches L M) :
    ∀ {lo : Nat}, Fed src lo L → ∃ lo1, Fed src lo1 M := by
  induction hr with
  | refl L => exact fun h => ⟨_, h⟩
  | step hs _ ih =>
    intro lo h
    obtain ⟨lo1, h1⟩ := h.step hs
    exact ih h1

theorem Takes.spans {src : List Char} {L M : Lexer 2} {ts : List Token} (h : Takes L ts M) :
    ∀ {lo : Nat}, Fed src lo L → ∃ hi, Spans src lo hi ts ∧ Fed src hi M := by
  induction h with
  | nil L => exact fun h => ⟨_, Nat.le_refl _, h⟩
  | cons hp hs _ ih =>
    intro lo h
    obtain ⟨h1, h2, h3⟩ := h.skip hp hs
    obtain ⟨hi, h4, h5⟩ := ih h3
    exact ⟨hi, ⟨h1, h2, h4⟩, h5⟩

end Lexer

theorem Spans.split {src : List Char} : ∀ {xs ys : List Token} {lo hi : Nat},
    Spans src lo hi (xs ++ ys) → ∃ mid, Spans src lo mid xs ∧ Spans src mid hi ys
  | [], _, lo, _, h => ⟨lo, Nat.le_refl _, h⟩
  | x :: xs, _, _, _, h => by
    obtain ⟨mid, h1, h2⟩ := @Spans.split src xs _ _ _ h.2.2
    exact ⟨mid, ⟨h.1, h.2.1, h1⟩, h2⟩

theorem slice_nonempty {src : List Char} {a b : Nat} (h : slice src a b ≠ []) : a < b := by
  by_contra hle
  apply h
  unfold slice
  rw [show b - a = 0 by omega]
  rfl

theorem Token.okIn.nonempty {src : List Char} {t : Token} (h : t.okIn src)
    (hne : t.type ≠ .EndOfFile) : t.from_ < t.to_ := by
  obtain ⟨_, _, h3, h4, _, hid, hnum, _, hop⟩ := h
  by_cases hs : t.type = .StringLiteral
  · have := (h4 hs).1
    omega
  · refine @slice_nonempty src _ _ ?_
    rw [h3 hs]
    by_cases hi : t.type = .Identifier
    · have := (hid hi).1
      intro h0
      rw [h0] at this
      cases this
    · by_cases hn : t.type = .NumericLiteral
      · have := (hnum hn).1
        intro h0
        rw [h0] at this
        cases this
      · have : ∃ w, operatorText t.type = some w ∧ w.data ≠ [] := by
          generalize t.type = ty at hne hs hi hn
          cases ty <;> first | exact absurd rfl hne | exact absurd rfl hs | exact absurd rfl hi | exact absurd rfl hn | exact ⟨_, rfl, by decide⟩
        obtain ⟨w, hw, hw2⟩ := this
        rw [(hop w hw).1]
        exact hw2

theorem Spans.count {src : List Char} : ∀ {ts : List Token} {lo hi : Nat},
    Spans src lo hi ts → (∀ t ∈ ts, t.type ≠ .EndOfFile) → lo + ts.length ≤ hi
  | [], _, _, h, _ => h
  | t :: ts, _, _, h, hne => by
    have h1 := h.1
    have h2 := h.2.1.nonempty (hne t (List.mem_cons_self _ _))
    have h3 := Spans.count h.2.2 (fun u hu => hne u (List.mem_cons_of_mem _ hu))
    simp only [List.length_cons]
    omega

namespace testLexer
open Lexer CircularQueue

theorem named_ok {ty : TokenType} (h : ty ∈ named) :
    ty ≠ .EndOfFile ∧ tokenTypeToString ty = .ok (nameOf ty) := by
  simp only [named, List.mem_cons, List.mem_singleton, List.not_mem_nil, or_false] at h
  rcases h with rfl | rfl | rfl | rfl | rfl | rfl <;> exact ⟨by decide, rfl⟩

theorem unnamed_throws {ty : TokenType} (h : ty ∉ TokenType.EndOfFile :: named) :
    ty ≠ .EndOfFile ∧
      tokenTypeToString ty = .error (.logic_error "Unimplemented string for TokenType.") := by
  cases ty <;> first | exact ⟨by decide, rfl⟩ | exact absurd (by decide) h

theorem entries_cons (t : Token) (ts : List Token) :
    entries (t :: ts) = entry t ++ entries ts := by
  rfl

theorem mainLoop_entries (e : Token) : ∀ (ts : List Token) (L : Lexer 1) (x : Token),
    Holds L.m_tokens [x] → L.produced ts.length = .ok (ts ++ [e]) →
    (∀ t ∈ ts, t.type ∈ named) →
    ∃ M : Lexer 1, M.peek = .ok e ∧ ∀ fuel cout,
      mainLoop (fuel + ts.length) L cout = mainLoop fuel M (cout ++ entries ts)
  | [], L, x, hq, hp, _ => by
    have hw : [e] = [x] := window_of_holds hq hp
    injection hw with hw
    subst hw
    refine ⟨L, front_of_holds hq, fun fuel cout => ?_⟩
    simp [entries]
  | t :: ts, L, x, hq, hp, hn => by
    simp only [List.length_cons] at hp
    unfold produced at hp
    cases hpk : L.peek with
    | error err => rw [hpk] at hp; cases hp
    | ok t' =>
      rw [hpk] at hp
      cases hsk : L.skip with
      | error err => rw [hsk] at hp; cases hp
      | ok L1 =>
        rw [hsk] at hp
        dsimp only at hp
        cases hr : L1.produced ts.length with
        | error err => rw [hr] at hp; cases hp
        | ok ts' =>
          rw [hr] at hp
          injection hp with hp
          simp only [List.cons_append, List.cons.injEq] at hp
          obtain ⟨rfl, rfl⟩ := hp
          obtain ⟨u, hu⟩ := skip_holds hq rfl hsk
          obtain ⟨M, hM, hloop⟩ := mainLoop_entries e ts L1 u hu hr
            (fun v hv => hn v (List.mem_cons_of_mem _ hv))
          refine ⟨M, hM, fun fuel cout => ?_⟩
          obtain ⟨h1, h2⟩ := named_ok (hn t' (List.mem_cons_self _ _))
          rw [List.length_cons, ← Nat.add_assoc, mainLoop]
          simp only [hpk, hsk, h1, h2, ne_eq, not_false_eq_true, if_true]
          rw [hloop, entries_cons, ← String.append_assoc]
          congr 1
          simp only [entry, String.append_assoc]

theorem main_entries {file : List Char} {ts : List Token} {e : Token}
    (htok : Lexer.tokenize 1 file ts.length = .ok (ts ++ [e]))
    (hts : ∀ t ∈ ts, t.type ∈ named) :
    (e.type = .EndOfFile → main file = (entries ts, none)) ∧
    (e.type ∉ TokenType.EndOfFile :: named → main file =
      (entries ts ++ "Token type: ",
        some (.logic_error "Unimplemented string for TokenType."))) := by
  have hsp := Lexer.tokenize_spans htok
  unfold tokenize at htok
  cases hnew : Lexer.new 1 file with
  | error err => rw [hnew] at htok; cases htok
  | ok L0 =>
    rw [hnew] at htok
    dsimp only at htok
    obtain ⟨its, hq, hlen⟩ := window_full hnew 0 (L := L0) rfl
    obtain ⟨x, rfl⟩ : ∃ x, its = [x] := by
      cases its with
      | nil => cases hlen
      | cons x r =>
        cases r with
        | nil => exact ⟨x, rfl⟩
        | cons y r => simp at hlen
    obtain ⟨M, hM, hloop⟩ := mainLoop_entries e ts L0 x hq htok hts
    obtain ⟨hi, hsp⟩ := hsp
    obtain ⟨mid, h1, h2⟩ := Spans.split hsp
    have hcount := h1.count (fun t ht => (named_ok (hts t ht)).1)
    have hmid : mid ≤ file.length := by
      have := h2.1
      have := h2.2.1.1
      have := h2.2.1.2.1
      omega
    have hfuel : file.length + 1 = (file.length - ts.length + 1) + ts.length := by omega
    constructor
    · intro he
      unfold main
      rw [hnew]
      dsimp only
      rw [hfuel, hloop, mainLoop]
      simp [hM, he]
    · intro he
      obtain ⟨h3, h4⟩ := unnamed_throws he
      unfold main
      rw [hnew]
      dsimp only
      rw [hfuel, hloop, mainLoop]
      simp [hM, h3, h4]

end testLexer

theorem Spans.to_le {src : List Char} : ∀ {ts : List Token} {lo hi : Nat},
    Spans src lo hi ts → ∀ t ∈ ts, t.to_ ≤ hi
  | [], _, _, _, t, ht => by cases ht
  | x :: ts, _, _, h, t, ht => by
    rcases List.mem_cons.mp ht with rfl | ht
    · exact h.2.2.le
    · exact Spans.to_le h.2.2 t ht

namespace Lexer

variable {n : Nat}

open CircularQueue

theorem readAhead_holds {L : Lexer n} {its : List Token} (hq : Holds L.m_tokens its) :
    ∀ (count i : Nat), i + count ≤ its.length →
      readAhead L i count = .ok ((its.drop i).take count)
  | 0, i, _ => by simp [readAhead]
  | count + 1, i, h => by
    have hi : i < its.length := by omega
    have ht : L.lookahead i = .ok its[i] := item_of_holds hq hi
    unfold readAhead
    rw [ht, readAhead_holds hq count (i + 1) (by omega)]
    simp only
    rw [List.drop_eq_getElem_cons hi, List.take_succ_cons]

theorem window_holds {L : Lexer n} {its : List Token} (hq : Holds L.m_tokens its)
    (hn : its.length = n) : L.window = .ok its := by
  unfold window
  rw [readAhead_holds hq n 0 (by omega), List.drop_zero, List.take_of_length_le (by omega)]

/-- Once the newest token in the buffer is the end of the file, `skip` succeeds and puts
the end-of-file token behind it. -/
theorem skip_at_end {src : List Char} (hff : ∀ c ∈ src, c ≠ '\xff') {lo : Nat}
    {L : Lexer n} {its : List Token} {t : Token} (hpos : PosInv src L) (hq : Holds L.m_tokens its) (hn : its.length = n)
    (hsp : Spans src lo L.m_index its) (hlast : t ∈ its) (hty : t.type = .EndOfFile) :
    ∃ L' x rest, its = x :: rest ∧ L.skip = .ok L' ∧ PosInv src L' ∧
      Holds L'.m_tokens (rest ++ [endToken src]) ∧
      Spans src x.to_ L'.m_index (rest ++ [endToken src]) := by
  have hidx : L.m_index = src.length := by
    have h1 := hsp.to_le t hlast
    have h2 := (hsp.okIn t hlast).1
    have h3 := eof_from hff (hsp.okIn t hlast) hty
    have h4 := hpos.1
    omega
  have hfile : L.m_file = [] := by
    rw [hpos.2, hidx, List.drop_length]
  cases its with
  | nil => cases hlast
  | cons x rest =>
    obtain ⟨q', hq1, hq2⟩ := holds_pop hq
    have hpos1 : PosInv src (⟨L.m_file, L.m_index, q'⟩ : Lexer n) := hpos
    have hadd := addNextToken_blank hpos1 (by rw [hfile]; exact Blank.nil)
      (by rw [hfile]; intro c hc; cases hc)
    obtain ⟨q'', hq3, hq4⟩ := push_of_holds hq2 ⟨"", .EndOfFile, src.length, src.length⟩
      (by simp only [List.length_cons] at hn; omega)
    have hskip : L.skip = .ok ⟨[], src.length, q''⟩ := by
      unfold skip
      rw [hq1]
      dsimp only
      rw [hadd]
      unfold pushToken
      dsimp only
      rw [hq3]
    refine ⟨_, x, rest, rfl, hskip, ⟨Nat.le_refl _, by simp⟩, hq4, ?_⟩
    have hend : Spans src L.m_index src.length [endToken src] := by
      refine ⟨by rw [hidx]; exact Nat.le_refl _, ?_, Nat.le_refl _⟩
      have := hsp.okIn t hlast
      rwa [okIn_at_end this (by have := eof_from hff this hty; omega)] at this
    exact hsp.2.2.append hend

theorem produced_at_end {src : List Char} (hff : ∀ c ∈ src, c ≠ '\xff') :
    ∀ (k : Nat) {lo : Nat} {L : Lexer n}
    {its ts : List Token} {t : Token}, PosInv src L → Holds L.m_tokens its → its.length = n →
    Spans src lo L.m_index its → L.produced k = .ok ts → ts.getLast? = some t →
    t.type = .EndOfFile → L.produced (k + 1) = .ok (ts ++ [endToken src])
  | 0, lo, L, its, ts, t, hpos, hq, hn, hsp, hp, hlast, hty => by
    have hts := window_of_holds hq hp
    subst hts
    obtain ⟨L', x, rest, rfl, hs, hpos', hq', hsp'⟩ :=
      skip_at_end hff hpos hq hn hsp (List.mem_of_mem_getLast? hlast) hty
    unfold produced
    rw [show L.peek = .ok x from front_of_holds hq, hs]
    dsimp only
    unfold produced
    rw [window_holds hq' (by simpa using hn)]
    rfl
  | k + 1, lo, L, its, ts, t, hpos, hq, hn, hsp, hp, hlast, hty => by
    unfold produced at hp
    cases hpk : L.peek with
    | error e => rw [hpk] at hp; cases hp
    | ok t0 =>
      rw [hpk] at hp
      cases hsk : L.skip with
      | error e => rw [hsk] at hp; cases hp
      | ok L1 =>
        rw [hsk] at hp
        dsimp only at hp
        cases hr : L1.produced k with
        | error e => rw [hr] at hp; cases hp
        | ok ts' =>
          rw [hr] at hp
          injection hp with hp
          subst hp
          cases its with
          | nil =>
            have : L.peek = .error
                (.underflow_error "CircularQueue: trying to access front in an empty queue") := by
              unfold peek front
              rw [if_pos (by have := hq.1; simpa using this.symm)]
            rw [this] at hpk
            cases hpk
          | cons x rest =>
            obtain ⟨news, hpos', hq', hsp'⟩ := skip_adv hpos hq hsk
            obtain ⟨u, hu⟩ := skip_holds hq hn hsk
            have hlen : (rest ++ news).length = n := by
              have h1 := hq'.1
              have h2 := hu.1
              simp only [List.length_append, List.length_cons, List.length_nil] at h1 h2 hn ⊢
              omega
            have hstart := produced_starts k hq' hlen hr
            have hne : ts' ≠ [] := by
              intro h0
              rw [h0] at hstart
              have := List.prefix_nil.mp hstart
              rw [this] at hlen
              simp only [List.length_cons] at hn
              simp only [List.length_nil] at hlen
              omega
            have hlast' : ts'.getLast? = some t := by
              cases ts' with
              | nil => exact absurd rfl hne
              | cons y r => rwa [List.getLast?_cons_cons] at hlast
            have ih := produced_at_end hff k hpos' hq' hlen (hsp.2.2.append hsp') hr hlast' hty
            unfold produced
            rw [hpk, hsk]
            dsimp only
            rw [ih]
            rfl

theorem tokenize_at_end {src : List Char} (hff : ∀ c ∈ src, c ≠ '\xff') {k : Nat}
    {ts : List Token} {t : Token} (h : tokenize n src k = .ok ts) (hlast : ts.getLast? = some t)
    (hty : t.type = .EndOfFile) : tokenize n src (k + 1) = .ok (ts ++ [endToken src]) := by
  unfold tokenize at h ⊢
  cases hnew : Lexer.new n src with
  | error e => rw [hnew] at h; cases h
  | ok L =>
    rw [hnew] at h
    dsimp only at h ⊢
    obtain ⟨its, hpos, hq, hs⟩ := new_adv hnew
    exact produced_at_end hff k hpos hq (by rw [hq.1]; exact new_size hnew) hs h hlast hty

end Lexer

theorem Spans.from_ge {src : List Char} : ∀ {ts : List Token} {lo hi : Nat},
    Spans src lo hi ts → ∀ t ∈ ts, lo ≤ t.from_
  | [], _, _, _, t, ht => by cases ht
  | x :: ts, _, _, h, t, ht => by
    rcases List.mem_cons.mp ht with rfl | ht
    · exact h.1
    · have := Spans.from_ge h.2.2 t ht
      have := h.1
      have := h.2.1.1
      omega

theorem Spans.head_le {src : List Char} {ts : List Token} {lo hi : Nat} {a : Token}
    (h : Spans src lo hi ts) (ha : ts.head? = some a) : ∀ t ∈ ts, a.from_ ≤ t.from_ := by
  cases ts with
  | nil => cases ha
  | cons x r =>
    simp only [List.head?_cons, Option.some.injEq] at ha
    subst ha
    intro t ht
    rcases List.mem_cons.mp ht with rfl | ht
    · exact Nat.le_refl _
    · have := Spans.from_ge h.2.2 t ht
      have := h.2.1.1
      omega

theorem Spans.le_last {src : List Char} : ∀ {ts : List Token} {lo hi : Nat} {b : Token},
    Spans src lo hi ts → ts.getLast? = some b → ∀ t ∈ ts, t.to_ ≤ b.to_
  | [], _, _, _, _, hb, _, _ => by cases hb
  | [x], _, _, _, _, hb, t, ht => by
    simp only [List.getLast?_singleton, Option.some.injEq] at hb
    subst hb
    rw [List.mem_singleton.mp ht]
  | x :: y :: r, _, _, b, h, hb, t, ht => by
    rw [List.getLast?_cons_cons] at hb
    rcases List.mem_cons.mp ht with rfl | ht
    · have hmem : b ∈ y :: r := List.mem_of_mem_getLast? hb
      have := Spans.from_ge h.2.2 b hmem
      have := (Spans.okIn h.2.2 b hmem).1
      omega
    · exact Spans.le_last h.2.2 hb t ht

namespace CircularQueue

variable {T : Type} {n : Nat}

theorem push_fuelless {q : CircularQueue T n} {x : T} {e : Error} (h : q.push x = .error e) :
    e.isFuel = false := by
  unfold push at h
  split at h
  · injection h with h; subst h; rfl
  · cases h

theorem pop_fuelless {q : CircularQueue T n} {e : Error} (h : q.pop = .error e) :
    e.isFuel = false := by
  unfold pop at h
  split at h
  · injection h with h; subst h; rfl
  · cases h

theorem slot_fuelless {q : CircularQueue T n} {i : Nat} {e : Error} (h : q.slot i = .error e) :
    e.isFuel = false := by
  unfold slot at h
  split at h
  · cases h
  · injection h with h; subst h; rfl

theorem front_fuelless {q : CircularQueue T n} {e : Error} (h : q.front = .error e) :
    e.isFuel = false := by
  unfold front at h
  split at h
  · injection h with h; subst h; rfl
  · exact slot_fuelless h

end CircularQueue

namespace Lexer

variable {n : Nat}

open CircularQueue

theorem peek_fuelless {L : Lexer n} {e : Error} (h : L.peek = .error e) : e.isFuel = false :=
  CircularQueue.front_fuelless h

theorem pushToken_fuelless {L : Lexer n} {lexeme : String} {type : TokenType} {from_ : Nat}
    {e : Error} (h : L.pushToken lexeme type from_ = .error e) : e.isFuel = false := by
  unfold pushToken at h
  split at h
  · rename_i e' he
    injection h with h
    subst h
    exact CircularQueue.push_fuelless he
  · cases h

theorem skipSpaces_length (file : List Char) (i : Nat) :
    (skipSpaces file i).1.length ≤ file.length := by
  obtain ⟨pre, hpre, -⟩ := skipSpaces_spec file i
  conv_rhs => rw [hpre]
  simp

theorem skipLine_length (file : List Char) (i : Nat) :
    (skipLine file i).1.length ≤ file.length := by
  obtain ⟨pre, hpre, -⟩ := skipLine_spec file i
  conv_rhs => rw [hpre]
  simp

theorem skipBlock_length (file : List Char) (i : Nat) :
    (skipBlock file i).2.1.length ≤ file.length := by
  obtain ⟨pre, hpre, -⟩ := skipBlock_spec file i
  conv_rhs => rw [hpre]
  simp

theorem length_of_peek {L : Lexer n} {c : Char} (h : L.peekChar = some c) :
    L.skipChar.m_file.length + 1 = L.m_file.length := by
  unfold peekChar at h
  unfold skipChar
  cases hf : L.m_file with
  | nil => rw [hf] at h; cases h
  | cons d r => simp

theorem skipWhitespaceAux_fuelless : ∀ (fuel : Nat) (L : Lexer n) (e : Error),
    L.m_file.length < fuel → skipWhitespaceAux fuel L = .error e → e.isFuel = false := by
  intro fuel
  induction fuel with
  | zero => intro L e hl; exact absurd hl (Nat.not_lt_zero _)
  | succ fuel ih =>
    intro L e hl h
    have h0 := skipSpaces_length L.m_file L.m_index
    unfold skipWhitespaceAux at h
    dsimp only at h
    split at h
    · rename_i hp1
      have h1 := length_of_peek hp1
      simp only at h1
      split at h
      · rename_i hp2
        have h2 := length_of_peek hp2
        split at h
        · rename_i e' he
          injection h with h
          subst h
          refine ih _ _ ?_ he
          have h3 := skipLine_length
            (⟨(skipSpaces L.m_file L.m_index).1, (skipSpaces L.m_file L.m_index).2,
              L.m_tokens⟩ : Lexer n).skipChar.skipChar.m_file
            (⟨(skipSpaces L.m_file L.m_index).1, (skipSpaces L.m_file L.m_index).2,
              L.m_tokens⟩ : Lexer n).skipChar.skipChar.m_index
          simp only at h3 h2 ⊢
          omega
        · cases h
      · split at h
        · rename_i hp2
          have h2 := length_of_peek hp2
          split at h
          · injection h with h; subst h; rfl
          · split at h
            · rename_i e' he
              injection h with h
              subst h
              refine ih _ _ ?_ he
              have h3 := skipBlock_length
                (⟨(skipSpaces L.m_file L.m_index).1, (skipSpaces L.m_file L.m_index).2,
                  L.m_tokens⟩ : Lexer n).skipChar.skipChar.m_file
                (⟨(skipSpaces L.m_file L.m_index).1, (skipSpaces L.m_file L.m_index).2,
                  L.m_tokens⟩ : Lexer n).skipChar.skipChar.m_index
              simp only at h3 h2 ⊢
              omega
            · cases h
        · split at h
          · rename_i e' he
            injection h with h
            subst h
            exact pushToken_fuelless he
          · cases h
    · cases h

theorem getPrefixed_fuelless {L : Lexer n} {p : Char → Bool} {what literal : String}
    {e : Error} (h : getPrefixed p what literal L = .error e) : e.isFuel = false := by
  unfold getPrefixed at h
  dsimp only at h
  split at h
  · injection h with h; subst h; rfl
  · cases h

theorem getNumericLiteral_fuelless {L : Lexer n} {e : Error}
    (h : getNumericLiteral L = .error e) : e.isFuel = false := by
  unfold getNumericLiteral at h
  dsimp only at h
  split at h
  · split at h
    · exact getPrefixed_fuelless h
    · split at h
      · exact getPrefixed_fuelless h
      · split at h
        · exact getPrefixed_fuelless h
        · split at h
          · injection h with h; subst h; rfl
          · cases h
  · cases h

theorem getStringLiteral_fuelless {L : Lexer n} {e : Error}
    (h : getStringLiteral L = .error e) : e.isFuel = false := by
  unfold getStringLiteral at h
  dsimp only at h
  split at h
  · injection h with h; subst h; rfl
  · split at h
    · injection h with h; subst h; rfl
    · cases h

theorem getIdentifier_fuelless {L : Lexer n} {e : Error}
    (h : getIdentifier L = .error e) : e.isFuel = false := by
  unfold getIdentifier at h
  cases h

theorem addNextToken_fuelless {L : Lexer n} {e : Error} (h : addNextToken L = .error e) :
    e.isFuel = false := by
  unfold addNextToken at h
  cases hw : skipWhitespace L with
  | error e' =>
    rw [hw] at h
    injection h with h
    subst h
    exact skipWhitespaceAux_fuelless _ _ _ (Nat.lt_succ_self _) hw
  | ok r =>
  obtain ⟨b, M⟩ := r
  rw [hw] at h
  cases b with
  | true => cases h
  | false =>
  dsimp only at h
  clear hw
  by_cases h0 : M.peekChar = none
  · rw [if_pos h0] at h
    exact pushToken_fuelless h
  rw [if_neg h0] at h
  by_cases hc : M.peekChar = some '['
  · rw [if_pos hc] at h
    exact pushToken_fuelless h
  rw [if_neg hc] at h
  clear hc
  by_cases hc : M.peekChar = some ']'
  · rw [if_pos hc] at h
    exact pushToken_fuelless h
  rw [if_neg hc] at h
  clear hc
  by_cases hc : M.peekChar = some '('
  · rw [if_pos hc] at h
    exact pushToken_fuelless h
  rw [if_neg hc] at h
  clear hc
  by_cases hc : M.peekChar = some ')'
  · rw [if_pos hc] at h
    exact pushToken_fuelless h
  rw [if_neg hc] at h
  clear hc
  by_cases hc : M.peekChar = some '.'
  · rw [if_pos hc] at h
    exact pushToken_fuelless h
  rw [if_neg hc] at h
  clear hc
  by_cases hc : M.peekChar = some ','
  · rw [if_pos hc] at h
    exact pushToken_fuelless h
  rw [if_neg hc] at h
  clear hc
  by_cases hc : M.peekChar = some '+'
  · rw [if_pos hc] at h
    by_cases hd : M.skipChar.peekChar = some '+'
    · rw [if_pos hd] at h
      exact pushToken_fuelless h
    rw [if_neg hd] at h
    clear hd
    exact pushToken_fuelless h
  rw [if_neg hc] at h
  clear hc
  by_cases hc : M.peekChar = some '-'
  · rw [if_pos hc] at h
    by_cases hd : M.skipChar.peekChar = some '-'
    · rw [if_pos hd] at h
      exact pushToken_fuelless h
    rw [if_neg hd] at h
    clear hd
    exact pushToken_fuelless h
  rw [if_neg hc] at h
  clear hc
  by_cases hc : M.peekChar = some '*'
  · rw [if_pos hc] at h
    exact pushToken_fuelless h
  rw [if_neg hc] at h
  clear hc
  by_cases hc : M.peekChar = some '/'
  · rw [if_pos hc] at h
    exact pushToken_fuelless h
  rw [if_neg hc] at h
  clear hc
  by_cases hc : M.peekChar = some '%'
  · rw [if_pos hc] at h
    exact pushToken_fuelless h
  rw [if_neg hc] at h
  clear hc
  by_cases hc : M.peekChar = some '!'
  · rw [if_pos hc] at h
    by_cases hd : M.skipChar.peekChar = some '='
    · rw [if_pos hd] at h
      exact pushToken_fuelless h
    rw [if_neg hd] at h
    clear hd
    exact pushToken_fuelless h
  rw [if_neg hc] at h
  clear hc
  by_cases hc : M.peekChar = some '~'
  · rw [if_pos hc] at h
    exact pushToken_fuelless h
  rw [if_neg hc] at h
  clear hc
  by_cases hc : M.peekChar = some '<'
  · rw [if_pos hc] at h
    by_cases hd : M.skipChar.peekChar = some '<'
    · rw [if_pos hd] at h
      exact pushToken_fuelless h
    rw [if_neg hd] at h
    clear hd
    by_cases hd : M.skipChar.peekChar = some '='
    · rw [if_pos hd] at h
      exact pushToken_fuelless h
    rw [if_neg hd] at h
    clear hd
    exact pushToken_fuelless h
  rw [if_neg hc] at h
  clear hc
  by_cases hc : M.peekChar = some '>'
  · rw [if_pos hc] at h
    by_cases hd : M.skipChar.peekChar = some '>'
    · rw [if_pos hd] at h
      by_cases he : M.skipChar.skipChar.peekChar = some '>'
      · rw [if_pos he] at h
        exact pushToken_fuelless h
      rw [if_neg he] at h
      exact pushToken_fuelless h
    rw [if_neg hd] at h
    clear hd
    by_cases hd : M.skipChar.peekChar = some '='
    · rw [if_pos hd] at h
      exact pushToken_fuelless h
    rw [if_neg hd] at h
    exact pushToken_fuelless h
  rw [if_neg hc] at h
  clear hc
  by_cases hc : M.peekChar = some '='
  · rw [if_pos hc] at h
    by_cases hd : M.skipChar.peekChar = some '='
    · rw [if_pos hd] at h
      exact pushToken_fuelless h
    rw [if_neg hd] at h
    clear hd
    exact pushToken_fuelless h
  rw [if_neg hc] at h
  clear hc
  by_cases hc : M.peekChar = some '"'
  · rw [if_pos hc] at h
    cases hr : getStringLiteral M with
    | error e' =>
      rw [hr] at h
      injection h with h
      subst h
      exact getStringLiteral_fuelless hr
    | ok r =>
      rw [hr] at h
      exact pushToken_fuelless h
  rw [if_neg hc] at h
  clear hc
  by_cases hc : M.peekChar.any isdigit = true
  · rw [if_pos hc] at h
    cases hr : getNumericLiteral M with
    | error e' =>
      rw [hr] at h
      injection h with h
      subst h
      exact getNumericLiteral_fuelless hr
    | ok r =>
      rw [hr] at h
      exact pushToken_fuelless h
  rw [if_neg hc] at h
  clear hc
  by_cases hc : (M.peekChar.any isalpha || decide (M.peekChar = some '_')) = true
  · rw [if_pos hc] at h
    cases hr : getIdentifier M with
    | error e' =>
      rw [hr] at h
      injection h with h
      subst h
      exact getIdentifier_fuelless hr
    | ok r =>
      rw [hr] at h
      exact pushToken_fuelless h
  rw [if_neg hc] at h
  clear hc
  injection h with h
  subst h
  rfl

theorem skip_fuelless {L : Lexer n} {e : Error} (h : L.skip = .error e) : e.isFuel = false := by
  unfold skip at h
  cases hp : L.m_tokens.pop with
  | error e' =>
    rw [hp] at h
    injection h with h
    subst h
    exact CircularQueue.pop_fuelless hp
  | ok q =>
    rw [hp] at h
    exact addNextToken_fuelless h

end Lexer

namespace Lexer

theorem Takes.starts {L M E : Lexer 2} {ts us : List Token} {e : Token}
    (h : Takes L ts M) (hne : ∀ t ∈ ts, t.type ≠ .EndOfFile) :
    Takes L us E → E.peek = .ok e → e.type = .EndOfFile → ts <+: us := by
  induction h generalizing us with
  | nil L => exact fun _ _ _ => List.nil_prefix
  | @cons L L1 M t ts hp hs _ ih =>
    intro hus he hty
    cases hus with
    | nil =>
      rw [hp] at he
      injection he with he
      subst he
      exact absurd hty (hne _ (List.mem_cons_self _ _))
    | @cons _ L1' _ u us' hp' hs' hrest =>
      rw [hp] at hp'
      injection hp' with hp'
      subst hp'
      rw [hs] at hs'
      injection hs' with hs'
      subst hs'
      rw [List.cons_prefix_cons]
      exact ⟨rfl, ih (fun v hv => hne v (List.mem_cons_of_mem _ hv)) hrest he hty⟩

end Lexer

namespace Lexer

variable {n : Nat}

open CircularQueue

theorem skipSpaces_pre (file : List Char) (i : Nat) :
    ∃ pre, file = pre ++ (skipSpaces file i).1 ∧ (skipSpaces file i).2 = i + pre.length ∧
      ∀ c ∈ pre, isspace c = true := by
  induction file generalizing i with
  | nil => exact ⟨[], rfl, rfl, fun c hc => by cases hc⟩
  | cons c cs ih =>
    unfold skipSpaces
    split
    · rename_i hc
      obtain ⟨pre, h1, h2, h3⟩ := ih (i + 1)
      refine ⟨c :: pre, by rw [List.cons_append, ← h1], by rw [h2, List.length_cons]; omega, ?_⟩
      intro d hd
      rcases List.mem_cons.mp hd with rfl | hd
      · exact hc
      · exact h3 d hd
    · exact ⟨[], rfl, rfl, fun c hc => by cases hc⟩

theorem skipLine_pre (file : List Char) (i : Nat) :
    ∃ pre, file = pre ++ (skipLine file i).1 ∧ (skipLine file i).2 = i + pre.length ∧
      (∀ c ∈ pre, c ≠ '\n') ∧
      ((skipLine file i).1 = [] ∨ (skipLine file i).1.head? = some '\n' ∨
        (skipLine file i).1.head? = some '\xff') := by
  induction file generalizing i with
  | nil => exact ⟨[], rfl, rfl, (fun c hc => by cases hc), .inl rfl⟩
  | cons c cs ih =>
    unfold skipLine
    split
    · rename_i hc
      refine ⟨[], rfl, rfl, (fun c hc => by cases hc), .inr ?_⟩
      rcases hc with hc | hc
      · exact .inl (by rw [hc]; rfl)
      · exact .inr (by rw [hc]; rfl)
    · rename_i hc
      obtain ⟨pre, h1, h2, h3, h4⟩ := ih (i + 1)
      refine ⟨c :: pre, by rw [List.cons_append, ← h1], by rw [h2, List.length_cons]; omega,
        ?_, h4⟩
      intro d hd
      rcases List.mem_cons.mp hd with rfl | hd
      · exact fun h => hc (.inl h)
      · exact h3 d hd

theorem skipBlock_pre (file : List Char) (i : Nat) (h : (skipBlock file i).1 = true) :
    ∃ body, file = body ++ '*' :: '/' :: (skipBlock file i).2.1 ∧
      (skipBlock file i).2.2 = i + body.length + 2 ∧ ¬ ['*', '/'] <:+: body := by
  induction file, i using skipBlock.induct with
  | case1 i => simp [skipBlock] at h
  | case2 cs i => rw [skipBlock_eof] at h; cases h
  | case3 i _ => rw [skipBlock_star_nil] at h; cases h
  | case4 i ds _ =>
    refine ⟨[], by rw [skipBlock_star_slash]; rfl, by rw [skipBlock_star_slash]; rfl, ?_⟩
    intro hin
    have := hin.length_le
    simp at this
  | case5 i d ds hd _ ih =>
    have e : skipBlock ('*' :: d :: ds) i = skipBlock (d :: ds) (i + 1) :=
      skipBlock_star_cons hd ds i
    rw [e] at h ⊢
    obtain ⟨body, h1, h2, h3⟩ := ih h
    refine ⟨'*' :: body, by rw [List.cons_append, ← h1], by rw [h2, List.length_cons]; omega, ?_⟩
    rw [List.infix_cons_iff]
    rintro (hpre | hin)
    · cases body with
      | nil =>
        have := hpre.length_le
        simp at this
      | cons b bs =>
        rw [List.cons_prefix_cons] at hpre
        have hb : b = d := by
          rw [List.cons_append] at h1
          injection h1 with h1 _
          exact h1.symm
        have h4 := hpre.2
        rw [List.cons_prefix_cons] at h4
        exact hd (hb ▸ h4.1.symm)
    · exact h3 hin
  | case6 c cs i h0 hc ih =>
    have e : skipBlock (c :: cs) i = skipBlock cs (i + 1) := skipBlock_cons h0 hc cs i
    rw [e] at h ⊢
    obtain ⟨body, h1, h2, h3⟩ := ih h
    refine ⟨c :: body, by rw [List.cons_append, ← h1], by rw [h2, List.length_cons]; omega, ?_⟩
    rw [List.infix_cons_iff]
    rintro (hpre | hin)
    · rw [List.cons_prefix_cons] at hpre
      exact hc hpre.1.symm
    · exact h3 hin

end Lexer

theorem Blank.spaces {rest : List Char} (hrest : Blank rest) : ∀ (ws : List Char),
    (∀ c ∈ ws, isspace c = true) → Blank (ws ++ rest)
  | [], _ => hrest
  | w :: ws, h =>
    .space (h w (List.mem_cons_self _ _))
      (Blank.spaces hrest ws (fun c hc => h c (List.mem_cons_of_mem _ hc)))

/-- A line comment in front of blank text that is empty or starts with the newline. -/
theorem Blank.comment {body rest : List Char} (hbody : ∀ c ∈ body, c ≠ '\n')
    (hrest : Blank rest) (hhead : rest = [] ∨ rest.head? = some '\n') :
    Blank ('/' :: '/' :: (body ++ rest)) := by
  cases rest with
  | nil =>
    rw [List.append_nil]
    exact .lineEnd body hbody
  | cons c r =>
    rcases hhead with h | h
    · cases h
    · simp only [List.head?_cons, Option.some.injEq] at h
      subst h
      refine .line body hbody ?_
      cases hrest with
      | space _ hr => exact hr

theorem Blank.head_ne {l : List Char} (h : Blank l) : l.head? ≠ some '\xff' := by
  cases h with
  | nil => simp
  | @space c rest hc _ =>
    simp only [List.head?_cons, ne_eq, Option.some.injEq]
    intro h0
    subst h0
    exact absurd hc (by decide)
  | lineEnd body _ => simp
  | line body _ _ => simp
  | block body _ _ => simp

namespace Lexer

variable {n : Nat}

open CircularQueue

theorem head_of_starts {l p s : List Char} {a : Char} (h : l = p ++ s)
    (hl : l = [] ∨ l.head? = some a) : p = [] ∨ p.head? = some a := by
  cases p with
  | nil => exact .inl rfl
  | cons b q =>
    right
    rcases hl with hl | hl
    · rw [hl] at h
      cases h
    · rw [h] at hl
      exact hl

/-- What `skipWhitespace` reads is white space and comments, after which it has pushed
nothing and returns `false`, or white space and comments and one slash, for which it has
pushed the token `Slash`. -/
theorem skipWhitespaceAux_gap : ∀ (fuel : Nat) (L : Lexer n) (r : Bool × Lexer n),
    skipWhitespaceAux fuel L = .ok r →
    ∃ pre, L.m_file = pre ++ r.2.m_file ∧ r.2.m_index = L.m_index + pre.length ∧
      ((r.2.m_tokens = L.m_tokens ∧ r.1 = false ∧ Blank pre) ∨
       (∃ gap, pre = gap ++ ['/'] ∧ Blank gap ∧
         L.m_tokens.push ⟨"/", .Slash, L.m_index + gap.length, L.m_index + gap.length + 1⟩
           = .ok r.2.m_tokens)) := by
  intro fuel
  induction fuel with
  | zero => intro L r h; cases h
  | succ fuel ih =>
    intro L r h
    unfold skipWhitespaceAux at h
    obtain ⟨ws, hws, hidx, hsp⟩ := skipSpaces_pre L.m_file L.m_index
    generalize skipSpaces L.m_file L.m_index = s at h hws hidx
    obtain ⟨file1, idx1⟩ := s
    simp only at h hws hidx
    have hblank : Blank ws := by
      have := Blank.spaces Blank.nil ws hsp
      rwa [List.append_nil] at this
    cases file1 with
    | nil =>
      simp [peekChar] at h
      subst h
      exact ⟨ws, hws, hidx, .inl ⟨rfl, rfl, hblank⟩⟩
    | cons c rest1 =>
      by_cases hc : c = '/'
      swap
      · rw [if_neg (by rw [peekChar_eq_some]; simp [hc])] at h
        injection h with h
        subst h
        exact ⟨ws, hws, hidx, .inl ⟨rfl, rfl, hblank⟩⟩
      subst hc
      rw [if_pos (peekChar_some rfl (by decide))] at h
      simp only [skipChar, List.tail_cons] at h
      split at h
      · -- line comment
        rename_i h2
        obtain ⟨rest2, rfl⟩ : ∃ rest2, rest1 = '/' :: rest2 := by
          cases rest1 with
          | nil => simp [peekChar] at h2
          | cons d rest2 =>
            have h2 := (peekChar_eq_some.mp h2).1
            simp only [List.head?_cons, Option.some.injEq] at h2
            exact ⟨rest2, by rw [h2]⟩
        simp only [List.tail_cons] at h
        obtain ⟨body, hbody, hbidx, hnl, hhead⟩ := skipLine_pre rest2 (idx1 + 1 + 1)
        split at h
        · cases h
        · rename_i r' hr'
          injection h with h
          subst h
          obtain ⟨pre', hp1, hp2, hp3⟩ := ih _ r' hr'
          simp only at hp1 hp2 hp3
          have hstart : pre' = [] ∨ pre'.head? = some '\n' := by
            rcases hhead with hh | hh | hh
            · exact head_of_starts hp1 (.inl hh)
            · exact head_of_starts hp1 (.inr hh)
            · rcases head_of_starts hp1 (.inr hh) with h0 | h0
              · exact .inl h0
              · exfalso
                rcases hp3 with ⟨_, _, hb⟩ | ⟨gap, hg, hb, _⟩
                · exact hb.head_ne h0
                · rw [hg] at h0
                  cases gap with
                  | nil =>
                    simp only [List.nil_append, List.head?_cons, Option.some.injEq] at h0
                    exact absurd h0 (by decide)
                  | cons b q => exact hb.head_ne (by simpa using h0)
          refine ⟨ws ++ '/' :: '/' :: (body ++ pre'), ?_, ?_, ?_⟩
          · rw [hws, hbody, hp1]
            simp
          · simp only
            rw [hp2, hbidx, hidx]
            simp only [List.length_append, List.length_cons]
            omega
          · rcases hp3 with ⟨ht, _, hb⟩ | ⟨gap, hg, hb, hpush⟩
            · exact .inl ⟨ht, rfl, Blank.spaces (Blank.comment hnl hb hstart) ws hsp⟩
            · right
              refine ⟨ws ++ '/' :: '/' :: (body ++ gap), ?_, ?_, ?_⟩
              · rw [hg]
                simp
              · refine Blank.spaces (Blank.comment hnl hb ?_) ws hsp
                rw [hg] at hstart
                cases gap with
                | nil => exact .inl rfl
                | cons b q =>
                  right
                  rcases hstart with h0 | h0
                  · cases h0
                  · exact h0
              · have e : (skipLine rest2 (idx1 + 1 + 1)).2 + gap.length
                    = L.m_index + (ws ++ '/' :: '/' :: (body ++ gap)).length := by
                  rw [hbidx, hidx]
                  simp only [List.length_append, List.length_cons]
                  omega
                rw [← e]
                exact hpush
      · split at h
        · -- block comment
          rename_i _ h2
          obtain ⟨rest2, rfl⟩ : ∃ rest2, rest1 = '*' :: rest2 := by
            cases rest1 with
            | nil => simp [peekChar] at h2
            | cons d rest2 =>
              have h2 := (peekChar_eq_some.mp h2).1
              simp only [List.head?_cons, Option.some.injEq] at h2
              exact ⟨rest2, by rw [h2]⟩
          simp only [List.tail_cons] at h
          split at h
          · cases h
          · rename_i hterm
            have hterm' : (skipBlock rest2 (idx1 + 1 + 1)).1 = true := by
              simpa using hterm
            obtain ⟨body, hbody, hbidx, hnot⟩ := skipBlock_pre rest2 (idx1 + 1 + 1) hterm'
            split at h
            · cases h
            · rename_i r' hr'
              injection h with h
              subst h
              obtain ⟨pre', hp1, hp2, hp3⟩ := ih _ r' hr'
              simp only at hp1 hp2 hp3
              refine ⟨ws ++ '/' :: '*' :: (body ++ '*' :: '/' :: pre'), ?_, ?_, ?_⟩
              · rw [hws, hbody, hp1]
                simp
              · simp only
                rw [hp2, hbidx, hidx]
                simp only [List.length_append, List.length_cons]
                omega
              · rcases hp3 with ⟨ht, _, hb⟩ | ⟨gap, hg, hb, hpush⟩
                · exact .inl ⟨ht, rfl, Blank.spaces (Blank.block body hnot hb) ws hsp⟩
                · right
                  refine ⟨ws ++ '/' :: '*' :: (body ++ '*' :: '/' :: gap), ?_, ?_, ?_⟩
                  · rw [hg]
                    simp
                  · exact Blank.spaces (Blank.block body hnot hb) ws hsp
                  · have e : (skipBlock rest2 (idx1 + 1 + 1)).2.2 + gap.length
                        = L.m_index +
                          (ws ++ '/' :: '*' :: (body ++ '*' :: '/' :: gap)).length := by
                      rw [hbidx, hidx]
                      simp only [List.length_append, List.length_cons]
                      omega
                    rw [← e]
                    exact hpush
        · -- a slash token
          split at h
          · cases h
          · rename_i L' hL'
            injection h with h
            subst h
            unfold pushToken at hL'
            simp only [Nat.add_sub_cancel] at hL'
            split at hL'
            · cases hL'
            · rename_i q hq
              injection hL' with hL'
              subst hL'
              refine ⟨ws ++ ['/'], ?_, ?_, .inr ⟨ws, rfl, hblank, ?_⟩⟩
              · rw [hws]
                simp
              · simp only [List.length_append, List.length_singleton]
                omega
              · rw [← hidx]
                exact hq

/-- After `skipWhitespace` has returned `false` and left the lexer `M`, a successful
`addNextToken` pushes one token that starts at the index of `M`. -/
theorem addNextToken_scan {L L' M : Lexer n} (hw : skipWhitespace L = .ok (false, M))
    (h : addNextToken L = .ok L') :
    ∃ (X : Lexer n) (lexeme : String) (ty : TokenType),
      X.pushToken lexeme ty M.m_index = .ok L' ∧ X.m_tokens = M.m_tokens := by
  unfold addNextToken at h
  rw [hw] at h
  dsimp only at h
  have leaf : ∀ {X : Lexer n} {lexeme : String} {ty : TokenType},
      X.pushToken lexeme ty M.m_index = .ok L' → X.m_tokens = M.m_tokens →
      ∃ (X : Lexer n) (lexeme : String) (ty : TokenType),
        X.pushToken lexeme ty M.m_index = .ok L' ∧ X.m_tokens = M.m_tokens :=
    fun hp ht => ⟨_, _, _, hp, ht⟩
  by_cases h0 : M.peekChar = none
  · rw [if_pos h0] at h
    exact leaf h rfl
  rw [if_neg h0] at h
  by_cases hc : M.peekChar = some '['
  · rw [if_pos hc] at h
    exact leaf h rfl
  rw [if_neg hc] at h
  clear hc
  by_cases hc : M.peekChar = some ']'
  · rw [if_pos hc] at h
    exact leaf h rfl
  rw [if_neg hc] at h
  clear hc
  by_cases hc : M.peekChar = some '('
  · rw [if_pos hc] at h
    exact leaf h rfl
  rw [if_neg hc] at h
  clear hc
  by_cases hc : M.peekChar = some ')'
  · rw [if_pos hc] at h
    exact leaf h rfl
  rw [if_neg hc] at h
  clear hc
  by_cases hc : M.peekChar = some '.'
  · rw [if_pos hc] at h
    exact leaf h rfl
  rw [if_neg hc] at h
  clear hc
  by_cases hc : M.peekChar = some ','
  · rw [if_pos hc] at h
    exact leaf h rfl
  rw [if_neg hc] at h
  clear hc
  by_cases hc : M.peekChar = some '+'
  · rw [if_pos hc] at h
    by_cases hd : M.skipChar.peekChar = some '+'
    · rw [if_pos hd] at h
      exact leaf h rfl
    rw [if_neg hd] at h
    clear hd
    exact leaf h rfl
  rw [if_neg hc] at h
  clear hc
  by_cases hc : M.peekChar = some '-'
  · rw [if_pos hc] at h
    by_cases hd : M.skipChar.peekChar = some '-'
    · rw [if_pos hd] at h
      exact leaf h rfl
    rw [if_neg hd] at h
    clear hd
    exact leaf h rfl
  rw [if_neg hc] at h
  clear hc
  by_cases hc : M.peekChar = some '*'
  · rw [if_pos hc] at h
    exact leaf h rfl
  rw [if_neg hc] at h
  clear hc
  by_cases hc : M.peekChar = some '/'
  · rw [if_pos hc] at h
    exact leaf h rfl
  rw [if_neg hc] at h
  clear hc
  by_cases hc : M.peekChar = some '%'
  · rw [if_pos hc] at h
    exact leaf h rfl
  rw [if_neg hc] at h
  clear hc
  by_cases hc : M.peekChar = some '!'
  · rw [if_pos hc] at h
    by_cases hd : M.skipChar.peekChar = some '='
    · rw [if_pos hd] at h
      exact leaf h rfl
    rw [if_neg hd] at h
    clear hd
    exact leaf h rfl
  rw [if_neg hc] at h
  clear hc
  by_cases hc : M.peekChar = some '~'
  · rw [if_pos hc] at h
    exact leaf h rfl
  rw [if_neg hc] at h
  clear hc
  by_cases hc : M.peekChar = some '<'
  · rw [if_pos hc] at h
    by_cases hd : M.skipChar.peekChar = some '<'
    · rw [if_pos hd] at h
      exact leaf h rfl
    rw [if_neg hd] at h
    clear hd
    by_cases hd : M.skipChar.peekChar = some '='
    · rw [if_pos hd] at h
      exact leaf h rfl
    rw [if_neg hd] at h
    clear hd
    exact leaf h rfl
  rw [if_neg hc] at h
  clear hc
  by_cases hc : M.peekChar = some '>'
  · rw [if_pos hc] at h
    by_cases hd : M.skipChar.peekChar = some '>'
    · rw [if_pos hd] at h
      by_cases he : M.skipChar.skipChar.peekChar = some '>'
      · rw [if_pos he] at h
        exact leaf h rfl
      rw [if_neg he] at h
      exact leaf h rfl
    rw [if_neg hd] at h
    clear hd
    by_cases hd : M.skipChar.peekChar = some '='
    · rw [if_pos hd] at h
      exact leaf h rfl
    rw [if_neg hd] at h
    exact leaf h rfl
  rw [if_neg hc] at h
  clear hc
  by_cases hc : M.peekChar = some '='
  · rw [if_pos hc] at h
    by_cases hd : M.skipChar.peekChar = some '='
    · rw [if_pos hd] at h
      exact leaf h rfl
    rw [if_neg hd] at h
    clear hd
    exact leaf h rfl
  rw [if_neg hc] at h
  clear hc
  by_cases hc : M.peekChar = some '"'
  · rw [if_pos hc] at h
    cases hr : getStringLiteral M with
    | error e' => rw [hr] at h; cases h
    | ok r =>
      rw [hr] at h
      obtain ⟨_, _, _, _, _, ht, _⟩ := getStringLiteral_spec (file_of_peek hc) hr
      exact leaf h ht
  rw [if_neg hc] at h
  clear hc
  by_cases hc : M.peekChar.any isdigit = true
  · rw [if_pos hc] at h
    obtain ⟨c, rest, hf⟩ := peek_any hc
    cases hr : getNumericLiteral M with
    | error e' => rw [hr] at h; cases h
    | ok r =>
      rw [hr] at h
      obtain ⟨_, ⟨_, _, ht⟩, _⟩ := getNumericLiteral_spec hf hr
      exact leaf h ht
  rw [if_neg hc] at h
  clear hc
  by_cases hc : (M.peekChar.any isalpha || decide (M.peekChar = some '_')) = true
  · rw [if_pos hc] at h
    have hf : ∃ c rest, M.m_file = c :: rest := by
      cases hfile : M.m_file with
      | nil => simp [peekChar, hfile] at h0
      | cons c cs => exact ⟨c, cs, rfl⟩
    obtain ⟨c, rest, hf⟩ := hf
    cases hr : getIdentifier M with
    | error e' => rw [hr] at h; cases h
    | ok r =>
      rw [hr] at h
      obtain ⟨_, ⟨_, _, ht⟩, _⟩ := getIdentifier_spec hf hr
      exact leaf h ht
  rw [if_neg hc] at h
  cases h

end Lexer

theorem Tiles.concat {src : List Char} : ∀ {xs ys : List Token} {lo mid hi : Nat},
    Tiles src lo mid xs → Tiles src mid hi ys → Tiles src lo hi (xs ++ ys)
  | [], _, _, _, _, h1, h2 => by
    have h1 : _ = _ := h1
    subst h1
    exact h2
  | x :: xs, _, _, _, _, h1, h2 => ⟨h1.1, h1.2.1, Tiles.concat h1.2.2 h2⟩

theorem slice_self (src : List Char) (a : Nat) : slice src a a = [] := by
  simp [slice]

theorem slice_of_drop {src pre rest : List Char} {a : Nat} (h : src.drop a = pre ++ rest) :
    slice src a (a + pre.length) = pre := by
  unfold slice
  rw [h, Nat.add_sub_cancel_left, List.take_left]

namespace Lexer

variable {n : Nat}

open CircularQueue

theorem addNextToken_laid {src : List Char} {its : List Token} {L L' : Lexer n}
    (hpos : PosInv src L) (hq : Holds L.m_tokens its) (h : addNextToken L = .ok L') :
    Laid src its L L' := by
  obtain ⟨_, hpos', _, _⟩ := addNextToken_adv hpos hq h
  cases hw : skipWhitespace L with
  | error e =>
    unfold addNextToken at h
    rw [hw] at h
    cases h
  | ok r =>
    obtain ⟨b, M⟩ := r
    obtain ⟨pre, hfile, hidx, hdisj⟩ := skipWhitespaceAux_gap _ _ _ hw
    simp only at hfile hidx hdisj
    have hdrop : src.drop L.m_index = pre ++ M.m_file := by rw [← hpos.2, hfile]
    rcases hdisj with ⟨htok, hb, hblank⟩ | ⟨gap, hg, hblank, hpush⟩
    · subst hb
      obtain ⟨X, lexeme, ty, hp, ht⟩ := addNextToken_scan hw h
      unfold pushToken at hp
      split at hp
      · cases hp
      · rename_i q' hq'
        injection hp with hp
        subst hp
        rw [ht, htok] at hq'
        refine ⟨[_], hpos', holds_push hq hq', ?_, ?_, rfl⟩
        · simp only
          omega
        · simp only
          rw [hidx, slice_of_drop hdrop]
          exact hblank
    · subst hg
      have hdrop' : src.drop L.m_index = gap ++ ('/' :: M.m_file) := by
        rw [hdrop]
        simp
      have hq1 := holds_push hq hpush
      have hslash : L.m_index ≤ L.m_index + gap.length ∧
          Blank (slice src L.m_index (L.m_index + gap.length)) :=
        ⟨Nat.le_add_right _ _, by rw [slice_of_drop hdrop']; exact hblank⟩
      have hend : L.m_index + gap.length + 1 = M.m_index := by
        rw [hidx]
        simp only [List.length_append, List.length_singleton]
        omega
      cases b with
      | true =>
        have hL : L' = M := by
          unfold addNextToken at h
          rw [hw] at h
          injection h with h
          exact h.symm
        subst hL
        exact ⟨[_], hpos', hq1, hslash.1, hslash.2, hend⟩
      | false =>
        obtain ⟨X, lexeme, ty, hp, ht⟩ := addNextToken_scan hw h
        unfold pushToken at hp
        split at hp
        · cases hp
        · rename_i q' hq'
          injection hp with hp
          subst hp
          rw [ht] at hq'
          have hq2 := holds_push hq1 hq'
          rw [List.append_assoc] at hq2
          refine ⟨[_, _], hpos', hq2, hslash.1, hslash.2, ?_, ?_, rfl⟩
          · simp only
            omega
          · simp only
            rw [hend, slice_self]
            exact Blank.nil

end Lexer

namespace Lexer

variable {n : Nat}

open CircularQueue

theorem Laid.followed {src : List Char} {its : List Token} {L M L' : Lexer n}
    (h1 : Laid src its L M) (h2 : ∀ its', Holds M.m_tokens its' → Laid src its' M L') :
    Laid src its L L' := by
  obtain ⟨n1, _, hq1, hs1⟩ := h1
  obtain ⟨n2, hp2, hq2, hs2⟩ := h2 _ hq1
  exact ⟨n1 ++ n2, hp2, by rw [← List.append_assoc]; exact hq2, hs1.concat hs2⟩

theorem fill_laid {src : List Char} : ∀ (count : Nat) {its : List Token} {L L' : Lexer n},
    PosInv src L → Holds L.m_tokens its → fill count L = .ok L' → Laid src its L L'
  | 0, its, L, L', hpos, hq, h => by
    injection h with h
    subst h
    exact ⟨[], hpos, by simpa using hq, rfl⟩
  | count + 1, its, L, L', hpos, hq, h => by
    unfold fill at h
    cases hM : addNextToken L with
    | error e => rw [hM] at h; cases h
    | ok M =>
      rw [hM] at h
      have h1 := addNextToken_laid hpos hq hM
      exact h1.followed (fun its' hq' => fill_laid count h1.choose_spec.1 hq' h)

theorem new_laid {src : List Char} {L : Lexer n} (h : Lexer.new n src = .ok L) :
    ∃ its, PosInv src L ∧ Holds L.m_tokens its ∧ Tiles src 0 L.m_index its := by
  have h0 : PosInv src (⟨src, 0, CircularQueue.new⟩ : Lexer n) := ⟨Nat.zero_le _, rfl⟩
  obtain ⟨news, h1, h2, h3⟩ := fill_laid n h0 holds_new h
  exact ⟨news, h1, by simpa using h2, h3⟩

theorem skip_laid {src : List Char} {t : Token} {its : List Token} {L L' : Lexer n}
    (hpos : PosInv src L) (hq : Holds L.m_tokens (t :: its)) (h : L.skip = .ok L') :
    ∃ news, PosInv src L' ∧ Holds L'.m_tokens (its ++ news) ∧
      Tiles src L.m_index L'.m_index news := by
  obtain ⟨q', hq1, hq2⟩ := holds_pop hq
  unfold skip at h
  rw [hq1] at h
  exact addNextToken_laid (L := ⟨L.m_file, L.m_index, q'⟩) hpos hq2 h

theorem produced_tiles {src : List Char} : ∀ (k : Nat) {L : Lexer n} {its ts : List Token}
    {lo : Nat}, PosInv src L → Holds L.m_tokens its → Tiles src lo L.m_index its →
    L.produced k = .ok ts → ∃ hi, Tiles src lo hi ts
  | 0, L, its, ts, lo, _, hq, hs, h => by
    rw [window_of_holds hq h]
    exact ⟨_, hs⟩
  | k + 1, L, its, ts, lo, hpos, hq, hs, h => by
    unfold produced at h
    cases its with
    | nil =>
      have : L.peek = .error
          (.underflow_error "CircularQueue: trying to access front in an empty queue") := by
        unfold peek front
        rw [if_pos (by have := hq.1; simpa using this.symm)]
      rw [this] at h
      cases h
    | cons t its =>
      have hpeek : L.peek = .ok t := front_of_holds hq
      rw [hpeek] at h
      cases hskip : L.skip with
      | error e => rw [hskip] at h; cases h
      | ok L' =>
        rw [hskip] at h
        dsimp only at h
        cases hrest : L'.produced k with
        | error e => rw [hrest] at h; cases h
        | ok ts' =>
          rw [hrest] at h
          injection h with h
          subst h
          obtain ⟨news, hpos', hq', hs'⟩ := skip_laid hpos hq hskip
          obtain ⟨hi, hfin⟩ := produced_tiles k hpos' hq' (hs.2.2.concat hs') hrest
          exact ⟨hi, hs.1, hs.2.1, hfin⟩

theorem tokenize_tiles {src : List Char} {k : Nat} {ts : List Token}
    (h : tokenize n src k = .ok ts) : ∃ hi, Tiles src 0 hi ts := by
  unfold tokenize at h
  cases hnew : Lexer.new n src with
  | error e => rw [hnew] at h; cases h
  | ok L =>
    rw [hnew] at h
    obtain ⟨its, hpos, hq, hs⟩ := new_laid hnew
    exact produced_tiles k hpos hq hs h

end Lexer

/-- In a tiling every offset is in the span of a token or in white space and comments
that stand between the start or the end of a token and the start of a token. -/
theorem Tiles.cover {src : List Char} : ∀ {ts : List Token} {lo hi : Nat},
    Tiles src lo hi ts → ∀ i, lo ≤ i → i < hi →
      (∃ t ∈ ts, t.from_ ≤ i ∧ i < t.to_) ∨
      ∃ a b, a ≤ i ∧ i < b ∧ Blank (slice src a b) ∧
        (a = lo ∨ ∃ t ∈ ts, t.to_ = a) ∧ ∃ u ∈ ts, u.from_ = b
  | [], _, _, h, i, h1, h2 => by
    have h : _ = _ := h
    omega
  | t :: ts, lo, _, h, i, h1, h2 => by
    by_cases ha : i < t.from_
    · exact .inr ⟨lo, t.from_, h1, ha, h.2.1, .inl rfl, t, List.mem_cons_self _ _, rfl⟩
    · by_cases hb : i < t.to_
      · exact .inl ⟨t, List.mem_cons_self _ _, by omega, hb⟩
      · rcases Tiles.cover h.2.2 i (by omega) h2 with ⟨u, hu, h3⟩ | ⟨a, b, h3, h4, h5, h6, u, hu, h7⟩
        · exact .inl ⟨u, List.mem_cons_of_mem _ hu, h3⟩
        · refine .inr ⟨a, b, h3, h4, h5, .inr ?_, u, List.mem_cons_of_mem _ hu, h7⟩
          rcases h6 with rfl | ⟨v, hv, h8⟩
          · exact ⟨t, List.mem_cons_self _ _, rfl⟩
          · exact ⟨v, List.mem_cons_of_mem _ hv, h8⟩

theorem Tiles.ends_le {src : List Char} : ∀ {ts : List Token} {lo hi : Nat},
    Tiles src lo hi ts → (∀ t ∈ ts, t.from_ ≤ t.to_) → lo ≤ hi ∧ ∀ t ∈ ts, t.to_ ≤ hi
  | [], _, _, h, _ => by
    have h : _ = _ := h
    exact ⟨by omega, fun t ht => by cases ht⟩
  | x :: ts, _, _, h, hord => by
    obtain ⟨h1, h2⟩ := Tiles.ends_le h.2.2 (fun t ht => hord t (List.mem_cons_of_mem _ ht))
    have := hord x (List.mem_cons_self _ _)
    have := h.1
    refine ⟨by omega, fun t ht => ?_⟩
    rcases List.mem_cons.mp ht with rfl | ht
    · exact h1
    · exact h2 t ht

/-! ### The lexer on text without the byte 0xFF

The byte 0xFF reads as the end of the file. Where the text that is read holds no such
byte, string literals, comments, unrecognized characters and the end of the input are
lexed as follows. -/

/-- Where a token starts with a quote and its body holds no byte 0xFF: a second quote
closes the literal, a newline or the end of the text fails; and a byte 0xFF after the
body fails like the end of the text, whatever follows it. The token starts at the lexer
`M` that `skipWhitespace` reaches from `L`. -/
theorem string_literal_tokens {n : Nat} (L M : Lexer n) (body rest : List Char)
    (hw : Lexer.skipWhitespace L = .ok (false, M))
    (hbody : ∀ c ∈ body, c ≠ '"' ∧ c ≠ '\n') (hff : ∀ c ∈ body, c ≠ '\xff') :
    (M.m_file = '"' :: (body ++ '"' :: rest) →
      Lexer.addNextToken L =
        Lexer.pushToken ⟨rest, M.m_index + 1 + body.length + 1, M.m_tokens⟩ ⟨body⟩
          .StringLiteral M.m_index) ∧
    (M.m_file = '"' :: (body ++ '\n' :: rest) →
      Lexer.addNextToken L = .error
        (.range_error "Reached end-of-line before ending string literal.")) ∧
    (M.m_file = '"' :: body →
      Lexer.addNextToken L = .error
        (.range_error "Reached end-of-file before ending string literal.")) ∧
    (M.m_file = '"' :: (body ++ '\xff' :: rest) →
      Lexer.addNextToken L = .error
        (.range_error "Reached end-of-file before ending string literal.")) := by
  have hq : ∀ {tail : List Char}, M.m_file = '"' :: tail → M.peekChar = some '"' :=
    fun hf => Lexer.peekChar_some hf (by decide)
  refine ⟨fun hf => ?_, fun hf => ?_, fun hf => ?_, fun hf => ?_⟩
  · rw [Lexer.addNextToken_quote hw (hq hf), Lexer.getStringLiteral_closed hf hbody hff]
  · rw [Lexer.addNextToken_quote hw (hq hf), Lexer.getStringLiteral_newline hf hbody hff]
  · rw [Lexer.addNextToken_quote hw (hq hf), Lexer.getStringLiteral_eof hf hbody]
  · rw [Lexer.addNextToken_quote hw (hq hf), Lexer.getStringLiteral_at_eof hf hbody hff]

/-- Where, after white space, a comment opens with `/*` and its body holds no `*/`: if
the body holds no byte 0xFF either, a `*/` after it closes the comment and
`skipWhitespace` goes on right after it; the end of the text after the body, and a byte
0xFF after the body whatever follows it, fail with the error of the unterminated
comment. -/
theorem block_comment_skipped {n : Nat} (L : Lexer n) (ws body rest : List Char)
    (hws : ws.all isspace = true) (hbody : ¬ ['*', '/'] <:+: body) :
    (L.m_file = ws ++ '/' :: '*' :: (body ++ '*' :: '/' :: rest) →
      (∀ c ∈ body, c ≠ '\xff') →
      Lexer.skipWhitespace L =
        match Lexer.skipWhitespace
          ⟨rest, L.m_index + ws.length + 2 + body.length + 2, L.m_tokens⟩ with
        | .error e => .error e
        | .ok r => .ok (false, r.2)) ∧
    (L.m_file = ws ++ '/' :: '*' :: body →
      Lexer.skipWhitespace L = .error (.range_error "Unterminated multiline comment.") ∧
      Lexer.addNextToken L = .error (.range_error "Unterminated multiline comment.")) ∧
    (L.m_file = ws ++ '/' :: '*' :: (body ++ '\xff' :: rest) →
      Lexer.skipWhitespace L = .error (.range_error "Unterminated multiline comment.") ∧
      Lexer.addNextToken L = .error (.range_error "Unterminated multiline comment.")) := by
  have hsp : ∀ tail, L.m_file = ws ++ '/' :: tail →
      Lexer.skipSpaces L.m_file L.m_index = ('/' :: tail, L.m_index + ws.length) :=
    fun tail hf => by rw [hf]; exact Lexer.skipSpaces_append '/' tail (by decide) ws _ hws
  have hopen : ∀ tail, L.m_file = ws ++ '/' :: '*' :: tail →
      (Lexer.skipBlock tail (L.m_index + ws.length + 1 + 1)).1 = false →
      Lexer.skipWhitespace L = .error (.range_error "Unterminated multiline comment.") ∧
      Lexer.addNextToken L = .error (.range_error "Unterminated multiline comment.") := by
    intro tail hf hb
    have key : Lexer.skipWhitespace L
        = .error (.range_error "Unterminated multiline comment.") := by
      unfold Lexer.skipWhitespace
      rw [Lexer.skipWhitespaceAux]
      simp only [hsp _ hf]
      rw [if_pos (Lexer.peekChar_some rfl (by decide))]
      simp only [Lexer.skipChar, List.tail_cons]
      rw [if_neg (by rw [Lexer.peekChar_some rfl (by decide)]; decide),
        if_pos (Lexer.peekChar_some rfl (by decide))]
      simp only [hb]
      rfl
    refine ⟨key, ?_⟩
    unfold Lexer.addNextToken
    rw [key]
  refine ⟨fun hf hff => ?_, fun hf => hopen _ hf (Lexer.skipBlock_open body _ hbody),
    fun hf => hopen _ hf (Lexer.skipBlock_at_eof rest body _ hbody)⟩
  unfold Lexer.skipWhitespace
  rw [Lexer.skipWhitespaceAux]
  simp only [hsp _ hf]
  rw [if_pos (Lexer.peekChar_some rfl (by decide))]
  simp only [Lexer.skipChar, List.tail_cons]
  rw [if_neg (by rw [Lexer.peekChar_some rfl (by decide)]; decide),
    if_pos (Lexer.peekChar_some rfl (by decide))]
  simp only [Lexer.skipBlock_closed rest body _ hbody hff]
  simp only [Bool.not_true, Bool.false_eq_true, if_false]
  rw [Lexer.skipWhitespaceAux_eq _ _ (by
    simp only [hf, List.length_append, List.length_cons]; omega)]
  rfl

/-- In a source without the byte 0xFF: where only white space and comments are left to
read, `addNextToken` pushes the token `EndOfFile` with the empty lexeme and
`from = to =` the length of the source; every `EndOfFile` token of the source is this
token, as is every token after it; and once the last token handed out is `EndOfFile`,
the next `skip` succeeds and hands out this token again. -/
theorem end_of_input_token (n : Nat) (src : List Char) (hff : ∀ c ∈ src, c ≠ '\xff') :
    (∀ L : Lexer n, Lexer.PosInv src L → Blank L.m_file →
      Lexer.addNextToken L
        = Lexer.pushToken ⟨[], src.length, L.m_tokens⟩ "" .EndOfFile src.length) ∧
    (∀ k ts, Lexer.tokenize n src k = .ok ts → ∀ (i j : Nat) (t u : Token), i ≤ j →
      ts[i]? = some t → t.type = .EndOfFile → ts[j]? = some u →
      u = ⟨"", .EndOfFile, src.length, src.length⟩) ∧
    (∀ k ts t, Lexer.tokenize n src k = .ok ts → ts.getLast? = some t →
      t.type = .EndOfFile →
      Lexer.tokenize n src (k + 1) = .ok (ts ++ [⟨"", .EndOfFile, src.length, src.length⟩])) := by
  refine ⟨fun L hpos hb => Lexer.addNextToken_blank hpos hb (fun c hc => ?_),
    fun k ts h i j t u hij hi hty hj => ?_,
    fun k ts t h hl hty => Lexer.tokenize_at_end hff h hl hty⟩
  · rw [hpos.2] at hc
    exact hff c (List.mem_of_mem_drop hc)
  · obtain ⟨hi', hs⟩ := Lexer.tokenize_spans h
    exact hs.after_end hff i j t u hij hi hty hj

/-- Where, after white space and comments, the next character is no byte 0xFF, none of
the characters of the operators and punctuation, no quote, no digit, no letter and no
underscore, `addNextToken` fails with the error `Unrecognized token.`; where it is the
byte 0xFF, `addNextToken` pushes the token `EndOfFile` there. The character is the first
one at the lexer `M` that `skipWhitespace` reaches from `L`. -/
theorem unrecognized_character {n : Nat} (L M : Lexer n) (c : Char) (rest : List Char)
    (hw : Lexer.skipWhitespace L = .ok (false, M)) (hf : M.m_file = c :: rest) :
    (c ≠ '\xff' →
      c ∉ ['[', ']', '(', ')', '.', ',', '+', '-', '*', '/', '%', '!', '~', '<', '>',
        '=', '"'] →
      decimalDigit c = false → letter c = false → c ≠ '_' →
      Lexer.addNextToken L = .error (.logic_error "Unrecognized token.")) ∧
    (c = '\xff' → Lexer.addNextToken L = M.pushToken "" .EndOfFile M.m_index) := by
  refine ⟨fun h0 hop hd hl hu =>
    Lexer.addNextToken_other hw (Lexer.peekChar_some hf h0) hop hd hl hu, fun h0 => ?_⟩
  unfold Lexer.addNextToken
  rw [hw]
  dsimp only
  rw [if_pos (by rw [Lexer.peekChar_of_file hf, if_pos h0])]

/-- In the tokens of a source, what stands before each token, after the token before it
or after the start of the source, is white space and comments; so where the source holds
no byte 0xFF and its tokens reach the `EndOfFile` token, every offset of the source is
in the span of a token or in white space and comments that stand between the start of
the source or the end of a token and the start of a token. -/
theorem tokens_cover_source (n : Nat) (src : List Char) (k : Nat) (ts : List Token)
    (h : Lexer.tokenize n src k = .ok ts) :
    (∃ hi, Tiles src 0 hi ts) ∧
    ((∀ c ∈ src, c ≠ '\xff') → (∃ e ∈ ts, e.type = .EndOfFile) → ∀ i, i < src.length →
      (∃ t ∈ ts, t.from_ ≤ i ∧ i < t.to_) ∨
      ∃ a b, a ≤ i ∧ i < b ∧ Blank (slice src a b) ∧
        (a = 0 ∨ ∃ t ∈ ts, t.to_ = a) ∧ ∃ u ∈ ts, u.from_ = b) := by
  obtain ⟨hi, htiles⟩ := Lexer.tokenize_tiles h
  obtain ⟨hi', hspans⟩ := Lexer.tokenize_spans h
  refine ⟨⟨hi, htiles⟩, fun hff ⟨e, he, hty⟩ i hlt => ?_⟩
  have hord : ∀ t ∈ ts, t.from_ ≤ t.to_ := fun t ht => (hspans.okIn t ht).1
  have h1 := (htiles.ends_le hord).2 e he
  have h2 := hspans.okIn e he
  have h3 := eof_from hff h2 hty
  have h4 := h2.1
  exact htiles.cover i (Nat.zero_le _) (by omega)

end frontend

/-! ## The parser -/

namespace frontend

namespace Expression

mutual

theorem eq_of_beq : ∀ a b : Expression, beq a b = true → a = b
  | identifier a, identifier b, h => by simp [beq] at h; simp [h]
  | numericLiteral a f t, numericLiteral b g u, h => by simp [beq] at h; simp [h]
  | stringLiteral a f t, stringLiteral b g u, h => by simp [beq] at h; simp [h]
  | arrayLiteral a f t, arrayLiteral b g u, h => by
    simp [beq] at h
    simp [h, eq_of_beqList a b h.1.1]
  | unaryOperator k a f t, unaryOperator l b g u, h => by
    simp [beq] at h
    simp [h, eq_of_beq a b h.1.1.2]
  | binaryOperator k a c f t, binaryOperator l b d g u, h => by
    simp [beq] at h
    simp [h, eq_of_beq a b h.1.1.1.2, eq_of_beq c d h.1.1.2]
  | memberAccess a i f t, memberAccess b j g u, h => by
    simp [beq] at h
    simp [h, eq_of_beq a b h.1.1.1]
  | functionCall a as f t, functionCall b bs g u, h => by
    simp [beq] at h
    simp [h, eq_of_beq a b h.1.1.1, eq_of_beqList as bs h.1.1.2]
  | subscriptAccess a c f t, subscriptAccess b d g u, h => by
    simp [beq] at h
    simp [h, eq_of_beq a b h.1.1.1, eq_of_beq c d h.1.1.2]
  | identifier _, numericLiteral _ _ _, h | identifier _, stringLiteral _ _ _, h => by simp [beq] at h

theorem eq_of_beqList : ∀ a b : List Expression, beqList a b = true → a = b
  | [], [], _ => rfl
  | a :: as, b :: bs, h => by
    simp [beqList] at h
    rw [eq_of_beq a b h.1, eq_of_beqList as bs h.2]
  | [], _ :: _, h => by simp [beqList] at h
  | _ :: _, [], h => by simp [beqList] at h

end

end Expression

namespace Lexer

theorem Reaches.compose {L L1 M : Lexer 2} (h1 : Reaches L L1) (h2 : Reaches L1 M) :
    Reaches L M := by
  induction h1 with
  | refl => exact h2
  | step hs _ ih => exact .step hs (ih h2)

end Lexer

namespace Parser

theorem eq_of_returns {r : Except Error (Expression × Lexer 2)} {x : Expression}
    {M : Lexer 2} (h : returns r x M = true) : r = .ok (x, M) := by
  unfold returns at h
  cases r with
  | error e => cases h
  | ok p =>
    simp only [Bool.and_eq_true, decide_eq_true_eq] at h
    rw [← Expression.eq_of_beq _ _ h.1, ← h.2]

theorem FuelLe.refl {α : Type} (r : Except Error α) : FuelLe r r := Or.inr rfl

theorem FuelLe.bind {α β : Type} {x x' : Except Error α} {k k' : α → Except Error β}
    (hx : FuelLe x x') (hk : ∀ a, FuelLe (k a) (k' a)) : FuelLe (x >>= k) (x' >>= k') := by
  rcases hx with rfl | rfl
  · exact Or.inl rfl
  · cases x with
    | error e => exact Or.inr rfl
    | ok a => exact hk a

theorem FuelLe.ite {α : Type} {c : Prop} [Decidable c] {a a' b b' : Except Error α}
    (ha : FuelLe a a') (hb : FuelLe b b') : FuelLe (ite c a b) (ite c a' b') := by
  split
  · exact ha
  · exact hb

theorem fuelMono : ∀ fuel : Nat, FuelMono fuel := by
  intro fuel
  induction fuel with
  | zero =>
    constructor <;> intros <;> exact Or.inl rfl
  | succ fuel ih =>
    constructor
    · intros
      rw [Parser.parseList, Parser.parseList]
      repeat' first
        | with_reducible exact ih.parseList ..
        | with_reducible exact ih.parseListLoop ..
        | with_reducible exact ih.parseEquality ..
        | with_reducible exact ih.parseEqualityLoop ..
        | with_reducible exact ih.parseRelational ..
        | with_reducible exact ih.parseRelationalLoop ..
        | with_reducible exact ih.parseShift ..
        | with_reducible exact ih.parseShiftLoop ..
        | with_reducible exact ih.parseAdditive ..
        | with_reducible exact ih.parseAdditiveLoop ..
        | with_reducible exact ih.parseMultiplicative ..
        | with_reducible exact ih.parseMultiplicativeLoop ..
        | with_reducible exact ih.parseUnaryRightAssociative ..
        | with_reducible exact ih.parseUnaryLeftAssociative ..
        | with_reducible exact ih.parseUnaryLeftAssociativeLoop ..
        | with_reducible exact ih.parseTerminal ..
        | with_reducible exact ih.parseArrayLiteral ..
        | refine FuelLe.bind ?_ ?_
        | refine FuelLe.ite ?_ ?_
        | with_reducible exact FuelLe.refl _
        | (intro r; cases r; try dsimp only)
    · intros
      rw [Parser.parseListLoop, Parser.parseListLoop]
      repeat' first
        | with_reducible exact ih.parseList ..
        | with_reducible exact ih.parseListLoop ..
        | with_reducible exact ih.parseEquality ..
        | with_reducible exact ih.parseEqualityLoop ..
        | with_reducible exact ih.parseRelational ..
        | with_reducible exact ih.parseRelationalLoop ..
        | with_reducible exact ih.parseShift ..
        | with_reducible exact ih.parseShiftLoop ..
        | with_reducible exact ih.parseAdditive ..
        | with_reducible exact ih.parseAdditiveLoop ..
        | with_reducible exact ih.parseMultiplicative ..
        | with_reducible exact ih.parseMultiplicativeLoop ..
        | with_reducible exact ih.parseUnaryRightAssociative ..
        | with_reducible exact ih.parseUnaryLeftAssociative ..
        | with_reducible exact ih.parseUnaryLeftAssociativeLoop ..
        | with_reducible exact ih.parseTerminal ..
        | with_reducible exact ih.parseArrayLiteral ..
        | refine FuelLe.bind ?_ ?_
        | refine FuelLe.ite ?_ ?_
        | with_reducible exact FuelLe.refl _
        | (intro r; cases r; try dsimp only)
    · intros
      rw [Parser.parseEquality, Parser.parseEquality]
      repeat' first
        | with_reducible exact ih.parseList ..
        | with_reducible exact ih.parseListLoop ..
        | with_reducible exact ih.parseEquality ..
        | with_reducible exact ih.parseEqualityLoop ..
        | with_reducible exact ih.parseRelational ..
        | with_reducible exact ih.parseRelationalLoop ..
        | with_reducible exact ih.parseShift ..
        | with_reducible exact ih.parseShiftLoop ..
        | with_reducible exact ih.parseAdditive ..
        | with_reducible exact ih.parseAdditiveLoop ..
        | with_reducible exact ih.parseMultiplicative ..
        | with_reducible exact ih.parseMultiplicativeLoop ..
        | with_reducible exact ih.parseUnaryRightAssociative ..
        | with_reducible exact ih.parseUnaryLeftAssociative ..
        | with_reducible exact ih.parseUnaryLeftAssociativeLoop ..
        | with_reducible exact ih.parseTerminal ..
        | with_reducible exact ih.parseArrayLiteral ..
        | refine FuelLe.bind ?_ ?_
        | refine FuelLe.ite ?_ ?_
        | with_reducible exact FuelLe.refl _
        | (intro r; cases r; try dsimp only)
    · intros
      rw [Parser.parseEqualityLoop, Parser.parseEqualityLoop]
      repeat' first
        | with_reducible exact ih.parseList ..
        | with_reducible exact ih.parseListLoop ..
        | with_reducible exact ih.parseEquality ..
        | with_reducible exact ih.parseEqualityLoop ..
        | with_reducible exact ih.parseRelational ..
        | with_reducible exact ih.parseRelationalLoop ..
        | with_reducible exact ih.parseShift ..
        | with_reducible exact ih.parseShiftLoop ..
        | with_reducible exact ih.parseAdditive ..
        | with_reducible exact ih.parseAdditiveLoop ..
        | with_reducible exact ih.parseMultiplicative ..
        | with_reducible exact ih.parseMultiplicativeLoop ..
        | with_reducible exact ih.parseUnaryRightAssociative ..
        | with_reducible exact ih.parseUnaryLeftAssociative ..
        | with_reducible exact ih.parseUnaryLeftAssociativeLoop ..
        | with_reducible exact ih.parseTerminal ..
        | with_reducible exact ih.parseArrayLiteral ..
        | refine FuelLe.bind ?_ ?_
        | refine FuelLe.ite ?_ ?_
        | with_reducible exact FuelLe.refl _
        | (intro r; cases r; try dsimp only)
    · intros
      rw [Parser.parseRelational, Parser.parseRelational]
      repeat' first
        | with_reducible exact ih.parseList ..
        | with_reducible exact ih.parseListLoop ..
        | with_reducible exact ih.parseEquality ..
        | with_reducible exact ih.parseEqualityLoop ..
        | with_reducible exact ih.parseRelational ..
        | with_reducible exact ih.parseRelationalLoop ..
        | with_reducible exact ih.parseShift ..
        | with_reducible exact ih.parseShiftLoop ..
        | with_reducible exact ih.parseAdditive ..
        | with_reducible exact ih.parseAdditiveLoop ..
        | with_reducible exact ih.parseMultiplicative ..
        | with_reducible exact ih.parseMultiplicativeLoop ..
        | with_reducible exact ih.parseUnaryRightAssociative ..
        | with_reducible exact ih.parseUnaryLeftAssociative ..
        | with_reducible exact ih.parseUnaryLeftAssociativeLoop ..
        | with_reducible exact ih.parseTerminal ..
        | with_reducible exact ih.parseArrayLiteral ..
        | refine FuelLe.bind ?_ ?_
        | refine FuelLe.ite ?_ ?_
        | with_reducible exact FuelLe.refl _
        | (intro r; cases r; try dsimp only)
    · intros
      rw [Parser.parseRelationalLoop, Parser.parseRelationalLoop]
      repeat' first
        | with_reducible exact ih.parseList ..
        | with_reducible exact ih.parseListLoop ..
        | with_reducible exact ih.parseEquality ..
        | with_reducible exact ih.parseEqualityLoop ..
        | with_reducible exact ih.parseRelational ..
        | with_reducible exact ih.parseRelationalLoop ..
        | with_reducible exact ih.parseShift ..
        | with_reducible exact ih.parseShiftLoop ..
        | with_reducible exact ih.parseAdditive ..
        | with_reducible exact ih.parseAdditiveLoop ..
        | with_reducible exact ih.parseMultiplicative ..
        | with_reducible exact ih.parseMultiplicativeLoop ..
        | with_reducible exact ih.parseUnaryRightAssociative ..
        | with_reducible exact ih.parseUnaryLeftAssociative ..
        | with_reducible exact ih.parseUnaryLeftAssociativeLoop ..
        | with_reducible exact ih.parseTerminal ..
        | with_reducible exact ih.parseArrayLiteral ..
        | refine FuelLe.bind ?_ ?_
        | refine FuelLe.ite ?_ ?_
        | with_reducible exact FuelLe.refl _
        | (intro r; cases r; try dsimp only)
    · intros
      rw [Parser.parseShift, Parser.parseShift]
      repeat' first
        | with_reducible exact ih.parseList ..
        | with_reducible exact ih.parseListLoop ..
        | with_reducible exact ih.parseEquality ..
        | with_reducible exact ih.parseEqualityLoop ..
        | with_reducible exact ih.parseRelational ..
        | with_reducible exact ih.parseRelationalLoop ..
        | with_reducible exact ih.parseShift ..
        | with_reducible exact ih.parseShiftLoop ..
        | with_reducible exact ih.parseAdditive ..
        | with_reducible exact ih.parseAdditiveLoop ..
        | with_reducible exact ih.parseMultiplicative ..
        | with_reducible exact ih.parseMultiplicativeLoop ..
        | with_reducible exact ih.parseUnaryRightAssociative ..
        | with_reducible exact ih.parseUnaryLeftAssociative ..
        | with_reducible exact ih.parseUnaryLeftAssociativeLoop ..
        | with_reducible exact ih.parseTerminal ..
        | with_reducible exact ih.parseArrayLiteral ..
        | refine FuelLe.bind ?_ ?_
        | refine FuelLe.ite ?_ ?_
        | with_reducible exact FuelLe.refl _
        | (intro r; cases r; try dsimp only)
    · intros
      rw [Parser.parseShiftLoop, Parser.parseShiftLoop]
      repeat' first
        | with_reducible exact ih.parseList ..
        | with_reducible exact ih.parseListLoop ..
        | with_reducible exact ih.parseEquality ..
        | with_reducible exact ih.parseEqualityLoop ..
        | with_reducible exact ih.parseRelational ..
        | with_reducible exact ih.parseRelationalLoop ..
        | with_reducible exact ih.parseShift ..
        | with_reducible exact ih.parseShiftLoop ..
        | with_reducible exact ih.parseAdditive ..
        | with_reducible exact ih.parseAdditiveLoop ..
        | with_reducible exact ih.parseMultiplicative ..
        | with_reducible exact ih.parseMultiplicativeLoop ..
        | with_reducible exact ih.parseUnaryRightAssociative ..
        | with_reducible exact ih.parseUnaryLeftAssociative ..
        | with_reducible exact ih.parseUnaryLeftAssociativeLoop ..
        | with_reducible exact ih.parseTerminal ..
        | with_reducible exact ih.parseArrayLiteral ..
        | refine FuelLe.bind ?_ ?_
        | refine FuelLe.ite ?_ ?_
        | with_reducible exact FuelLe.refl _
        | (intro r; cases r; try dsimp only)
    · intros
      rw [Parser.parseAdditive, Parser.parseAdditive]
      repeat' first
        | with_reducible exact ih.parseList ..
        | with_reducible exact ih.parseListLoop ..
        | with_reducible exact ih.parseEquality ..
        | with_reducible exact ih.parseEqualityLoop ..
        | with_reducible exact ih.parseRelational ..
        | with_reducible exact ih.parseRelationalLoop ..
        | with_reducible exact ih.parseShift ..
        | with_reducible exact ih.parseShiftLoop ..
        | with_reducible exact ih.parseAdditive ..
        | with_reducible exact ih.parseAdditiveLoop ..
        | with_reducible exact ih.parseMultiplicative ..
        | with_reducible exact ih.parseMultiplicativeLoop ..
        | with_reducible exact ih.parseUnaryRightAssociative ..
        | with_reducible exact ih.parseUnaryLeftAssociative ..
        | with_reducible exact ih.parseUnaryLeftAssociativeLoop ..
        | with_reducible exact ih.parseTerminal ..
        | with_reducible exact ih.parseArrayLiteral ..
        | refine FuelLe.bind ?_ ?_
        | refine FuelLe.ite ?_ ?_
        | with_reducible exact FuelLe.refl _
        | (intro r; cases r; try dsimp only)
    · intros
      rw [Parser.parseAdditiveLoop, Parser.parseAdditiveLoop]
      repeat' first
        | with_reducible exact ih.parseList ..
        | with_reducible exact ih.parseListLoop ..
        | with_reducible exact ih.parseEquality ..
        | with_reducible exact ih.parseEqualityLoop ..
        | with_reducible exact ih.parseRelational ..
        | with_reducible exact ih.parseRelationalLoop ..
        | with_reducible exact ih.parseShift ..
        | with_reducible exact ih.parseShiftLoop ..
        | with_reducible exact ih.parseAdditive ..
        | with_reducible exact ih.parseAdditiveLoop ..
        | with_reducible exact ih.parseMultiplicative ..
        | with_reducible exact ih.parseMultiplicativeLoop ..
        | with_reducible exact ih.parseUnaryRightAssociative ..
        | with_reducible exact ih.parseUnaryLeftAssociative ..
        | with_reducible exact ih.parseUnaryLeftAssociativeLoop ..
        | with_reducible exact ih.parseTerminal ..
        | with_reducible exact ih.parseArrayLiteral ..
        | refine FuelLe.bind ?_ ?_
        | refine FuelLe.ite ?_ ?_
        | with_reducible exact FuelLe.refl _
        | (intro r; cases r; try dsimp only)
    · intros
      rw [Parser.parseMultiplicative, Parser.parseMultiplicative]
      repeat' first
        | with_reducible exact ih.parseList ..
        | with_reducible exact ih.parseListLoop ..
        | with_reducible exact ih.parseEquality ..
        | with_reducible exact ih.parseEqualityLoop ..
        | with_reducible exact ih.parseRelational ..
        | with_reducible exact ih.parseRelationalLoop ..
        | with_reducible exact ih.parseShift ..
        | with_reducible exact ih.parseShiftLoop ..
        | with_reducible exact ih.parseAdditive ..
        | with_reducible exact ih.parseAdditiveLoop ..
        | with_reducible exact ih.parseMultiplicative ..
        | with_reducible exact ih.parseMultiplicativeLoop ..
        | with_reducible exact ih.parseUnaryRightAssociative ..
        | with_reducible exact ih.parseUnaryLeftAssociative ..
        | with_reducible exact ih.parseUnaryLeftAssociativeLoop ..
        | with_reducible exact ih.parseTerminal ..
        | with_reducible exact ih.parseArrayLiteral ..
        | refine FuelLe.bind ?_ ?_
        | refine FuelLe.ite ?_ ?_
        | with_reducible exact FuelLe.refl _
        | (intro r; cases r; try dsimp only)
    · intros
      rw [Parser.parseMultiplicativeLoop, Parser.parseMultiplicativeLoop]
      repeat' first
        | with_reducible exact ih.parseList ..
        | with_reducible exact ih.parseListLoop ..
        | with_reducible exact ih.parseEquality ..
        | with_reducible exact ih.parseEqualityLoop ..
        | with_reducible exact ih.parseRelational ..
        | with_reducible exact ih.parseRelationalLoop ..
        | with_reducible exact ih.parseShift ..
        | with_reducible exact ih.parseShiftLoop ..
        | with_reducible exact ih.parseAdditive ..
        | with_reducible exact ih.parseAdditiveLoop ..
        | with_reducible exact ih.parseMultiplicative ..
        | with_reducible exact ih.parseMultiplicativeLoop ..
        | with_reducible exact ih.parseUnaryRightAssociative ..
        | with_reducible exact ih.parseUnaryLeftAssociative ..
        | with_reducible exact ih.parseUnaryLeftAssociativeLoop ..
        | with_reducible exact ih.parseTerminal ..
        | with_reducible exact ih.parseArrayLiteral ..
        | refine FuelLe.bind ?_ ?_
        | refine FuelLe.ite ?_ ?_
        | with_reducible exact FuelLe.refl _
        | (intro r; cases r; try dsimp only)
    · intros
      rw [Parser.parseUnaryRightAssociative, Parser.parseUnaryRightAssociative]
      repeat' first
        | with_reducible exact ih.parseList ..
        | with_reducible exact ih.parseListLoop ..
        | with_reducible exact ih.parseEquality ..
        | with_reducible exact ih.parseEqualityLoop ..
        | with_reducible exact ih.parseRelational ..
        | with_reducible exact ih.parseRelationalLoop ..
        | with_reducible exact ih.parseShift ..
        | with_reducible exact ih.parseShiftLoop ..
        | with_reducible exact ih.parseAdditive ..
        | with_reducible exact ih.parseAdditiveLoop ..
        | with_reducible exact ih.parseMultiplicative ..
        | with_reducible exact ih.parseMultiplicativeLoop ..
        | with_reducible exact ih.parseUnaryRightAssociative ..
        | with_reducible exact ih.parseUnaryLeftAssociative ..
        | with_reducible exact ih.parseUnaryLeftAssociativeLoop ..
        | with_reducible exact ih.parseTerminal ..
        | with_reducible exact ih.parseArrayLiteral ..
        | refine FuelLe.bind ?_ ?_
        | refine FuelLe.ite ?_ ?_
        | with_reducible exact FuelLe.refl _
        | (intro r; cases r; try dsimp only)
    · intros
      rw [Parser.parseUnaryLeftAssociative, Parser.parseUnaryLeftAssociative]
      repeat' first
        | with_reducible exact ih.parseList ..
        | with_reducible exact ih.parseListLoop ..
        | with_reducible exact ih.parseEquality ..
        | with_reducible exact ih.parseEqualityLoop ..
        | with_reducible exact ih.parseRelational ..
        | with_reducible exact ih.parseRelationalLoop ..
        | with_reducible exact ih.parseShift ..
        | with_reducible exact ih.parseShiftLoop ..
        | with_reducible exact ih.parseAdditive ..
        | with_reducible exact ih.parseAdditiveLoop ..
        | with_reducible exact ih.parseMultiplicative ..
        | with_reducible exact ih.parseMultiplicativeLoop ..
        | with_reducible exact ih.parseUnaryRightAssociative ..
        | with_reducible exact ih.parseUnaryLeftAssociative ..
        | with_reducible exact ih.parseUnaryLeftAssociativeLoop ..
        | with_reducible exact ih.parseTerminal ..
        | with_reducible exact ih.parseArrayLiteral ..
        | refine FuelLe.bind ?_ ?_
        | refine FuelLe.ite ?_ ?_
        | with_reducible exact FuelLe.refl _
        | (intro r; cases r; try dsimp only)
    · intros
      rw [Parser.parseUnaryLeftAssociativeLoop, Parser.parseUnaryLeftAssociativeLoop]
      repeat' first
        | with_reducible exact ih.parseList ..
        | with_reducible exact ih.parseListLoop ..
        | with_reducible exact ih.parseEquality ..
        | with_reducible exact ih.parseEqualityLoop ..
        | with_reducible exact ih.parseRelational ..
        | with_reducible exact ih.parseRelationalLoop ..
        | with_reducible exact ih.parseShift ..
        | with_reducible exact ih.parseShiftLoop ..
        | with_reducible exact ih.parseAdditive ..
        | with_reducible exact ih.parseAdditiveLoop ..
        | with_reducible exact ih.parseMultiplicative ..
        | with_reducible exact ih.parseMultiplicativeLoop ..
        | with_reducible exact ih.parseUnaryRightAssociative ..
        | with_reducible exact ih.parseUnaryLeftAssociative ..
        | with_reducible exact ih.parseUnaryLeftAssociativeLoop ..
        | with_reducible exact ih.parseTerminal ..
        | with_reducible exact ih.parseArrayLiteral ..
        | refine FuelLe.bind ?_ ?_
        | refine FuelLe.ite ?_ ?_
        | with_reducible exact FuelLe.refl _
        | (intro r; cases r; try dsimp only)
    · intros
      rw [Parser.parseTerminal, Parser.parseTerminal]
      repeat' first
        | with_reducible exact ih.parseList ..
        | with_reducible exact ih.parseListLoop ..
        | with_reducible exact ih.parseEquality ..
        | with_reducible exact ih.parseEqualityLoop ..
        | with_reducible exact ih.parseRelational ..
        | with_reducible exact ih.parseRelationalLoop ..
        | with_reducible exact ih.parseShift ..
        | with_reducible exact ih.parseShiftLoop ..
        | with_reducible exact ih.parseAdditive ..
        | with_reducible exact ih.parseAdditiveLoop ..
        | with_reducible exact ih.parseMultiplicative ..
        | with_reducible exact ih.parseMultiplicativeLoop ..
        | with_reducible exact ih.parseUnaryRightAssociative ..
        | with_reducible exact ih.parseUnaryLeftAssociative ..
        | with_reducible exact ih.parseUnaryLeftAssociativeLoop ..
        | with_reducible exact ih.parseTerminal ..
        | with_reducible exact ih.parseArrayLiteral ..
        | refine FuelLe.bind ?_ ?_
        | refine FuelLe.ite ?_ ?_
        | with_reducible exact FuelLe.refl _
        | (intro r; cases r; try dsimp only)
    · intros
      rw [Parser.parseArrayLiteral, Parser.parseArrayLiteral]
      repeat' first
        | with_reducible exact ih.parseList ..
        | with_reducible exact ih.parseListLoop ..
        | with_reducible exact ih.parseEquality ..
        | with_reducible exact ih.parseEqualityLoop ..
        | with_reducible exact ih.parseRelational ..
        | with_reducible exact ih.parseRelationalLoop ..
        | with_reducible exact ih.parseShift ..
        | with_reducible exact ih.parseShiftLoop ..
        | with_reducible exact ih.parseAdditive ..
        | with_reducible exact ih.parseAdditiveLoop ..
        | with_reducible exact ih.parseMultiplicative ..
        | with_reducible exact ih.parseMultiplicativeLoop ..
        | with_reducible exact ih.parseUnaryRightAssociative ..
        | with_reducible exact ih.parseUnaryLeftAssociative ..
        | with_reducible exact ih.parseUnaryLeftAssociativeLoop ..
        | with_reducible exact ih.parseTerminal ..
        | with_reducible exact ih.parseArrayLiteral ..
        | refine FuelLe.bind ?_ ?_
        | refine FuelLe.ite ?_ ?_
        | with_reducible exact FuelLe.refl _
        | (intro r; cases r; try dsimp only)

theorem level_unfold {k : Nat} (hk : k < 5) (f : Nat) (L : Lexer 2) :
    level k (f + 1) L = (do
      let r ← level (k + 1) f L
      let t ← r.2.peek
      levelLoop k f r.1 t.type r.2) := by
  have : k = 0 ∨ k = 1 ∨ k = 2 ∨ k = 3 ∨ k = 4 := by omega
  rcases this with rfl | rfl | rfl | rfl | rfl
  · simp only [level, levelLoop]; rw [parseEquality]
  · simp only [level, levelLoop]; rw [parseRelational]
  · simp only [level, levelLoop]; rw [parseShift]
  · simp only [level, levelLoop]; rw [parseAdditive]
  · simp only [level, levelLoop]; rw [parseMultiplicative]

theorem levelLoop_succ {k : Nat} (hk : k < 5) (f : Nat) (lhs : Expression) (op : TokenType)
    (L : Lexer 2) :
    levelLoop k (f + 1) lhs op L =
      if binaryLevel op = some k then (do
        let L1 ← L.skip
        let r ← level (k + 1) f L1
        let t ← r.2.peek
        levelLoop k f (BinaryOperator (binaryNode op) lhs r.1) t.type r.2)
      else .ok (lhs, L) := by
  have : k = 0 ∨ k = 1 ∨ k = 2 ∨ k = 3 ∨ k = 4 := by omega
  rcases this with rfl | rfl | rfl | rfl | rfl
  · simp only [level, levelLoop]; rw [parseEqualityLoop]
    cases op <;> simp [binaryLevel, binaryNode, Equals, NotEquals] <;> rfl
  · simp only [level, levelLoop]; rw [parseRelationalLoop]
    cases op <;> simp [binaryLevel, binaryNode, LessThan, LessEquals, GreaterThan, GreaterEquals] <;> rfl
  · simp only [level, levelLoop]; rw [parseShiftLoop]
    cases op <;> simp [binaryLevel, binaryNode, ShiftLeft, ShiftRight, ShiftRightLogic] <;> rfl
  · simp only [level, levelLoop]; rw [parseAdditiveLoop]
    cases op <;> simp [binaryLevel, binaryNode, Addition, Subtraction] <;> rfl
  · simp only [level, levelLoop]; rw [parseMultiplicativeLoop]
    cases op <;> simp [binaryLevel, binaryNode, Multiplication, Division, Remainder] <;> rfl

theorem eq_of_returnsList {r : Except Error (List Expression × Lexer 2)}
    {xs : List Expression} {M : Lexer 2} (h : returnsList r xs M = true) : r = .ok (xs, M) := by
  unfold returnsList at h
  cases r with
  | error e => cases h
  | ok p =>
    simp only [Bool.and_eq_true, decide_eq_true_eq] at h
    rw [← Expression.eq_of_beqList _ _ h.1, ← h.2]

theorem eq_of_fails {r : Except Error (Expression × Lexer 2)} {e : Error}
    (h : fails r e = true) : r = .error e := by
  unfold fails at h
  cases r with
  | ok p => cases h
  | error e' => rw [of_decide_eq_true h]

theorem Yields.level_succ {k : Nat} (hk : k < 5) {L L1 M : Lexer 2} {lhs x : Expression}
    {t : Token} (h1 : Yields (level (k + 1)) L lhs L1) (ht : L1.peek = .ok t)
    (h2 : Yields (fun f => levelLoop k f lhs t.type) L1 x M) : Yields (level k) L x M := by
  obtain ⟨f1, h1⟩ := h1
  obtain ⟨f2, h2⟩ := h2
  refine ⟨max f1 f2 + 1, fun f hf => ?_⟩
  obtain ⟨g, rfl⟩ : ∃ g, f = g + 1 := ⟨f - 1, by omega⟩
  rw [Parser.level_unfold hk, h1 g (by omega)]
  simp only [bind, Except.bind, ht]
  exact h2 g (by omega)

theorem Yields.loop_stop {k : Nat} (hk : k < 5) {L : Lexer 2} {lhs : Expression}
    {op : TokenType} (hop : binaryLevel op ≠ some k) :
    Yields (fun f => levelLoop k f lhs op) L lhs L := by
  refine ⟨1, fun f hf => ?_⟩
  obtain ⟨g, rfl⟩ : ∃ g, f = g + 1 := ⟨f - 1, by omega⟩
  show levelLoop k (g + 1) lhs op L = _
  rw [levelLoop_succ hk, if_neg hop]

theorem Yields.loop_step {k : Nat} (hk : k < 5) {L L1 L2 M : Lexer 2} {l r x : Expression}
    {op : TokenType} {t : Token} (hop : binaryLevel op = some k) (hs : L.skip = .ok L1)
    (h1 : Yields (level (k + 1)) L1 r L2) (ht : L2.peek = .ok t)
    (h2 : Yields (fun f => levelLoop k f (BinaryOperator (binaryNode op) l r) t.type)
      L2 x M) :
    Yields (fun f => levelLoop k f l op) L x M := by
  obtain ⟨f1, h1⟩ := h1
  obtain ⟨f2, h2⟩ := h2
  refine ⟨max f1 f2 + 1, fun f hf => ?_⟩
  obtain ⟨g, rfl⟩ : ∃ g, f = g + 1 := ⟨f - 1, by omega⟩
  show levelLoop k (g + 1) l op L = _
  rw [levelLoop_succ hk, if_pos hop]
  simp only [bind, Except.bind, hs, h1 g (by omega), ht]
  exact h2 g (by omega)

/-- An operand followed by a token that no level from `k` up to `j` folds passes through
these levels unchanged. -/
theorem Yields.pass {L M : Lexer 2} {x : Expression} {t : Token} (ht : M.peek = .ok t) :
    ∀ (d k : Nat), k + d ≤ 5 → (∀ i, k ≤ i → i < k + d → binaryLevel t.type ≠ some i) →
      Yields (level (k + d)) L x M → Yields (level k) L x M
  | 0, k, _, _, h => h
  | d + 1, k, hk, hno, h => by
    have h1 : Yields (level (k + 1)) L x M :=
      Yields.pass ht d (k + 1) (by omega) (fun i h1 h2 => hno i (by omega) (by omega))
        (by rwa [show k + 1 + d = k + (d + 1) by omega])
    exact Yields.level_succ (by omega) h1 ht
      (Yields.loop_stop (by omega) (hno k (Nat.le_refl _) (by omega)))

theorem terminal_start {f : Nat} {L M : Lexer 2} {x : Expression}
    (h : parseTerminal f L = .ok (x, M)) : ∃ t, L.peek = .ok t ∧ terminalStart t.type = true := by
  cases f with
  | zero => cases h
  | succ f =>
    rw [parseTerminal] at h
    cases hp : L.peek with
    | error e => simp [hp, bind, Except.bind] at h
    | ok t =>
      refine ⟨t, rfl, ?_⟩
      simp only [hp, bind, Except.bind] at h
      by_contra hne
      have h1 : t.type ≠ .Identifier := fun e => hne (by rw [e]; rfl)
      have h2 : t.type ≠ .NumericLiteral := fun e => hne (by rw [e]; rfl)
      have h3 : t.type ≠ .StringLiteral := fun e => hne (by rw [e]; rfl)
      have h4 : t.type ≠ .OpenBracket := fun e => hne (by rw [e]; rfl)
      simp [h1, h2, h3, h4, throw, throwThe, MonadExceptOf.throw] at h

theorem Yields.of_eq {α : Type} {p : Nat → Lexer 2 → Except Error (α × Lexer 2)}
    (hp : ∀ f L, FuelLe (p f L) (p (f + 1) L)) {f : Nat} {L M : Lexer 2} {x : α}
    (h : p f L = .ok (x, M)) : Yields p L x M := by
  refine ⟨f, fun g hg => ?_⟩
  induction g, hg using Nat.le_induction with
  | base => exact h
  | succ g _ ih =>
    rcases hp g L with h1 | h1
    · rw [ih] at h1; cases h1
    · rw [← h1, ih]

theorem Yields.terminal {f : Nat} {L M : Lexer 2} {x : Expression}
    (h : parseTerminal f L = .ok (x, M)) : Yields parseTerminal L x M :=
  Yields.of_eq (fun f L => (fuelMono f).parseTerminal L) h

theorem postfixLoop_stop {op : TokenType} (hop : postfixStart op = false) (f : Nat)
    (target : Expression) (L : Lexer 2) :
    parseUnaryLeftAssociativeLoop (f + 1) target op L = .ok (target, L) := by
  rw [parseUnaryLeftAssociativeLoop]
  cases op <;> first | (simp [postfixStart] at hop; done) | rfl

theorem Yields.postfixChain {L L1 M : Lexer 2} {x y : Expression} {t : Token}
    (h1 : Yields parseTerminal L x L1) (ht : L1.peek = .ok t)
    (h2 : Yields (fun f => parseUnaryLeftAssociativeLoop f x t.type) L1 y M) :
    Yields parseUnaryLeftAssociative L y M := by
  obtain ⟨f1, h1⟩ := h1
  obtain ⟨f2, h2⟩ := h2
  refine ⟨max f1 f2 + 1, fun f hf => ?_⟩
  obtain ⟨g, rfl⟩ : ∃ g, f = g + 1 := ⟨f - 1, by omega⟩
  rw [parseUnaryLeftAssociative, h1 g (by omega)]
  simp only [bind, Except.bind, ht]
  exact h2 g (by omega)

theorem Yields.unprefixed {L M : Lexer 2} {x : Expression} {t : Token} (ht : L.peek = .ok t)
    (hno : prefixNode t.type = none) (h : Yields parseUnaryLeftAssociative L x M) :
    Yields parseUnaryRightAssociative L x M := by
  obtain ⟨f1, h1⟩ := h
  refine ⟨f1 + 1, fun f hf => ?_⟩
  obtain ⟨g, rfl⟩ : ∃ g, f = g + 1 := ⟨f - 1, by omega⟩
  rw [parseUnaryRightAssociative]
  simp only [bind, Except.bind, ht]
  have := h1 g (by omega)
  generalize t.type = ty at hno
  cases ty <;> first | (simp [prefixNode] at hno; done) | simpa using this

theorem Yields.prefixed {L L1 M : Lexer 2} {a : Expression} {t : Token} {k : NodeType}
    (ht : L.peek = .ok t) (hk : prefixNode t.type = some k) (hs : L.skip = .ok L1)
    (h : Yields parseUnaryRightAssociative L1 a M) :
    Yields parseUnaryRightAssociative L (LeftUnaryOperator k a t.from_) M := by
  obtain ⟨f1, h1⟩ := h
  refine ⟨f1 + 1, fun f hf => ?_⟩
  obtain ⟨g, rfl⟩ : ∃ g, f = g + 1 := ⟨f - 1, by omega⟩
  rw [parseUnaryRightAssociative]
  simp only [bind, Except.bind, ht, hs]
  have := h1 g (by omega)
  generalize t.type = ty at hk
  cases ty <;> simp [prefixNode] at hk <;> subst hk <;>
    simp [this, pure, Except.pure, PreIncrement, PreDecrement, Negative, Positive,
      LogicalNegation, BitwiseNot]

/-- A terminal followed by a token that starts no postfix operation is an operand of the
binary levels. -/
theorem Yields.operand {f : Nat} {L M : Lexer 2} {x : Expression} {t : Token}
    (h : parseTerminal f L = .ok (x, M)) (ht : M.peek = .ok t)
    (hpost : postfixStart t.type = false) : Yields (level 5) L x M := by
  obtain ⟨s, hs, hstart⟩ := terminal_start h
  have hno : prefixNode s.type = none := by
    generalize s.type = ty at hstart
    cases ty <;> first | rfl | simp [terminalStart] at hstart
  refine Yields.unprefixed hs hno (Yields.postfixChain (Yields.terminal h) ht ?_)
  exact ⟨1, fun g hg => by
    obtain ⟨g, rfl⟩ : ∃ k, g = k + 1 := ⟨g - 1, by omega⟩
    exact postfixLoop_stop hpost _ _ _⟩

theorem binaryLevel_some {op : TokenType} {k : Nat} (h : binaryLevel op = some k) :
    k < 5 ∧ postfixStart op = false := by
  cases op <;> simp [binaryLevel] at h <;> subst h <;> exact ⟨by omega, rfl⟩

theorem Yields.lower {L M : Lexer 2} {x : Expression} {t : Token} (ht : M.peek = .ok t)
    {j k : Nat} (hkj : k ≤ j) (hj : j ≤ 5)
    (hno : ∀ i, k ≤ i → i < j → binaryLevel t.type ≠ some i)
    (h : Yields (level j) L x M) : Yields (level k) L x M := by
  obtain ⟨d, rfl⟩ : ∃ d, j = k + d := ⟨j - k, by omega⟩
  exact Yields.pass ht d k hj hno h

theorem precedence_low_high {f : Nat} {L0 L1 L2 L3 L4 L5 : Lexer 2} {a b c : Expression}
    {t1 t2 e : Token} {l1 l2 : Nat}
    (ha : parseTerminal f L0 = .ok (a, L1)) (h1 : L1.peek = .ok t1) (hs1 : L1.skip = .ok L2)
    (hb : parseTerminal f L2 = .ok (b, L3)) (h2 : L3.peek = .ok t2) (hs2 : L3.skip = .ok L4)
    (hc : parseTerminal f L4 = .ok (c, L5)) (he : L5.peek = .ok e)
    (hend : e.type = .EndOfFile)
    (hl1 : binaryLevel t1.type = some l1) (hl2 : binaryLevel t2.type = some l2)
    (hlt : l1 < l2) :
    Yields (level 0) L0
      (BinaryOperator (binaryNode t1.type) a (BinaryOperator (binaryNode t2.type) b c)) L5 := by
  obtain ⟨hk1, hp1⟩ := binaryLevel_some hl1
  obtain ⟨hk2, hp2⟩ := binaryLevel_some hl2
  have hpe : postfixStart e.type = false := by rw [hend]; rfl
  have hne : ∀ i, binaryLevel e.type ≠ some i := by rw [hend]; intro i h; cases h
  have A := Yields.operand ha h1 hp1
  have B := Yields.operand hb h2 hp2
  have C := Yields.operand hc he hpe
  have C' := Yields.lower he (k := l2 + 1) (by omega) (Nat.le_refl _) (fun i _ _ => hne i) C
  have B' := Yields.lower h2 (k := l2 + 1) (by omega) (Nat.le_refl _)
    (fun i hi _ => by rw [hl2]; intro h; injection h with h; omega) B
  have loop2 := Yields.loop_step hk2 (l := b) hl2 hs2 C' he (Yields.loop_stop hk2 (hne l2))
  have R := Yields.level_succ hk2 B' h2 loop2
  have R' := Yields.lower he (k := l1 + 1) (by omega) (by omega) (fun i _ _ => hne i) R
  have A' := Yields.lower h1 (k := l1 + 1) (by omega) (Nat.le_refl _)
    (fun i hi _ => by rw [hl1]; intro h; injection h with h; omega) A
  have loop1 := Yields.loop_step hk1 (l := a) hl1 hs1 R' he (Yields.loop_stop hk1 (hne l1))
  have T := Yields.level_succ hk1 A' h1 loop1
  exact Yields.lower he (Nat.zero_le _) (by omega) (fun i _ _ => hne i) T

theorem precedence_high_low {f : Nat} {L0 L1 L2 L3 L4 L5 : Lexer 2} {a b c : Expression}
    {t1 t2 e : Token} {l1 l2 : Nat}
    (ha : parseTerminal f L0 = .ok (a, L1)) (h1 : L1.peek = .ok t1) (hs1 : L1.skip = .ok L2)
    (hb : parseTerminal f L2 = .ok (b, L3)) (h2 : L3.peek = .ok t2) (hs2 : L3.skip = .ok L4)
    (hc : parseTerminal f L4 = .ok (c, L5)) (he : L5.peek = .ok e)
    (hend : e.type = .EndOfFile)
    (hl1 : binaryLevel t1.type = some l1) (hl2 : binaryLevel t2.type = some l2)
    (hlt : l2 < l1) :
    Yields (level 0) L0
      (BinaryOperator (binaryNode t2.type) (BinaryOperator (binaryNode t1.type) a b) c) L5 := by
  obtain ⟨hk1, hp1⟩ := binaryLevel_some hl1
  obtain ⟨hk2, hp2⟩ := binaryLevel_some hl2
  have hpe : postfixStart e.type = false := by rw [hend]; rfl
  have hne : ∀ i, binaryLevel e.type ≠ some i := by rw [hend]; intro i h; cases h
  have hn2 : ∀ i, l2 < i → binaryLevel t2.type ≠ some i := by
    intro i hi; rw [hl2]; intro h; injection h with h; omega
  have A := Yields.operand ha h1 hp1
  have B := Yields.operand hb h2 hp2
  have C := Yields.operand hc he hpe
  have B' := Yields.lower h2 (k := l1 + 1) (by omega) (Nat.le_refl _)
    (fun i hi _ => hn2 i (by omega)) B
  have A' := Yields.lower h1 (k := l1 + 1) (by omega) (Nat.le_refl _)
    (fun i hi _ => by rw [hl1]; intro h; injection h with h; omega) A
  have loop1 := Yields.loop_step hk1 (l := a) hl1 hs1 B' h2
    (Yields.loop_stop hk1 (hn2 l1 hlt))
  have R := Yields.level_succ hk1 A' h1 loop1
  have R' := Yields.lower h2 (k := l2 + 1) (by omega) (by omega)
    (fun i hi _ => hn2 i (by omega)) R
  have C' := Yields.lower he (k := l2 + 1) (by omega) (Nat.le_refl _) (fun i _ _ => hne i) C
  have loop2 := Yields.loop_step hk2 (l := BinaryOperator (binaryNode t1.type) a b) hl2 hs2
    C' he (Yields.loop_stop hk2 (hne l2))
  have T := Yields.level_succ hk2 R' h2 loop2
  exact Yields.lower he (Nat.zero_le _) (by omega) (fun i _ _ => hne i) T

theorem ReadsOperands.foldLeft {k : Nat} {e : Token} {M : Lexer 2} (he : M.peek = .ok e)
    (hend : e.type = .EndOfFile) (hk : k < 5) :
    ∀ {L : Lexer 2} {chain : List (TokenType × Expression)}, ReadsOperands k L chain M →
      ∀ acc : Expression, ∃ t, L.peek = .ok t ∧ postfixStart t.type = false ∧
        (∀ i, k < i → binaryLevel t.type ≠ some i) ∧
        Yields (fun f => levelLoop k f acc t.type) L
          (chain.foldl (fun acc p => BinaryOperator (binaryNode p.1) acc p.2) acc) M := by
  intro L chain h
  induction h with
  | nil L =>
    intro acc
    have hne : ∀ i, binaryLevel e.type ≠ some i := by rw [hend]; intro i h; cases h
    exact ⟨e, he, by rw [hend]; rfl, fun i _ => hne i, Yields.loop_stop hk (hne k)⟩
  | cons ht hl hs hx _ ih =>
    intro acc
    rename_i La Lb Lc Ld t f x rest _
    obtain ⟨u, hu, hpu, hnu, hloop⟩ := ih he (BinaryOperator (binaryNode t.type) acc x)
    have X := Yields.lower hu (k := k + 1) (by omega) (Nat.le_refl _)
      (fun i hi _ => hnu i (by omega)) (Yields.operand hx hu hpu)
    refine ⟨t, ht, (binaryLevel_some hl).2, ?_, Yields.loop_step hk hl hs X hu hloop⟩
    intro i hi
    rw [hl]; intro h; injection h with h; omega

theorem Yields.postfix_member {L L1 L2 M : Lexer 2} {target x : Expression} {i u : Token}
    (hs : L.skip = .ok L1) (hi : L1.peek = .ok i) (hty : i.type = .Identifier)
    (hs2 : L1.skip = .ok L2) (hu : L2.peek = .ok u)
    (h : Yields (fun f => parseUnaryLeftAssociativeLoop f
      (MemberAccess target ⟨i.lexeme, i.from_, i.to_⟩) u.type) L2 x M) :
    Yields (fun f => parseUnaryLeftAssociativeLoop f target .Dot) L x M := by
  obtain ⟨f1, h1⟩ := h
  refine ⟨f1 + 1, fun f hf => ?_⟩
  obtain ⟨g, rfl⟩ : ∃ g, f = g + 1 := ⟨f - 1, by omega⟩
  show parseUnaryLeftAssociativeLoop (g + 1) target .Dot L = _
  rw [parseUnaryLeftAssociativeLoop]
  simp only [bind, Except.bind, hs, hi, hty, hs2, hu, if_true, ne_eq, not_true_eq_false,
    if_false, pure, Except.pure]
  exact h1 g (by omega)

theorem Yields.postfix_call {L L1 L2 L3 M : Lexer 2} {target x : Expression}
    {a : List Expression} {c u : Token} (hs : L.skip = .ok L1)
    (ha : Yields (fun f => parseList f .CloseParenthesis) L1 a L2)
    (hc : L2.peek = .ok c) (hty : c.type = .CloseParenthesis)
    (hs2 : L2.skip = .ok L3) (hu : L3.peek = .ok u)
    (h : Yields (fun f => parseUnaryLeftAssociativeLoop f
      (FunctionCall target a c.to_) u.type) L3 x M) :
    Yields (fun f => parseUnaryLeftAssociativeLoop f target .OpenParenthesis) L x M := by
  obtain ⟨f1, h1⟩ := h
  obtain ⟨f2, h2⟩ := ha
  refine ⟨max f1 f2 + 1, fun f hf => ?_⟩
  obtain ⟨g, rfl⟩ : ∃ g, f = g + 1 := ⟨f - 1, by omega⟩
  show parseUnaryLeftAssociativeLoop (g + 1) target .OpenParenthesis L = _
  rw [parseUnaryLeftAssociativeLoop]
  have h2' : parseList g .CloseParenthesis L1 = .ok (a, L2) := h2 g (by omega)
  simp only [bind, Except.bind, hs, h2', hc, hty, hs2, hu, if_true, ne_eq, not_true_eq_false,
    if_false, pure, Except.pure, reduceCtorEq]
  exact h1 g (by omega)

theorem Yields.postfix_subscript {L L1 L2 L3 M : Lexer 2} {target x s : Expression}
    {c u : Token} (hs : L.skip = .ok L1)
    (ha : Yields parseEquality L1 s L2)
    (hc : L2.peek = .ok c) (hty : c.type = .CloseBracket)
    (hs2 : L2.skip = .ok L3) (hu : L3.peek = .ok u)
    (h : Yields (fun f => parseUnaryLeftAssociativeLoop f
      (SubscriptAccess target s c.to_) u.type) L3 x M) :
    Yields (fun f => parseUnaryLeftAssociativeLoop f target .OpenBracket) L x M := by
  obtain ⟨f1, h1⟩ := h
  obtain ⟨f2, h2⟩ := ha
  refine ⟨max f1 f2 + 1, fun f hf => ?_⟩
  obtain ⟨g, rfl⟩ : ∃ g, f = g + 1 := ⟨f - 1, by omega⟩
  show parseUnaryLeftAssociativeLoop (g + 1) target .OpenBracket L = _
  rw [parseUnaryLeftAssociativeLoop]
  simp only [bind, Except.bind, hs, h2 g (by omega), hc, hty, hs2, hu, if_true, ne_eq,
    not_true_eq_false, if_false, pure, Except.pure, reduceCtorEq]
  exact h1 g (by omega)

theorem Yields.postfix_increment {L L1 M : Lexer 2} {target x : Expression} {t u : Token}
    (ht : L.peek = .ok t) (hs : L.skip = .ok L1) (hu : L1.peek = .ok u)
    (h : Yields (fun f => parseUnaryLeftAssociativeLoop f
      (PostIncrement target t.to_) u.type) L1 x M) :
    Yields (fun f => parseUnaryLeftAssociativeLoop f target .Increment) L x M := by
  obtain ⟨f1, h1⟩ := h
  refine ⟨f1 + 1, fun f hf => ?_⟩
  obtain ⟨g, rfl⟩ : ∃ g, f = g + 1 := ⟨f - 1, by omega⟩
  show parseUnaryLeftAssociativeLoop (g + 1) target .Increment L = _
  rw [parseUnaryLeftAssociativeLoop]
  simp only [bind, Except.bind, ht, hs, hu, if_true, if_false, reduceCtorEq]
  exact h1 g (by omega)

theorem Yields.postfix_decrement {L L1 M : Lexer 2} {target x : Expression} {t u : Token}
    (ht : L.peek = .ok t) (hs : L.skip = .ok L1) (hu : L1.peek = .ok u)
    (h : Yields (fun f => parseUnaryLeftAssociativeLoop f
      (PostDecrement target t.to_) u.type) L1 x M) :
    Yields (fun f => parseUnaryLeftAssociativeLoop f target .Decrement) L x M := by
  obtain ⟨f1, h1⟩ := h
  refine ⟨f1 + 1, fun f hf => ?_⟩
  obtain ⟨g, rfl⟩ : ∃ g, f = g + 1 := ⟨f - 1, by omega⟩
  show parseUnaryLeftAssociativeLoop (g + 1) target .Decrement L = _
  rw [parseUnaryLeftAssociativeLoop]
  simp only [bind, Except.bind, ht, hs, hu, if_true, if_false, reduceCtorEq]
  exact h1 g (by omega)

theorem ReadsPostfix.applyAll {e : Token} {M : Lexer 2} (he : M.peek = .ok e)
    (hend : e.type = .EndOfFile) :
    ∀ {L : Lexer 2} {ops : List PostfixOp}, ReadsPostfix L ops M →
      ∀ target : Expression, ∃ u, L.peek = .ok u ∧
        Yields (fun f => parseUnaryLeftAssociativeLoop f target u.type) L
          (ops.foldl PostfixOp.build target) M := by
  intro L ops h
  induction h with
  | nil L =>
    intro target
    refine ⟨e, he, 1, fun g hg => ?_⟩
    obtain ⟨g, rfl⟩ : ∃ k, g = k + 1 := ⟨g - 1, by omega⟩
    exact postfixLoop_stop (by rw [hend]; rfl) _ _ _
  | member ht hty hs hi hity hs2 _ ih =>
    intro target
    obtain ⟨u, hu, hloop⟩ := ih he _
    exact ⟨_, ht, by rw [hty]; exact Yields.postfix_member hs hi hity hs2 hu hloop⟩
  | call ht hty hs ha hc hcty hs2 _ ih =>
    intro target
    obtain ⟨u, hu, hloop⟩ := ih he _
    refine ⟨_, ht, ?_⟩
    rw [hty]
    exact Yields.postfix_call hs
      (Yields.of_eq (p := fun f => parseList f .CloseParenthesis)
        (fun f L => (fuelMono f).parseList _ L) ha) hc hcty hs2 hu hloop
  | subscript ht hty hs ha hc hcty hs2 _ ih =>
    intro target
    obtain ⟨u, hu, hloop⟩ := ih he _
    refine ⟨_, ht, ?_⟩
    rw [hty]
    exact Yields.postfix_subscript hs
      (Yields.of_eq (fun f L => (fuelMono f).parseEquality L) ha) hc hcty hs2 hu hloop
  | increment ht hty hs _ ih =>
    intro target
    obtain ⟨u, hu, hloop⟩ := ih he _
    exact ⟨_, ht, by rw [hty]; exact Yields.postfix_increment ht hs hu hloop⟩
  | decrement ht hty hs _ ih =>
    intro target
    obtain ⟨u, hu, hloop⟩ := ih he _
    exact ⟨_, ht, by rw [hty]; exact Yields.postfix_decrement ht hs hu hloop⟩

/-- A terminal with its postfix operations, followed by the end of the input, is what
`parseUnaryRightAssociative` returns at a token that is no prefix operator. -/
theorem Yields.postfixed {f : Nat} {L0 L1 M : Lexer 2} {t : Expression}
    {ops : List PostfixOp} {e : Token} (ht : parseTerminal f L0 = .ok (t, L1))
    (hops : ReadsPostfix L1 ops M) (he : M.peek = .ok e) (hend : e.type = .EndOfFile) :
    Yields (level 5) L0 (ops.foldl PostfixOp.build t) M := by
  obtain ⟨s, hs, hstart⟩ := terminal_start ht
  have hno : prefixNode s.type = none := by
    generalize s.type = ty at hstart
    cases ty <;> first | rfl | simp [terminalStart] at hstart
  obtain ⟨u, hu, hloop⟩ := hops.applyAll he hend t
  exact Yields.unprefixed hs hno (Yields.postfixChain (Yields.terminal ht) hu hloop)

theorem Yields.to_expression {L M : Lexer 2} {x : Expression} {e : Token} {k : Nat}
    (hk : k ≤ 5) (he : M.peek = .ok e) (hend : e.type = .EndOfFile)
    (h : Yields (level k) L x M) :
    ∃ f0, ∀ fuel, f0 ≤ fuel → parseExpression fuel L = .ok (x, M) := by
  have hne : ∀ i, binaryLevel e.type ≠ some i := by rw [hend]; intro i h; cases h
  exact Yields.lower he (Nat.zero_le _) hk (fun i _ _ => hne i) h

theorem terminal_fails {L : Lexer 2} {t : Token} (ht : L.peek = .ok t)
    (hno : terminalStart t.type = false) (f : Nat) :
    parseTerminal (f + 1) L = .error (unexpected "terminal" t) := by
  rw [parseTerminal]
  simp only [bind, Except.bind, ht]
  have h1 : t.type ≠ .Identifier := fun e => by rw [e] at hno; cases hno
  have h2 : t.type ≠ .NumericLiteral := fun e => by rw [e] at hno; cases hno
  have h3 : t.type ≠ .StringLiteral := fun e => by rw [e] at hno; cases hno
  have h4 : t.type ≠ .OpenBracket := fun e => by rw [e] at hno; cases hno
  simp only [h1, h2, h3, h4, if_false]
  rfl

theorem postfix_fails {L : Lexer 2} {e : Error} {f : Nat}
    (h : parseTerminal f L = .error e) : parseUnaryLeftAssociative (f + 1) L = .error e := by
  rw [parseUnaryLeftAssociative, h]
  rfl

theorem unprefixed_eq {L : Lexer 2} {t : Token} (ht : L.peek = .ok t)
    (hno : prefixNode t.type = none) (f : Nat) :
    parseUnaryRightAssociative (f + 1) L = parseUnaryLeftAssociative f L := by
  rw [parseUnaryRightAssociative]
  simp only [bind, Except.bind, ht]
  generalize t.type = ty at hno
  cases ty <;> first | (simp [prefixNode] at hno; done) | rfl

theorem level_fails {e : Error} : ∀ (d k : Nat) {f : Nat} {L : Lexer 2}, k + d = 5 →
    level 5 f L = .error e → level k (f + d) L = .error e
  | 0, k, f, L, hk, h => by
    have : k = 5 := by omega
    subst this
    exact h
  | d + 1, k, f, L, hk, h => by
    have ih := level_fails d (k + 1) (by omega) h
    rw [show f + (d + 1) = (f + d) + 1 by omega, level_unfold (by omega), ih]
    rfl

/-- An error of the first operand is the error of the whole expression. -/
theorem expression_fails {L : Lexer 2} {e : Error} {f : Nat}
    (h : parseUnaryRightAssociative f L = .error e) : parseExpression (f + 5) L = .error e :=
  level_fails 5 0 rfl h

theorem expression_fails_terminal {L : Lexer 2} {t : Token} (ht : L.peek = .ok t)
    (hno : terminalStart t.type = false) (hpre : prefixNode t.type = none) (f : Nat) :
    parseExpression (f + 8) L = .error (unexpected "terminal" t) := by
  apply expression_fails (f := f + 3)
  rw [unprefixed_eq ht hpre]
  exact postfix_fails (terminal_fails ht hno f)

theorem Yields.parseEquality_of_eq {f : Nat} {L M : Lexer 2} {x : Expression}
    (h : parseEquality f L = .ok (x, M)) : Yields parseEquality L x M :=
  Yields.of_eq (fun f L => (fuelMono f).parseEquality L) h

theorem ReadsItems.appendAll {e : Token} {M : Lexer 2} (he : M.peek = .ok e)
    (hend : e.type ≠ .Comma) :
    ∀ {L : Lexer 2} {xs : List Expression}, ReadsItems L xs M →
      ∀ acc : List Expression, ∃ u, L.peek = .ok u ∧
        Yields (fun f => parseListLoop f acc u.type) L (acc ++ xs) M := by
  intro L xs h
  induction h with
  | nil L =>
    intro acc
    refine ⟨e, he, 1, fun f hf => ?_⟩
    obtain ⟨g, rfl⟩ : ∃ g, f = g + 1 := ⟨f - 1, by omega⟩
    show parseListLoop (g + 1) acc e.type L = _
    rw [parseListLoop, List.append_nil]
    simp only [hend, if_false]
    rfl
  | @cons L L1 L2 M c f x rest hc hty hs hx _ ih =>
    intro acc
    obtain ⟨u, hu, f1, h1⟩ := ih he (acc ++ [x])
    obtain ⟨f2, h2⟩ := Yields.parseEquality_of_eq hx
    refine ⟨c, hc, max f1 f2 + 1, fun g hg => ?_⟩
    obtain ⟨g, rfl⟩ : ∃ g', g = g' + 1 := ⟨g - 1, by omega⟩
    show parseListLoop (g + 1) acc c.type L = _
    rw [parseListLoop]
    simp only [hty, if_true, bind, Except.bind, hs, h2 g (by omega), hu]
    have := h1 g (by omega)
    simp only [List.append_assoc, List.singleton_append] at this
    exact this

theorem Yields.list {L L1 M : Lexer 2} {t e : Token} {delimiter : TokenType} {f : Nat}
    {x : Expression} {xs : List Expression} (ht : L.peek = .ok t)
    (hne : t.type ≠ delimiter) (hx : parseExpression f L = .ok (x, L1))
    (hxs : ReadsItems L1 xs M) (he : M.peek = .ok e) (hend : e.type ≠ .Comma) :
    Yields (fun f => parseList f delimiter) L (x :: xs) M := by
  obtain ⟨u, hu, f1, h1⟩ := ReadsItems.appendAll he hend hxs [x]
  obtain ⟨f2, h2⟩ := Yields.parseEquality_of_eq hx
  refine ⟨max f1 f2 + 1, fun g hg => ?_⟩
  obtain ⟨g, rfl⟩ : ∃ g', g = g' + 1 := ⟨g - 1, by omega⟩
  show parseList (g + 1) delimiter L = _
  rw [parseList]
  simp only [bind, Except.bind, ht, hne, if_false, h2 g (by omega), hu, pure, Except.pure]
  exact h1 g (by omega)

theorem list_empty {L : Lexer 2} {t : Token} (ht : L.peek = .ok t) (f : Nat) :
    parseList (f + 1) t.type L = .ok ([], L) := by
  rw [parseList]
  simp only [bind, Except.bind, ht, if_true]
  rfl

theorem list_trailing_comma {L L1 : Lexer 2} {d : Token} (hs : L.skip = .ok L1)
    (hd : L1.peek = .ok d) (hno : terminalStart d.type = false)
    (hpre : prefixNode d.type = none) (f : Nat) (acc : List Expression) :
    parseListLoop (f + 9) acc .Comma L = .error (unexpected "terminal" d) := by
  rw [parseListLoop]
  have := expression_fails_terminal hd hno hpre f
  unfold parseExpression at this
  simp only [if_true, bind, Except.bind, hs, this]

theorem ReadsItems.trailing {K K1 : Lexer 2} {c d : Token} (hc : K.peek = .ok c)
    (hty : c.type = .Comma) (hs : K.skip = .ok K1) (hd : K1.peek = .ok d)
    (hno : terminalStart d.type = false) (hpre : prefixNode d.type = none) :
    ∀ {L : Lexer 2} {xs : List Expression}, ReadsItems L xs K →
      ∀ acc : List Expression, ∃ u, L.peek = .ok u ∧ ∃ f0, ∀ f, f0 ≤ f →
        parseListLoop f acc u.type L = .error (unexpected "terminal" d) := by
  intro L xs h
  induction h with
  | nil L =>
    intro acc
    refine ⟨c, hc, 9, fun f hf => ?_⟩
    obtain ⟨g, rfl⟩ : ∃ g, f = g + 9 := ⟨f - 9, by omega⟩
    rw [hty]
    exact list_trailing_comma hs hd hno hpre g acc
  | @cons L L1 L2 M c' f x rest hc' hty' hs' hx _ ih =>
    intro acc
    obtain ⟨u, hu, f1, h1⟩ := ih hc hs (acc ++ [x])
    obtain ⟨f2, h2⟩ := Yields.parseEquality_of_eq hx
    refine ⟨c', hc', max f1 f2 + 1, fun g hg => ?_⟩
    obtain ⟨g, rfl⟩ : ∃ g', g = g' + 1 := ⟨g - 1, by omega⟩
    rw [parseListLoop]
    simp only [hty', if_true, bind, Except.bind, hs', h2 g (by omega), hu]
    exact h1 g (by omega)

theorem level_ge {k : Nat} (hk : 5 ≤ k) : level k = parseUnaryRightAssociative := by
  obtain ⟨j, rfl⟩ : ∃ j, k = j + 5 := ⟨k - 5, by omega⟩
  rfl

theorem prefixed_eq {L : Lexer 2} {t : Token} {k : NodeType} (ht : L.peek = .ok t)
    (hk : prefixNode t.type = some k) (f : Nat) :
    parseUnaryRightAssociative (f + 1) L = (do
      let L1 ← L.skip
      let r ← parseUnaryRightAssociative f L1
      pure (.unaryOperator k r.1 t.from_ r.1.to_, r.2)) := by
  rw [parseUnaryRightAssociative]
  simp only [bind, Except.bind, ht]
  generalize t.type = ty at hk
  cases ty <;> first | (simp [prefixNode] at hk; done) | (simp only [prefixNode, Option.some.injEq] at hk; subst hk; rfl)

theorem bind_returns {α β : Type} {x : Except Error α} {k : α → Except Error β} {r : β}
    (h : (x >>= k) = .ok r) : ∃ a, x = .ok a ∧ k a = .ok r := by
  cases x with
  | error e => cases h
  | ok a => exact ⟨a, rfl, h⟩

theorem level_zero (k : Nat) (L : Lexer 2) : level k 0 L = .error .out_of_fuel := by
  rcases Nat.lt_or_ge k 5 with hk | hk
  · have h5 : k = 0 ∨ k = 1 ∨ k = 2 ∨ k = 3 ∨ k = 4 := by omega
    rcases h5 with rfl | rfl | rfl | rfl | rfl <;> rfl
  · rw [level_ge hk]; rfl

theorem levelLoop_zero {k : Nat} (hk : k < 5) (lhs : Expression) (op : TokenType)
    (L : Lexer 2) : levelLoop k 0 lhs op L = .error .out_of_fuel := by
  have h5 : k = 0 ∨ k = 1 ∨ k = 2 ∨ k = 3 ∨ k = 4 := by omega
  rcases h5 with rfl | rfl | rfl | rfl | rfl <;> rfl

theorem derivesAt_zero : DerivesAt 0 := by
  constructor
  · intro k L M x h
    rw [level_zero] at h; cases h
  · intro k hk lhs op L M x h
    rw [levelLoop_zero hk] at h; cases h
  · intro L M x h; cases h
  · intro a b L M x h; cases h
  · intro L M x h; cases h
  · intro L M x h; cases h
  · intro d L M x h; cases h
  · intro a b L M x h; cases h

theorem derives_level_succ {f : Nat} (ih : DerivesAt f) (k : Nat) (L M : Lexer 2)
    (x : Expression) (h : level k (f + 1) L = .ok (x, M)) :
    ∃ ts, Lexer.Takes L ts M ∧ Derives ts (.inl x) := by
  rcases Nat.lt_or_ge k 5 with hk | hk
  · rw [level_unfold hk] at h
    obtain ⟨r, h1, h⟩ := bind_returns h
    obtain ⟨t, h2, h⟩ := bind_returns h
    obtain ⟨ta, hta, hda⟩ := ih.level _ _ _ _ (show level (k + 1) f L = .ok (r.1, r.2) from h1)
    obtain ⟨tb, htb, hdb⟩ := ih.levelLoop k hk _ _ _ _ _ h t h2 rfl ta hda
    exact ⟨ta ++ tb, hta.join htb, hdb⟩
  · rw [level_ge hk] at h
    cases hp : L.peek with
    | error e =>
      rw [parseUnaryRightAssociative] at h
      simp [bind, Except.bind, hp] at h
    | ok t =>
      cases hk2 : prefixNode t.type with
      | none =>
        rw [unprefixed_eq hp hk2] at h
        exact ih.parseUnaryLeftAssociative _ _ _ h
      | some nk =>
        rw [prefixed_eq hp hk2] at h
        obtain ⟨L1, hs, h⟩ := bind_returns h
        obtain ⟨r, h1, h⟩ := bind_returns h
        cases h
        obtain ⟨ta, hta, hda⟩ := ih.level 5 _ _ _ (show level 5 f L1 = .ok (r.1, r.2) from h1)
        exact ⟨t :: ta, .cons hp hs hta, .leftUnaryOperator hk2 hda⟩

theorem derives_levelLoop_succ {f : Nat} (ih : DerivesAt f) (k : Nat) (hk : k < 5)
    (lhs : Expression) (op : TokenType) (L M : Lexer 2) (x : Expression)
    (h : levelLoop k (f + 1) lhs op L = .ok (x, M)) (t : Token) (ht : L.peek = .ok t)
    (hty : t.type = op) (tl : List Token) (hd : Derives tl (.inl lhs)) :
    ∃ ts, Lexer.Takes L ts M ∧ Derives (tl ++ ts) (.inl x) := by
  rw [levelLoop_succ hk] at h
  by_cases hb : binaryLevel op = some k
  · rw [if_pos hb] at h
    obtain ⟨L1, hs, h⟩ := bind_returns h
    obtain ⟨r, h1, h⟩ := bind_returns h
    obtain ⟨u, h2, h⟩ := bind_returns h
    obtain ⟨ta, hta, hda⟩ := ih.level _ _ _ _ (show level (k + 1) f L1 = .ok (r.1, r.2) from h1)
    subst hty
    have hnode : Derives (tl ++ t :: ta) (.inl (BinaryOperator (binaryNode t.type) lhs r.1)) :=
      .binaryOperator hd hb hda
    obtain ⟨tb, htb, hdb⟩ := ih.levelLoop k hk _ _ _ _ _ h u h2 rfl _ hnode
    refine ⟨t :: ta ++ tb, .cons ht hs (hta.join htb), ?_⟩
    simpa using hdb
  · rw [if_neg hb] at h
    cases h
    exact ⟨[], .nil _, by simpa using hd⟩

theorem derives_postfix_succ {f : Nat} (ih : DerivesAt f) (L M : Lexer 2) (x : Expression)
    (h : parseUnaryLeftAssociative (f + 1) L = .ok (x, M)) :
    ∃ ts, Lexer.Takes L ts M ∧ Derives ts (.inl x) := by
  rw [parseUnaryLeftAssociative] at h
  obtain ⟨r, h1, h⟩ := bind_returns h
  obtain ⟨t, h2, h⟩ := bind_returns h
  obtain ⟨ta, hta, hda⟩ := ih.parseTerminal _ _ _ (show parseTerminal f L = .ok (r.1, r.2) from h1)
  obtain ⟨tb, htb, hdb⟩ := ih.parseUnaryLeftAssociativeLoop _ _ _ _ _ h t h2 rfl ta hda
  exact ⟨ta ++ tb, hta.join htb, hdb⟩

theorem derives_terminal_succ {f : Nat} (ih : DerivesAt f) (L M : Lexer 2) (x : Expression)
    (h : parseTerminal (f + 1) L = .ok (x, M)) :
    ∃ ts, Lexer.Takes L ts M ∧ Derives ts (.inl x) := by
  rw [parseTerminal] at h
  cases hp : L.peek with
  | error e => simp [bind, Except.bind, hp] at h
  | ok t =>
    simp only [bind, Except.bind, hp] at h
    by_cases h1 : t.type = .Identifier
    · simp only [h1, if_true] at h
      cases hs : L.skip with
      | error e => simp [hs] at h
      | ok L1 =>
        simp only [hs, pure, Except.pure, Except.ok.injEq, Prod.mk.injEq] at h
        obtain ⟨rfl, rfl⟩ := h
        exact ⟨[t], .one hp hs, .identifier t h1⟩
    · simp only [h1, if_false] at h
      by_cases h2 : t.type = .NumericLiteral
      · simp only [h2, if_true] at h
        cases hs : L.skip with
        | error e => simp [hs] at h
        | ok L1 =>
          simp only [hs, pure, Except.pure, Except.ok.injEq, Prod.mk.injEq] at h
          obtain ⟨rfl, rfl⟩ := h
          exact ⟨[t], .one hp hs, .numericLiteral t h2⟩
      · simp only [h2, if_false] at h
        by_cases h3 : t.type = .StringLiteral
        · simp only [h3, if_true] at h
          cases hs : L.skip with
          | error e => simp [hs] at h
          | ok L1 =>
            simp only [hs, pure, Except.pure, Except.ok.injEq, Prod.mk.injEq] at h
            obtain ⟨rfl, rfl⟩ := h
            exact ⟨[t], .one hp hs, .stringLiteral t h3⟩
        · simp only [h3, if_false] at h
          by_cases h4 : t.type = .OpenBracket
          · simp only [h4, if_true] at h
            exact ih.parseArrayLiteral _ _ _ h t hp h4
          · simp [h4, throw, throwThe, MonadExceptOf.throw] at h

theorem derives_array_succ {f : Nat} (ih : DerivesAt f) (L M : Lexer 2) (x : Expression)
    (h : parseArrayLiteral (f + 1) L = .ok (x, M)) (t : Token) (ht : L.peek = .ok t)
    (hty : t.type = .OpenBracket) :
    ∃ ts, Lexer.Takes L ts M ∧ Derives ts (.inl x) := by
  rw [parseArrayLiteral] at h
  simp only [bind, Except.bind, ht] at h
  cases hs : L.skip with
  | error e => simp [hs] at h
  | ok L1 =>
    simp only [hs] at h
    cases hl : parseList f .CloseBracket L1 with
    | error e => simp [hl] at h
    | ok r =>
      obtain ⟨xs, L2⟩ := r
      simp only [hl] at h
      cases hc : L2.peek with
      | error e => simp [hc] at h
      | ok c =>
        simp only [hc] at h
        by_cases hcty : c.type = .CloseBracket
        · simp only [hcty, ne_eq, not_true_eq_false, if_false, pure, Except.pure] at h
          cases hs2 : L2.skip with
          | error e => simp [hs2] at h
          | ok L3 =>
            simp only [hs2, Except.ok.injEq, Prod.mk.injEq] at h
            obtain ⟨rfl, rfl⟩ := h
            obtain ⟨ts, hts, hds⟩ := ih.parseList _ _ _ _ hl
            refine ⟨t :: ts ++ [c], .cons ht hs (hts.join (.one hc hs2)), ?_⟩
            exact .arrayLiteral hty hds hcty
        · simp [hcty, throw, throwThe, MonadExceptOf.throw] at h

theorem derives_list_succ {f : Nat} (ih : DerivesAt f) (delimiter : TokenType)
    (L M : Lexer 2) (xs : List Expression)
    (h : parseList (f + 1) delimiter L = .ok (xs, M)) :
    ∃ ts, Lexer.Takes L ts M ∧ Derives ts (.inr xs) := by
  rw [parseList] at h
  cases hp : L.peek with
  | error e => simp [bind, Except.bind, hp] at h
  | ok t =>
    simp only [bind, Except.bind, hp] at h
    by_cases hd : t.type = delimiter
    · simp only [hd, if_true, pure, Except.pure, Except.ok.injEq, Prod.mk.injEq] at h
      obtain ⟨rfl, rfl⟩ := h
      exact ⟨[], .nil _, .empty⟩
    · simp only [hd, if_false, pure, Except.pure] at h
      cases h1 : parseEquality f L with
      | error e => simp [h1] at h
      | ok r =>
        obtain ⟨first, L1⟩ := r
        simp only [h1] at h
        cases hu : L1.peek with
        | error e => simp [hu] at h
        | ok u =>
          simp only [hu] at h
          obtain ⟨ta, hta, hda⟩ := ih.level 0 _ _ _ (show level 0 f L = _ from h1)
          obtain ⟨tb, htb, hdb⟩ := ih.parseListLoop _ _ _ _ _ h u hu rfl (by simp) ta (.single hda)
          exact ⟨ta ++ tb, hta.join htb, hdb⟩

theorem derives_listLoop_succ {f : Nat} (ih : DerivesAt f) (list : List Expression)
    (op : TokenType) (L M : Lexer 2) (xs : List Expression)
    (h : parseListLoop (f + 1) list op L = .ok (xs, M)) (t : Token) (ht : L.peek = .ok t)
    (hty : t.type = op) (hne : list ≠ []) (tl : List Token) (hd : Derives tl (.inr list)) :
    ∃ ts, Lexer.Takes L ts M ∧ Derives (tl ++ ts) (.inr xs) := by
  rw [parseListLoop] at h
  by_cases hc : op = .Comma
  · simp only [hc, if_true, bind, Except.bind] at h
    cases hs : L.skip with
    | error e => simp [hs] at h
    | ok L1 =>
      simp only [hs] at h
      cases h1 : parseEquality f L1 with
      | error e => simp [h1] at h
      | ok r =>
        obtain ⟨element, L2⟩ := r
        simp only [h1] at h
        cases hu : L2.peek with
        | error e => simp [hu] at h
        | ok u =>
          simp only [hu] at h
          obtain ⟨ta, hta, hda⟩ := ih.level 0 _ _ _ (show level 0 f L1 = _ from h1)
          obtain ⟨tb, htb, hdb⟩ := ih.parseListLoop _ _ _ _ _ h u hu rfl (by simp) _
            (.comma hd hne (hty.trans hc) hda)
          refine ⟨t :: ta ++ tb, .cons ht hs (hta.join htb), ?_⟩
          simpa using hdb
  · simp only [hc, if_false, pure, Except.pure, Except.ok.injEq, Prod.mk.injEq] at h
    obtain ⟨rfl, rfl⟩ := h
    exact ⟨[], .nil _, by simpa using hd⟩

theorem derives_postfixLoop_succ {f : Nat} (ih : DerivesAt f) (target : Expression)
    (op : TokenType) (L M : Lexer 2) (x : Expression)
    (h : parseUnaryLeftAssociativeLoop (f + 1) target op L = .ok (x, M)) (t : Token)
    (ht : L.peek = .ok t) (hty : t.type = op) (tl : List Token)
    (hd : Derives tl (.inl target)) :
    ∃ ts, Lexer.Takes L ts M ∧ Derives (tl ++ ts) (.inl x) := by
  rw [parseUnaryLeftAssociativeLoop] at h
  by_cases h1 : op = .Dot
  · simp only [h1, if_true, bind, Except.bind] at h
    cases hs : L.skip with
    | error e => simp [hs] at h
    | ok L1 =>
      simp only [hs] at h
      cases hi : L1.peek with
      | error e => simp [hi] at h
      | ok i =>
        simp only [hi] at h
        by_cases hity : i.type = .Identifier
        · simp only [hity, ne_eq, not_true_eq_false, if_false, pure, Except.pure] at h
          cases hs2 : L1.skip with
          | error e => simp [hs2] at h
          | ok L2 =>
            simp only [hs2] at h
            cases hu : L2.peek with
            | error e => simp [hu] at h
            | ok u =>
              simp only [hu] at h
              obtain ⟨tb, htb, hdb⟩ := ih.parseUnaryLeftAssociativeLoop _ _ _ _ _ h u hu rfl _
                (.memberAccess hd (hty.trans h1) hity)
              refine ⟨t :: i :: tb, .cons ht hs (.cons hi hs2 htb), ?_⟩
              simpa using hdb
        · simp [hity, throw, throwThe, MonadExceptOf.throw] at h
  · simp only [h1, if_false] at h
    by_cases h2 : op = .OpenParenthesis
    · simp only [h2, if_true, bind, Except.bind] at h
      cases hs : L.skip with
      | error e => simp [hs] at h
      | ok L1 =>
        simp only [hs] at h
        cases hl : parseList f .CloseParenthesis L1 with
        | error e => simp [hl] at h
        | ok r =>
          obtain ⟨arguments, L2⟩ := r
          simp only [hl] at h
          cases hc : L2.peek with
          | error e => simp [hc] at h
          | ok c =>
            simp only [hc] at h
            by_cases hcty : c.type = .CloseParenthesis
            · simp only [hcty, ne_eq, not_true_eq_false, if_false, pure, Except.pure] at h
              cases hs2 : L2.skip with
              | error e => simp [hs2] at h
              | ok L3 =>
                simp only [hs2] at h
                cases hu : L3.peek with
                | error e => simp [hu] at h
                | ok u =>
                  simp only [hu] at h
                  obtain ⟨ts, hts, hds⟩ := ih.parseList _ _ _ _ hl
                  obtain ⟨tb, htb, hdb⟩ := ih.parseUnaryLeftAssociativeLoop _ _ _ _ _ h u hu rfl _
                    (.functionCall hd (hty.trans h2) hds hcty)
                  refine ⟨t :: ts ++ [c] ++ tb,
                    .cons ht hs ((hts.join (.one hc hs2)).join htb), ?_⟩
                  simpa using hdb
            · simp [hcty, throw, throwThe, MonadExceptOf.throw] at h
    · simp only [h2, if_false] at h
      by_cases h3 : op = .OpenBracket
      · simp only [h3, if_true, bind, Except.bind] at h
        cases hs : L.skip with
        | error e => simp [hs] at h
        | ok L1 =>
          simp only [hs] at h
          cases hl : parseEquality f L1 with
          | error e => simp [hl] at h
          | ok r =>
            obtain ⟨subscript, L2⟩ := r
            simp only [hl] at h
            cases hc : L2.peek with
            | error e => simp [hc] at h
            | ok c =>
              simp only [hc] at h
              by_cases hcty : c.type = .CloseBracket
              · simp only [hcty, ne_eq, not_true_eq_false, if_false, pure, Except.pure] at h
                cases hs2 : L2.skip with
                | error e => simp [hs2] at h
                | ok L3 =>
                  simp only [hs2] at h
                  cases hu : L3.peek with
                  | error e => simp [hu] at h
                  | ok u =>
                    simp only [hu] at h
                    obtain ⟨ts, hts, hds⟩ := ih.level 0 _ _ _ (show level 0 f L1 = _ from hl)
                    obtain ⟨tb, htb, hdb⟩ :=
                      ih.parseUnaryLeftAssociativeLoop _ _ _ _ _ h u hu rfl _
                        (.subscriptAccess hd (hty.trans h3) hds hcty)
                    refine ⟨t :: ts ++ [c] ++ tb,
                      .cons ht hs ((hts.join (.one hc hs2)).join htb), ?_⟩
                    simpa using hdb
              · simp [hcty, throw, throwThe, MonadExceptOf.throw] at h
      · simp only [h3, if_false] at h
        by_cases h4 : op = .Increment
        · simp only [h4, if_true, bind, Except.bind, ht] at h
          cases hs : L.skip with
          | error e => simp [hs] at h
          | ok L1 =>
            simp only [hs] at h
            cases hu : L1.peek with
            | error e => simp [hu] at h
            | ok u =>
              simp only [hu] at h
              obtain ⟨tb, htb, hdb⟩ := ih.parseUnaryLeftAssociativeLoop _ _ _ _ _ h u hu rfl _
                (.postIncrement hd (hty.trans h4))
              refine ⟨t :: tb, .cons ht hs htb, ?_⟩
              simpa using hdb
        · simp only [h4, if_false] at h
          by_cases h5 : op = .Decrement
          · simp only [h5, if_true, bind, Except.bind, ht] at h
            cases hs : L.skip with
            | error e => simp [hs] at h
            | ok L1 =>
              simp only [hs] at h
              cases hu : L1.peek with
              | error e => simp [hu] at h
              | ok u =>
                simp only [hu] at h
                obtain ⟨tb, htb, hdb⟩ := ih.parseUnaryLeftAssociativeLoop _ _ _ _ _ h u hu rfl _
                  (.postDecrement hd (hty.trans h5))
                refine ⟨t :: tb, .cons ht hs htb, ?_⟩
                simpa using hdb
          · simp only [h5, if_false, pure, Except.pure, Except.ok.injEq, Prod.mk.injEq] at h
            obtain ⟨rfl, rfl⟩ := h
            exact ⟨[], .nil _, by simpa using hd⟩

theorem derivesAt : ∀ fuel : Nat, DerivesAt fuel := by
  intro fuel
  induction fuel with
  | zero => exact derivesAt_zero
  | succ f ih =>
    exact ⟨derives_level_succ ih, derives_levelLoop_succ ih, derives_postfix_succ ih,
      derives_postfixLoop_succ ih, derives_terminal_succ ih, derives_array_succ ih,
      derives_list_succ ih, derives_listLoop_succ ih⟩

/-- What `parseExpression` returns is derived by the grammar from the tokens it consumed. -/
theorem expression_derives {f : Nat} {L M : Lexer 2} {x : Expression}
    (h : parseExpression f L = .ok (x, M)) :
    ∃ ts, Lexer.Takes L ts M ∧ Derives ts (.inl x) :=
  (derivesAt f).level 0 L M x h

end Parser

namespace Expression

theorem self_mem_nodes (x : Expression) : x ∈ x.nodes := by
  cases x <;> simp [Expression.nodes]

theorem nodesList_append (xs ys : List Expression) :
    Expression.nodesList (xs ++ ys) = Expression.nodesList xs ++ Expression.nodesList ys := by
  induction xs with
  | nil => simp [Expression.nodesList]
  | cons x xs ih => simp [Expression.nodesList, ih]

end Expression

namespace Parser

/-- A tree derived from tokens that lie in order between `lo` and `hi` has its span
between `lo` and `hi`, and at each of its nodes `from` is at most `to`. -/
theorem Derives.ordered {src : List Char} {ts : List Token}
    {s : Expression ⊕ List Expression} (h : Derives ts s) :
    ∀ {lo hi : Nat}, Spans src lo hi ts →
      Sum.elim (fun x => lo ≤ x.from_ ∧ x.to_ ≤ hi ∧ ∀ y ∈ x.nodes, y.from_ ≤ y.to_)
        (fun xs => ∀ y ∈ Expression.nodesList xs, y.from_ ≤ y.to_) s := by
  induction h with
  | identifier t _ =>
    intro lo hi h
    have h1 := h.1
    have h2 := h.2.1.1
    have h3 : t.to_ ≤ hi := h.2.2
    simp only [Sum.elim_inl, Expression.nodes, List.mem_singleton]
    refine ⟨h1, h3, ?_⟩
    rintro y rfl
    exact h2
  | numericLiteral t _ =>
    intro lo hi h
    have h1 := h.1
    have h2 := h.2.1.1
    have h3 : t.to_ ≤ hi := h.2.2
    simp only [Sum.elim_inl, Expression.nodes, List.mem_singleton]
    refine ⟨h1, h3, ?_⟩
    rintro y rfl
    exact h2
  | stringLiteral t _ =>
    intro lo hi h
    have h1 := h.1
    have h2 := h.2.1.1
    have h3 : t.to_ ≤ hi := h.2.2
    simp only [Sum.elim_inl, Expression.nodes, List.mem_singleton]
    refine ⟨h1, h3, ?_⟩
    rintro y rfl
    exact h2
  | @arrayLiteral o c ts array _ _ _ ih =>
    intro lo hi h
    obtain ⟨h1, h2, h3⟩ := h
    obtain ⟨mid, h4, h5⟩ := Spans.split h3
    have ih := ih h4
    have h6 := h4.le
    have h7 := h2.1
    have h8 := h5.1
    have h9 := h5.2.1.1
    have h10 : c.to_ ≤ hi := h5.2.2
    simp only [Sum.elim_inl, Sum.elim_inr, Expression.nodes, List.mem_cons] at ih ⊢
    refine ⟨h1, h10, ?_⟩
    rintro y (rfl | hy)
    · show o.from_ ≤ c.to_
      omega
    · exact ih y hy
  | @binaryOperator t k ta tb lhs rhs _ _ _ iha ihb =>
    intro lo hi h
    obtain ⟨mid, h1, h2⟩ := Spans.split h
    obtain ⟨h3, h4, h5⟩ := h2
    obtain ⟨a1, a2, a3⟩ := iha h1
    obtain ⟨b1, b2, b3⟩ := ihb h5
    have a4 := a3 lhs lhs.self_mem_nodes
    have b4 := b3 rhs rhs.self_mem_nodes
    have h6 := h4.1
    simp only [Sum.elim_inl, Expression.nodes, List.mem_cons, List.mem_append]
    refine ⟨a1, b2, ?_⟩
    rintro y (rfl | hy | hy)
    · show lhs.from_ ≤ rhs.to_
      omega
    · exact a3 y hy
    · exact b3 y hy
  | @leftUnaryOperator t k ta argument _ _ ih =>
    intro lo hi h
    obtain ⟨h1, h2, h3⟩ := h
    obtain ⟨a1, a2, a3⟩ := ih h3
    have a4 := a3 argument argument.self_mem_nodes
    have h4 := h2.1
    simp only [Sum.elim_inl, Expression.nodes, List.mem_cons]
    refine ⟨h1, a2, ?_⟩
    rintro y (rfl | hy)
    · show t.from_ ≤ argument.to_
      omega
    · exact a3 y hy
  | @postIncrement t ta argument _ _ ih =>
    intro lo hi h
    obtain ⟨mid, h1, h2⟩ := Spans.split h
    obtain ⟨h3, h4, h5⟩ := h2
    obtain ⟨a1, a2, a3⟩ := ih h1
    have a4 := a3 argument argument.self_mem_nodes
    have h6 := h4.1
    have h7 : t.to_ ≤ hi := h5
    simp only [Sum.elim_inl, Expression.nodes, List.mem_cons]
    refine ⟨a1, h7, ?_⟩
    rintro y (rfl | hy)
    · show argument.from_ ≤ t.to_
      omega
    · exact a3 y hy
  | @postDecrement t ta argument _ _ ih =>
    intro lo hi h
    obtain ⟨mid, h1, h2⟩ := Spans.split h
    obtain ⟨h3, h4, h5⟩ := h2
    obtain ⟨a1, a2, a3⟩ := ih h1
    have a4 := a3 argument argument.self_mem_nodes
    have h6 := h4.1
    have h7 : t.to_ ≤ hi := h5
    simp only [Sum.elim_inl, Expression.nodes, List.mem_cons]
    refine ⟨a1, h7, ?_⟩
    rintro y (rfl | hy)
    · show argument.from_ ≤ t.to_
      omega
    · exact a3 y hy
  | @memberAccess d i ta argument _ _ _ ih =>
    intro lo hi h
    obtain ⟨mid, h1, h2⟩ := Spans.split h
    obtain ⟨h3, h4, h5, h6, h7⟩ := h2
    obtain ⟨a1, a2, a3⟩ := ih h1
    have a4 := a3 argument argument.self_mem_nodes
    have h8 := h4.1
    have h9 := h6.1
    have h10 : i.to_ ≤ hi := h7
    simp only [Sum.elim_inl, Expression.nodes, List.mem_cons, List.mem_append,
      List.not_mem_nil, or_false]
    refine ⟨a1, h10, ?_⟩
    rintro y (rfl | hy | rfl)
    · show argument.from_ ≤ i.to_
      omega
    · exact a3 y hy
    · exact h9
  | @functionCall o c ta ts function arguments _ _ _ _ iha ihs =>
    intro lo hi h
    rw [List.append_assoc] at h
    obtain ⟨mid, h1, h2⟩ := Spans.split h
    obtain ⟨h3, h4, h5⟩ := h2
    obtain ⟨mid2, h6, h7⟩ := Spans.split h5
    obtain ⟨a1, a2, a3⟩ := iha h1
    have a4 := a3 function function.self_mem_nodes
    have ihs := ihs h6
    have h8 := h4.1
    have h9 := h6.le
    have h10 := h7.1
    have h11 := h7.2.1.1
    have h12 : c.to_ ≤ hi := h7.2.2
    simp only [Sum.elim_inl, Sum.elim_inr, Expression.nodes, List.mem_cons,
      List.mem_append] at ihs ⊢
    refine ⟨a1, h12, ?_⟩
    rintro y (rfl | hy | hy)
    · show function.from_ ≤ c.to_
      omega
    · exact a3 y hy
    · exact ihs y hy
  | @subscriptAccess o c ta ts argument subscript _ _ _ _ iha ihs =>
    intro lo hi h
    rw [List.append_assoc] at h
    obtain ⟨mid, h1, h2⟩ := Spans.split h
    obtain ⟨h3, h4, h5⟩ := h2
    obtain ⟨mid2, h6, h7⟩ := Spans.split h5
    obtain ⟨a1, a2, a3⟩ := iha h1
    have a4 := a3 argument argument.self_mem_nodes
    obtain ⟨b1, b2, b3⟩ := ihs h6
    have h8 := h4.1
    have h9 := h6.le
    have h10 := h7.1
    have h11 := h7.2.1.1
    have h12 : c.to_ ≤ hi := h7.2.2
    simp only [Sum.elim_inl, Expression.nodes, List.mem_cons, List.mem_append]
    refine ⟨a1, h12, ?_⟩
    rintro y (rfl | hy | hy)
    · show argument.from_ ≤ c.to_
      omega
    · exact a3 y hy
    · exact b3 y hy
  | empty =>
    intro lo hi _
    simp [Expression.nodesList]
  | @single ta x _ ih =>
    intro lo hi h
    obtain ⟨_, _, a3⟩ := ih h
    simpa [Expression.nodesList] using a3
  | @comma c ts ta xs x _ _ _ _ ihs iha =>
    intro lo hi h
    obtain ⟨mid, h1, h2⟩ := Spans.split h
    obtain ⟨_, _, a3⟩ := iha h2.2.2
    have ihs := ihs h1
    simp only [Sum.elim_inr] at ihs ⊢
    intro y hy
    rw [Expression.nodesList_append] at hy
    rcases List.mem_append.mp hy with hy | hy
    · exact ihs y hy
    · exact a3 y (by simpa [Expression.nodesList] using hy)

end Parser

namespace Parser

theorem binaryLevel_lt {ty : TokenType} {j : Nat} (h : binaryLevel ty = some j) : j < 5 :=
  (binaryLevel_some h).1

theorem stopsAt_zero : StopsAt 0 := by
  constructor
  · intro k L M x h
    rw [level_zero] at h; cases h
  · intro k hk lhs op L M x h
    rw [levelLoop_zero hk] at h; cases h
  · intro L M x h; cases h
  · intro a b L M x h; cases h

theorem stops_level_succ {f : Nat} (ih : StopsAt f) (k : Nat) (L M : Lexer 2)
    (x : Expression) (h : level k (f + 1) L = .ok (x, M)) :
    ∃ e, M.peek = .ok e ∧ postfixStart e.type = false ∧
      ∀ j, k ≤ j → binaryLevel e.type ≠ some j := by
  rcases Nat.lt_or_ge k 5 with hk | hk
  · rw [level_unfold hk] at h
    obtain ⟨r, h1, h⟩ := bind_returns h
    obtain ⟨t, h2, h⟩ := bind_returns h
    obtain ⟨e, he, hpe, hbe⟩ := ih.level _ _ _ _ (show level (k + 1) f L = .ok (r.1, r.2) from h1)
    rw [he] at h2
    injection h2 with h2
    subst h2
    exact ih.levelLoop k hk _ _ _ _ _ h e he rfl hpe (fun j hj => hbe j hj)
  · rw [level_ge hk] at h
    have hfin : ∀ e : Token, ∀ j, k ≤ j → binaryLevel e.type ≠ some j := by
      intro e j hj hb
      have := binaryLevel_lt hb
      omega
    cases hp : L.peek with
    | error e =>
      rw [parseUnaryRightAssociative] at h
      simp [bind, Except.bind, hp] at h
    | ok t =>
      cases hk2 : prefixNode t.type with
      | none =>
        rw [unprefixed_eq hp hk2] at h
        obtain ⟨e, he, hpe⟩ := ih.parseUnaryLeftAssociative _ _ _ h
        exact ⟨e, he, hpe, hfin e⟩
      | some nk =>
        rw [prefixed_eq hp hk2] at h
        obtain ⟨L1, hs, h⟩ := bind_returns h
        obtain ⟨r, h1, h⟩ := bind_returns h
        cases h
        obtain ⟨e, he, hpe, _⟩ := ih.level 5 _ _ _ (show level 5 f L1 = .ok (r.1, r.2) from h1)
        exact ⟨e, he, hpe, hfin e⟩

theorem stops_levelLoop_succ {f : Nat} (ih : StopsAt f) (k : Nat) (hk : k < 5)
    (lhs : Expression) (op : TokenType) (L M : Lexer 2) (x : Expression)
    (h : levelLoop k (f + 1) lhs op L = .ok (x, M)) (t : Token) (ht : L.peek = .ok t)
    (hty : t.type = op) (hpo : postfixStart op = false)
    (hbo : ∀ j, k < j → binaryLevel op ≠ some j) :
    ∃ e, M.peek = .ok e ∧ postfixStart e.type = false ∧
      ∀ j, k ≤ j → binaryLevel e.type ≠ some j := by
  rw [levelLoop_succ hk] at h
  by_cases hb : binaryLevel op = some k
  · rw [if_pos hb] at h
    obtain ⟨L1, hs, h⟩ := bind_returns h
    obtain ⟨r, h1, h⟩ := bind_returns h
    obtain ⟨u, h2, h⟩ := bind_returns h
    obtain ⟨e, he, hpe, hbe⟩ := ih.level _ _ _ _ (show level (k + 1) f L1 = .ok (r.1, r.2) from h1)
    rw [he] at h2
    injection h2 with h2
    subst h2
    exact ih.levelLoop k hk _ _ _ _ _ h e he rfl hpe (fun j hj => hbe j hj)
  · rw [if_neg hb] at h
    cases h
    refine ⟨t, ht, by rw [hty]; exact hpo, fun j hj => ?_⟩
    rw [hty]
    rcases Nat.eq_or_lt_of_le hj with rfl | hlt
    · exact hb
    · exact hbo j hlt

theorem stops_postfix_succ {f : Nat} (ih : StopsAt f) (L M : Lexer 2) (x : Expression)
    (h : parseUnaryLeftAssociative (f + 1) L = .ok (x, M)) :
    ∃ e, M.peek = .ok e ∧ postfixStart e.type = false := by
  rw [parseUnaryLeftAssociative] at h
  obtain ⟨r, h1, h⟩ := bind_returns h
  obtain ⟨t, h2, h⟩ := bind_returns h
  exact ih.parseUnaryLeftAssociativeLoop _ _ _ _ _ h t h2 rfl

theorem stops_postfixLoop_succ {f : Nat} (ih : StopsAt f) (target : Expression)
    (op : TokenType) (L M : Lexer 2) (x : Expression)
    (h : parseUnaryLeftAssociativeLoop (f + 1) target op L = .ok (x, M)) (t : Token)
    (ht : L.peek = .ok t) (hty : t.type = op) :
    ∃ e, M.peek = .ok e ∧ postfixStart e.type = false := by
  rw [parseUnaryLeftAssociativeLoop] at h
  by_cases h1 : op = .Dot
  · simp only [h1, if_true, bind, Except.bind] at h
    cases hs : L.skip with
    | error e => simp [hs] at h
    | ok L1 =>
      simp only [hs] at h
      cases hi : L1.peek with
      | error e => simp [hi] at h
      | ok i =>
        simp only [hi] at h
        by_cases hity : i.type = .Identifier
        · simp only [hity, ne_eq, not_true_eq_false, if_false, pure, Except.pure] at h
          cases hs2 : L1.skip with
          | error e => simp [hs2] at h
          | ok L2 =>
            simp only [hs2] at h
            cases hu : L2.peek with
            | error e => simp [hu] at h
            | ok u =>
              simp only [hu] at h
              exact ih.parseUnaryLeftAssociativeLoop _ _ _ _ _ h u hu rfl
        · simp [hity, throw, throwThe, MonadExceptOf.throw] at h
  · simp only [h1, if_false] at h
    by_cases h2 : op = .OpenParenthesis
    · simp only [h2, if_true, bind, Except.bind] at h
      cases hs : L.skip with
      | error e => simp [hs] at h
      | ok L1 =>
        simp only [hs] at h
        cases hl : parseList f .CloseParenthesis L1 with
        | error e => simp [hl] at h
        | ok r =>
          obtain ⟨arguments, L2⟩ := r
          simp only [hl] at h
          cases hc : L2.peek with
          | error e => simp [hc] at h
          | ok c =>
            simp only [hc] at h
            by_cases hcty : c.type = .CloseParenthesis
            · simp only [hcty, ne_eq, not_true_eq_false, if_false, pure, Except.pure] at h
              cases hs2 : L2.skip with
              | error e => simp [hs2] at h
              | ok L3 =>
                simp only [hs2] at h
                cases hu : L3.peek with
                | error e => simp [hu] at h
                | ok u =>
                  simp only [hu] at h
                  exact ih.parseUnaryLeftAssociativeLoop _ _ _ _ _ h u hu rfl
            · simp [hcty, throw, throwThe, MonadExceptOf.throw] at h
    · simp only [h2, if_false] at h
      by_cases h3 : op = .OpenBracket
      · simp only [h3, if_true, bind, Except.bind] at h
        cases hs : L.skip with
        | error e => simp [hs] at h
        | ok L1 =>
          simp only [hs] at h
          cases hl : parseEquality f L1 with
          | error e => simp [hl] at h
          | ok r =>
            obtain ⟨subscript, L2⟩ := r
            simp only [hl] at h
            cases hc : L2.peek with
            | error e => simp [hc] at h
            | ok c =>
              simp only [hc] at h
              by_cases hcty : c.type = .CloseBracket
              · simp only [hcty, ne_eq, not_true_eq_false, if_false, pure, Except.pure] at h
                cases hs2 : L2.skip with
                | error e => simp [hs2] at h
                | ok L3 =>
                  simp only [hs2] at h
                  cases hu : L3.peek with
                  | error e => simp [hu] at h
                  | ok u =>
                    simp only [hu] at h
                    exact ih.parseUnaryLeftAssociativeLoop _ _ _ _ _ h u hu rfl
              · simp [hcty, throw, throwThe, MonadExceptOf.throw] at h
      · simp only [h3, if_false] at h
        by_cases h4 : op = .Increment
        · simp only [h4, if_true, bind, Except.bind, ht] at h
          cases hs : L.skip with
          | error e => simp [hs] at h
          | ok L1 =>
            simp only [hs] at h
            cases hu : L1.peek with
            | error e => simp [hu] at h
            | ok u =>
              simp only [hu] at h
              exact ih.parseUnaryLeftAssociativeLoop _ _ _ _ _ h u hu rfl
        · simp only [h4, if_false] at h
          by_cases h5 : op = .Decrement
          · simp only [h5, if_true, bind, Except.bind, ht] at h
            cases hs : L.skip with
            | error e => simp [hs] at h
            | ok L1 =>
              simp only [hs] at h
              cases hu : L1.peek with
              | error e => simp [hu] at h
              | ok u =>
                simp only [hu] at h
                exact ih.parseUnaryLeftAssociativeLoop _ _ _ _ _ h u hu rfl
          · simp only [h5, if_false, pure, Except.pure, Except.ok.injEq, Prod.mk.injEq] at h
            obtain ⟨rfl, rfl⟩ := h
            refine ⟨t, ht, ?_⟩
            rw [hty]
            cases op <;> first | rfl | exact absurd rfl h1 | exact absurd rfl h2 | exact absurd rfl h3 | exact absurd rfl h4 | exact absurd rfl h5

theorem stopsAt : ∀ fuel : Nat, StopsAt fuel := by
  intro fuel
  induction fuel with
  | zero => exact stopsAt_zero
  | succ f ih =>
    exact ⟨stops_level_succ ih, stops_levelLoop_succ ih, stops_postfix_succ ih,
      stops_postfixLoop_succ ih⟩

end Parser

namespace Parser

theorem Enters.nil : Enters [] := by
  intro d h
  cases h

theorem Enters.after (pre : List Token) {ts : List Token} {d : Token}
    (h : ts.getLast? = some d) (hd : opensOperand d.type = true) : Enters (pre ++ ts) := by
  intro d' h'
  cases ts with
  | nil => cases h
  | cons a as =>
    rw [List.getLast?_append_of_ne_nil _ (List.cons_ne_nil a as)] at h'
    rw [h] at h'
    injection h' with h'
    rw [← h']
    exact hd

end Parser

namespace Lexer

theorem Takes.head {L M : Lexer 2} {t : Token} {ts : List Token}
    (h : Takes L (t :: ts) M) : L.peek = .ok t := by
  cases h with
  | cons hp _ _ => exact hp

theorem Takes.tail {L M : Lexer 2} {t : Token} {ts : List Token}
    (h : Takes L (t :: ts) M) : ∃ L1, L.skip = .ok L1 ∧ Takes L1 ts M := by
  cases h with
  | cons _ hs ht => exact ⟨_, hs, ht⟩

theorem Takes.none {L M : Lexer 2} (h : Takes L [] M) : L = M := by
  cases h
  rfl

theorem Takes.unjoin {M : Lexer 2} {b : List Token} : ∀ {a : List Token} {L : Lexer 2},
    Takes L (a ++ b) M → ∃ L1, Takes L a L1 ∧ Takes L1 b M
  | [], L, h => ⟨L, .nil L, h⟩
  | t :: a, L, h => by
    obtain ⟨L1, hs, ht⟩ := Takes.tail h
    obtain ⟨L2, h1, h2⟩ := Takes.unjoin ht
    exact ⟨L2, .cons (Takes.head h) hs h1, h2⟩

theorem Takes.first {L M : Lexer 2} {ts : List Token} (h : Takes L ts M) (hne : ts ≠ []) :
    ∃ t, L.peek = .ok t ∧ ts.head? = some t := by
  cases ts with
  | nil => exact absurd rfl hne
  | cons t ts => exact ⟨t, h.head, rfl⟩

end Lexer

namespace Parser

theorem peek_unique {L : Lexer 2} {a b : Token} (h1 : L.peek = .ok a) (h2 : L.peek = .ok b) :
    a = b := by
  rw [h1] at h2
  injection h2

theorem SameKind.back {L M L' M' : Lexer 2} {ts : List Token} (h1 : Lexer.Takes L ts M)
    (h2 : Lexer.Takes L' ts M') (h : SameKind M M') : SameKind L L' := by
  cases ts with
  | nil =>
    rw [h1.none, h2.none]
    exact h
  | cons t ts => exact ⟨t, t, h1.head, h2.head, rfl⟩

theorem SameEnd.atStart {L M L' M' : Lexer 2} {ts : List Token} (h1 : Lexer.Takes L ts M)
    (h2 : Lexer.Takes L' ts M') (h : SameEnd M M') : SameEnd L L' := by
  cases ts with
  | nil =>
    rw [h1.none, h2.none]
    exact h
  | cons t ts => exact ⟨t, t, h1.head, h2.head, .inl rfl⟩

theorem SameKind.toEnd {M M' : Lexer 2} (h : SameKind M M') : SameEnd M M' := by
  obtain ⟨a, a', h1, h2, h3⟩ := h
  exact ⟨a, a', h1, h2, .inl h3⟩

theorem noEnd_nil : ∀ t ∈ ([] : List Token), t.type ≠ .EndOfFile :=
  fun _ h => nomatch h

theorem noEnd_cons {t : Token} {ts : List Token} (h : t.type ≠ .EndOfFile)
    (hs : ∀ u ∈ ts, u.type ≠ .EndOfFile) : ∀ u ∈ t :: ts, u.type ≠ .EndOfFile := by
  intro u hu
  rcases List.mem_cons.mp hu with rfl | hu
  · exact h
  · exact hs u hu

theorem noEnd_append {ta tb : List Token} (ha : ∀ u ∈ ta, u.type ≠ .EndOfFile)
    (hb : ∀ u ∈ tb, u.type ≠ .EndOfFile) : ∀ u ∈ ta ++ tb, u.type ≠ .EndOfFile := by
  intro u hu
  rcases List.mem_append.mp hu with hu | hu
  · exact ha u hu
  · exact hb u hu

theorem noEnd_unary {t : Token} {k : NodeType} (h : prefixNode t.type = some k) :
    t.type ≠ .EndOfFile := by
  intro h0
  rw [h0] at h
  cases h

theorem noEnd_binary {t : Token} {k : Nat} (h : binaryLevel t.type = some k) :
    t.type ≠ .EndOfFile := by
  intro h0
  rw [h0] at h
  cases h

theorem replaysAt_zero : ReplaysAt 0 := by
  constructor
  · intro k L M x h
    rw [level_zero] at h; cases h
  · intro k hk lhs op L M x h
    rw [levelLoop_zero hk] at h; cases h
  · intro L M x h; cases h
  · intro a b L M x h; cases h
  · intro L M x h; cases h
  · intro L M x h; cases h
  · intro d L M x h; cases h
  · intro a b L M x h; cases h

theorem replays_level_succ {f : Nat} (ih : ReplaysAt f) (k : Nat) (L M : Lexer 2)
    (x : Expression) (h : level k (f + 1) L = .ok (x, M)) :
    ∃ ts, ts ≠ [] ∧ Lexer.Takes L ts M ∧ (∀ t ∈ ts, t.type ≠ .EndOfFile) ∧ ∀ L' M', Lexer.Takes L' ts M' → SameEnd M M' →
      level k (f + 1) L' = .ok (x, M') := by
  rcases Nat.lt_or_ge k 5 with hk | hk
  · rw [level_unfold hk] at h
    obtain ⟨r, h1, h⟩ := bind_returns h
    obtain ⟨t, h2, h⟩ := bind_returns h
    obtain ⟨ta, hne, hta, hna, ra⟩ := ih.level _ _ _ _
      (show level (k + 1) f L = .ok (r.1, r.2) from h1)
    obtain ⟨tb, htb, hnb, rb⟩ := ih.levelLoop k hk _ _ _ _ _ h t h2 rfl
    refine ⟨ta ++ tb, by simp [hne], hta.join htb, noEnd_append hna hnb, fun L' M' hT hE => ?_⟩
    obtain ⟨L1', hT1, hT2⟩ := Lexer.Takes.unjoin hT
    have hE1 := SameEnd.atStart htb hT2 hE
    obtain ⟨a, a', ha, ha', -⟩ := hE1
    rw [level_unfold hk, ra L' L1' hT1 (SameEnd.atStart htb hT2 hE)]
    simp only [bind, Except.bind, ha']
    exact rb L1' M' a' hT2 hE ha'
  · rw [level_ge hk] at h ⊢
    cases hp : L.peek with
    | error e =>
      rw [parseUnaryRightAssociative] at h
      simp [bind, Except.bind, hp] at h
    | ok t =>
      cases hk2 : prefixNode t.type with
      | none =>
        rw [unprefixed_eq hp hk2] at h
        obtain ⟨ts, hne, hts, hns, rs⟩ := ih.parseUnaryLeftAssociative _ _ _ h
        refine ⟨ts, hne, hts, hns, fun L' M' hT hE => ?_⟩
        obtain ⟨t0, hp0, hh0⟩ := hts.first hne
        obtain ⟨t1, hp1, hh1⟩ := hT.first hne
        have e0 : t0 = t := peek_unique hp0 hp
        have e1 : t1 = t := by
          rw [hh0] at hh1
          injection hh1 with hh1
          rw [← hh1, e0]
        rw [e1] at hp1
        rw [unprefixed_eq hp1 hk2]
        exact rs L' M' hT hE
      | some nk =>
        rw [prefixed_eq hp hk2] at h
        obtain ⟨L1, hs, h⟩ := bind_returns h
        obtain ⟨r, h1, h⟩ := bind_returns h
        cases h
        obtain ⟨ta, hne, hta, hna, ra⟩ := ih.level 5 _ _ _
          (show level 5 f L1 = .ok (r.1, r.2) from h1)
        refine ⟨t :: ta, by simp, .cons hp hs hta, noEnd_cons (noEnd_unary hk2) hna,
          fun L' M' hT hE => ?_⟩
        obtain ⟨L1', hs', hT1⟩ := hT.tail
        rw [prefixed_eq hT.head hk2]
        have := ra L1' M' hT1 hE
        simp only [bind, Except.bind, hs', show parseUnaryRightAssociative f L1' = _ from this]
        rfl

theorem replays_levelLoop_succ {f : Nat} (ih : ReplaysAt f) (k : Nat) (hk : k < 5)
    (lhs : Expression) (op : TokenType) (L M : Lexer 2) (x : Expression)
    (h : levelLoop k (f + 1) lhs op L = .ok (x, M)) (t : Token) (ht : L.peek = .ok t)
    (hty : t.type = op) :
    ∃ ts, Lexer.Takes L ts M ∧ (∀ t ∈ ts, t.type ≠ .EndOfFile) ∧ ∀ L' M' t', Lexer.Takes L' ts M' → SameEnd M M' →
      L'.peek = .ok t' → levelLoop k (f + 1) lhs t'.type L' = .ok (x, M') := by
  rw [levelLoop_succ hk] at h
  by_cases hb : binaryLevel op = some k
  · rw [if_pos hb] at h
    obtain ⟨L1, hs, h⟩ := bind_returns h
    obtain ⟨r, h1, h⟩ := bind_returns h
    obtain ⟨u, h2, h⟩ := bind_returns h
    obtain ⟨ta, hne, hta, hna, ra⟩ := ih.level _ _ _ _
      (show level (k + 1) f L1 = .ok (r.1, r.2) from h1)
    obtain ⟨tb, htb, hnb, rb⟩ := ih.levelLoop k hk _ _ _ _ _ h u h2 rfl
    subst hty
    refine ⟨t :: (ta ++ tb), .cons ht hs (hta.join htb),
      noEnd_cons (noEnd_binary hb) (noEnd_append hna hnb), fun L' M' t' hT hE hp' => ?_⟩
    have e1 : t' = t := peek_unique hp' hT.head
    subst e1
    obtain ⟨L1', hs', hT0⟩ := hT.tail
    obtain ⟨L2', hT1, hT2⟩ := Lexer.Takes.unjoin hT0
    obtain ⟨a, a', ha, ha', -⟩ := SameEnd.atStart htb hT2 hE
    rw [levelLoop_succ hk, if_pos hb]
    simp only [bind, Except.bind, hs', ra L1' L2' hT1 (SameEnd.atStart htb hT2 hE), ha']
    exact rb L2' M' a' hT2 hE ha'
  · rw [if_neg hb] at h
    cases h
    refine ⟨[], .nil _, noEnd_nil, fun L' M' t' hT hE hp' => ?_⟩
    have := hT.none
    subst this
    obtain ⟨a, a', ha, ha', hor⟩ := hE
    have ea : a = t := peek_unique ha ht
    have ea' : a' = t' := peek_unique ha' hp'
    subst ea ea'
    have hb' : ¬ binaryLevel a'.type = some k := by
      rcases hor with h0 | ⟨_, _, h0, _⟩
      · rw [← h0, hty]; exact hb
      · rw [h0]; intro h; cases h
    rw [levelLoop_succ hk, if_neg hb']

theorem replays_postfix_succ {f : Nat} (ih : ReplaysAt f) (L M : Lexer 2) (x : Expression)
    (h : parseUnaryLeftAssociative (f + 1) L = .ok (x, M)) :
    ∃ ts, ts ≠ [] ∧ Lexer.Takes L ts M ∧ (∀ t ∈ ts, t.type ≠ .EndOfFile) ∧ ∀ L' M', Lexer.Takes L' ts M' → SameEnd M M' →
      parseUnaryLeftAssociative (f + 1) L' = .ok (x, M') := by
  rw [parseUnaryLeftAssociative] at h
  obtain ⟨r, h1, h⟩ := bind_returns h
  obtain ⟨t, h2, h⟩ := bind_returns h
  obtain ⟨ta, hne, hta, hna, ra⟩ := ih.parseTerminal _ _ _
    (show parseTerminal f L = .ok (r.1, r.2) from h1)
  obtain ⟨tb, htb, hnb, rb⟩ := ih.parseUnaryLeftAssociativeLoop _ _ _ _ _ h t h2 rfl
  refine ⟨ta ++ tb, by simp [hne], hta.join htb, noEnd_append hna hnb, fun L' M' hT hE => ?_⟩
  obtain ⟨L1', hT1, hT2⟩ := Lexer.Takes.unjoin hT
  obtain ⟨a, a', ha, ha', -⟩ := SameEnd.atStart htb hT2 hE
  rw [parseUnaryLeftAssociative, ra L' L1' hT1]
  simp only [bind, Except.bind, ha']
  exact rb L1' M' a' hT2 hE ha'

theorem replays_terminal_succ {f : Nat} (ih : ReplaysAt f) (L M : Lexer 2) (x : Expression)
    (h : parseTerminal (f + 1) L = .ok (x, M)) :
    ∃ ts, ts ≠ [] ∧ Lexer.Takes L ts M ∧ (∀ t ∈ ts, t.type ≠ .EndOfFile) ∧ ∀ L' M', Lexer.Takes L' ts M' →
      parseTerminal (f + 1) L' = .ok (x, M') := by
  rw [parseTerminal] at h
  cases hp : L.peek with
  | error e => simp [bind, Except.bind, hp] at h
  | ok t =>
    simp only [bind, Except.bind, hp] at h
    by_cases h1 : t.type = .Identifier
    · simp only [h1, if_true] at h
      cases hs : L.skip with
      | error e => simp [hs] at h
      | ok L1 =>
        simp only [hs, pure, Except.pure, Except.ok.injEq, Prod.mk.injEq] at h
        obtain ⟨rfl, rfl⟩ := h
        refine ⟨[t], by simp, .one hp hs, noEnd_cons (by rw [h1]; decide) noEnd_nil,
          fun L' M' hT => ?_⟩
        obtain ⟨L1', hs', hT1⟩ := hT.tail
        have := hT1.none
        subst this
        rw [parseTerminal]
        simp only [bind, Except.bind, hT.head, h1, if_true, hs']
        rfl
    · simp only [h1, if_false] at h
      by_cases h2 : t.type = .NumericLiteral
      · simp only [h2, if_true] at h
        cases hs : L.skip with
        | error e => simp [hs] at h
        | ok L1 =>
          simp only [hs, pure, Except.pure, Except.ok.injEq, Prod.mk.injEq] at h
          obtain ⟨rfl, rfl⟩ := h
          refine ⟨[t], by simp, .one hp hs, noEnd_cons (by rw [h2]; decide) noEnd_nil,
            fun L' M' hT => ?_⟩
          obtain ⟨L1', hs', hT1⟩ := hT.tail
          have := hT1.none
          subst this
          rw [parseTerminal]
          simp only [bind, Except.bind, hT.head, h1, h2, if_true, if_false, hs']
          rfl
      · simp only [h2, if_false] at h
        by_cases h3 : t.type = .StringLiteral
        · simp only [h3, if_true] at h
          cases hs : L.skip with
          | error e => simp [hs] at h
          | ok L1 =>
            simp only [hs, pure, Except.pure, Except.ok.injEq, Prod.mk.injEq] at h
            obtain ⟨rfl, rfl⟩ := h
            refine ⟨[t], by simp, .one hp hs, noEnd_cons (by rw [h3]; decide) noEnd_nil,
              fun L' M' hT => ?_⟩
            obtain ⟨L1', hs', hT1⟩ := hT.tail
            have := hT1.none
            subst this
            rw [parseTerminal]
            simp only [bind, Except.bind, hT.head, h1, h2, h3, if_true, if_false, hs']
            rfl
        · simp only [h3, if_false] at h
          by_cases h4 : t.type = .OpenBracket
          · simp only [h4, if_true] at h
            obtain ⟨ts, hne, hts, hns, rs⟩ := ih.parseArrayLiteral _ _ _ h t hp h4
            refine ⟨ts, hne, hts, hns, fun L' M' hT => ?_⟩
            obtain ⟨t0, hp0, hh0⟩ := hts.first hne
            obtain ⟨t1, hp1, hh1⟩ := hT.first hne
            have e0 : t0 = t := peek_unique hp0 hp
            have e1 : t1 = t := by
              rw [hh0] at hh1
              injection hh1 with hh1
              rw [← hh1, e0]
            rw [e1] at hp1
            rw [parseTerminal]
            simp only [bind, Except.bind, hp1, h1, h2, h3, h4, if_true, if_false]
            exact rs L' M' hT
          · simp [h4, throw, throwThe, MonadExceptOf.throw] at h

theorem replays_array_succ {f : Nat} (ih : ReplaysAt f) (L M : Lexer 2) (x : Expression)
    (h : parseArrayLiteral (f + 1) L = .ok (x, M)) (t : Token) (ht : L.peek = .ok t)
    (hty : t.type = .OpenBracket) :
    ∃ ts, ts ≠ [] ∧ Lexer.Takes L ts M ∧ (∀ t ∈ ts, t.type ≠ .EndOfFile) ∧ ∀ L' M', Lexer.Takes L' ts M' →
      parseArrayLiteral (f + 1) L' = .ok (x, M') := by
  rw [parseArrayLiteral] at h
  simp only [bind, Except.bind, ht] at h
  cases hs : L.skip with
  | error e => simp [hs] at h
  | ok L1 =>
    simp only [hs] at h
    cases hl : parseList f .CloseBracket L1 with
    | error e => simp [hl] at h
    | ok r =>
      obtain ⟨xs, L2⟩ := r
      simp only [hl] at h
      cases hc : L2.peek with
      | error e => simp [hc] at h
      | ok c =>
        simp only [hc] at h
        by_cases hcty : c.type = .CloseBracket
        · simp only [hcty, ne_eq, not_true_eq_false, if_false, pure, Except.pure] at h
          cases hs2 : L2.skip with
          | error e => simp [hs2] at h
          | ok L3 =>
            simp only [hs2, Except.ok.injEq, Prod.mk.injEq] at h
            obtain ⟨rfl, rfl⟩ := h
            obtain ⟨ts, hts, hns, rs⟩ := ih.parseList _ _ _ _ hl
            refine ⟨t :: (ts ++ [c]), by simp, .cons ht hs (hts.join (.one hc hs2)),
              noEnd_cons (by rw [hty]; decide)
                (noEnd_append hns (noEnd_cons (by rw [hcty]; decide) noEnd_nil)),
              fun L' M' hT => ?_⟩
            obtain ⟨L1', hs', hT0⟩ := hT.tail
            obtain ⟨L2', hT1, hT2⟩ := Lexer.Takes.unjoin hT0
            obtain ⟨L3', hs2', hT3⟩ := hT2.tail
            have := hT3.none
            subst this
            have hl' := rs L1' L2' hT1 ⟨c, c, hc, hT2.head, rfl⟩
            rw [parseArrayLiteral]
            simp only [bind, Except.bind, hT.head, hs', hl', hT2.head, hcty, ne_eq,
              not_true_eq_false, if_false, pure, Except.pure, hs2']
        · simp [hcty, throw, throwThe, MonadExceptOf.throw] at h

theorem replays_list_succ {f : Nat} (ih : ReplaysAt f) (delimiter : TokenType)
    (L M : Lexer 2) (xs : List Expression)
    (h : parseList (f + 1) delimiter L = .ok (xs, M)) :
    ∃ ts, Lexer.Takes L ts M ∧ (∀ t ∈ ts, t.type ≠ .EndOfFile) ∧ ∀ L' M', Lexer.Takes L' ts M' → SameKind M M' →
      parseList (f + 1) delimiter L' = .ok (xs, M') := by
  rw [parseList] at h
  cases hp : L.peek with
  | error e => simp [bind, Except.bind, hp] at h
  | ok t =>
    simp only [bind, Except.bind, hp] at h
    by_cases hd : t.type = delimiter
    · simp only [hd, if_true, pure, Except.pure, Except.ok.injEq, Prod.mk.injEq] at h
      obtain ⟨rfl, rfl⟩ := h
      refine ⟨[], .nil _, noEnd_nil, fun L' M' hT hK => ?_⟩
      have := hT.none
      subst this
      obtain ⟨a, a', ha, ha', hty⟩ := hK
      have ea : a = t := peek_unique ha hp
      subst ea
      rw [parseList]
      simp only [bind, Except.bind, ha', ← hty, hd, if_true]
      rfl
    · simp only [hd, if_false, pure, Except.pure] at h
      cases h1 : parseEquality f L with
      | error e => simp [h1] at h
      | ok r =>
        obtain ⟨first, L1⟩ := r
        simp only [h1] at h
        cases h2 : L1.peek with
        | error e => simp [h2] at h
        | ok u =>
          simp only [h2] at h
          obtain ⟨ta, hne, hta, hna, ra⟩ := ih.level 0 _ _ _ h1
          obtain ⟨tb, htb, hnb, rb⟩ := ih.parseListLoop _ _ _ _ _ h u h2 rfl
          refine ⟨ta ++ tb, hta.join htb, noEnd_append hna hnb, fun L' M' hT hK => ?_⟩
          obtain ⟨L1', hT1, hT2⟩ := Lexer.Takes.unjoin hT
          have hK1 := SameKind.back htb hT2 hK
          obtain ⟨a, a', ha, ha', -⟩ := hK1
          obtain ⟨t0, hp0, hh0⟩ := hta.first hne
          obtain ⟨t1, hp1, hh1⟩ := hT1.first hne
          have e0 : t0 = t := peek_unique hp0 hp
          have e1 : t1 = t := by
            rw [hh0] at hh1
            injection hh1 with hh1
            rw [← hh1, e0]
          rw [e1] at hp1
          have h1' : parseEquality f L' = .ok (first, L1') :=
            ra L' L1' hT1 (SameKind.back htb hT2 hK).toEnd
          rw [parseList]
          simp only [bind, Except.bind, hp1, hd, if_false, pure, Except.pure, h1', ha']
          exact rb L1' M' a' hT2 hK ha'

theorem replays_listLoop_succ {f : Nat} (ih : ReplaysAt f) (list : List Expression)
    (op : TokenType) (L M : Lexer 2) (xs : List Expression)
    (h : parseListLoop (f + 1) list op L = .ok (xs, M)) (t : Token) (ht : L.peek = .ok t)
    (hty : t.type = op) :
    ∃ ts, Lexer.Takes L ts M ∧ (∀ t ∈ ts, t.type ≠ .EndOfFile) ∧ ∀ L' M' t', Lexer.Takes L' ts M' → SameKind M M' →
      L'.peek = .ok t' → parseListLoop (f + 1) list t'.type L' = .ok (xs, M') := by
  rw [parseListLoop] at h
  by_cases hc : op = .Comma
  · simp only [hc, if_true, bind, Except.bind] at h
    cases hs : L.skip with
    | error e => simp [hs] at h
    | ok L1 =>
      simp only [hs] at h
      cases h1 : parseEquality f L1 with
      | error e => simp [h1] at h
      | ok r =>
        obtain ⟨element, L2⟩ := r
        simp only [h1] at h
        cases h2 : L2.peek with
        | error e => simp [h2] at h
        | ok u =>
          simp only [h2] at h
          obtain ⟨ta, hne, hta, hna, ra⟩ := ih.level 0 _ _ _ h1
          obtain ⟨tb, htb, hnb, rb⟩ := ih.parseListLoop _ _ _ _ _ h u h2 rfl
          refine ⟨t :: (ta ++ tb), .cons ht hs (hta.join htb),
            noEnd_cons (by rw [hty, hc]; decide) (noEnd_append hna hnb),
            fun L' M' t' hT hK hp' => ?_⟩
          have e1 : t' = t := peek_unique hp' hT.head
          subst e1
          obtain ⟨L1', hs', hT0⟩ := hT.tail
          obtain ⟨L2', hT1, hT2⟩ := Lexer.Takes.unjoin hT0
          obtain ⟨a, a', ha, ha', -⟩ := SameKind.back htb hT2 hK
          have h1' : parseEquality f L1' = .ok (element, L2') :=
            ra L1' L2' hT1 (SameKind.back htb hT2 hK).toEnd
          rw [parseListLoop]
          simp only [hty, hc, if_true, bind, Except.bind, hs', h1', ha']
          exact rb L2' M' a' hT2 hK ha'
  · simp only [hc, if_false, pure, Except.pure, Except.ok.injEq, Prod.mk.injEq] at h
    obtain ⟨rfl, rfl⟩ := h
    refine ⟨[], .nil _, noEnd_nil, fun L' M' t' hT hK hp' => ?_⟩
    have := hT.none
    subst this
    obtain ⟨a, a', ha, ha', hsame⟩ := hK
    have ea : a = t := peek_unique ha ht
    have ea' : a' = t' := peek_unique ha' hp'
    subst ea ea'
    have hc' : ¬ a'.type = .Comma := by rw [← hsame, hty]; exact hc
    rw [parseListLoop]
    simp only [hc', if_false]
    rfl

theorem replays_postfixLoop_succ {f : Nat} (ih : ReplaysAt f) (target : Expression)
    (op : TokenType) (L M : Lexer 2) (x : Expression)
    (h : parseUnaryLeftAssociativeLoop (f + 1) target op L = .ok (x, M)) (t : Token)
    (ht : L.peek = .ok t) (hty : t.type = op) :
    ∃ ts, Lexer.Takes L ts M ∧ (∀ t ∈ ts, t.type ≠ .EndOfFile) ∧ ∀ L' M' t', Lexer.Takes L' ts M' → SameEnd M M' →
      L'.peek = .ok t' →
      parseUnaryLeftAssociativeLoop (f + 1) target t'.type L' = .ok (x, M') := by
  rw [parseUnaryLeftAssociativeLoop] at h
  by_cases h1 : op = .Dot
  · simp only [h1, if_true, bind, Except.bind] at h
    cases hs : L.skip with
    | error e => simp [hs] at h
    | ok L1 =>
      simp only [hs] at h
      cases hi : L1.peek with
      | error e => simp [hi] at h
      | ok i =>
        simp only [hi] at h
        by_cases hity : i.type = .Identifier
        · simp only [hity, ne_eq, not_true_eq_false, if_false, pure, Except.pure] at h
          cases hs2 : L1.skip with
          | error e => simp [hs2] at h
          | ok L2 =>
            simp only [hs2] at h
            cases hu : L2.peek with
            | error e => simp [hu] at h
            | ok u =>
              simp only [hu] at h
              obtain ⟨tb, htb, hnb, rb⟩ := ih.parseUnaryLeftAssociativeLoop _ _ _ _ _ h u hu rfl
              refine ⟨t :: i :: tb, .cons ht hs (.cons hi hs2 htb),
                noEnd_cons (by rw [hty, h1]; decide)
                  (noEnd_cons (by rw [hity]; decide) hnb),
                fun L' M' t' hT hE hp' => ?_⟩
              have e1 : t' = t := peek_unique hp' hT.head
              subst e1
              obtain ⟨L1', hs', hT0⟩ := hT.tail
              obtain ⟨L2', hs2', hT1⟩ := hT0.tail
              obtain ⟨a, a', ha, ha', -⟩ := SameEnd.atStart htb hT1 hE
              rw [parseUnaryLeftAssociativeLoop]
              simp only [hty, h1, if_true, bind, Except.bind, hs', hT0.head, hity, ne_eq,
                not_true_eq_false, if_false, pure, Except.pure, hs2', ha']
              exact rb L2' M' a' hT1 hE ha'
        · simp [hity, throw, throwThe, MonadExceptOf.throw] at h
  · simp only [h1, if_false] at h
    by_cases h2 : op = .OpenParenthesis
    · simp only [h2, if_true, bind, Except.bind] at h
      cases hs : L.skip with
      | error e => simp [hs] at h
      | ok L1 =>
        simp only [hs] at h
        cases hl : parseList f .CloseParenthesis L1 with
        | error e => simp [hl] at h
        | ok r =>
          obtain ⟨arguments, L2⟩ := r
          simp only [hl] at h
          cases hc : L2.peek with
          | error e => simp [hc] at h
          | ok c =>
            simp only [hc] at h
            by_cases hcty : c.type = .CloseParenthesis
            · simp only [hcty, ne_eq, not_true_eq_false, if_false, pure, Except.pure] at h
              cases hs2 : L2.skip with
              | error e => simp [hs2] at h
              | ok L3 =>
                simp only [hs2] at h
                cases hu : L3.peek with
                | error e => simp [hu] at h
                | ok u =>
                  simp only [hu] at h
                  obtain ⟨ts, hts, hns, rs⟩ := ih.parseList _ _ _ _ hl
                  obtain ⟨tb, htb, hnb, rb⟩ :=
                    ih.parseUnaryLeftAssociativeLoop _ _ _ _ _ h u hu rfl
                  refine ⟨t :: (ts ++ c :: tb),
                    .cons ht hs (hts.join (.cons hc hs2 htb)),
                    noEnd_cons (by rw [hty, h2]; decide)
                      (noEnd_append hns (noEnd_cons (by rw [hcty]; decide) hnb)),
                    fun L' M' t' hT hE hp' => ?_⟩
                  have e1 : t' = t := peek_unique hp' hT.head
                  subst e1
                  obtain ⟨L1', hs', hT0⟩ := hT.tail
                  obtain ⟨L2', hT1, hT2⟩ := Lexer.Takes.unjoin hT0
                  obtain ⟨L3', hs2', hT3⟩ := hT2.tail
                  obtain ⟨a, a', ha, ha', -⟩ := SameEnd.atStart htb hT3 hE
                  have hl' := rs L1' L2' hT1 ⟨c, c, hc, hT2.head, rfl⟩
                  rw [parseUnaryLeftAssociativeLoop]
                  simp only [hty, h1, h2, if_true, if_false, bind, Except.bind, hs', hl',
                    hT2.head, hcty, ne_eq, not_true_eq_false, pure, Except.pure, hs2', ha']
                  exact rb L3' M' a' hT3 hE ha'
            · simp [hcty, throw, throwThe, MonadExceptOf.throw] at h
    · simp only [h2, if_false] at h
      by_cases h3 : op = .OpenBracket
      · simp only [h3, if_true, bind, Except.bind] at h
        cases hs : L.skip with
        | error e => simp [hs] at h
        | ok L1 =>
          simp only [hs] at h
          cases hl : parseEquality f L1 with
          | error e => simp [hl] at h
          | ok r =>
            obtain ⟨subscript, L2⟩ := r
            simp only [hl] at h
            cases hc : L2.peek with
            | error e => simp [hc] at h
            | ok c =>
              simp only [hc] at h
              by_cases hcty : c.type = .CloseBracket
              · simp only [hcty, ne_eq, not_true_eq_false, if_false, pure, Except.pure] at h
                cases hs2 : L2.skip with
                | error e => simp [hs2] at h
                | ok L3 =>
                  simp only [hs2] at h
                  cases hu : L3.peek with
                  | error e => simp [hu] at h
                  | ok u =>
                    simp only [hu] at h
                    obtain ⟨ts, hne, hts, hns, rs⟩ := ih.level 0 _ _ _
                      (show level 0 f L1 = _ from hl)
                    obtain ⟨tb, htb, hnb, rb⟩ :=
                      ih.parseUnaryLeftAssociativeLoop _ _ _ _ _ h u hu rfl
                    refine ⟨t :: (ts ++ c :: tb),
                      .cons ht hs (hts.join (.cons hc hs2 htb)),
                      noEnd_cons (by rw [hty, h3]; decide)
                        (noEnd_append hns (noEnd_cons (by rw [hcty]; decide) hnb)),
                      fun L' M' t' hT hE hp' => ?_⟩
                    have e1 : t' = t := peek_unique hp' hT.head
                    subst e1
                    obtain ⟨L1', hs', hT0⟩ := hT.tail
                    obtain ⟨L2', hT1, hT2⟩ := Lexer.Takes.unjoin hT0
                    obtain ⟨L3', hs2', hT3⟩ := hT2.tail
                    obtain ⟨a, a', ha, ha', -⟩ := SameEnd.atStart htb hT3 hE
                    have hl' : parseEquality f L1' = .ok (subscript, L2') :=
                      rs L1' L2' hT1 ⟨c, c, hc, hT2.head, .inl rfl⟩
                    rw [parseUnaryLeftAssociativeLoop]
                    simp only [hty, h1, h2, h3, if_true, if_false, bind, Except.bind, hs',
                      hl', hT2.head, hcty, ne_eq, not_true_eq_false, pure, Except.pure,
                      hs2', ha']
                    exact rb L3' M' a' hT3 hE ha'
              · simp [hcty, throw, throwThe, MonadExceptOf.throw] at h
      · simp only [h3, if_false] at h
        by_cases h4 : op = .Increment
        · simp only [h4, if_true, bind, Except.bind, ht] at h
          cases hs : L.skip with
          | error e => simp [hs] at h
          | ok L1 =>
            simp only [hs] at h
            cases hu : L1.peek with
            | error e => simp [hu] at h
            | ok u =>
              simp only [hu] at h
              obtain ⟨tb, htb, hnb, rb⟩ := ih.parseUnaryLeftAssociativeLoop _ _ _ _ _ h u hu rfl
              refine ⟨t :: tb, .cons ht hs htb, noEnd_cons (by rw [hty, h4]; decide) hnb,
                fun L' M' t' hT hE hp' => ?_⟩
              have e1 : t' = t := peek_unique hp' hT.head
              subst e1
              obtain ⟨L1', hs', hT0⟩ := hT.tail
              obtain ⟨a, a', ha, ha', -⟩ := SameEnd.atStart htb hT0 hE
              rw [parseUnaryLeftAssociativeLoop]
              simp only [hty, h1, h2, h3, h4, if_true, if_false, bind, Except.bind, hp',
                hs', ha']
              exact rb L1' M' a' hT0 hE ha'
        · simp only [h4, if_false] at h
          by_cases h5 : op = .Decrement
          · simp only [h5, if_true, bind, Except.bind, ht] at h
            cases hs : L.skip with
            | error e => simp [hs] at h
            | ok L1 =>
              simp only [hs] at h
              cases hu : L1.peek with
              | error e => simp [hu] at h
              | ok u =>
                simp only [hu] at h
                obtain ⟨tb, htb, hnb, rb⟩ :=
                  ih.parseUnaryLeftAssociativeLoop _ _ _ _ _ h u hu rfl
                refine ⟨t :: tb, .cons ht hs htb, noEnd_cons (by rw [hty, h5]; decide) hnb,
                  fun L' M' t' hT hE hp' => ?_⟩
                have e1 : t' = t := peek_unique hp' hT.head
                subst e1
                obtain ⟨L1', hs', hT0⟩ := hT.tail
                obtain ⟨a, a', ha, ha', -⟩ := SameEnd.atStart htb hT0 hE
                rw [parseUnaryLeftAssociativeLoop]
                simp only [hty, h1, h2, h3, h4, h5, if_true, if_false, bind, Except.bind,
                  hp', hs', ha']
                exact rb L1' M' a' hT0 hE ha'
          · simp only [h5, if_false, pure, Except.pure, Except.ok.injEq, Prod.mk.injEq] at h
            obtain ⟨rfl, rfl⟩ := h
            refine ⟨[], .nil _, noEnd_nil, fun L' M' t' hT hE hp' => ?_⟩
            have := hT.none
            subst this
            obtain ⟨a, a', ha, ha', hor⟩ := hE
            have ea : a = t := peek_unique ha ht
            have ea' : a' = t' := peek_unique ha' hp'
            subst ea ea'
            have hpost : postfixStart a.type = false := by
              rw [hty]
              generalize op = o at h1 h2 h3 h4 h5
              cases o <;> first | rfl | contradiction
            have hpost' : postfixStart a'.type = false := by
              rcases hor with h0 | ⟨_, _, _, h0⟩
              · rw [← h0]; exact hpost
              · exact h0
            have g1 : ¬ a'.type = .Dot := fun e => by rw [e] at hpost'; cases hpost'
            have g2 : ¬ a'.type = .OpenParenthesis := fun e => by
              rw [e] at hpost'; cases hpost'
            have g3 : ¬ a'.type = .OpenBracket := fun e => by rw [e] at hpost'; cases hpost'
            have g4 : ¬ a'.type = .Increment := fun e => by rw [e] at hpost'; cases hpost'
            have g5 : ¬ a'.type = .Decrement := fun e => by rw [e] at hpost'; cases hpost'
            rw [parseUnaryLeftAssociativeLoop]
            simp only [g1, g2, g3, g4, g5, if_false]
            rfl

theorem replaysAt : ∀ fuel : Nat, ReplaysAt fuel := by
  intro fuel
  induction fuel with
  | zero => exact replaysAt_zero
  | succ f ih =>
    exact ⟨replays_level_succ ih, replays_levelLoop_succ ih, replays_postfix_succ ih,
      replays_postfixLoop_succ ih, replays_terminal_succ ih, replays_array_succ ih,
      replays_list_succ ih, replays_listLoop_succ ih⟩

/-- What `parseExpression` returns on the tokens `ts` followed by a token at which an
expression cannot go on, it returns on any lexer that hands out `ts` and then such a
token. -/
theorem expression_replays {f : Nat} {L M : Lexer 2} {x : Expression}
    (h : parseExpression f L = .ok (x, M)) :
    ∃ ts, ts ≠ [] ∧ Lexer.Takes L ts M ∧ (∀ t ∈ ts, t.type ≠ .EndOfFile) ∧
      ∀ L' M' e', Lexer.Takes L' ts M' → M'.peek = .ok e' →
        binaryLevel e'.type = none → postfixStart e'.type = false →
        parseExpression f L' = .ok (x, M') := by
  obtain ⟨ts, hne, hts, hns, rs⟩ := (replaysAt f).level 0 L M x h
  obtain ⟨e, he, hpe, hbe⟩ := (stopsAt f).level 0 L M x h
  refine ⟨ts, hne, hts, hns, fun L' M' e' hT he' hb' hp' =>
    rs L' M' hT ⟨e, e', he, he', .inr ⟨?_, hpe, hb', hp'⟩⟩⟩
  cases hb : binaryLevel e.type with
  | none => rfl
  | some j => exact absurd hb (hbe j (Nat.zero_le _))

end Parser

namespace Expression

theorem yieldRest_append (xs : List Expression) (x : Expression) :
    yieldRest (xs ++ [x]) = yieldRest xs ++ sign .Comma :: yield x := by
  induction xs with
  | nil => simp [yieldRest]
  | cons y r ih => simp [yieldRest, ih]

theorem yieldList_append {xs : List Expression} (hne : xs ≠ []) (x : Expression) :
    yieldList (xs ++ [x]) = yieldList xs ++ sign .Comma :: yield x := by
  cases xs with
  | nil => exact absurd rfl hne
  | cons y r => simp [yieldList, yieldRest_append]

end Expression

theorem Token.word_sign {t : Token} (h : ∀ w, operatorText t.type = some w → t.lexeme = w)
    {k : TokenType} (hk : t.type = k) (hop : (operatorText k).isSome = true) :
    t.word = sign k := by
  subst hk
  obtain ⟨w, hw⟩ := Option.isSome_iff_exists.mp hop
  simp only [Token.word, sign, hw, Option.getD_some, h w hw]

namespace Parser

theorem binaryNode_operator {ty : TokenType} {k : Nat} (h : binaryLevel ty = some k) :
    (binaryNode ty).operator = ty ∧ (operatorText ty).isSome = true := by
  cases ty <;> first | (simp [binaryLevel] at h; done) | exact ⟨rfl, rfl⟩

theorem prefixNode_operator {ty : TokenType} {k : NodeType} (h : prefixNode ty = some k) :
    k.operator = ty ∧ k.isPostfix = false ∧ (operatorText ty).isSome = true := by
  cases ty <;> first | (simp [prefixNode] at h; done) | (simp only [prefixNode, Option.some.injEq] at h; subst h; exact ⟨rfl, rfl, rfl⟩)

/-- The kinds and lexemes of the tokens from which a tree is derived are its yield, for
tokens whose lexeme is the text of their kind. -/
theorem Derives.yield {ts : List Token} {s : Expression ⊕ List Expression}
    (h : Derives ts s) :
    (∀ t ∈ ts, ∀ w, operatorText t.type = some w → t.lexeme = w) →
      ts.map Token.word = Sum.elim Expression.yield Expression.yieldList s := by
  induction h with
  | identifier t ht =>
    intro _
    simp [Token.word, Expression.yield, ht]
  | numericLiteral t ht =>
    intro _
    simp [Token.word, Expression.yield, ht]
  | stringLiteral t ht =>
    intro _
    simp [Token.word, Expression.yield, ht]
  | @arrayLiteral o c ts array ho _ hc ih =>
    intro hw
    have ih := ih (fun t ht => hw t (by simp [ht]))
    have h1 := Token.word_sign (hw o (by simp)) ho rfl
    have h2 := Token.word_sign (hw c (by simp)) hc rfl
    simp only [Sum.elim_inl, Sum.elim_inr] at ih ⊢
    simp [Expression.yield, h1, h2, ih]
  | @binaryOperator t k ta tb lhs rhs _ hb _ iha ihb =>
    intro hw
    have iha := iha (fun u hu => hw u (by simp [hu]))
    have ihb := ihb (fun u hu => hw u (by simp [hu]))
    obtain ⟨h1, h2⟩ := binaryNode_operator hb
    have h3 := Token.word_sign (hw t (by simp)) rfl h2
    simp only [Sum.elim_inl] at iha ihb ⊢
    simp [Expression.yield, h1, h3, iha, ihb]
  | @leftUnaryOperator t k ta argument hp _ ih =>
    intro hw
    have ih := ih (fun u hu => hw u (by simp [hu]))
    obtain ⟨h1, h2, h3⟩ := prefixNode_operator hp
    have h4 := Token.word_sign (hw t (by simp)) rfl h3
    simp only [Sum.elim_inl] at ih ⊢
    simp [Expression.yield, h1, h2, h4, ih]
  | @postIncrement t ta argument _ ht ih =>
    intro hw
    have ih := ih (fun u hu => hw u (by simp [hu]))
    have h4 := Token.word_sign (hw t (by simp)) ht rfl
    simp only [Sum.elim_inl] at ih ⊢
    simp [Expression.yield, NodeType.isPostfix, NodeType.operator, h4, ih]
  | @postDecrement t ta argument _ ht ih =>
    intro hw
    have ih := ih (fun u hu => hw u (by simp [hu]))
    have h4 := Token.word_sign (hw t (by simp)) ht rfl
    simp only [Sum.elim_inl] at ih ⊢
    simp [Expression.yield, NodeType.isPostfix, NodeType.operator, h4, ih]
  | @memberAccess d i ta argument _ hd hi ih =>
    intro hw
    have ih := ih (fun u hu => hw u (by simp [hu]))
    have h4 : (d.type, d.lexeme) = sign .Dot := Token.word_sign (hw d (by simp)) hd rfl
    simp only [Sum.elim_inl] at ih ⊢
    simp [Expression.yield, h4, ih, Token.word, hi]
  | @functionCall o c ta ts function arguments _ ho _ hc iha ihs =>
    intro hw
    have iha := iha (fun u hu => hw u (by simp [hu]))
    have ihs := ihs (fun u hu => hw u (by simp [hu]))
    have h1 := Token.word_sign (hw o (by simp)) ho rfl
    have h2 := Token.word_sign (hw c (by simp)) hc rfl
    simp only [Sum.elim_inl, Sum.elim_inr] at iha ihs ⊢
    simp [Expression.yield, h1, h2, iha, ihs]
  | @subscriptAccess o c ta ts argument subscript _ ho _ hc iha ihs =>
    intro hw
    have iha := iha (fun u hu => hw u (by simp [hu]))
    have ihs := ihs (fun u hu => hw u (by simp [hu]))
    have h1 := Token.word_sign (hw o (by simp)) ho rfl
    have h2 := Token.word_sign (hw c (by simp)) hc rfl
    simp only [Sum.elim_inl] at iha ihs ⊢
    simp [Expression.yield, h1, h2, iha, ihs]
  | empty =>
    intro _
    simp [Expression.yieldList]
  | @single ta x _ ih =>
    intro hw
    have ih := ih hw
    simp only [Sum.elim_inl, Sum.elim_inr] at ih ⊢
    simp [Expression.yieldList, Expression.yieldRest, ih]
  | @comma c ts ta xs x _ hne hc _ ihs iha =>
    intro hw
    have ihs := ihs (fun u hu => hw u (by simp [hu]))
    have iha := iha (fun u hu => hw u (by simp [hu]))
    have h1 := Token.word_sign (hw c (by simp)) hc rfl
    simp only [Sum.elim_inl, Sum.elim_inr] at iha ihs ⊢
    rw [Expression.yieldList_append hne]
    simp [h1, iha, ihs]

theorem head_append {l m : List Token} {a : Token} (h : l.head? = some a) :
    (l ++ m).head? = some a := by
  cases l with
  | nil => cases h
  | cons x r => exact h

theorem last_append {l m : List Token} {b : Token} (h : m.getLast? = some b) :
    (l ++ m).getLast? = some b := by
  cases m with
  | nil => cases h
  | cons x r =>
    rw [List.getLast?_append_of_ne_nil _ (by simp)]
    exact h

theorem last_cons {m : List Token} {b : Token} (t : Token) (h : m.getLast? = some b) :
    (t :: m).getLast? = some b := last_append (l := [t]) h

/-- The span of a derived tree runs from the `from` of its first token to the `to` of its
last token. -/
theorem Derives.extent {ts : List Token} {x : Expression} (h : Derives ts (.inl x)) :
    ∃ a b, ts.head? = some a ∧ ts.getLast? = some b ∧
      x.from_ = a.from_ ∧ x.to_ = b.to_ := by
  generalize hs : (Sum.inl x : Expression ⊕ List Expression) = s at h
  induction h generalizing x with
  | identifier t _ => cases hs; exact ⟨t, t, rfl, rfl, rfl, rfl⟩
  | numericLiteral t _ => cases hs; exact ⟨t, t, rfl, rfl, rfl, rfl⟩
  | stringLiteral t _ => cases hs; exact ⟨t, t, rfl, rfl, rfl, rfl⟩
  | @arrayLiteral o c ts array _ _ _ _ =>
    cases hs
    exact ⟨o, c, rfl, last_cons o (last_append rfl), rfl, rfl⟩
  | @binaryOperator t k ta tb lhs rhs _ _ _ iha ihb =>
    cases hs
    obtain ⟨a, _, ha, _, hfa, _⟩ := iha rfl
    obtain ⟨_, b, _, hb, _, htb⟩ := ihb rfl
    exact ⟨a, b, head_append ha, last_append (last_cons t hb), hfa, htb⟩
  | @leftUnaryOperator t k ta argument _ _ ih =>
    cases hs
    obtain ⟨_, b, _, hb, _, htb⟩ := ih rfl
    exact ⟨t, b, rfl, last_cons t hb, rfl, htb⟩
  | @postIncrement t ta argument _ _ ih =>
    cases hs
    obtain ⟨a, _, ha, _, hfa, _⟩ := ih rfl
    exact ⟨a, t, head_append ha, last_append rfl, hfa, rfl⟩
  | @postDecrement t ta argument _ _ ih =>
    cases hs
    obtain ⟨a, _, ha, _, hfa, _⟩ := ih rfl
    exact ⟨a, t, head_append ha, last_append rfl, hfa, rfl⟩
  | @memberAccess d i ta argument _ _ _ ih =>
    cases hs
    obtain ⟨a, _, ha, _, hfa, _⟩ := ih rfl
    exact ⟨a, i, head_append ha, last_append rfl, hfa, rfl⟩
  | @functionCall o c ta ts function arguments _ _ _ _ iha _ =>
    cases hs
    obtain ⟨a, _, ha, _, hfa, _⟩ := iha rfl
    refine ⟨a, c, ?_, last_append rfl, hfa, rfl⟩
    rw [List.append_assoc]
    exact head_append ha
  | @subscriptAccess o c ta ts argument subscript _ _ _ _ iha _ =>
    cases hs
    obtain ⟨a, _, ha, _, hfa, _⟩ := iha rfl
    refine ⟨a, c, ?_, last_append rfl, hfa, rfl⟩
    rw [List.append_assoc]
    exact head_append ha
  | empty => cases hs
  | single _ _ => cases hs
  | comma _ _ _ _ _ _ => cases hs

/-- Each node of a derived tree is itself derived from a run of consecutive tokens among
the tokens of the tree. -/
theorem Derives.parts {ts : List Token} {s : Expression ⊕ List Expression}
    (h : Derives ts s) :
    ∀ y ∈ Sum.elim Expression.nodes Expression.nodesList s,
      ∃ tsy, tsy <:+: ts ∧ Derives tsy (.inl y) := by
  induction h with
  | identifier t ht =>
    intro y hy
    simp only [Sum.elim_inl, Expression.nodes, List.mem_singleton] at hy
    subst hy
    exact ⟨[t], List.infix_refl _, .identifier t ht⟩
  | numericLiteral t ht =>
    intro y hy
    simp only [Sum.elim_inl, Expression.nodes, List.mem_singleton] at hy
    subst hy
    exact ⟨[t], List.infix_refl _, .numericLiteral t ht⟩
  | stringLiteral t ht =>
    intro y hy
    simp only [Sum.elim_inl, Expression.nodes, List.mem_singleton] at hy
    subst hy
    exact ⟨[t], List.infix_refl _, .stringLiteral t ht⟩
  | @arrayLiteral o c ts array ho hd hc ih =>
    intro y hy
    simp only [Sum.elim_inl, Sum.elim_inr, Expression.nodes, List.mem_cons] at hy ih
    rcases hy with rfl | hy
    · exact ⟨_, List.infix_refl _, .arrayLiteral ho hd hc⟩
    · obtain ⟨tsy, hin, hdy⟩ := ih y hy
      exact ⟨tsy, hin.trans ⟨[o], [c], rfl⟩, hdy⟩
  | @binaryOperator t k ta tb lhs rhs ha hb hr iha ihb =>
    intro y hy
    simp only [Sum.elim_inl, Expression.nodes, List.mem_cons, List.mem_append] at hy iha ihb
    rcases hy with rfl | hy | hy
    · exact ⟨_, List.infix_refl _, .binaryOperator ha hb hr⟩
    · obtain ⟨tsy, hin, hdy⟩ := iha y hy
      exact ⟨tsy, hin.trans ⟨[], t :: tb, rfl⟩, hdy⟩
    · obtain ⟨tsy, hin, hdy⟩ := ihb y hy
      exact ⟨tsy, hin.trans ⟨ta ++ [t], [], by simp⟩, hdy⟩
  | @leftUnaryOperator t k ta argument hp ha ih =>
    intro y hy
    simp only [Sum.elim_inl, Expression.nodes, List.mem_cons] at hy ih
    rcases hy with rfl | hy
    · exact ⟨_, List.infix_refl _, .leftUnaryOperator hp ha⟩
    · obtain ⟨tsy, hin, hdy⟩ := ih y hy
      exact ⟨tsy, hin.trans ⟨[t], [], by simp⟩, hdy⟩
  | @postIncrement t ta argument ha ht ih =>
    intro y hy
    simp only [Sum.elim_inl, Expression.nodes, List.mem_cons] at hy ih
    rcases hy with rfl | hy
    · exact ⟨_, List.infix_refl _, .postIncrement ha ht⟩
    · obtain ⟨tsy, hin, hdy⟩ := ih y hy
      exact ⟨tsy, hin.trans ⟨[], [t], rfl⟩, hdy⟩
  | @postDecrement t ta argument ha ht ih =>
    intro y hy
    simp only [Sum.elim_inl, Expression.nodes, List.mem_cons] at hy ih
    rcases hy with rfl | hy
    · exact ⟨_, List.infix_refl _, .postDecrement ha ht⟩
    · obtain ⟨tsy, hin, hdy⟩ := ih y hy
      exact ⟨tsy, hin.trans ⟨[], [t], rfl⟩, hdy⟩
  | @memberAccess d i ta argument ha hd hi ih =>
    intro y hy
    simp only [Sum.elim_inl, Expression.nodes, List.mem_cons, List.mem_append,
      List.not_mem_nil, or_false] at hy ih
    rcases hy with rfl | hy | rfl
    · exact ⟨_, List.infix_refl _, .memberAccess ha hd hi⟩
    · obtain ⟨tsy, hin, hdy⟩ := ih y hy
      exact ⟨tsy, hin.trans ⟨[], [d, i], rfl⟩, hdy⟩
    · exact ⟨[i], ⟨ta ++ [d], [], by simp⟩, .identifier i hi⟩
  | @functionCall o c ta ts function arguments ha ho hs hc iha ihs =>
    intro y hy
    simp only [Sum.elim_inl, Sum.elim_inr, Expression.nodes, List.mem_cons,
      List.mem_append] at hy iha ihs
    rcases hy with rfl | hy | hy
    · exact ⟨_, List.infix_refl _, .functionCall ha ho hs hc⟩
    · obtain ⟨tsy, hin, hdy⟩ := iha y hy
      exact ⟨tsy, hin.trans ⟨[], o :: ts ++ [c], by simp⟩, hdy⟩
    · obtain ⟨tsy, hin, hdy⟩ := ihs y hy
      exact ⟨tsy, hin.trans ⟨ta ++ [o], [c], by simp⟩, hdy⟩
  | @subscriptAccess o c ta ts argument subscript ha ho hs hc iha ihs =>
    intro y hy
    simp only [Sum.elim_inl, Expression.nodes, List.mem_cons, List.mem_append] at hy iha ihs
    rcases hy with rfl | hy | hy
    · exact ⟨_, List.infix_refl _, .subscriptAccess ha ho hs hc⟩
    · obtain ⟨tsy, hin, hdy⟩ := iha y hy
      exact ⟨tsy, hin.trans ⟨[], o :: ts ++ [c], by simp⟩, hdy⟩
    · obtain ⟨tsy, hin, hdy⟩ := ihs y hy
      exact ⟨tsy, hin.trans ⟨ta ++ [o], [c], by simp⟩, hdy⟩
  | empty =>
    intro y hy
    simp [Expression.nodesList] at hy
  | @single ta x _ ih =>
    intro y hy
    simp only [Sum.elim_inl, Sum.elim_inr, Expression.nodesList, List.append_nil] at hy ih
    exact ih y hy
  | @comma c ts ta xs x _ _ _ _ ihs iha =>
    intro y hy
    simp only [Sum.elim_inl, Sum.elim_inr] at hy ihs iha
    rw [Expression.nodesList_append] at hy
    rcases List.mem_append.mp hy with hy | hy
    · obtain ⟨tsy, hin, hdy⟩ := ihs y hy
      exact ⟨tsy, hin.trans ⟨[], c :: ta, rfl⟩, hdy⟩
    · simp only [Expression.nodesList, List.append_nil] at hy
      obtain ⟨tsy, hin, hdy⟩ := iha y hy
      exact ⟨tsy, hin.trans ⟨ts ++ [c], [], by simp⟩, hdy⟩

theorem spans_infix {src : List Char} {ts us : List Token} {lo hi : Nat}
    (h : Spans src lo hi ts) (hin : us <:+: ts) : ∃ l u, Spans src l u us := by
  obtain ⟨pre, post, rfl⟩ := hin
  obtain ⟨m1, h1, _⟩ := Spans.split h
  obtain ⟨m2, _, h3⟩ := Spans.split h1
  exact ⟨_, _, h3⟩

end Parser

namespace Parser

theorem Fuelless.andThen {α β : Type} {x : Except Error α} {k : α → Except Error β}
    (hx : Fuelless x) (hk : ∀ a, x = .ok a → Fuelless (k a)) : Fuelless (x >>= k) := by
  cases x with
  | error e =>
    intro e' h
    injection h with h
    subst h
    exact hx e rfl
  | ok a => exact hk a rfl

theorem Fuelless.ok {α : Type} (a : α) : Fuelless (.ok a : Except Error α) := by
  intro e h
  cases h

theorem Fuelless.returned {α : Type} (a : α) : Fuelless (Pure.pure a : Except Error α) :=
  Fuelless.ok a

theorem Fuelless.unexpected {α : Type} (w : String) (t : Token) :
    Fuelless (throw (unexpected w t) : Except Error α) := by
  intro e h
  injection h with h
  subst h
  rfl

theorem Fuelless.peek (L : Lexer 2) : Fuelless L.peek := fun _ h => Lexer.peek_fuelless h

theorem Fuelless.skipped (L : Lexer 2) : Fuelless L.skip := fun _ h => Lexer.skip_fuelless h

/-- After a token that is not the end of the file has been skipped, less of the source is
left. -/
theorem fed_skip {src : List Char} {lo r : Nat} {L L1 : Lexer 2} {t : Token}
    (hfed : Lexer.Fed src lo L) (hr : src.length - lo ≤ r) (ht : L.peek = .ok t)
    (hne : t.type ≠ .EndOfFile) (hs : L.skip = .ok L1) :
    0 < r ∧ Lexer.Fed src t.to_ L1 ∧ src.length - t.to_ ≤ r - 1 := by
  obtain ⟨h1, h2, h3⟩ := hfed.skip ht hs
  have h4 := h2.nonempty hne
  have h5 := h2.2.1
  exact ⟨by omega, h3, by omega⟩

/-- What is left of the source after a function of the parser has returned is no more than
what was left before. -/
theorem fed_takes {src : List Char} {lo r : Nat} {L M : Lexer 2} {ts : List Token}
    (hfed : Lexer.Fed src lo L) (hr : src.length - lo ≤ r) (h : Lexer.Takes L ts M) :
    ∃ hi, Lexer.Fed src hi M ∧ src.length - hi ≤ r := by
  obtain ⟨hi, h1, h2⟩ := h.spans hfed
  have := h1.le
  exact ⟨hi, h2, by omega⟩

theorem fed_level {src : List Char} {lo r k f : Nat} {L : Lexer 2} {a : Expression × Lexer 2}
    (hfed : Lexer.Fed src lo L) (hr : src.length - lo ≤ r) (h : level k f L = .ok a) :
    ∃ hi, Lexer.Fed src hi a.2 ∧ src.length - hi ≤ r := by
  obtain ⟨ts, h1, _⟩ := (derivesAt f).level k L a.2 a.1 h
  exact fed_takes hfed hr h1

theorem fed_list {src : List Char} {lo r f : Nat} {L : Lexer 2} {d : TokenType}
    {a : List Expression × Lexer 2}
    (hfed : Lexer.Fed src lo L) (hr : src.length - lo ≤ r) (h : parseList f d L = .ok a) :
    ∃ hi, Lexer.Fed src hi a.2 ∧ src.length - hi ≤ r := by
  obtain ⟨ts, h1, _⟩ := (derivesAt f).parseList d L a.2 a.1 h
  exact fed_takes hfed hr h1

theorem fed_terminal {src : List Char} {lo r f : Nat} {L : Lexer 2}
    {a : Expression × Lexer 2}
    (hfed : Lexer.Fed src lo L) (hr : src.length - lo ≤ r) (h : parseTerminal f L = .ok a) :
    ∃ hi, Lexer.Fed src hi a.2 ∧ src.length - hi ≤ r := by
  obtain ⟨ts, h1, _⟩ := (derivesAt f).parseTerminal L a.2 a.1 h
  exact fed_takes hfed hr h1

theorem settles_levelLoop {src : List Char} {r : Nat}
    (ih : ∀ r', r' < r → SettlesAt src r') (k : Nat) (hk : k < 5) (lhs : Expression)
    (op : TokenType) (L : Lexer 2) (lo f : Nat) (t : Token) (hfed : Lexer.Fed src lo L)
    (hr : src.length - lo ≤ r) (ht : L.peek = .ok t) (hty : t.type = op)
    (hf : 20 * r + 1 ≤ f) : Fuelless (levelLoop k f lhs op L) := by
  obtain ⟨g, rfl⟩ : ∃ g, f = g + 1 := ⟨f - 1, by omega⟩
  rw [levelLoop_succ hk]
  by_cases hb : binaryLevel op = some k
  · rw [if_pos hb]
    have hne : t.type ≠ .EndOfFile := by
      rw [hty]
      intro h0
      rw [h0] at hb
      cases hb
    refine Fuelless.andThen (Fuelless.skipped L) (fun L1 hs => ?_)
    obtain ⟨hpos, hfed1, hr1⟩ := fed_skip hfed hr ht hne hs
    have ih1 := ih (r - 1) (by omega)
    refine Fuelless.andThen (ih1.level (k + 1) (by omega) L1 _ g hfed1 hr1 (by omega))
      (fun a ha => ?_)
    obtain ⟨hi, hfed2, hr2⟩ := fed_level hfed1 hr1 ha
    refine Fuelless.andThen (Fuelless.peek _) (fun u hu => ?_)
    exact ih1.levelLoop k hk _ _ _ hi g u hfed2 hr2 hu rfl (by omega)
  · rw [if_neg hb]
    exact Fuelless.ok _

theorem settles_listLoop {src : List Char} {r : Nat}
    (ih : ∀ r', r' < r → SettlesAt src r') (list : List Expression)
    (op : TokenType) (L : Lexer 2) (lo f : Nat) (t : Token) (hfed : Lexer.Fed src lo L)
    (hr : src.length - lo ≤ r) (ht : L.peek = .ok t) (hty : t.type = op)
    (hf : 20 * r + 1 ≤ f) : Fuelless (parseListLoop f list op L) := by
  obtain ⟨g, rfl⟩ : ∃ g, f = g + 1 := ⟨f - 1, by omega⟩
  rw [parseListLoop]
  by_cases hc : op = .Comma
  · simp only [hc, if_true]
    have hne : t.type ≠ .EndOfFile := by rw [hty, hc]; decide
    refine Fuelless.andThen (Fuelless.skipped L) (fun L1 hs => ?_)
    obtain ⟨hpos, hfed1, hr1⟩ := fed_skip hfed hr ht hne hs
    have ih1 := ih (r - 1) (by omega)
    refine Fuelless.andThen (ih1.level 0 (by omega) L1 _ g hfed1 hr1 (by omega))
      (fun a ha => ?_)
    obtain ⟨hi, hfed2, hr2⟩ := fed_level (k := 0) hfed1 hr1 ha
    obtain ⟨element, L2⟩ := a
    refine Fuelless.andThen (Fuelless.peek _) (fun u hu => ?_)
    exact ih1.parseListLoop _ _ _ hi g u hfed2 hr2 hu rfl (by omega)
  · simp only [hc, if_false]
    exact Fuelless.returned _

theorem settles_postfixLoop {src : List Char} {r : Nat}
    (ih : ∀ r', r' < r → SettlesAt src r') (target : Expression)
    (op : TokenType) (L : Lexer 2) (lo f : Nat) (t : Token) (hfed : Lexer.Fed src lo L)
    (hr : src.length - lo ≤ r) (ht : L.peek = .ok t) (hty : t.type = op)
    (hf : 20 * r + 1 ≤ f) : Fuelless (parseUnaryLeftAssociativeLoop f target op L) := by
  obtain ⟨g, rfl⟩ : ∃ g, f = g + 1 := ⟨f - 1, by omega⟩
  intro e h
  rw [parseUnaryLeftAssociativeLoop] at h
  by_cases h1 : op = .Dot
  · simp only [h1, if_true, bind, Except.bind] at h
    have hne : t.type ≠ .EndOfFile := by rw [hty, h1]; decide
    cases hs : L.skip with
    | error e' =>
      simp only [hs] at h; injection h with h; subst h; exact Lexer.skip_fuelless hs
    | ok L1 =>
      simp only [hs] at h
      obtain ⟨hpos, hfed1, hr1⟩ := fed_skip hfed hr ht hne hs
      have ih1 := ih (r - 1) (by omega)
      cases hi : L1.peek with
      | error e' =>
        simp only [hi] at h; injection h with h; subst h; exact Lexer.peek_fuelless hi
      | ok i =>
        simp only [hi] at h
        by_cases hity : i.type = .Identifier
        · simp only [hity, ne_eq, not_true_eq_false, if_false, pure, Except.pure] at h
          cases hs2 : L1.skip with
          | error e' =>
            simp only [hs2] at h; injection h with h; subst h; exact Lexer.skip_fuelless hs2
          | ok L2 =>
            simp only [hs2] at h
            obtain ⟨_, hfed2, hr2⟩ := fed_skip hfed1 hr1 hi (by rw [hity]; decide) hs2
            cases hu : L2.peek with
            | error e' =>
              simp only [hu] at h; injection h with h; subst h; exact Lexer.peek_fuelless hu
            | ok u =>
              simp only [hu] at h
              exact ih1.parseUnaryLeftAssociativeLoop _ _ _ _ g u hfed2 (by omega) hu rfl
                (by omega) e h
        · simp only [hity, ne_eq, not_false_eq_true, if_true, throw, throwThe,
            MonadExceptOf.throw] at h
          injection h with h; subst h; rfl
  · simp only [h1, if_false] at h
    by_cases h2 : op = .OpenParenthesis
    · simp only [h2, if_true, bind, Except.bind] at h
      have hne : t.type ≠ .EndOfFile := by rw [hty, h2]; decide
      cases hs : L.skip with
      | error e' =>
        simp only [hs] at h; injection h with h; subst h; exact Lexer.skip_fuelless hs
      | ok L1 =>
        simp only [hs] at h
        obtain ⟨hpos, hfed1, hr1⟩ := fed_skip hfed hr ht hne hs
        have ih1 := ih (r - 1) (by omega)
        cases hl : parseList g .CloseParenthesis L1 with
        | error e' =>
          simp only [hl] at h; injection h with h; subst h
          exact ih1.parseList _ _ _ g hfed1 hr1 (by omega) _ hl
        | ok a =>
          obtain ⟨hi2, hfed2, hr2⟩ := fed_list hfed1 hr1 hl
          obtain ⟨arguments, L2⟩ := a
          simp only [hl] at h
          cases hc : L2.peek with
          | error e' =>
            simp only [hc] at h; injection h with h; subst h; exact Lexer.peek_fuelless hc
          | ok c =>
            simp only [hc] at h
            by_cases hcty : c.type = .CloseParenthesis
            · simp only [hcty, ne_eq, not_true_eq_false, if_false, pure, Except.pure] at h
              cases hs2 : L2.skip with
              | error e' =>
                simp only [hs2] at h; injection h with h; subst h
                exact Lexer.skip_fuelless hs2
              | ok L3 =>
                simp only [hs2] at h
                obtain ⟨_, hfed3, hr3⟩ := fed_skip hfed2 hr2 hc (by rw [hcty]; decide) hs2
                cases hu : L3.peek with
                | error e' =>
                  simp only [hu] at h; injection h with h; subst h
                  exact Lexer.peek_fuelless hu
                | ok u =>
                  simp only [hu] at h
                  exact ih1.parseUnaryLeftAssociativeLoop _ _ _ _ g u hfed3 (by omega) hu rfl
                    (by omega) e h
            · simp only [hcty, ne_eq, not_false_eq_true, if_true, throw, throwThe,
                MonadExceptOf.throw] at h
              injection h with h; subst h; rfl
    · simp only [h2, if_false] at h
      by_cases h3 : op = .OpenBracket
      · simp only [h3, if_true, bind, Except.bind] at h
        have hne : t.type ≠ .EndOfFile := by rw [hty, h3]; decide
        cases hs : L.skip with
        | error e' =>
          simp only [hs] at h; injection h with h; subst h; exact Lexer.skip_fuelless hs
        | ok L1 =>
          simp only [hs] at h
          obtain ⟨hpos, hfed1, hr1⟩ := fed_skip hfed hr ht hne hs
          have ih1 := ih (r - 1) (by omega)
          cases hl : parseEquality g L1 with
          | error e' =>
            simp only [hl] at h; injection h with h; subst h
            exact ih1.level 0 (by omega) _ _ g hfed1 hr1 (by omega) _ hl
          | ok a =>
            obtain ⟨hi2, hfed2, hr2⟩ := fed_level (k := 0) hfed1 hr1 hl
            obtain ⟨subscript, L2⟩ := a
            simp only [hl] at h
            cases hc : L2.peek with
            | error e' =>
              simp only [hc] at h; injection h with h; subst h; exact Lexer.peek_fuelless hc
            | ok c =>
              simp only [hc] at h
              by_cases hcty : c.type = .CloseBracket
              · simp only [hcty, ne_eq, not_true_eq_false, if_false, pure, Except.pure] at h
                cases hs2 : L2.skip with
                | error e' =>
                  simp only [hs2] at h; injection h with h; subst h
                  exact Lexer.skip_fuelless hs2
                | ok L3 =>
                  simp only [hs2] at h
                  obtain ⟨_, hfed3, hr3⟩ := fed_skip hfed2 hr2 hc (by rw [hcty]; decide) hs2
                  cases hu : L3.peek with
                  | error e' =>
                    simp only [hu] at h; injection h with h; subst h
                    exact Lexer.peek_fuelless hu
                  | ok u =>
                    simp only [hu] at h
                    exact ih1.parseUnaryLeftAssociativeLoop _ _ _ _ g u hfed3 (by omega) hu
                      rfl (by omega) e h
              · simp only [hcty, ne_eq, not_false_eq_true, if_true, throw, throwThe,
                  MonadExceptOf.throw] at h
                injection h with h; subst h; rfl
      · simp only [h3, if_false] at h
        by_cases h4 : op = .Increment
        · simp only [h4, if_true, bind, Except.bind, ht] at h
          have hne : t.type ≠ .EndOfFile := by rw [hty, h4]; decide
          cases hs : L.skip with
          | error e' =>
            simp only [hs] at h; injection h with h; subst h; exact Lexer.skip_fuelless hs
          | ok L1 =>
            simp only [hs] at h
            obtain ⟨hpos, hfed1, hr1⟩ := fed_skip hfed hr ht hne hs
            have ih1 := ih (r - 1) (by omega)
            cases hu : L1.peek with
            | error e' =>
              simp only [hu] at h; injection h with h; subst h; exact Lexer.peek_fuelless hu
            | ok u =>
              simp only [hu] at h
              exact ih1.parseUnaryLeftAssociativeLoop _ _ _ _ g u hfed1 hr1 hu rfl
                (by omega) e h
        · simp only [h4, if_false] at h
          by_cases h5 : op = .Decrement
          · simp only [h5, if_true, bind, Except.bind, ht] at h
            have hne : t.type ≠ .EndOfFile := by rw [hty, h5]; decide
            cases hs : L.skip with
            | error e' =>
              simp only [hs] at h; injection h with h; subst h; exact Lexer.skip_fuelless hs
            | ok L1 =>
              simp only [hs] at h
              obtain ⟨hpos, hfed1, hr1⟩ := fed_skip hfed hr ht hne hs
              have ih1 := ih (r - 1) (by omega)
              cases hu : L1.peek with
              | error e' =>
                simp only [hu] at h; injection h with h; subst h; exact Lexer.peek_fuelless hu
              | ok u =>
                simp only [hu] at h
                exact ih1.parseUnaryLeftAssociativeLoop _ _ _ _ g u hfed1 hr1 hu rfl
                  (by omega) e h
          · simp only [h5, if_false, pure, Except.pure] at h
            cases h

theorem settles_array {src : List Char} {r : Nat}
    (ih : ∀ r', r' < r → SettlesAt src r') (L : Lexer 2) (lo f : Nat) (t : Token)
    (hfed : Lexer.Fed src lo L) (hr : src.length - lo ≤ r) (ht : L.peek = .ok t)
    (hty : t.type = .OpenBracket) (hf : 20 * r + 2 ≤ f) :
    Fuelless (parseArrayLiteral f L) := by
  obtain ⟨g, rfl⟩ : ∃ g, f = g + 1 := ⟨f - 1, by omega⟩
  intro e h
  rw [parseArrayLiteral] at h
  simp only [bind, Except.bind, ht] at h
  have hne : t.type ≠ .EndOfFile := by rw [hty]; decide
  cases hs : L.skip with
  | error e' =>
    simp only [hs] at h; injection h with h; subst h; exact Lexer.skip_fuelless hs
  | ok L1 =>
    simp only [hs] at h
    obtain ⟨hpos, hfed1, hr1⟩ := fed_skip hfed hr ht hne hs
    have ih1 := ih (r - 1) (by omega)
    cases hl : parseList g .CloseBracket L1 with
    | error e' =>
      simp only [hl] at h; injection h with h; subst h
      exact ih1.parseList _ _ _ g hfed1 hr1 (by omega) _ hl
    | ok a =>
      obtain ⟨xs, L2⟩ := a
      simp only [hl] at h
      cases hc : L2.peek with
      | error e' =>
        simp only [hc] at h; injection h with h; subst h; exact Lexer.peek_fuelless hc
      | ok c =>
        simp only [hc] at h
        by_cases hcty : c.type = .CloseBracket
        · simp only [hcty, ne_eq, not_true_eq_false, if_false, pure, Except.pure] at h
          cases hs2 : L2.skip with
          | error e' =>
            simp only [hs2] at h; injection h with h; subst h; exact Lexer.skip_fuelless hs2
          | ok L3 =>
            simp only [hs2] at h
            cases h
        · simp only [hcty, ne_eq, not_false_eq_true, if_true, throw, throwThe,
            MonadExceptOf.throw] at h
          injection h with h; subst h; rfl

theorem settles_terminal {src : List Char} {r : Nat}
    (ih : ∀ r', r' < r → SettlesAt src r') (L : Lexer 2) (lo f : Nat)
    (hfed : Lexer.Fed src lo L) (hr : src.length - lo ≤ r) (hf : 20 * r + 3 ≤ f) :
    Fuelless (parseTerminal f L) := by
  obtain ⟨g, rfl⟩ : ∃ g, f = g + 1 := ⟨f - 1, by omega⟩
  intro e h
  rw [parseTerminal] at h
  cases hp : L.peek with
  | error e' =>
    simp only [bind, Except.bind, hp] at h; injection h with h; subst h
    exact Lexer.peek_fuelless hp
  | ok t =>
    simp only [bind, Except.bind, hp] at h
    by_cases h1 : t.type = .Identifier
    · simp only [h1, if_true] at h
      cases hs : L.skip with
      | error e' =>
        simp only [hs] at h; injection h with h; subst h; exact Lexer.skip_fuelless hs
      | ok L1 => simp only [hs, pure, Except.pure] at h; cases h
    · simp only [h1, if_false] at h
      by_cases h2 : t.type = .NumericLiteral
      · simp only [h2, if_true] at h
        cases hs : L.skip with
        | error e' =>
          simp only [hs] at h; injection h with h; subst h; exact Lexer.skip_fuelless hs
        | ok L1 => simp only [hs, pure, Except.pure] at h; cases h
      · simp only [h2, if_false] at h
        by_cases h3 : t.type = .StringLiteral
        · simp only [h3, if_true] at h
          cases hs : L.skip with
          | error e' =>
            simp only [hs] at h; injection h with h; subst h; exact Lexer.skip_fuelless hs
          | ok L1 => simp only [hs, pure, Except.pure] at h; cases h
        · simp only [h3, if_false] at h
          by_cases h4 : t.type = .OpenBracket
          · simp only [h4, if_true] at h
            exact settles_array ih L lo g t hfed hr hp h4 (by omega) e h
          · simp only [h4, if_false, throw, throwThe, MonadExceptOf.throw] at h
            injection h with h; subst h; rfl

theorem settles_postfix {src : List Char} {r : Nat}
    (ih : ∀ r', r' < r → SettlesAt src r') (L : Lexer 2) (lo f : Nat)
    (hfed : Lexer.Fed src lo L) (hr : src.length - lo ≤ r) (hf : 20 * r + 4 ≤ f) :
    Fuelless (parseUnaryLeftAssociative f L) := by
  obtain ⟨g, rfl⟩ : ∃ g, f = g + 1 := ⟨f - 1, by omega⟩
  rw [parseUnaryLeftAssociative]
  refine Fuelless.andThen (settles_terminal ih L lo g hfed hr (by omega)) (fun a ha => ?_)
  obtain ⟨hi, hfed1, hr1⟩ := fed_terminal hfed hr ha
  obtain ⟨target, L1⟩ := a
  refine Fuelless.andThen (Fuelless.peek _) (fun u hu => ?_)
  exact settles_postfixLoop ih _ _ _ hi g u hfed1 hr1 hu rfl (by omega)

theorem settles_level {src : List Char} {r : Nat}
    (ih : ∀ r', r' < r → SettlesAt src r') : ∀ (d k : Nat), k + d = 5 → ∀ (L : Lexer 2)
    (lo f : Nat), Lexer.Fed src lo L → src.length - lo ≤ r → 20 * r + (10 - k) ≤ f →
    Fuelless (level k f L)
  | 0, k, hk, L, lo, f, hfed, hr, hf => by
    obtain rfl : k = 5 := by omega
    obtain ⟨g, rfl⟩ : ∃ g, f = g + 1 := ⟨f - 1, by omega⟩
    show Fuelless (parseUnaryRightAssociative (g + 1) L)
    cases hp : L.peek with
    | error e' =>
      intro e h
      rw [parseUnaryRightAssociative] at h
      simp only [bind, Except.bind, hp] at h
      injection h with h; subst h
      exact Lexer.peek_fuelless hp
    | ok t =>
      cases hk2 : prefixNode t.type with
      | none =>
        rw [unprefixed_eq hp hk2]
        exact settles_postfix ih L lo g hfed hr (by omega)
      | some nk =>
        rw [prefixed_eq hp hk2]
        have hne : t.type ≠ .EndOfFile := by
          intro h0
          rw [h0] at hk2
          cases hk2
        refine Fuelless.andThen (Fuelless.skipped L) (fun L1 hs => ?_)
        obtain ⟨hpos, hfed1, hr1⟩ := fed_skip hfed hr hp hne hs
        have ih1 := ih (r - 1) (by omega)
        refine Fuelless.andThen (ih1.level 5 (Nat.le_refl _) L1 _ g hfed1 hr1 (by omega))
          (fun a _ => ?_)
        exact Fuelless.returned _
  | d + 1, k, hk, L, lo, f, hfed, hr, hf => by
    have hk5 : k < 5 := by omega
    obtain ⟨g, rfl⟩ : ∃ g, f = g + 1 := ⟨f - 1, by omega⟩
    rw [level_unfold hk5]
    refine Fuelless.andThen (settles_level ih d (k + 1) (by omega) L lo g hfed hr (by omega))
      (fun a ha => ?_)
    obtain ⟨hi, hfed1, hr1⟩ := fed_level hfed hr ha
    refine Fuelless.andThen (Fuelless.peek _) (fun u hu => ?_)
    exact settles_levelLoop ih k hk5 _ _ _ hi g u hfed1 hr1 hu rfl (by omega)

theorem settles_list {src : List Char} {r : Nat}
    (ih : ∀ r', r' < r → SettlesAt src r') (delimiter : TokenType) (L : Lexer 2)
    (lo f : Nat) (hfed : Lexer.Fed src lo L) (hr : src.length - lo ≤ r)
    (hf : 20 * r + 11 ≤ f) : Fuelless (parseList f delimiter L) := by
  obtain ⟨g, rfl⟩ : ∃ g, f = g + 1 := ⟨f - 1, by omega⟩
  intro e h
  rw [parseList] at h
  cases hp : L.peek with
  | error e' =>
    simp only [bind, Except.bind, hp] at h; injection h with h; subst h
    exact Lexer.peek_fuelless hp
  | ok t =>
    simp only [bind, Except.bind, hp] at h
    by_cases hd : t.type = delimiter
    · simp only [hd, if_true, pure, Except.pure] at h
      cases h
    · simp only [hd, if_false, pure, Except.pure] at h
      cases h1 : parseEquality g L with
      | error e' =>
        simp only [h1] at h; injection h with h; subst h
        exact settles_level ih 5 0 rfl L lo g hfed hr (by omega) _ h1
      | ok a =>
        obtain ⟨hi, hfed1, hr1⟩ := fed_level (k := 0) hfed hr h1
        obtain ⟨first, L1⟩ := a
        simp only [h1] at h
        cases hu : L1.peek with
        | error e' =>
          simp only [hu] at h; injection h with h; subst h; exact Lexer.peek_fuelless hu
        | ok u =>
          simp only [hu] at h
          exact settles_listLoop ih _ _ _ hi g u hfed1 hr1 hu rfl (by omega) e h

theorem settlesAt (src : List Char) : ∀ r : Nat, SettlesAt src r := by
  intro r
  induction r using Nat.strong_induction_on with
  | _ r ih =>
    exact ⟨settles_levelLoop ih, settles_postfixLoop ih, settles_listLoop ih,
      settles_array ih, settles_terminal ih, settles_postfix ih,
      fun k hk => settles_level ih (5 - k) k (by omega), settles_list ih⟩

/-- On a lexer that reads `src` the function `parseExpression` does not run out of fuel
when given `20 * src.length + 10` units or more, and more fuel does not change its
result. -/
theorem expression_settles {src : List Char} {lo : Nat} {L : Lexer 2}
    (hfed : Lexer.Fed src lo L) : ∀ fuel, 20 * src.length + 10 ≤ fuel →
      Fuelless (parseExpression fuel L) ∧
      parseExpression fuel L = parseExpression (20 * src.length + 10) L := by
  have hless : ∀ fuel, 20 * src.length + 10 ≤ fuel → Fuelless (parseExpression fuel L) :=
    fun fuel hf => (settlesAt src src.length).level 0 (by omega) L lo fuel hfed (by omega)
      (by omega)
  intro fuel hf
  refine ⟨hless fuel hf, ?_⟩
  induction fuel, hf using Nat.le_induction with
  | base => rfl
  | succ g hg ihg =>
    rcases (fuelMono g).parseEquality L with h1 | h1
    · have := hless g hg _ h1
      cases this
    · rw [← ihg]
      exact h1.symm

/-- No token from which a tree is derived is the end of the file. -/
theorem Derives.no_end {ts : List Token} {s : Expression ⊕ List Expression}
    (h : Derives ts s) : ∀ t ∈ ts, t.type ≠ .EndOfFile := by
  induction h with
  | identifier t ht => intro u hu; rw [List.mem_singleton.mp hu, ht]; decide
  | numericLiteral t ht => intro u hu; rw [List.mem_singleton.mp hu, ht]; decide
  | stringLiteral t ht => intro u hu; rw [List.mem_singleton.mp hu, ht]; decide
  | @arrayLiteral o c ts array ho _ hc ih =>
    intro u hu
    simp only [List.cons_append, List.mem_cons, List.mem_append, List.not_mem_nil,
      or_false] at hu
    rcases hu with rfl | hu | rfl
    · rw [ho]; decide
    · exact ih u hu
    · rw [hc]; decide
  | @binaryOperator t k ta tb lhs rhs _ hb _ iha ihb =>
    intro u hu
    simp only [List.mem_append, List.mem_cons] at hu
    rcases hu with hu | rfl | hu
    · exact iha u hu
    · intro h0
      rw [h0] at hb
      cases hb
    · exact ihb u hu
  | @leftUnaryOperator t k ta argument hp _ ih =>
    intro u hu
    rcases List.mem_cons.mp hu with rfl | hu
    · intro h0
      rw [h0] at hp
      cases hp
    · exact ih u hu
  | @postIncrement t ta argument _ ht ih =>
    intro u hu
    simp only [List.mem_append, List.mem_singleton] at hu
    rcases hu with hu | rfl
    · exact ih u hu
    · rw [ht]; decide
  | @postDecrement t ta argument _ ht ih =>
    intro u hu
    simp only [List.mem_append, List.mem_singleton] at hu
    rcases hu with hu | rfl
    · exact ih u hu
    · rw [ht]; decide
  | @memberAccess d i ta argument _ hd hi ih =>
    intro u hu
    simp only [List.mem_append, List.mem_cons, List.not_mem_nil, or_false] at hu
    rcases hu with hu | rfl | rfl
    · exact ih u hu
    · rw [hd]; decide
    · rw [hi]; decide
  | @functionCall o c ta ts function arguments _ ho _ hc iha ihs =>
    intro u hu
    simp only [List.mem_append, List.mem_cons, List.not_mem_nil, or_false] at hu
    rcases hu with (hu | rfl | hu) | rfl
    · exact iha u hu
    · rw [ho]; decide
    · exact ihs u hu
    · rw [hc]; decide
  | @subscriptAccess o c ta ts argument subscript _ ho _ hc iha ihs =>
    intro u hu
    simp only [List.mem_append, List.mem_cons, List.not_mem_nil, or_false] at hu
    rcases hu with (hu | rfl | hu) | rfl
    · exact iha u hu
    · rw [ho]; decide
    · exact ihs u hu
    · rw [hc]; decide
  | empty => intro u hu; cases hu
  | @single ta x _ ih => exact ih
  | @comma c ts ta xs x _ _ hc _ ihs iha =>
    intro u hu
    simp only [List.mem_append, List.mem_cons] at hu
    rcases hu with hu | rfl | hu
    · exact ihs u hu
    · rw [hc]; decide
    · exact iha u hu

end Parser

end frontend

/-! ## The claims -/

namespace frontend

/-- C1 (the code breaks it). After a comment `skipWhitespace` calls itself and drops the
result, so a `/` token pushed by the inner call does not end `addNextToken`, which pushes
a second token: on the source `/**//1` the constructor of a lexer with one lookahead, and
of the parser's lexer with two, fails with the overflow error of the lookahead buffer. -/
theorem C1_overflow_reaches_caller :
    Lexer.new 1 "/**//1".toList =
        .error (.overflow_error "CircularQueue: size limit exceeded") ∧
      Lexer.new 2 "/**//1".toList =
        .error (.overflow_error "CircularQueue: size limit exceeded") := by
  decide

/-- C2 (the code breaks it). A slash that follows a comment is not lexed as after a
space: `/* c */ / 2` fails with the unrecognized-token error, while the same source with
the comment replaced by a space yields the tokens `/`, `2` and end-of-file. -/
theorem C2_slash_after_comment :
    Lexer.tokenize 1 "/* c */ / 2".toList 2 = .error (.logic_error "Unrecognized token.") ∧
      Lexer.tokenize 1 "  / 2".toList 2 =
        .ok [⟨"/", .Slash, 2, 3⟩, ⟨"2", .NumericLiteral, 4, 5⟩, ⟨"", .EndOfFile, 5, 5⟩] := by
  decide

namespace Parser

/-- C3. Precedence between the binary levels (equality 0, relational 1, shift 2,
additive 3, multiplicative 4): for terminals `a`, `b`, `c` and binary operators `t1`,
`t2` of different levels, `a t1 b t2 c` parses to `T1(a, T2(b, c))` when `t1` is of the
lower level and to `T2(T1(a, b), c)` when `t1` is of the higher level. The trees are
written with the constructor of the binary nodes: node class, left operand, right
operand, `from` of the left operand, `to` of the right operand. -/
theorem C3_precedence (f : Nat) (L0 L1 L2 L3 L4 L5 : Lexer 2) (a b c : Expression)
    (t1 t2 e : Token) (l1 l2 : Nat)
    (ha : parseTerminal f L0 = .ok (a, L1)) (h1 : L1.peek = .ok t1) (hs1 : L1.skip = .ok L2)
    (hb : parseTerminal f L2 = .ok (b, L3)) (h2 : L3.peek = .ok t2) (hs2 : L3.skip = .ok L4)
    (hc : parseTerminal f L4 = .ok (c, L5)) (he : L5.peek = .ok e)
    (hend : e.type = .EndOfFile)
    (hl1 : binaryLevel t1.type = some l1) (hl2 : binaryLevel t2.type = some l2) :
    ∃ f0, ∀ fuel, f0 ≤ fuel →
      (l1 < l2 → parseExpression fuel L0 = .ok
        (.binaryOperator (binaryNode t1.type) a
          (.binaryOperator (binaryNode t2.type) b c b.from_ c.to_) a.from_ c.to_, L5)) ∧
      (l2 < l1 → parseExpression fuel L0 = .ok
        (.binaryOperator (binaryNode t2.type)
          (.binaryOperator (binaryNode t1.type) a b a.from_ b.to_) c a.from_ c.to_,
          L5)) := by
  rcases Nat.lt_trichotomy l1 l2 with hlt | heq | hgt
  · obtain ⟨f0, h⟩ := precedence_low_high ha h1 hs1 hb h2 hs2 hc he hend hl1 hl2 hlt
    exact ⟨f0, fun fuel hf => ⟨fun _ => h fuel hf, fun h' => absurd h' (by omega)⟩⟩
  · exact ⟨0, fun fuel _ => ⟨fun h' => absurd h' (by omega), fun h' => absurd h' (by omega)⟩⟩
  · obtain ⟨f0, h⟩ := precedence_high_low ha h1 hs1 hb h2 hs2 hc he hend hl1 hl2 hgt
    exact ⟨f0, fun fuel hf => ⟨fun h' => absurd h' (by omega), fun _ => h fuel hf⟩⟩

theorem C3_witness :
    parseExpression 20 (Lexer.start "1+2*3") = .ok
      (.binaryOperator .Addition (.numericLiteral "1" 0 1)
        (.binaryOperator .Multiplication (.numericLiteral "2" 2 3)
          (.numericLiteral "3" 4 5) 2 5) 0 5,
        Lexer.after 5 (Lexer.start "1+2*3")) ∧
    ∃ f0, ∀ fuel, f0 ≤ fuel →
      (3 < 4 → parseExpression fuel (Lexer.start "1+2*3") = .ok
        (.binaryOperator .Addition (.numericLiteral "1" 0 1)
          (.binaryOperator .Multiplication (.numericLiteral "2" 2 3)
            (.numericLiteral "3" 4 5) 2 5) 0 5,
          Lexer.after 5 (Lexer.start "1+2*3"))) ∧
      (4 < 3 → parseExpression fuel (Lexer.start "1+2*3") = .ok
        (.binaryOperator .Multiplication
          (.binaryOperator .Addition (.numericLiteral "1" 0 1) (.numericLiteral "2" 2 3)
            0 3)
          (.numericLiteral "3" 4 5) 0 5,
          Lexer.after 5 (Lexer.start "1+2*3"))) :=
  ⟨show parseExpression 20 (Lexer.start "1+2*3") = .ok
      (Addition (NumericLiteral "1" 0 1)
        (Multiplication (NumericLiteral "2" 2 3) (NumericLiteral "3" 4 5)),
        Lexer.after 5 (Lexer.start "1+2*3")) from eq_of_returns (by decide!),
    C3_precedence 1 (Lexer.start "1+2*3") (Lexer.after 1 (Lexer.start "1+2*3"))
      (Lexer.after 2 (Lexer.start "1+2*3")) (Lexer.after 3 (Lexer.start "1+2*3"))
      (Lexer.after 4 (Lexer.start "1+2*3")) (Lexer.after 5 (Lexer.start "1+2*3"))
      (NumericLiteral "1" 0 1) (NumericLiteral "2" 2 3) (NumericLiteral "3" 4 5)
      ⟨"+", .Plus, 1, 2⟩ ⟨"*", .Star, 3, 4⟩ ⟨"", .EndOfFile, 5, 5⟩ 3 4
      (eq_of_returns (by decide!)) (by decide!) (by decide!)
      (eq_of_returns (by decide!)) (by decide!) (by decide!)
      (eq_of_returns (by decide!)) (by decide!) rfl rfl rfl⟩

/-- C4. Left associativity: a chain `x0 op1 x1 ... opn xn` of terminals and operators of
one binary level `k` parses to the left fold `OPn(... OP1(x0, x1) ..., xn)`; each step of
the fold makes the binary node of the operator with the tree so far as its left operand,
the next terminal as its right operand, the `from` of the former and the `to` of the
latter. -/
theorem C4_left_associative (k f : Nat) (L0 L1 M : Lexer 2) (x0 : Expression)
    (chain : List (TokenType × Expression)) (e : Token)
    (h0 : parseTerminal f L0 = .ok (x0, L1)) (hchain : ReadsOperands k L1 chain M)
    (hk : k < 5) (he : M.peek = .ok e) (hend : e.type = .EndOfFile) :
    ∃ f0, ∀ fuel, f0 ≤ fuel → parseExpression fuel L0 =
      .ok (chain.foldl
        (fun acc p => .binaryOperator (binaryNode p.1) acc p.2 acc.from_ p.2.to_) x0,
        M) := by
  obtain ⟨t, ht, hpt, hnt, hloop⟩ := hchain.foldLeft he hend hk x0
  have X := Yields.lower ht (k := k + 1) (by omega) (Nat.le_refl _)
    (fun i hi _ => hnt i (by omega)) (Yields.operand h0 ht hpt)
  have T := Yields.level_succ hk X ht hloop
  have hne : ∀ i, binaryLevel e.type ≠ some i := by rw [hend]; intro i h; cases h
  exact Yields.lower he (Nat.zero_le _) (by omega) (fun i _ _ => hne i) T

theorem C4_witness :
    parseExpression 20 (Lexer.start "1-2-3") = .ok
      (.binaryOperator .Subtraction
        (.binaryOperator .Subtraction (.numericLiteral "1" 0 1) (.numericLiteral "2" 2 3)
          0 3)
        (.numericLiteral "3" 4 5) 0 5,
        Lexer.after 5 (Lexer.start "1-2-3")) ∧
    ∃ f0, ∀ fuel, f0 ≤ fuel → parseExpression fuel (Lexer.start "1-2-3") = .ok
      (.binaryOperator .Subtraction
        (.binaryOperator .Subtraction (.numericLiteral "1" 0 1) (.numericLiteral "2" 2 3)
          0 3)
        (.numericLiteral "3" 4 5) 0 5,
        Lexer.after 5 (Lexer.start "1-2-3")) :=
  ⟨show parseExpression 20 (Lexer.start "1-2-3") = .ok
      (Subtraction (Subtraction (NumericLiteral "1" 0 1) (NumericLiteral "2" 2 3))
        (NumericLiteral "3" 4 5), Lexer.after 5 (Lexer.start "1-2-3")) from
      eq_of_returns (by decide!),
    C4_left_associative 3 1 (Lexer.start "1-2-3") (Lexer.after 1 (Lexer.start "1-2-3"))
      (Lexer.after 5 (Lexer.start "1-2-3")) (NumericLiteral "1" 0 1)
      [(.Minus, NumericLiteral "2" 2 3), (.Minus, NumericLiteral "3" 4 5)]
      ⟨"", .EndOfFile, 5, 5⟩ (eq_of_returns (by decide!))
      (@ReadsOperands.cons 3 (Lexer.after 1 (Lexer.start "1-2-3"))
        (Lexer.after 2 (Lexer.start "1-2-3")) (Lexer.after 3 (Lexer.start "1-2-3"))
        (Lexer.after 5 (Lexer.start "1-2-3")) ⟨"-", .Minus, 1, 2⟩ 1 (NumericLiteral "2" 2 3)
        [(.Minus, NumericLiteral "3" 4 5)] (by decide!) rfl (by decide!)
        (eq_of_returns (by decide!))
        (@ReadsOperands.cons 3 (Lexer.after 3 (Lexer.start "1-2-3"))
          (Lexer.after 4 (Lexer.start "1-2-3")) (Lexer.after 5 (Lexer.start "1-2-3"))
          (Lexer.after 5 (Lexer.start "1-2-3")) ⟨"-", .Minus, 3, 4⟩ 1
          (NumericLiteral "3" 4 5) [] (by decide!) rfl (by decide!)
          (eq_of_returns (by decide!)) (ReadsOperands.nil _)))
      (by decide) (by decide!) rfl⟩

/-- C5. Postfix chaining is left-associative: a terminal `t` followed by the postfix
operations `s1 ... sn` parses to `Sn(... S2(S1(t)) ...)`, the operation written first
innermost; `PostfixOp.apply` writes out the node that each operation makes. -/
theorem C5_postfix_chain (f : Nat) (L0 L1 M : Lexer 2) (t : Expression)
    (ops : List PostfixOp) (e : Token) (ht : parseTerminal f L0 = .ok (t, L1))
    (hops : ReadsPostfix L1 ops M) (he : M.peek = .ok e) (hend : e.type = .EndOfFile) :
    ∃ f0, ∀ fuel, f0 ≤ fuel →
      parseExpression fuel L0 = .ok (ops.foldl PostfixOp.apply t, M) := by
  have hnode : PostfixOp.build = PostfixOp.apply := by
    funext target op
    cases op <;> rfl
  rw [← hnode]
  exact Yields.to_expression (Nat.le_refl _) he hend (Yields.postfixed ht hops he hend)

theorem C5_witness :
    parseExpression 20 (Lexer.start "a.b[0](1,2)") = .ok
      (.functionCall
        (.subscriptAccess
          (.memberAccess (.identifier ⟨"a", 0, 1⟩) ⟨"b", 2, 3⟩ 0 3)
          (.numericLiteral "0" 4 5) 0 6)
        [.numericLiteral "1" 7 8, .numericLiteral "2" 9 10] 0 11,
        Lexer.after 11 (Lexer.start "a.b[0](1,2)")) ∧
    parseExpression 20 (Lexer.start "a++--") = .ok
      (.unaryOperator .PostDecrement
        (.unaryOperator .PostIncrement (.identifier ⟨"a", 0, 1⟩) 0 3) 0 5,
        Lexer.after 3 (Lexer.start "a++--")) ∧
    ∃ f0, ∀ fuel, f0 ≤ fuel → parseExpression fuel (Lexer.start "a.b[0](1,2)") = .ok
      (.functionCall
        (.subscriptAccess
          (.memberAccess (.identifier ⟨"a", 0, 1⟩) ⟨"b", 2, 3⟩ 0 3)
          (.numericLiteral "0" 4 5) 0 6)
        [.numericLiteral "1" 7 8, .numericLiteral "2" 9 10] 0 11,
        Lexer.after 11 (Lexer.start "a.b[0](1,2)")) :=
  ⟨show parseExpression 20 (Lexer.start "a.b[0](1,2)") = .ok
      (FunctionCall
        (SubscriptAccess (MemberAccess (.identifier ⟨"a", 0, 1⟩) ⟨"b", 2, 3⟩)
          (NumericLiteral "0" 4 5) 6)
        [NumericLiteral "1" 7 8, NumericLiteral "2" 9 10] 11,
        Lexer.after 11 (Lexer.start "a.b[0](1,2)")) from eq_of_returns (by decide!),
    show parseExpression 20 (Lexer.start "a++--") = .ok
      (PostDecrement (PostIncrement (.identifier ⟨"a", 0, 1⟩) 3) 5,
        Lexer.after 3 (Lexer.start "a++--")) from eq_of_returns (by decide!),
    C5_postfix_chain 1 (Lexer.start "a.b[0](1,2)")
      (Lexer.after 1 (Lexer.start "a.b[0](1,2)"))
      (Lexer.after 11 (Lexer.start "a.b[0](1,2)")) (.identifier ⟨"a", 0, 1⟩)
      [.member ⟨"b", 2, 3⟩, .subscript (NumericLiteral "0" 4 5) 6,
        .call [NumericLiteral "1" 7 8, NumericLiteral "2" 9 10] 11]
      ⟨"", .EndOfFile, 11, 11⟩ (eq_of_returns (by decide!))
      (@ReadsPostfix.member (Lexer.after 1 (Lexer.start "a.b[0](1,2)"))
        (Lexer.after 2 (Lexer.start "a.b[0](1,2)"))
        (Lexer.after 3 (Lexer.start "a.b[0](1,2)"))
        (Lexer.after 11 (Lexer.start "a.b[0](1,2)")) ⟨".", .Dot, 1, 2⟩
        ⟨"b", .Identifier, 2, 3⟩ _
        (by decide!) rfl (by decide!) (by decide!) rfl (by decide!)
        (@ReadsPostfix.subscript (Lexer.after 3 (Lexer.start "a.b[0](1,2)"))
          (Lexer.after 4 (Lexer.start "a.b[0](1,2)"))
          (Lexer.after 5 (Lexer.start "a.b[0](1,2)"))
          (Lexer.after 6 (Lexer.start "a.b[0](1,2)"))
          (Lexer.after 11 (Lexer.start "a.b[0](1,2)"))
          ⟨"[", .OpenBracket, 3, 4⟩ ⟨"]", .CloseBracket, 5, 6⟩ 20 (NumericLiteral "0" 4 5) _
          (by decide!) rfl (by decide!) (eq_of_returns (by decide!)) (by decide!) rfl
          (by decide!)
          (@ReadsPostfix.call (Lexer.after 6 (Lexer.start "a.b[0](1,2)"))
            (Lexer.after 7 (Lexer.start "a.b[0](1,2)"))
            (Lexer.after 10 (Lexer.start "a.b[0](1,2)"))
            (Lexer.after 11 (Lexer.start "a.b[0](1,2)"))
            (Lexer.after 11 (Lexer.start "a.b[0](1,2)"))
            ⟨"(", .OpenParenthesis, 6, 7⟩ ⟨")", .CloseParenthesis, 10, 11⟩ 20
            [NumericLiteral "1" 7 8, NumericLiteral "2" 9 10] _
            (by decide!) rfl (by decide!) (eq_of_returnsList (by decide!)) (by decide!) rfl
            (by decide!) (ReadsPostfix.nil _))))
      (by decide!) rfl⟩

/-- C6. Prefix operators are right-associative, bind looser than the postfix chain and
tighter than the binary operators: `p1 p2 t s` (a terminal `t` with postfix operations
`s`) parses to `P1(P2(S(t)))`, and `p x b u` with a binary operator `b` parses to
`B(P(x), u)`; the node classes `P1`, `P2`, `P` are those of `prefixNode`. A prefix node
is written with its constructor: node class, operand, `from` of the operator token, `to`
of the operand. -/
theorem C6_prefix_binding (f : Nat) (L0 L1 L2 L3 M : Lexer 2) (p1 p2 e : Token)
    (k1 k2 : NodeType) (t : Expression) (s : List PostfixOp)
    (h1 : L0.peek = .ok p1) (hk1 : prefixNode p1.type = some k1) (hs1 : L0.skip = .ok L1)
    (h2 : L1.peek = .ok p2) (hk2 : prefixNode p2.type = some k2) (hs2 : L1.skip = .ok L2)
    (ht : parseTerminal f L2 = .ok (t, L3)) (hs : ReadsPostfix L3 s M)
    (he : M.peek = .ok e) (hend : e.type = .EndOfFile)
    (K0 K1 K2 K3 K4 : Lexer 2) (p b d : Token) (k : NodeType) (x u : Expression) (l : Nat)
    (g1 : K0.peek = .ok p) (gk : prefixNode p.type = some k) (gs1 : K0.skip = .ok K1)
    (gx : parseTerminal f K1 = .ok (x, K2)) (gb : K2.peek = .ok b)
    (gl : binaryLevel b.type = some l) (gs2 : K2.skip = .ok K3)
    (gu : parseTerminal f K3 = .ok (u, K4)) (gd : K4.peek = .ok d)
    (gend : d.type = .EndOfFile) :
    ∃ f0, ∀ fuel, f0 ≤ fuel →
      parseExpression fuel L0 = .ok
        (.unaryOperator k1
          (.unaryOperator k2 (s.foldl PostfixOp.apply t) p2.from_
            (s.foldl PostfixOp.apply t).to_)
          p1.from_ (s.foldl PostfixOp.apply t).to_, M) ∧
      parseExpression fuel K0 = .ok
        (.binaryOperator (binaryNode b.type) (.unaryOperator k x p.from_ x.to_) u
          p.from_ u.to_, K4) := by
  have hnode : PostfixOp.build = PostfixOp.apply := by
    funext target op
    cases op <;> rfl
  rw [← hnode]
  -- the first input
  have P2 := Yields.prefixed h2 hk2 hs2 (Yields.postfixed ht hs he hend)
  have P1 : Yields (level 5) L0 _ M := Yields.prefixed h1 hk1 hs1 P2
  obtain ⟨fa, ha⟩ := Yields.to_expression (Nat.le_refl _) he hend P1
  -- the second input
  obtain ⟨hl, hpb⟩ := binaryLevel_some gl
  have hpd : postfixStart d.type = false := by rw [gend]; rfl
  have hnd : ∀ i, binaryLevel d.type ≠ some i := by rw [gend]; intro i h; cases h
  have X : Yields (level 5) K0 _ K2 := Yields.prefixed g1 gk gs1 (Yields.operand gx gb hpb)
  have X' := Yields.lower gb (k := l + 1) (by omega) (Nat.le_refl _)
    (fun i hi _ => by rw [gl]; intro h; injection h with h; omega) X
  have U' := Yields.lower gd (k := l + 1) (by omega) (Nat.le_refl _) (fun i _ _ => hnd i)
    (Yields.operand gu gd hpd)
  have loop := Yields.loop_step hl (l := LeftUnaryOperator k x p.from_) gl gs2 U' gd
    (Yields.loop_stop hl (hnd l))
  obtain ⟨fb, hb⟩ := Yields.to_expression (by omega) gd gend (Yields.level_succ hl X' gb loop)
  exact ⟨max fa fb, fun fuel hf => ⟨ha fuel (by omega), hb fuel (by omega)⟩⟩

theorem C6_witness :
    parseExpression 20 (Lexer.start "! ~ a.b") = .ok
      (.unaryOperator .LogicalNegation
        (.unaryOperator .BitwiseNot
          (.memberAccess (.identifier ⟨"a", 4, 5⟩) ⟨"b", 6, 7⟩ 4 7) 2 7) 0 7,
        Lexer.after 5 (Lexer.start "! ~ a.b")) ∧
    parseExpression 20 (Lexer.start "-x*y") = .ok
      (.binaryOperator .Multiplication
        (.unaryOperator .Positive (.identifier ⟨"x", 1, 2⟩) 0 2)
        (.identifier ⟨"y", 3, 4⟩) 0 4,
        Lexer.after 4 (Lexer.start "-x*y")) ∧
    ∃ f0, ∀ fuel, f0 ≤ fuel →
      parseExpression fuel (Lexer.start "! ~ a.b") = .ok
        (.unaryOperator .LogicalNegation
          (.unaryOperator .BitwiseNot
            (.memberAccess (.identifier ⟨"a", 4, 5⟩) ⟨"b", 6, 7⟩ 4 7) 2 7) 0 7,
          Lexer.after 5 (Lexer.start "! ~ a.b")) ∧
      parseExpression fuel (Lexer.start "-x*y") = .ok
        (.binaryOperator .Multiplication
          (.unaryOperator .Positive (.identifier ⟨"x", 1, 2⟩) 0 2)
          (.identifier ⟨"y", 3, 4⟩) 0 4,
          Lexer.after 4 (Lexer.start "-x*y")) :=
  ⟨show parseExpression 20 (Lexer.start "! ~ a.b") = .ok
      (LogicalNegation
        (BitwiseNot (MemberAccess (.identifier ⟨"a", 4, 5⟩) ⟨"b", 6, 7⟩) 2) 0,
        Lexer.after 5 (Lexer.start "! ~ a.b")) from eq_of_returns (by decide!),
    show parseExpression 20 (Lexer.start "-x*y") = .ok
      (Multiplication (Positive (.identifier ⟨"x", 1, 2⟩) 0) (.identifier ⟨"y", 3, 4⟩),
        Lexer.after 4 (Lexer.start "-x*y")) from eq_of_returns (by decide!),
  C6_prefix_binding 1 (Lexer.start "! ~ a.b") (Lexer.after 1 (Lexer.start "! ~ a.b"))
    (Lexer.after 2 (Lexer.start "! ~ a.b")) (Lexer.after 3 (Lexer.start "! ~ a.b"))
    (Lexer.after 5 (Lexer.start "! ~ a.b"))
    ⟨"!", .Exclamation, 0, 1⟩ ⟨"~", .Tilde, 2, 3⟩ ⟨"", .EndOfFile, 7, 7⟩
    .LogicalNegation .BitwiseNot (.identifier ⟨"a", 4, 5⟩) [.member ⟨"b", 6, 7⟩]
    (by decide!) rfl (by decide!) (by decide!) rfl (by decide!)
    (eq_of_returns (by decide!))
    (@ReadsPostfix.member (Lexer.after 3 (Lexer.start "! ~ a.b"))
      (Lexer.after 4 (Lexer.start "! ~ a.b")) (Lexer.after 5 (Lexer.start "! ~ a.b"))
      (Lexer.after 5 (Lexer.start "! ~ a.b")) ⟨".", .Dot, 5, 6⟩ ⟨"b", .Identifier, 6, 7⟩ _
      (by decide!) rfl (by decide!) (by decide!) rfl (by decide!) (ReadsPostfix.nil _))
    (by decide!) rfl
    (Lexer.start "-x*y") (Lexer.after 1 (Lexer.start "-x*y"))
    (Lexer.after 2 (Lexer.start "-x*y")) (Lexer.after 3 (Lexer.start "-x*y"))
    (Lexer.after 4 (Lexer.start "-x*y"))
    ⟨"-", .Minus, 0, 1⟩ ⟨"*", .Star, 2, 3⟩ ⟨"", .EndOfFile, 4, 4⟩ .Positive
    (.identifier ⟨"x", 1, 2⟩) (.identifier ⟨"y", 3, 4⟩) 4
    (by decide!) rfl (by decide!) (eq_of_returns (by decide!)) (by decide!) rfl (by decide!)
    (eq_of_returns (by decide!)) (by decide!) rfl⟩

/-- C8. In front of an operand `+` makes a node of class `Negative` and `-` a node of
class `Positive`, and `++`, `--`, `!`, `~` make `PreIncrement`, `PreDecrement`,
`LogicalNegation`, `BitwiseNot`; the nodes of `+` and `-` dump as `Negative` and
`Positive`. -/
theorem C8_prefix_mapping (f : Nat) (L L1 M : Lexer 2) (t : Token) (a : Expression)
    (i : Nat) (ht : L.peek = .ok t) (hs : L.skip = .ok L1)
    (ha : parseUnaryRightAssociative f L1 = .ok (a, M)) :
    (t.type = .Plus →
      parseUnaryRightAssociative (f + 1) L = .ok (Negative a t.from_, M)) ∧
    (t.type = .Minus →
      parseUnaryRightAssociative (f + 1) L = .ok (Positive a t.from_, M)) ∧
    (t.type = .Increment →
      parseUnaryRightAssociative (f + 1) L = .ok (PreIncrement a t.from_, M)) ∧
    (t.type = .Decrement →
      parseUnaryRightAssociative (f + 1) L = .ok (PreDecrement a t.from_, M)) ∧
    (t.type = .Exclamation →
      parseUnaryRightAssociative (f + 1) L = .ok (LogicalNegation a t.from_, M)) ∧
    (t.type = .Tilde →
      parseUnaryRightAssociative (f + 1) L = .ok (BitwiseNot a t.from_, M)) ∧
    (Negative a t.from_).nodeType = .Negative ∧
    (Positive a t.from_).nodeType = .Positive ∧
    (Negative a t.from_).dump i = printIndent i ++ "Negative\n" ++ a.dump (i + 1) ∧
    (Positive a t.from_).dump i = printIndent i ++ "Positive\n" ++ a.dump (i + 1) := by
  refine ⟨?_, ?_, ?_, ?_, ?_, ?_, rfl, rfl, ?_, ?_⟩
  · intro h; rw [parseUnaryRightAssociative]
    simp [bind, Except.bind, ht, hs, ha, h, pure, Except.pure]
  · intro h; rw [parseUnaryRightAssociative]
    simp [bind, Except.bind, ht, hs, ha, h, pure, Except.pure]
  · intro h; rw [parseUnaryRightAssociative]
    simp [bind, Except.bind, ht, hs, ha, h, pure, Except.pure]
  · intro h; rw [parseUnaryRightAssociative]
    simp [bind, Except.bind, ht, hs, ha, h, pure, Except.pure]
  · intro h; rw [parseUnaryRightAssociative]
    simp [bind, Except.bind, ht, hs, ha, h, pure, Except.pure]
  · intro h; rw [parseUnaryRightAssociative]
    simp [bind, Except.bind, ht, hs, ha, h, pure, Except.pure]
  · simp only [Negative, LeftUnaryOperator, Expression.dump, className]
    rw [String.append_assoc (printIndent i)]
    rfl
  · simp only [Positive, LeftUnaryOperator, Expression.dump, className]
    rw [String.append_assoc (printIndent i)]
    rfl

theorem C8_witness :
    parseUnaryRightAssociative 4 (Lexer.start "+x") =
        .ok (Negative (.identifier ⟨"x", 1, 2⟩) 0, Lexer.after 2 (Lexer.start "+x")) ∧
      (Negative (.identifier ⟨"x", 1, 2⟩) 0).dump 0 =
        printIndent 0 ++ "Negative\n" ++ Expression.dump (.identifier ⟨"x", 1, 2⟩) 1 :=
  ⟨(C8_prefix_mapping 3 (Lexer.start "+x") (Lexer.after 1 (Lexer.start "+x"))
      (Lexer.after 2 (Lexer.start "+x")) ⟨"+", .Plus, 0, 1⟩ (.identifier ⟨"x", 1, 2⟩) 0
      (by decide!) (by decide!) (eq_of_returns (by decide!))).1 rfl,
    (C8_prefix_mapping 3 (Lexer.start "+x") (Lexer.after 1 (Lexer.start "+x"))
      (Lexer.after 2 (Lexer.start "+x")) ⟨"+", .Plus, 0, 1⟩ (.identifier ⟨"x", 1, 2⟩) 0
      (by decide!) (by decide!) (eq_of_returns (by decide!))).2.2.2.2.2.2.2.2.1⟩

end Parser

/-- C9. In the sequence of tokens produced from any source every token has
`to >= from`, and of two consecutive tokens the second starts at or after the end of the
first. -/
theorem C9_token_spans_ordered (n : Nat) (src : List Char) (k : Nat) (ts : List Token)
    (h : Lexer.tokenize n src k = .ok ts) :
    (∀ t ∈ ts, t.from_ ≤ t.to_) ∧ List.Chain' (fun t u => t.to_ ≤ u.from_) ts := by
  obtain ⟨hi, hs⟩ := Lexer.tokenize_spans h
  refine ⟨fun t ht => (hs.okIn t ht).1, ?_⟩
  cases ts with
  | nil => exact List.chain'_nil
  | cons t ts => exact (List.chain_cons.mp hs.chain).2

theorem C9_witness :
    Lexer.tokenize 1 "1 /* c */ + \"ab\"".toList 3 = .ok exampleTokens ∧
    ((∀ t ∈ exampleTokens, t.from_ ≤ t.to_) ∧
      List.Chain' (fun t u => t.to_ ≤ u.from_) exampleTokens) :=
  ⟨by decide, C9_token_spans_ordered 1 "1 /* c */ + \"ab\"".toList 3 exampleTokens (by decide)⟩

/-- C10. For every produced token that is not a string literal the characters of the
source at `[from, to)` are its lexeme (the empty lexeme of `EndOfFile` included); for a
string literal the characters at `from` and `to - 1` are quotes and the characters at
`[from + 1, to - 1)` are its lexeme. -/
theorem C10_lexeme_is_span_text (n : Nat) (src : List Char) (k : Nat) (ts : List Token)
    (h : Lexer.tokenize n src k = .ok ts) :
    ∀ t ∈ ts, t.to_ ≤ src.length ∧
      (t.type ≠ .StringLiteral → slice src t.from_ t.to_ = t.lexeme.data) ∧
      (t.type = .StringLiteral → src[t.from_]? = some '"' ∧ src[t.to_ - 1]? = some '"' ∧
        slice src (t.from_ + 1) (t.to_ - 1) = t.lexeme.data) := by
  obtain ⟨hi, hs⟩ := Lexer.tokenize_spans h
  intro t ht
  obtain ⟨_, h2, h3, h4, _⟩ := hs.okIn t ht
  exact ⟨h2, h3, fun hty => (h4 hty).2⟩

theorem C10_witness :
    Lexer.tokenize 1 "1 /* c */ + \"ab\"".toList 3 = .ok exampleTokens ∧
    ∀ t ∈ exampleTokens, t.to_ ≤ "1 /* c */ + \"ab\"".toList.length ∧
      (t.type ≠ .StringLiteral →
        slice "1 /* c */ + \"ab\"".toList t.from_ t.to_ = t.lexeme.data) ∧
      (t.type = .StringLiteral → "1 /* c */ + \"ab\"".toList[t.from_]? = some '"' ∧
        "1 /* c */ + \"ab\"".toList[t.to_ - 1]? = some '"' ∧
        slice "1 /* c */ + \"ab\"".toList (t.from_ + 1) (t.to_ - 1) = t.lexeme.data) :=
  ⟨by decide,
    C10_lexeme_is_span_text 1 "1 /* c */ + \"ab\"".toList 3 exampleTokens (by decide)⟩

/-- C11: after a successful construction, and after any number of successful skips from
there, the buffer holds exactly `n` tokens; a further successful skip is one `pop` and one
`push` on the buffer, and leaves it holding `n` tokens again. -/
theorem C11_window_invariant (n : Nat) (src : List Char) (L0 : Lexer n)
    (hnew : Lexer.new n src = .ok L0) (i : Nat) (L : Lexer n) (hi : L0.skips i = .ok L) :
    L.m_tokens.size = n ∧
      ∀ L', L.skip = .ok L' → ∃ q t, L.m_tokens.pop = .ok q ∧ q.push t = .ok L'.m_tokens ∧
        L'.m_tokens.size = n := by
  have hsize : L.m_tokens.m_size = n := Lexer.skips_size i (Lexer.new_size hnew) hi
  exact ⟨hsize, fun L' h => Lexer.skip_size hsize h⟩

theorem C11_witness :
    Lexer.new 2 "1 + 2".toList = .ok (Lexer.start "1 + 2") ∧
    (Lexer.start "1 + 2").skips 1 = .ok (Lexer.after 1 (Lexer.start "1 + 2")) ∧
    (Lexer.after 1 (Lexer.start "1 + 2")).m_tokens.size = 2 ∧
      ∀ L', (Lexer.after 1 (Lexer.start "1 + 2")).skip = .ok L' →
        ∃ q t, (Lexer.after 1 (Lexer.start "1 + 2")).m_tokens.pop = .ok q ∧
          q.push t = .ok L'.m_tokens ∧ L'.m_tokens.size = 2 :=
  ⟨by decide, by decide,
    C11_window_invariant 2 "1 + 2".toList (Lexer.start "1 + 2") (by decide) 1
      (Lexer.after 1 (Lexer.start "1 + 2")) (by decide)⟩

/-- C12: in every lexer reached from a successful construction by `i` successful skips,
`peek` returns a token exactly when `lookahead 0` returns it, and does so when `n > 0`;
after one more successful skip `lookahead k` is what `lookahead (k + 1)` was before, for
`k + 1 < n`; and `lookahead k` is the token of index `i + k` of the tokens of the source.
`peek` and `lookahead` yield a token and no lexer: they are functions of the state. -/
theorem C12_lookahead_window (n : Nat) (src : List Char) (L0 : Lexer n)
    (hnew : Lexer.new n src = .ok L0) (i : Nat) (L : Lexer n) (hi : L0.skips i = .ok L) :
    (∀ t, L.peek = .ok t ↔ L.lookahead 0 = .ok t) ∧
    (0 < n → ∃ t, L.peek = .ok t) ∧
    (∀ k L', L.skip = .ok L' → k + 1 < n → ∃ t, L.lookahead (k + 1) = .ok t ∧
      L'.lookahead k = .ok t) ∧
    (∀ m ts k, Lexer.tokenize n src m = .ok ts → i ≤ m → k < n →
      ∃ t, ts[i + k]? = some t ∧ L.lookahead k = .ok t) := by
  obtain ⟨its, hq, hlen⟩ := Lexer.window_full hnew i hi
  refine ⟨fun t => ?_, fun hn => ?_, fun k L' hs hk => ?_, fun m ts k ht hle hk => ?_⟩
  · cases its with
    | nil =>
      have h0 : L.m_tokens.m_size = 0 := by simpa using hq.1.symm
      unfold Lexer.peek Lexer.lookahead CircularQueue.front CircularQueue.item
      rw [if_pos h0, if_pos (by omega)]
      constructor <;> intro h <;> cases h
    | cons x its =>
      have h1 : L.peek = .ok x := CircularQueue.front_of_holds hq
      have h2 : L.lookahead 0 = .ok x := CircularQueue.item_of_holds hq (i := 0) (by simp)
      rw [h1, h2]
  · cases its with
    | nil => simp at hlen; omega
    | cons x its => exact ⟨x, CircularQueue.front_of_holds hq⟩
  · cases its with
    | nil => simp at hlen; omega
    | cons x its =>
      obtain ⟨u, hu⟩ := Lexer.skip_holds hq hlen hs
      simp only [List.length_cons] at hlen
      have hk1 : k < its.length := by omega
      refine ⟨its[k], ?_, ?_⟩
      · have := CircularQueue.item_of_holds hq (i := k + 1) (by simp; omega)
        simpa using this
      · have := CircularQueue.item_of_holds hu (i := k) (by simp; omega)
        rw [Lexer.lookahead, this, List.getElem_append_left hk1]
  · unfold Lexer.tokenize at ht
    rw [hnew] at ht
    have h1 := Lexer.produced_skips i hi hle ht
    obtain ⟨rest, hrest⟩ := Lexer.produced_starts _ hq hlen h1
    have hk' : k < its.length := by omega
    refine ⟨its[k], ?_, CircularQueue.item_of_holds hq hk'⟩
    have h2 : (ts.drop i)[k]? = some its[k] := by
      rw [← hrest, List.getElem?_append_left hk', List.getElem?_eq_getElem hk']
    rwa [List.getElem?_drop] at h2

theorem C12_witness :
    Lexer.new 2 "1 + 2".toList = .ok (Lexer.start "1 + 2") ∧
    (Lexer.start "1 + 2").skips 1 = .ok (Lexer.after 1 (Lexer.start "1 + 2")) ∧
    Lexer.tokenize 2 "1 + 2".toList 2
      = .ok [⟨"1", .NumericLiteral, 0, 1⟩, ⟨"+", .Plus, 2, 3⟩, ⟨"2", .NumericLiteral, 4, 5⟩,
        ⟨"", .EndOfFile, 5, 5⟩] ∧
    (Lexer.after 1 (Lexer.start "1 + 2")).lookahead 1 = .ok ⟨"2", .NumericLiteral, 4, 5⟩ ∧
    ((∀ t, (Lexer.after 1 (Lexer.start "1 + 2")).peek = .ok t ↔
        (Lexer.after 1 (Lexer.start "1 + 2")).lookahead 0 = .ok t) ∧
      (0 < 2 → ∃ t, (Lexer.after 1 (Lexer.start "1 + 2")).peek = .ok t) ∧
      (∀ k L', (Lexer.after 1 (Lexer.start "1 + 2")).skip = .ok L' → k + 1 < 2 →
        ∃ t, (Lexer.after 1 (Lexer.start "1 + 2")).lookahead (k + 1) = .ok t ∧
          L'.lookahead k = .ok t) ∧
      (∀ m ts k, Lexer.tokenize 2 "1 + 2".toList m = .ok ts → 1 ≤ m → k < 2 →
        ∃ t, ts[1 + k]? = some t ∧
          (Lexer.after 1 (Lexer.start "1 + 2")).lookahead k = .ok t)) :=
  ⟨by decide, by decide, by decide, by decide,
    C12_lookahead_window 2 "1 + 2".toList (Lexer.start "1 + 2") (by decide) 1
      (Lexer.after 1 (Lexer.start "1 + 2")) (by decide)⟩

namespace CircularQueue

variable {T : Type} {n : Nat}

/-- C13: on every buffer built by pushes and pops from the empty one, `push` fails, with
the overflow error, exactly when the buffer holds `n` items; `pop`, `front` and `back` fail,
with the underflow error, exactly when it is empty; `item i` fails, with the out-of-range
error, exactly when `i ≥ size`. A failing operation yields an error and no buffer: the only
buffer there is after it is the argument `q`. -/
theorem C13_buffer_errors (ops : List (Op T)) (q : CircularQueue T n)
    (h : run ops (new : CircularQueue T n) = .ok q) :
    (∀ x, (q.size = n →
        q.push x = .error (.overflow_error "CircularQueue: size limit exceeded")) ∧
      (q.size ≠ n → ∃ q', q.push x = .ok q')) ∧
    ((q.size = 0 → q.pop = .error
        (.underflow_error "CircularQueue: trying to pop from an empty queue")) ∧
      (q.size ≠ 0 → ∃ q', q.pop = .ok q')) ∧
    ((q.size = 0 → q.front = .error
        (.underflow_error "CircularQueue: trying to access front in an empty queue")) ∧
      (q.size ≠ 0 → ∃ x, q.front = .ok x)) ∧
    ((q.size = 0 → q.back = .error
        (.underflow_error "CircularQueue: trying to access back in an empty queue")) ∧
      (q.size ≠ 0 → ∃ x, q.back = .ok x)) ∧
    (∀ i, (i ≥ q.size → q.item i = .error
        (.out_of_range "CircularQueue: index out of bounds")) ∧
      (i < q.size → ∃ x, q.item i = .ok x)) := by
  obtain ⟨l, -, hl⟩ := holds_of_run h
  have hlen : l.length = q.m_size := hl.1
  refine ⟨fun x => ⟨fun hs => ?_, fun hs => ?_⟩, ⟨fun hs => ?_, fun hs => ?_⟩,
    ⟨fun hs => ?_, fun hs => ?_⟩, ⟨fun hs => ?_, fun hs => ?_⟩,
    fun i => ⟨fun hs => ?_, fun hs => ?_⟩⟩ <;> simp only [size] at hs
  · unfold push; rw [if_pos hs]
  · unfold push; rw [if_neg hs]; exact ⟨_, rfl⟩
  · unfold pop; rw [if_pos hs]
  · unfold pop; rw [if_neg hs]; exact ⟨_, rfl⟩
  · unfold front; rw [if_pos hs]
  · cases l with
    | nil => exact absurd hlen.symm hs
    | cons t l => exact ⟨t, front_of_holds hl⟩
  · unfold back; rw [if_pos hs]
  · have hne : l ≠ [] := by
      intro h0; subst h0; exact hs hlen.symm
    exact ⟨_, back_of_holds hl hne⟩
  · unfold item; rw [if_pos hs]
  · exact ⟨_, item_of_holds hl (by omega)⟩

theorem C13_witness :
    run [.push 1, .push 2, .pop, .push 3] (new : CircularQueue Nat 2)
        = .ok ⟨[some 3, some 2], 1, 0, 2⟩ ∧
      (⟨[some 3, some 2], 1, 0, 2⟩ : CircularQueue Nat 2).push 4
        = .error (.overflow_error "CircularQueue: size limit exceeded") :=
  ⟨by decide, ((C13_buffer_errors [.push 1, .push 2, .pop, .push 3] _ (by decide)).1 4).1
    (by decide)⟩

/-- C14: the buffer reached from the empty one by a run of successful pushes and pops holds
what the bounded first-in first-out list holds after the same run: the same number of
items, the same item at every index; `front` is `item 0`, `back` is `item (size - 1)` and
is the item of the last push of the run. -/
theorem C14_refines_fifo (ops : List (Op T)) (q : CircularQueue T n)
    (h : run ops (new : CircularQueue T n) = .ok q) :
    ∃ l, fifoRun n ops [] = .ok l ∧ q.size = l.length ∧
      (∀ i (hi : i < l.length), q.item i = .ok l[i]) ∧
      (q.size ≠ 0 → q.front = q.item 0 ∧ q.back = q.item (q.size - 1) ∧
        ∃ x, lastPush ops none = some x ∧ q.back = .ok x) := by
  obtain ⟨l, hf, hl⟩ := holds_of_run h
  have hlen : l.length = q.m_size := hl.1
  refine ⟨l, hf, hlen.symm, fun i hi => item_of_holds hl hi, fun hs => ?_⟩
  simp only [size] at hs ⊢
  have hne : l ≠ [] := by
    intro h0; subst h0; exact hs hlen.symm
  have hb := back_of_holds hl hne
  refine ⟨?_, ?_, l.getLast hne, ?_, hb⟩
  · cases l with
    | nil => exact absurd rfl hne
    | cons t l =>
      rw [front_of_holds hl, item_of_holds hl (i := 0) (by simp)]
      rfl
  · rw [hb, item_of_holds hl (i := q.m_size - 1) (by omega), List.getLast_eq_getElem]
    simp only [hlen]
  · have := fifoRun_getLast ops hf hne none
    simp only [List.length_nil, if_true] at this
    rw [← this, List.getLast?_eq_getLast _ hne]

theorem C14_witness :
    run [.push 1, .push 2, .pop, .push 3, .pop, .push 4] (new : CircularQueue Nat 2)
        = .ok ⟨[some 3, some 4], 0, 1, 2⟩ ∧
      ∃ l, fifoRun 2 [.push 1, .push 2, .pop, .push 3, .pop, .push 4] [] = .ok l ∧
        (⟨[some 3, some 4], 0, 1, 2⟩ : CircularQueue Nat 2).size = l.length ∧
        (∀ i (hi : i < l.length),
          (⟨[some 3, some 4], 0, 1, 2⟩ : CircularQueue Nat 2).item i = .ok l[i]) ∧
        ((⟨[some 3, some 4], 0, 1, 2⟩ : CircularQueue Nat 2).size ≠ 0 →
          (⟨[some 3, some 4], 0, 1, 2⟩ : CircularQueue Nat 2).front
            = (⟨[some 3, some 4], 0, 1, 2⟩ : CircularQueue Nat 2).item 0 ∧
          (⟨[some 3, some 4], 0, 1, 2⟩ : CircularQueue Nat 2).back
            = (⟨[some 3, some 4], 0, 1, 2⟩ : CircularQueue Nat 2).item
              ((⟨[some 3, some 4], 0, 1, 2⟩ : CircularQueue Nat 2).size - 1) ∧
          ∃ x, lastPush [.push 1, .push 2, .pop, .push 3, .pop, .push 4] none = some x ∧
            (⟨[some 3, some 4], 0, 1, 2⟩ : CircularQueue Nat 2).back = .ok x) :=
  ⟨by decide, C14_refines_fifo _ _ (by decide)⟩

/-- C15: the copy of a buffer `q` built by pushes and pops from the empty one, made by the
copy constructor or by the copy assignment onto any other such buffer, has the size of `q`
and at every index below it the item of `q`; assigning a buffer to itself leaves it as it
is. The copy is a new value: `q` is an argument that is only read. -/
theorem C15_copy_is_deep (ops ops' : List (Op T)) (q self : CircularQueue T n)
    (h : run ops (new : CircularQueue T n) = .ok q)
    (hs : run ops' (new : CircularQueue T n) = .ok self) :
    (∃ c, copy q = .ok c ∧ c.size = q.size ∧
      ∀ i, i < q.size → ∃ x, q.item i = .ok x ∧ c.item i = .ok x) ∧
    (∃ c, assign self q false = .ok c ∧ c.size = q.size ∧
      ∀ i, i < q.size → ∃ x, q.item i = .ok x ∧ c.item i = .ok x) ∧
    assign q q true = .ok q := by
  obtain ⟨l, -, hl⟩ := holds_of_run h
  obtain ⟨l', -, hl'⟩ := holds_of_run hs
  have key : ∀ c : CircularQueue T n, Holds c l → c.size = q.size ∧
      ∀ i, i < q.size → ∃ x, q.item i = .ok x ∧ c.item i = .ok x := by
    intro c hc
    refine ⟨hc.1.symm.trans hl.1, fun i hi => ?_⟩
    have hi' : i < l.length := by rw [hl.1]; exact hi
    exact ⟨l[i], item_of_holds hl hi', item_of_holds hc hi'⟩
  obtain ⟨c1, hc1, hh1⟩ := copy_of_holds hl
  obtain ⟨c2, hc2, hh2⟩ := assign_of_holds hl hl'
  exact ⟨⟨c1, hc1, key c1 hh1⟩, ⟨c2, hc2, key c2 hh2⟩, rfl⟩

theorem C15_witness :
    run [.push 1, .push 2, .pop, .push 3, .pop, .push 4] (new : CircularQueue Nat 3)
        = .ok ⟨[some 4, none, some 3], 2, 0, 2⟩ ∧
      run [.push 7] (new : CircularQueue Nat 3) = .ok ⟨[some 7, none, none], 0, 0, 1⟩ ∧
      copy (⟨[some 4, none, some 3], 2, 0, 2⟩ : CircularQueue Nat 3)
        = .ok ⟨[some 3, some 4, none], 0, 1, 2⟩ ∧
      assign ⟨[some 7, none, none], 0, 0, 1⟩
        (⟨[some 4, none, some 3], 2, 0, 2⟩ : CircularQueue Nat 3) false
        = .ok ⟨[some 3, some 4, none], 0, 1, 2⟩ ∧
      ((∃ c, copy (⟨[some 4, none, some 3], 2, 0, 2⟩ : CircularQueue Nat 3) = .ok c ∧
          c.size = (⟨[some 4, none, some 3], 2, 0, 2⟩ : CircularQueue Nat 3).size ∧
          ∀ i, i < (⟨[some 4, none, some 3], 2, 0, 2⟩ : CircularQueue Nat 3).size →
            ∃ x, (⟨[some 4, none, some 3], 2, 0, 2⟩ : CircularQueue Nat 3).item i = .ok x ∧
              c.item i = .ok x) ∧
        (∃ c, assign ⟨[some 7, none, none], 0, 0, 1⟩
            (⟨[some 4, none, some 3], 2, 0, 2⟩ : CircularQueue Nat 3) false = .ok c ∧
          c.size = (⟨[some 4, none, some 3], 2, 0, 2⟩ : CircularQueue Nat 3).size ∧
          ∀ i, i < (⟨[some 4, none, some 3], 2, 0, 2⟩ : CircularQueue Nat 3).size →
            ∃ x, (⟨[some 4, none, some 3], 2, 0, 2⟩ : CircularQueue Nat 3).item i = .ok x ∧
              c.item i = .ok x) ∧
        assign (⟨[some 4, none, some 3], 2, 0, 2⟩ : CircularQueue Nat 3)
          ⟨[some 4, none, some 3], 2, 0, 2⟩ true = .ok ⟨[some 4, none, some 3], 2, 0, 2⟩) :=
  ⟨by decide, by decide, by decide, by decide,
    C15_copy_is_deep [.push 1, .push 2, .pop, .push 3, .pop, .push 4] [.push 7] _ _
      (by decide) (by decide)⟩

end CircularQueue

/-- C16: every operator token produced from a source has the text of its kind, no operator
of the vocabulary that matches the source at the start of the token is longer, and the text
of the token with the character that follows it in the source is no operator of the
vocabulary. -/
theorem C16_longest_operator (n : Nat) (src : List Char) (k : Nat) (ts : List Token)
    (h : Lexer.tokenize n src k = .ok ts) :
    ∀ t ∈ ts, ∀ w, operatorText t.type = some w →
      t.lexeme = w ∧ slice src t.from_ t.to_ = w.data ∧
      (∀ k' w', operatorText k' = some w' → w'.data <+: src.drop t.from_ →
        w'.length ≤ w.length) ∧
      (∀ c, src[t.to_]? = some c → ∀ k' w', operatorText k' = some w' →
        w'.data ≠ w.data ++ [c]) := by
  obtain ⟨hi, hs⟩ := Lexer.tokenize_spans h
  intro t ht w hw
  obtain ⟨h1, h2, h3, _, _, _, _, _, h5⟩ := hs.okIn t ht
  obtain ⟨hlex, hlong⟩ := h5 w hw
  have hsl := h3 (Lexer.operator_ne_string hw)
  rw [hlex] at hsl
  refine ⟨hlex, hsl, hlong, fun c hc k' w' hk' heq => ?_⟩
  have hdrop : src.drop t.from_ = w.data ++ src.drop t.to_ := by
    have e1 : src.drop t.to_ = (src.drop t.from_).drop (t.to_ - t.from_) := by
      rw [List.drop_drop]
      congr 1
      omega
    rw [e1, ← hsl]
    exact (List.take_append_drop _ _).symm
  have hc' : src.drop t.to_ = c :: src.drop (t.to_ + 1) := by
    have hlt : t.to_ < src.length := by
      by_contra hge
      rw [List.getElem?_eq_none (by omega)] at hc
      cases hc
    rw [List.drop_eq_getElem_cons hlt]
    rw [List.getElem?_eq_getElem hlt] at hc
    injection hc with hc
    rw [hc]
  have hpre : w'.data <+: src.drop t.from_ := by
    rw [hdrop, hc', heq]
    exact ⟨src.drop (t.to_ + 1), by simp⟩
  have := hlong k' w' hk' hpre
  have hl : w'.length = w.length + 1 := by
    simp only [String.length, heq, List.length_append, List.length_singleton]
  omega

theorem C16_witness :
    Lexer.tokenize 1 ">>>>+++ >>>".toList 5
      = .ok [⟨">>>", .TripleGreaterThan, 0, 3⟩, ⟨">", .GreaterThan, 3, 4⟩,
        ⟨"++", .Increment, 4, 6⟩, ⟨"+", .Plus, 6, 7⟩, ⟨">>>", .TripleGreaterThan, 8, 11⟩,
        ⟨"", .EndOfFile, 11, 11⟩] ∧
    ∀ t ∈ [(⟨">>>", .TripleGreaterThan, 0, 3⟩ : Token), ⟨">", .GreaterThan, 3, 4⟩,
        ⟨"++", .Increment, 4, 6⟩, ⟨"+", .Plus, 6, 7⟩, ⟨">>>", .TripleGreaterThan, 8, 11⟩,
        ⟨"", .EndOfFile, 11, 11⟩],
      ∀ w, operatorText t.type = some w →
        t.lexeme = w ∧ slice ">>>>+++ >>>".toList t.from_ t.to_ = w.data ∧
        (∀ k' w', operatorText k' = some w' →
          w'.data <+: ">>>>+++ >>>".toList.drop t.from_ → w'.length ≤ w.length) ∧
        (∀ c, ">>>>+++ >>>".toList[t.to_]? = some c → ∀ k' w', operatorText k' = some w' →
          w'.data ≠ w.data ++ [c]) :=
  ⟨by decide, C16_longest_operator 1 ">>>>+++ >>>".toList 5 _ (by decide)⟩

/-- C17: every numeric literal produced from a source has one of the forms `0`, `0b`, `0o`
or `0x` with one or more digits of the base, or a digit other than `0` with decimal digits;
its lexeme is the text of its span in the source, and the character of the source after
the span is no digit of the base of the literal. -/
theorem C17_numeric_forms (n : Nat) (src : List Char) (k : Nat) (ts : List Token)
    (h : Lexer.tokenize n src k = .ok ts) :
    ∀ t ∈ ts, t.type = .NumericLiteral →
      numericForm t.lexeme.data = true ∧ slice src t.from_ t.to_ = t.lexeme.data ∧
      ∀ c, src[t.to_]? = some c → numericBase t.lexeme.data c = false := by
  obtain ⟨hi, hs⟩ := Lexer.tokenize_spans h
  intro t ht hty
  obtain ⟨_, _, h3, _, _, _, h5, _, _⟩ := hs.okIn t ht
  exact ⟨(h5 hty).1, h3 (by rw [hty]; decide), (h5 hty).2⟩

theorem C17_witness :
    Lexer.tokenize 1 "0 0b101 0x1F 0o17 902".toList 5
      = .ok [⟨"0", .NumericLiteral, 0, 1⟩, ⟨"0b101", .NumericLiteral, 2, 7⟩,
        ⟨"0x1F", .NumericLiteral, 8, 12⟩, ⟨"0o17", .NumericLiteral, 13, 17⟩,
        ⟨"902", .NumericLiteral, 18, 21⟩, ⟨"", .EndOfFile, 21, 21⟩] ∧
    ∀ t ∈ [(⟨"0", .NumericLiteral, 0, 1⟩ : Token), ⟨"0b101", .NumericLiteral, 2, 7⟩,
        ⟨"0x1F", .NumericLiteral, 8, 12⟩, ⟨"0o17", .NumericLiteral, 13, 17⟩,
        ⟨"902", .NumericLiteral, 18, 21⟩, ⟨"", .EndOfFile, 21, 21⟩],
      t.type = .NumericLiteral →
        numericForm t.lexeme.data = true ∧
        slice "0 0b101 0x1F 0o17 902".toList t.from_ t.to_ = t.lexeme.data ∧
        ∀ c, "0 0b101 0x1F 0o17 902".toList[t.to_]? = some c →
          numericBase t.lexeme.data c = false :=
  ⟨by decide, C17_numeric_forms 1 "0 0b101 0x1F 0o17 902".toList 5 _ (by decide)⟩

/-- C18: where a token starts with `0b`, `0o` or `0x` and the next character is no digit
of the base (or the source ends there), and where a token starts with `0` and a decimal
digit, reading the token fails with the lexical error of `getNumericLiteral`. The token
starts at the lexer `M` that `skipWhitespace` reaches from `L`. -/
theorem C18_numeric_errors {n : Nat} (L M : Lexer n) (rest : List Char)
    (hw : Lexer.skipWhitespace L = .ok (false, M)) :
    (M.m_file = '0' :: 'b' :: rest → (∀ d, rest.head? = some d → binaryDigit d = false) →
      Lexer.addNextToken L = .error (.range_error "Binary prefix without a number.")) ∧
    (M.m_file = '0' :: 'o' :: rest → (∀ d, rest.head? = some d → octalDigit d = false) →
      Lexer.addNextToken L = .error (.range_error "Octal prefix without a number.")) ∧
    (M.m_file = '0' :: 'x' :: rest → (∀ d, rest.head? = some d → hexDigit d = false) →
      Lexer.addNextToken L
        = .error (.range_error "Hexadecimal prefix without a number.")) ∧
    (∀ d, M.m_file = '0' :: d :: rest → decimalDigit d = true →
      Lexer.addNextToken L = .error (.range_error
        "Decimal numbers cannot start with 0 (use \"0o\" prefix for octal base).")) := by
  have start : ∀ {x : Char}, M.m_file = '0' :: x :: rest →
      Lexer.addNextToken L =
        match Lexer.getNumericLiteral M with
        | .error e => .error e
        | .ok r => r.2.pushToken r.1 .NumericLiteral M.m_index := fun hf =>
    Lexer.addNextToken_digit hw (c := '0') (Lexer.peekChar_some hf (by decide)) (by decide)
  have next : ∀ {x : Char}, x ≠ '\xff' →
      Lexer.peekChar (⟨x :: rest, M.m_index + 1, M.m_tokens⟩ : Lexer n) = some x :=
    fun hx => Lexer.peekChar_some rfl hx
  refine ⟨fun hf h => ?_, fun hf h => ?_, fun hf h => ?_, fun d hf h => ?_⟩
  · rw [start hf]
    unfold Lexer.getNumericLiteral
    rw [Lexer.takeChar_cons hf, if_pos (Lexer.peekChar_some hf (by decide))]
    simp only [next (show 'b' ≠ '\xff' by decide), if_true]
    rw [Lexer.getPrefixed_none (L := ⟨'b' :: rest, M.m_index + 1, M.m_tokens⟩)
      (p := Lexer.isbinary) rfl h]
  · rw [start hf]
    unfold Lexer.getNumericLiteral
    rw [Lexer.takeChar_cons hf, if_pos (Lexer.peekChar_some hf (by decide))]
    simp only [next (show 'o' ≠ '\xff' by decide), if_true]
    rw [if_neg (by decide), Lexer.getPrefixed_none
      (L := ⟨'o' :: rest, M.m_index + 1, M.m_tokens⟩) (p := Lexer.isoctal) rfl h]
  · rw [start hf]
    unfold Lexer.getNumericLiteral
    rw [Lexer.takeChar_cons hf, if_pos (Lexer.peekChar_some hf (by decide))]
    simp only [next (show 'x' ≠ '\xff' by decide), if_true]
    rw [if_neg (by decide), if_neg (by decide), Lexer.getPrefixed_none
      (L := ⟨'x' :: rest, M.m_index + 1, M.m_tokens⟩)
      (p := Lexer.ishex) rfl (fun e he => by rw [Lexer.ishex_eq]; exact h e he)]
  · rw [start hf]
    unfold Lexer.getNumericLiteral
    rw [Lexer.takeChar_cons hf, if_pos (Lexer.peekChar_some hf (by decide))]
    have hd0 : d ≠ '\xff' := by
      intro h0
      subst h0
      exact absurd h (by decide)
    simp only [next hd0]
    have hne : ∀ x : Char, decimalDigit x = false → ¬ some d = some x := by
      intro x hx hdx
      injection hdx with hdx
      subst hdx
      rw [h] at hx
      cases hx
    rw [if_neg (hne 'b' (by decide)), if_neg (hne 'o' (by decide)),
      if_neg (hne 'x' (by decide)), if_pos (by simpa using h)]

theorem C18_witness :
    Lexer.skipWhitespace (⟨" 0b".toList, 0, CircularQueue.new⟩ : Lexer 1)
      = .ok (false, ⟨"0b".toList, 1, CircularQueue.new⟩) ∧
    Lexer.new 1 "0b".toList = .error (.range_error "Binary prefix without a number.") ∧
    Lexer.new 1 "0o8".toList = .error (.range_error "Octal prefix without a number.") ∧
    Lexer.new 1 "0xg".toList
      = .error (.range_error "Hexadecimal prefix without a number.") ∧
    Lexer.new 1 "007".toList = .error (.range_error
      "Decimal numbers cannot start with 0 (use \"0o\" prefix for octal base).") ∧
    Lexer.addNextToken (⟨" 0b".toList, 0, CircularQueue.new⟩ : Lexer 1)
      = .error (.range_error "Binary prefix without a number.") :=
  ⟨by decide, by decide, by decide, by decide, by decide,
    (C18_numeric_errors (⟨" 0b".toList, 0, CircularQueue.new⟩ : Lexer 1)
      ⟨"0b".toList, 1, CircularQueue.new⟩ [] (by decide)).1 (by decide) (by simp)⟩

/-- C19 (the code breaks it). `peekChar` returns a `char` that the callers compare with
`EOF`, so the byte 0xFF reads as the end of the file. In the text `"a\xffb" 1` the
closing quote stands before any newline and before the end of the file, yet reading the
string literal fails with the error of the end of the file; the text `"ab" 1` yields the
string literal `ab` with the span `[0, 4)`. -/
theorem C19_quote_after_byte_ff :
    Lexer.tokenize 1 "\"a\xffb\" 1".toList 1 =
      .error (.range_error "Reached end-of-file before ending string literal.") ∧
    Lexer.tokenize 1 "\"ab\" 1".toList 1 =
      .ok [⟨"ab", .StringLiteral, 0, 4⟩, ⟨"1", .NumericLiteral, 5, 6⟩] := by
  decide

/-- C20 (the code breaks it). The loop over the body of a block comment runs while
`peekChar() != EOF`, and the byte 0xFF reads as `EOF`: in the text `/* \xff */ 1` the
comment is followed by its `*/`, yet tokenizing fails with the error of the unterminated
comment; the text `/* y */ 1` yields the token `1`. -/
theorem C20_comment_with_byte_ff :
    Lexer.tokenize 1 "/* \xff */ 1".toList 0 =
      .error (.range_error "Unterminated multiline comment.") ∧
    Lexer.tokenize 1 "/* y */ 1".toList 0 = .ok [⟨"1", .NumericLiteral, 8, 9⟩] := by
  decide

/-- C21 (the code breaks it). The loop over a line comment stops at the byte 0xFF, which
reads as `EOF`, and `addNextToken` pushes the token `EndOfFile` there: in the text
`1 //\xff c` of length 7 only a comment is left after the token `1`, yet the `EndOfFile`
token has `from = to = 4`; in the text `1 //y c` it has `from = to = 7`. -/
theorem C21_end_at_byte_ff :
    Blank " //\xff c".toList ∧ "1 //\xff c".toList.length = 7 ∧
    Lexer.tokenize 1 "1 //\xff c".toList 1 =
      .ok [⟨"1", .NumericLiteral, 0, 1⟩, ⟨"", .EndOfFile, 4, 4⟩] ∧
    Lexer.tokenize 1 "1 //y c".toList 1 =
      .ok [⟨"1", .NumericLiteral, 0, 1⟩, ⟨"", .EndOfFile, 7, 7⟩] :=
  ⟨.space (by decide) (.lineEnd "\xff c".toList (by decide)), by decide, by decide,
    by decide⟩

/-- C22: where a token starts with a letter or an underscore, `addNextToken` pushes an
`Identifier` whose lexeme is that character and the longest run of letters, digits and
underscores after it, whatever word it spells. The token starts at the lexer `M` that
`skipWhitespace` reaches from `L`. -/
theorem C22_identifiers {n : Nat} (L M : Lexer n) (c : Char) (rest : List Char)
    (hw : Lexer.skipWhitespace L = .ok (false, M)) (hf : M.m_file = c :: rest)
    (hc : letter c = true ∨ c = '_') :
    Lexer.addNextToken L =
      Lexer.pushToken
        ⟨rest.dropWhile identifierChar,
          M.m_index + 1 + (rest.takeWhile identifierChar).length, M.m_tokens⟩
        ⟨c :: rest.takeWhile identifierChar⟩ .Identifier M.m_index := by
  have h0 : c ≠ '\xff' := by
    rintro rfl
    rcases hc with hc | hc
    · exact absurd hc (by decide)
    · exact absurd hc (by decide)
  rw [Lexer.addNextToken_alpha hw (Lexer.peekChar_some hf h0) hc]
  unfold Lexer.getIdentifier
  rw [Lexer.takeChar_cons hf]
  simp only
  rw [Lexer.takeWhile_run]
  have e : ∀ l : List Char, l.takeWhile (fun c => isalnum c || c == '_')
      = l.takeWhile identifierChar := fun l => rfl
  have e' : ∀ l : List Char, l.dropWhile (fun c => isalnum c || c == '_')
      = l.dropWhile identifierChar := fun l => rfl
  simp only [e, e', String.push]
  rfl
theorem C22_witness :
    Lexer.skipWhitespace (⟨" while_1+".toList, 0, CircularQueue.new⟩ : Lexer 1)
      = .ok (false, ⟨"while_1+".toList, 1, CircularQueue.new⟩) ∧
    Lexer.new 1 " while_1+".toList
      = .ok ⟨"+".toList, 8, ⟨[some ⟨"while_1", .Identifier, 1, 8⟩], 0, 0, 1⟩⟩ ∧
    Lexer.addNextToken (⟨" while_1+".toList, 0, CircularQueue.new⟩ : Lexer 1) =
      Lexer.pushToken
        ⟨"hile_1+".toList.dropWhile identifierChar,
          1 + 1 + ("hile_1+".toList.takeWhile identifierChar).length, CircularQueue.new⟩
        ⟨'w' :: "hile_1+".toList.takeWhile identifierChar⟩ .Identifier 1 :=
  ⟨by decide, by decide,
    C22_identifiers (⟨" while_1+".toList, 0, CircularQueue.new⟩ : Lexer 1)
      ⟨"while_1+".toList, 1, CircularQueue.new⟩ 'w' "hile_1+".toList (by decide) rfl
      (Or.inl (by decide))⟩

/-- C23 (the code breaks it). The byte 0xFF is none of the characters of the operators
and punctuation, no quote, no digit, no letter and no underscore, and it is a byte of the
file, not its end; yet `addNextToken` does not fail on it: `peekChar() == EOF` holds
there, and the token `EndOfFile` is pushed. The text `1 \xff 2` yields the tokens `1` and
`EndOfFile` at offset 2, while `1 $ 2` fails with the error `Unrecognized token.`. -/
theorem C23_byte_ff_ends_the_input :
    '\xff' ∉ ['[', ']', '(', ')', '.', ',', '+', '-', '*', '/', '%', '!', '~', '<', '>',
      '=', '"'] ∧
    decimalDigit '\xff' = false ∧ letter '\xff' = false ∧ '\xff' ≠ '_' ∧
    Lexer.tokenize 1 "1 \xff 2".toList 1 =
      .ok [⟨"1", .NumericLiteral, 0, 1⟩, ⟨"", .EndOfFile, 2, 2⟩] ∧
    Lexer.tokenize 1 "1 $ 2".toList 1 = .error (.logic_error "Unrecognized token.") := by
  decide

namespace Parser

/-- C26: `parseList` returns the empty list where the current token is the delimiter;
where it is not, and the input is an expression followed by `n - 1` commas each with an
expression, then a token that is no comma, it returns these `n` expressions in their
order; where a comma is followed by `]` or `)`, it fails with the error of `parseTerminal`
at that token. -/
theorem C26_list_parsing (f : Nat) (L L1 M : Lexer 2) (t : Token) (delimiter : TokenType)
    (x : Expression) (xs : List Expression) (ht : L.peek = .ok t) :
    (t.type = delimiter → parseList (f + 1) delimiter L = .ok ([], L)) ∧
    (t.type ≠ delimiter → parseExpression f L = .ok (x, L1) → ReadsItems L1 xs M →
      (∀ e, M.peek = .ok e → e.type ≠ .Comma →
        ∃ f0, ∀ fuel, f0 ≤ fuel → parseList fuel delimiter L = .ok (x :: xs, M)) ∧
      (∀ c M1 d, M.peek = .ok c → c.type = .Comma → M.skip = .ok M1 → M1.peek = .ok d →
        d.type = .CloseBracket ∨ d.type = .CloseParenthesis →
        ∃ f0, ∀ fuel, f0 ≤ fuel →
          parseList fuel delimiter L = .error (unexpected "terminal" d))) := by
  refine ⟨fun h => ?_, fun hne hx hxs => ⟨fun e he hend => ?_, fun c M1 d hc hty hs hd hdel => ?_⟩⟩
  · subst h
    exact list_empty ht f
  · exact Yields.list ht hne hx hxs he hend
  · have hno : terminalStart d.type = false := by
      rcases hdel with h | h <;> rw [h] <;> rfl
    have hpre : prefixNode d.type = none := by
      rcases hdel with h | h <;> rw [h] <;> rfl
    obtain ⟨u, hu, f1, h1⟩ := ReadsItems.trailing hc hty hs hd hno hpre hxs [x]
    obtain ⟨f2, h2⟩ := Yields.parseEquality_of_eq hx
    refine ⟨max f1 f2 + 1, fun g hg => ?_⟩
    obtain ⟨g, rfl⟩ : ∃ g', g = g' + 1 := ⟨g - 1, by omega⟩
    rw [parseList]
    simp only [bind, Except.bind, ht, hne, if_false, h2 g (by omega), hu, pure, Except.pure]
    exact h1 g (by omega)

theorem C26_witness :
    parseExpression 20 (Lexer.start "[]") = .ok (ArrayLiteral [] 0 2, Lexer.after 2 (Lexer.start "[]")) ∧
    parseExpression 20 (Lexer.start "f()")
      = .ok (FunctionCall (.identifier ⟨"f", 0, 1⟩) [] 3, Lexer.after 3 (Lexer.start "f()")) ∧
    parseExpression 20 (Lexer.start "[1,]")
      = .error (.runtime_error "Expected terminal, but got ']' from 3 to 4.") ∧
    parseExpression 20 (Lexer.start "f(1,)")
      = .error (.runtime_error "Expected terminal, but got ')' from 4 to 5.") ∧
    ∃ f0, ∀ fuel, f0 ≤ fuel →
      parseList fuel .CloseBracket (Lexer.after 1 (Lexer.start "[1,2]"))
        = .ok ([NumericLiteral "1" 1 2, NumericLiteral "2" 3 4],
          Lexer.after 4 (Lexer.start "[1,2]")) :=
  ⟨eq_of_returns (by decide!), eq_of_returns (by decide!), eq_of_fails (by decide!),
    eq_of_fails (by decide!),
    ((C26_list_parsing 20 (Lexer.after 1 (Lexer.start "[1,2]"))
      (Lexer.after 2 (Lexer.start "[1,2]")) (Lexer.after 4 (Lexer.start "[1,2]"))
      ⟨"1", .NumericLiteral, 1, 2⟩ .CloseBracket (NumericLiteral "1" 1 2)
      [NumericLiteral "2" 3 4] (by decide!)).2 (by decide) (eq_of_returns (by decide!))
      (@ReadsItems.cons (Lexer.after 2 (Lexer.start "[1,2]"))
        (Lexer.after 3 (Lexer.start "[1,2]")) (Lexer.after 4 (Lexer.start "[1,2]"))
        (Lexer.after 4 (Lexer.start "[1,2]")) ⟨",", .Comma, 2, 3⟩ 20 (NumericLiteral "2" 3 4)
        [] (by decide!) rfl (by decide!) (eq_of_returns (by decide!))
        (ReadsItems.nil _))).1 ⟨"]", .CloseBracket, 4, 5⟩ (by decide!) (by decide)⟩

/-- C27: where the argument list of a call, the subscript of a subscript access or the
element list of an array literal has been read and the current token is not the closing
`)` or `]`, the parser fails with the error `Expected ')'` or `Expected ']'` at that token
and returns no tree. -/
theorem C27_missing_delimiter (f : Nat) (L L1 L2 : Lexer 2) (target : Expression)
    (c : Token) (hs : L.skip = .ok L1) (hc : L2.peek = .ok c) :
    (∀ arguments, parseList f .CloseParenthesis L1 = .ok (arguments, L2) →
      c.type ≠ .CloseParenthesis →
      parseUnaryLeftAssociativeLoop (f + 1) target .OpenParenthesis L
        = .error (unexpected "')'" c)) ∧
    (∀ subscript, parseExpression f L1 = .ok (subscript, L2) → c.type ≠ .CloseBracket →
      parseUnaryLeftAssociativeLoop (f + 1) target .OpenBracket L
        = .error (unexpected "']'" c)) ∧
    (∀ o array, L.peek = .ok o → parseList f .CloseBracket L1 = .ok (array, L2) →
      c.type ≠ .CloseBracket →
      parseArrayLiteral (f + 1) L = .error (unexpected "']'" c)) := by
  refine ⟨fun a ha hne => ?_, fun s ha hne => ?_, fun o a ho ha hne => ?_⟩
  · rw [parseUnaryLeftAssociativeLoop]
    simp only [bind, Except.bind, hs, ha, hc, hne, ne_eq, not_false_eq_true, if_true,
      if_false, reduceCtorEq]
  · rw [parseUnaryLeftAssociativeLoop]
    unfold parseExpression at ha
    simp only [bind, Except.bind, hs, ha, hc, hne, ne_eq, not_false_eq_true, if_true,
      if_false, reduceCtorEq]
  · rw [parseArrayLiteral]
    simp only [bind, Except.bind, ho, hs, ha, hc, hne, ne_eq, not_false_eq_true, if_true]

theorem C27_witness :
    parseExpression 20 (Lexer.start "f(1 2")
      = .error (.runtime_error "Expected ')', but got '2' from 4 to 5.") ∧
    parseExpression 20 (Lexer.start "[1 2")
      = .error (.runtime_error "Expected ']', but got '2' from 3 to 4.") ∧
    parseExpression 20 (Lexer.start "a[1,2]")
      = .error (.runtime_error "Expected ']', but got ',' from 3 to 4.") ∧
    parseExpression 20 (Lexer.start "a[0")
      = .error (.runtime_error "Expected ']', but got '' from 3 to 3.") ∧
    parseUnaryLeftAssociativeLoop (20 + 1) (.identifier ⟨"f", 0, 1⟩) .OpenParenthesis
        (Lexer.after 1 (Lexer.start "f(1 2"))
      = .error (unexpected "')'" ⟨"2", .NumericLiteral, 4, 5⟩) :=
  ⟨eq_of_fails (by decide!), eq_of_fails (by decide!), eq_of_fails (by decide!),
    eq_of_fails (by decide!),
    (C27_missing_delimiter 20 (Lexer.after 1 (Lexer.start "f(1 2"))
      (Lexer.after 2 (Lexer.start "f(1 2")) (Lexer.after 3 (Lexer.start "f(1 2"))
      (.identifier ⟨"f", 0, 1⟩) ⟨"2", .NumericLiteral, 4, 5⟩ (by decide!) (by decide!)).1
      [NumericLiteral "1" 2 3] (eq_of_returnsList (by decide!)) (by decide)⟩

/-- C28: after the `.` of a postfix chain, where the next token is an identifier the
loop goes on with the node `MemberAccess` of the target and that identifier, after both
tokens; the node holds the target and the identifier with its span, and spans from the
`from` of the target to the `to` of the identifier. Where the next token is of any other
kind, the parser fails with the error `Expected identifier` at that token. -/
theorem C28_member_access (f : Nat) (L L1 : Lexer 2) (target : Expression) (i : Token)
    (hs : L.skip = .ok L1) (hi : L1.peek = .ok i) :
    (i.type = .Identifier → ∀ L2 u, L1.skip = .ok L2 → L2.peek = .ok u →
      parseUnaryLeftAssociativeLoop (f + 1) target .Dot L
        = parseUnaryLeftAssociativeLoop f
            (.memberAccess target ⟨i.lexeme, i.from_, i.to_⟩ target.from_ i.to_)
            u.type L2) ∧
    (i.type ≠ .Identifier →
      parseUnaryLeftAssociativeLoop (f + 1) target .Dot L
        = .error (unexpected "identifier" i)) := by
  refine ⟨fun hty L2 u hs2 hu => ?_, fun hne => ?_⟩
  · rw [parseUnaryLeftAssociativeLoop]
    simp only [bind, Except.bind, hs, hi, hty, hs2, hu, if_true, ne_eq, not_true_eq_false,
      if_false, pure, Except.pure]
    rfl
  · rw [parseUnaryLeftAssociativeLoop]
    simp only [bind, Except.bind, hs, hi, hne, ne_eq, not_false_eq_true, if_true]

theorem C28_witness :
    parseExpression 20 (Lexer.start "a.b")
      = .ok (.memberAccess (.identifier ⟨"a", 0, 1⟩) ⟨"b", 2, 3⟩ 0 3,
        Lexer.after 3 (Lexer.start "a.b")) ∧
    parseExpression 20 (Lexer.start "a.1")
      = .error (.runtime_error "Expected identifier, but got '1' from 2 to 3.") ∧
    parseExpression 20 (Lexer.start "a.")
      = .error (.runtime_error "Expected identifier, but got '' from 2 to 2.") ∧
    parseExpression 20 (Lexer.start "a.[0]")
      = .error (.runtime_error "Expected identifier, but got '[' from 2 to 3.") ∧
    parseUnaryLeftAssociativeLoop (20 + 1) (.identifier ⟨"a", 0, 1⟩) .Dot
        (Lexer.after 1 (Lexer.start "a.1"))
      = .error (unexpected "identifier" ⟨"1", .NumericLiteral, 2, 3⟩) :=
  ⟨eq_of_returns (by decide!), eq_of_fails (by decide!), eq_of_fails (by decide!),
    eq_of_fails (by decide!),
    (C28_member_access 20 (Lexer.after 1 (Lexer.start "a.1"))
      (Lexer.after 2 (Lexer.start "a.1")) (.identifier ⟨"a", 0, 1⟩)
      ⟨"1", .NumericLiteral, 2, 3⟩ (by decide!) (by decide!)).2 (by decide)⟩

/-- C29: `parseTerminal` returns a tree only where the current token is an identifier, a
numeric literal, a string literal or `[`; at a token of any other kind it fails with the
error `Expected terminal` at that token, and so does `parseExpression` where that token is
no prefix operator either. -/
theorem C29_terminal_position (f : Nat) (L : Lexer 2) (t : Token) (ht : L.peek = .ok t) :
    (∀ x M, parseTerminal f L = .ok (x, M) →
      t.type = .Identifier ∨ t.type = .NumericLiteral ∨ t.type = .StringLiteral ∨
        t.type = .OpenBracket) ∧
    (t.type ≠ .Identifier → t.type ≠ .NumericLiteral → t.type ≠ .StringLiteral →
      t.type ≠ .OpenBracket →
      parseTerminal (f + 1) L = .error (unexpected "terminal" t) ∧
      (prefixNode t.type = none →
        parseExpression (f + 8) L = .error (unexpected "terminal" t))) := by
  refine ⟨fun x M h => ?_, fun h1 h2 h3 h4 => ?_⟩
  · obtain ⟨t', ht', hst⟩ := terminal_start h
    rw [ht] at ht'
    injection ht' with ht'
    subst ht'
    generalize t.type = k at hst
    cases k <;> simp [terminalStart] at hst ⊢
  · have hno : terminalStart t.type = false := by
      generalize t.type = k at h1 h2 h3 h4
      cases k <;> simp [terminalStart] at h1 h2 h3 h4 ⊢
    exact ⟨terminal_fails ht hno f, fun hpre => expression_fails_terminal ht hno hpre f⟩

theorem C29_witness :
    parseExpression 20 (Lexer.start "(1+2)*3")
      = .error (.runtime_error "Expected terminal, but got '(' from 0 to 1.") ∧
    parseExpression 20 (Lexer.start "")
      = .error (.runtime_error "Expected terminal, but got '' from 0 to 0.") ∧
    parseExpression 20 (Lexer.start "1 + *")
      = .error (.runtime_error "Expected terminal, but got '*' from 4 to 5.") ∧
    parseTerminal (0 + 1) (Lexer.start "(1+2)*3")
      = .error (unexpected "terminal" ⟨"(", .OpenParenthesis, 0, 1⟩) ∧
    (prefixNode TokenType.OpenParenthesis = none →
      parseExpression (0 + 8) (Lexer.start "(1+2)*3")
        = .error (unexpected "terminal" ⟨"(", .OpenParenthesis, 0, 1⟩)) :=
  ⟨eq_of_fails (by decide!), eq_of_fails (by decide!), eq_of_fails (by decide!),
    (C29_terminal_position 0 (Lexer.start "(1+2)*3") ⟨"(", .OpenParenthesis, 0, 1⟩
      (by decide!)).2 (by decide) (by decide) (by decide) (by decide)⟩

/-- C24: in every tree that `parseExpression` returns, on a lexer made from a source and
advanced by calls of `skip`, every node has a span with `to ≥ from`. -/
theorem C24_span_order (src : List Char) (f : Nat) (L0 L M : Lexer 2) (x : Expression)
    (hnew : Lexer.new 2 src = .ok L0) (hreach : Lexer.Reaches L0 L)
    (h : parseExpression f L = .ok (x, M)) :
    ∀ y ∈ x.nodes, y.to_ ≥ y.from_ := by
  obtain ⟨lo, hfed⟩ := Lexer.Fed.reaches hreach (Lexer.Fed.new hnew)
  obtain ⟨ts, htakes, hder⟩ := expression_derives h
  obtain ⟨hi, hspans, _⟩ := htakes.spans hfed
  exact (hder.ordered hspans).2.2

theorem C24_witness :
    Lexer.new 2 "f(1)[2].x++ + -y".toList = .ok (Lexer.start "f(1)[2].x++ + -y") ∧
    parseExpression 30 (Lexer.start "f(1)[2].x++ + -y") =
      .ok (exampleTree, Lexer.after 13 (Lexer.start "f(1)[2].x++ + -y")) ∧
    ∀ y ∈ exampleTree.nodes, y.to_ ≥ y.from_ :=
  ⟨by decide, eq_of_returns (by decide!),
    C24_span_order "f(1)[2].x++ + -y".toList 30 (Lexer.start "f(1)[2].x++ + -y")
      (Lexer.start "f(1)[2].x++ + -y") (Lexer.after 13 (Lexer.start "f(1)[2].x++ + -y"))
      exampleTree (by decide) (.refl _) (eq_of_returns (by decide!))⟩

/-- C25: a tree that `parseExpression` returns is derived, by the rules of `Derives`, from
the tokens that the call consumed: a leaf has the span of its token; a binary node spans
from the `from` of its left operand to the `to` of its right operand; a prefix node from
the `from` of the operator token to the `to` of the operand; a postfix `++` or `--` node
from the `from` of the operand to the `to` of the operator token; a member access from the
`from` of the argument to the `to` of the identifier; a function call and a subscript
access from the `from` of the target to the `to` of the consumed `)` or `]`; an array
literal from the `from` of its `[` to the `to` of its `]`. -/
theorem C25_span_rules (f : Nat) (L M : Lexer 2) (x : Expression)
    (h : parseExpression f L = .ok (x, M)) :
    ∃ ts, Lexer.Takes L ts M ∧ Derives ts (.inl x) :=
  expression_derives h

theorem C25_witness :
    parseExpression 30 (Lexer.start "f(1)[2].x++ + -y") =
      .ok (exampleTree, Lexer.after 13 (Lexer.start "f(1)[2].x++ + -y")) ∧
    ∃ ts, Lexer.Takes (Lexer.start "f(1)[2].x++ + -y") ts
        (Lexer.after 13 (Lexer.start "f(1)[2].x++ + -y")) ∧
      Derives ts (.inl exampleTree) :=
  ⟨eq_of_returns (by decide!),
    C25_span_rules 30 (Lexer.start "f(1)[2].x++ + -y")
      (Lexer.after 13 (Lexer.start "f(1)[2].x++ + -y")) exampleTree
      (eq_of_returns (by decide!))⟩

end Parser

namespace testLexer

/-- C30, as the code has it: where the tokens of the source before the token `e` are of the
kinds `NumericLiteral`, `StringLiteral`, `Plus`, `Minus`, `Star` and `Slash`, the token
dump prints one entry (kind name, lexeme, `from`, `to`) for each of them, in order; if `e`
is the `EndOfFile` token it prints nothing more, no entry for `e`, and ends normally; if
`e` is of any other kind it prints `Token type: ` and stops with the error
`Unimplemented string for TokenType.`. -/
theorem C30_token_dump (file : List Char) (ts : List Token) (e : Token)
    (htok : Lexer.tokenize 1 file ts.length = .ok (ts ++ [e]))
    (hts : ∀ t ∈ ts, t.type ∈ named) :
    (e.type = .EndOfFile → main file = (entries ts, none)) ∧
    (e.type ∉ TokenType.EndOfFile :: named → main file =
      (entries ts ++ "Token type: ",
        some (.logic_error "Unimplemented string for TokenType."))) :=
  main_entries htok hts

theorem C30_witness :
    Lexer.tokenize 1 "1 /* c */ + \"ab\"".toList 3 = .ok exampleTokens ∧
    main "1 /* c */ + \"ab\"".toList =
      ("Token type: NumericLiteral\nLexeme: 1\nFrom: 0\nTo: 1\n\n" ++
        "Token type: Plus\nLexeme: +\nFrom: 10\nTo: 11\n\n" ++
        "Token type: StringLiteral\nLexeme: ab\nFrom: 12\nTo: 16\n\n", none) ∧
    main "1 - x".toList =
      ("Token type: NumericLiteral\nLexeme: 1\nFrom: 0\nTo: 1\n\n" ++
        "Token type: Minus\nLexeme: -\nFrom: 2\nTo: 3\n\n" ++ "Token type: ",
        some (.logic_error "Unimplemented string for TokenType.")) :=
  ⟨by decide,
    (C30_token_dump "1 /* c */ + \"ab\"".toList
      [⟨"1", .NumericLiteral, 0, 1⟩, ⟨"+", .Plus, 10, 11⟩, ⟨"ab", .StringLiteral, 12, 16⟩]
      ⟨"", .EndOfFile, 16, 16⟩ (by decide) (by decide)).1 rfl,
    (C30_token_dump "1 - x".toList
      [⟨"1", .NumericLiteral, 0, 1⟩, ⟨"-", .Minus, 2, 3⟩]
      ⟨"x", .Identifier, 4, 5⟩ (by decide) (by decide)).2 (by decide)⟩

/-- The token dump of the text `1` has an entry for the numeric literal and none for the
`EndOfFile` token that follows it; the token dump of the text `a`, whose tokens are an
identifier and the `EndOfFile` token, has no entry at all and ends with an error. -/
theorem C30_counterexample :
    Lexer.tokenize 1 "1".toList 1 =
      .ok [⟨"1", .NumericLiteral, 0, 1⟩, ⟨"", .EndOfFile, 1, 1⟩] ∧
    main "1".toList = ("Token type: NumericLiteral\nLexeme: 1\nFrom: 0\nTo: 1\n\n", none) ∧
    Lexer.tokenize 1 "a".toList 1 =
      .ok [⟨"a", .Identifier, 0, 1⟩, ⟨"", .EndOfFile, 1, 1⟩] ∧
    main "a".toList =
      ("Token type: ", some (.logic_error "Unimplemented string for TokenType.")) :=
  ⟨by decide, by decide, by decide, by decide⟩

end testLexer

namespace Parser

/-- C31: where `parseExpression` returns a tree, on a lexer made from a source and
advanced by calls of `skip`, the kinds and lexemes of the tokens it consumed, in their
order, are the token yield of the tree. -/
theorem C31_token_yield (src : List Char) (f : Nat) (L0 L M : Lexer 2) (x : Expression)
    (hnew : Lexer.new 2 src = .ok L0) (hreach : Lexer.Reaches L0 L)
    (h : parseExpression f L = .ok (x, M)) :
    ∃ ts, Lexer.Takes L ts M ∧ ts.map Token.word = x.yield := by
  obtain ⟨lo, hfed⟩ := Lexer.Fed.reaches hreach (Lexer.Fed.new hnew)
  obtain ⟨ts, htakes, hder⟩ := expression_derives h
  obtain ⟨hi, hspans, _⟩ := htakes.spans hfed
  exact ⟨ts, htakes, hder.yield (fun t ht w hw => ((hspans.okIn t ht).2.2.2.2.2.2.2.2 w hw).1)⟩

theorem C31_witness :
    Lexer.new 2 "f(1)[2].x++ + -y".toList = .ok (Lexer.start "f(1)[2].x++ + -y") ∧
    parseExpression 30 (Lexer.start "f(1)[2].x++ + -y") =
      .ok (exampleTree, Lexer.after 13 (Lexer.start "f(1)[2].x++ + -y")) ∧
    exampleTree.yield =
      [(.Identifier, "f"), (.OpenParenthesis, "("), (.NumericLiteral, "1"),
        (.CloseParenthesis, ")"), (.OpenBracket, "["), (.NumericLiteral, "2"),
        (.CloseBracket, "]"), (.Dot, "."), (.Identifier, "x"), (.Increment, "++"),
        (.Plus, "+"), (.Minus, "-"), (.Identifier, "y")] ∧
    ∃ ts, Lexer.Takes (Lexer.start "f(1)[2].x++ + -y") ts
        (Lexer.after 13 (Lexer.start "f(1)[2].x++ + -y")) ∧
      ts.map Token.word = exampleTree.yield :=
  ⟨by decide, eq_of_returns (by decide!), by decide,
    C31_token_yield "f(1)[2].x++ + -y".toList 30 (Lexer.start "f(1)[2].x++ + -y")
      (Lexer.start "f(1)[2].x++ + -y") (Lexer.after 13 (Lexer.start "f(1)[2].x++ + -y"))
      exampleTree (by decide) (.refl _) (eq_of_returns (by decide!))⟩

/-- C34: where `parseExpression` returns a tree, on a lexer made from a source and advanced
by calls of `skip`, every node of the tree is derived from a run of consecutive tokens
among those consumed, its `from` is the `from` of the first and its `to` the `to` of the
last token of that run; the span of every node below a node lies inside the span of that
node; and the span of the root runs from the first to the last consumed token. -/
theorem C34_span_extent (src : List Char) (f : Nat) (L0 L M : Lexer 2) (x : Expression)
    (hnew : Lexer.new 2 src = .ok L0) (hreach : Lexer.Reaches L0 L)
    (h : parseExpression f L = .ok (x, M)) :
    ∃ ts, Lexer.Takes L ts M ∧
      (∀ y ∈ x.nodes, ∃ tsy a b, tsy <:+: ts ∧ Derives tsy (.inl y) ∧
        tsy.head? = some a ∧ tsy.getLast? = some b ∧
        y.from_ = a.from_ ∧ y.to_ = b.to_) ∧
      (∀ y ∈ x.nodes, ∀ c ∈ y.nodes, y.from_ ≤ c.from_ ∧ c.to_ ≤ y.to_) ∧
      (∃ a b, ts.head? = some a ∧ ts.getLast? = some b ∧
        x.from_ = a.from_ ∧ x.to_ = b.to_) := by
  obtain ⟨lo, hfed⟩ := Lexer.Fed.reaches hreach (Lexer.Fed.new hnew)
  obtain ⟨ts, htakes, hder⟩ := expression_derives h
  obtain ⟨hi, hspans, _⟩ := htakes.spans hfed
  refine ⟨ts, htakes, fun y hy => ?_, fun y hy c hc => ?_, hder.extent⟩
  · obtain ⟨tsy, hin, hdy⟩ := hder.parts y hy
    obtain ⟨a, b, ha, hb, hfa, htb⟩ := hdy.extent
    exact ⟨tsy, a, b, hin, hdy, ha, hb, hfa, htb⟩
  · obtain ⟨tsy, hin, hdy⟩ := hder.parts y hy
    obtain ⟨tsc, hinc, hdc⟩ := hdy.parts c hc
    obtain ⟨l, u, hsy⟩ := spans_infix hspans hin
    obtain ⟨a, b, ha, hb, hfa, htb⟩ := hdy.extent
    obtain ⟨a', b', ha', hb', hfa', htb'⟩ := hdc.extent
    have h1 := hsy.head_le ha a' (hinc.subset (List.mem_of_mem_head? ha'))
    have h2 := hsy.le_last hb b' (hinc.subset (List.mem_of_mem_getLast? hb'))
    omega

theorem C34_witness :
    Lexer.new 2 "f(1)[2].x++ + -y".toList = .ok (Lexer.start "f(1)[2].x++ + -y") ∧
    parseExpression 30 (Lexer.start "f(1)[2].x++ + -y") =
      .ok (exampleTree, Lexer.after 13 (Lexer.start "f(1)[2].x++ + -y")) ∧
    ∃ ts, Lexer.Takes (Lexer.start "f(1)[2].x++ + -y") ts
        (Lexer.after 13 (Lexer.start "f(1)[2].x++ + -y")) ∧
      (∀ y ∈ exampleTree.nodes, ∃ tsy a b, tsy <:+: ts ∧ Derives tsy (.inl y) ∧
        tsy.head? = some a ∧ tsy.getLast? = some b ∧
        y.from_ = a.from_ ∧ y.to_ = b.to_) ∧
      (∀ y ∈ exampleTree.nodes, ∀ c ∈ y.nodes, y.from_ ≤ c.from_ ∧ c.to_ ≤ y.to_) ∧
      (∃ a b, ts.head? = some a ∧ ts.getLast? = some b ∧
        exampleTree.from_ = a.from_ ∧ exampleTree.to_ = b.to_) :=
  ⟨by decide, eq_of_returns (by decide!),
    C34_span_extent "f(1)[2].x++ + -y".toList 30 (Lexer.start "f(1)[2].x++ + -y")
      (Lexer.start "f(1)[2].x++ + -y") (Lexer.after 13 (Lexer.start "f(1)[2].x++ + -y"))
      exampleTree (by decide) (.refl _) (eq_of_returns (by decide!))⟩

/-- C33 (the claim as stated fails). On the source `1 2 $` the expression `1` is followed
by the token `2`, which cannot continue it, and `parseExpression` returns no tree: the
lexer reads two tokens ahead, and the call of `skip` that consumes `1` reads `$`, which is
no token. On `1 2` the same call returns the literal `1` and leaves `2` current. -/
theorem C33_lookahead_fails :
    Lexer.new 2 "1 2 $".toList = .ok (Lexer.start "1 2 $") ∧
    (Lexer.start "1 2 $").peek = .ok ⟨"1", .NumericLiteral, 0, 1⟩ ∧
    (Lexer.start "1 2 $").skip = .error (.logic_error "Unrecognized token.") ∧
    parseExpression 20 (Lexer.start "1 2 $") = .error (.logic_error "Unrecognized token.") ∧
    parseExpression 20 (Lexer.start "1 2") =
      .ok (.numericLiteral "1" 0 1, Lexer.after 1 (Lexer.start "1 2")) ∧
    (Lexer.after 1 (Lexer.start "1 2")).peek = .ok ⟨"2", .NumericLiteral, 2, 3⟩ :=
  ⟨by decide, by decide, by decide, eq_of_fails (by decide!),
    show parseExpression 20 (Lexer.start "1 2") =
      .ok (NumericLiteral "1" 0 1, Lexer.after 1 (Lexer.start "1 2")) from
      eq_of_returns (by decide!),
    by decide⟩

/-- C33 (as amended): `parseExpression` does not ask for the end of the input. Where it
returns a tree `x` and leaves the lexer `M`, the current token of `M` is one at which the
expression cannot go on: no binary operator and no token of a postfix operation. The call
has consumed tokens `ts`, one at least and none of them the end of the file, and on every
lexer that hands out the same tokens `ts` and then a token of any kind at which an
expression cannot go on, `parseExpression` returns the same tree `x` and leaves that token
current; that the lexer hands out these tokens includes that it could read the two tokens
it holds after them. And an operand (a result of `parseUnaryRightAssociative`, with its
prefix and postfix operators) followed by a token of any kind that is no binary operator
is what `parseExpression` returns, that token left current, with all fuel from some bound
on. -/
theorem C33_stops_without_end (f : Nat) (L M : Lexer 2) (x : Expression) :
    (parseExpression f L = .ok (x, M) →
      (∃ e, M.peek = .ok e ∧ binaryLevel e.type = none ∧ postfixStart e.type = false) ∧
      ∃ ts, ts ≠ [] ∧ Lexer.Takes L ts M ∧ (∀ t ∈ ts, t.type ≠ .EndOfFile) ∧
        ∀ L' M' e', Lexer.Takes L' ts M' → M'.peek = .ok e' →
          binaryLevel e'.type = none → postfixStart e'.type = false →
          parseExpression f L' = .ok (x, M')) ∧
    (parseUnaryRightAssociative f L = .ok (x, M) →
      ∀ e, M.peek = .ok e → binaryLevel e.type = none →
        ∃ f0, ∀ fuel, f0 ≤ fuel → parseExpression fuel L = .ok (x, M)) := by
  constructor
  · intro h
    refine ⟨?_, expression_replays h⟩
    obtain ⟨e, he, hpe, hbe⟩ := (stopsAt f).level 0 L M x h
    refine ⟨e, he, ?_, hpe⟩
    cases hb : binaryLevel e.type with
    | none => rfl
    | some j => exact absurd hb (hbe j (Nat.zero_le _))
  · intro h e he hb
    have h5 : Yields (level 5) L x M :=
      Yields.of_eq (fun f L => (fuelMono f).parseUnaryRightAssociative L) h
    exact Yields.lower he (Nat.zero_le _) (Nat.le_refl _)
      (fun i _ _ => by rw [hb]; intro h; cases h) h5

theorem C33_witness :
    parseExpression 20 (Lexer.start "1 2")
      = .ok (.numericLiteral "1" 0 1, Lexer.after 1 (Lexer.start "1 2")) ∧
    (Lexer.after 1 (Lexer.start "1 2")).peek = .ok ⟨"2", .NumericLiteral, 2, 3⟩ ∧
    parseExpression 20 (Lexer.start "a = b")
      = .ok (.identifier ⟨"a", 0, 1⟩, Lexer.after 1 (Lexer.start "a = b")) ∧
    (Lexer.after 1 (Lexer.start "a = b")).peek = .ok ⟨"=", .Equals, 2, 3⟩ ∧
    parseExpression 20 (Lexer.start "1 )")
      = .ok (.numericLiteral "1" 0 1, Lexer.after 1 (Lexer.start "1 )")) ∧
    (Lexer.after 1 (Lexer.start "1 )")).peek = .ok ⟨")", .CloseParenthesis, 2, 3⟩ ∧
    parseExpression 20 (Lexer.start "1+2 3")
      = .ok (.binaryOperator .Addition (.numericLiteral "1" 0 1) (.numericLiteral "2" 2 3)
          0 3, Lexer.after 3 (Lexer.start "1+2 3")) ∧
    (Lexer.after 3 (Lexer.start "1+2 3")).peek = .ok ⟨"3", .NumericLiteral, 4, 5⟩ ∧
    parseExpression 20 (Lexer.start "1+2")
      = .ok (.binaryOperator .Addition (.numericLiteral "1" 0 1) (.numericLiteral "2" 2 3)
          0 3, Lexer.after 3 (Lexer.start "1+2")) ∧
    ((∃ e, (Lexer.after 3 (Lexer.start "1+2")).peek = .ok e ∧ binaryLevel e.type = none ∧
        postfixStart e.type = false) ∧
      ∃ ts, ts ≠ [] ∧
        Lexer.Takes (Lexer.start "1+2") ts (Lexer.after 3 (Lexer.start "1+2")) ∧
        (∀ t ∈ ts, t.type ≠ .EndOfFile) ∧
        ∀ L' M' e', Lexer.Takes L' ts M' → M'.peek = .ok e' →
          binaryLevel e'.type = none → postfixStart e'.type = false →
          parseExpression 20 L' =
            .ok (.binaryOperator .Addition (.numericLiteral "1" 0 1)
              (.numericLiteral "2" 2 3) 0 3, M')) ∧
    ∃ f0, ∀ fuel, f0 ≤ fuel → parseExpression fuel (Lexer.start "a = b")
      = .ok (.identifier ⟨"a", 0, 1⟩, Lexer.after 1 (Lexer.start "a = b")) :=
  ⟨show parseExpression 20 (Lexer.start "1 2") =
      .ok (NumericLiteral "1" 0 1, Lexer.after 1 (Lexer.start "1 2")) from
      eq_of_returns (by decide!),
    by decide, eq_of_returns (by decide!), by decide,
    show parseExpression 20 (Lexer.start "1 )") =
      .ok (NumericLiteral "1" 0 1, Lexer.after 1 (Lexer.start "1 )")) from
      eq_of_returns (by decide!),
    by decide,
    show parseExpression 20 (Lexer.start "1+2 3") =
      .ok (Addition (NumericLiteral "1" 0 1) (NumericLiteral "2" 2 3),
        Lexer.after 3 (Lexer.start "1+2 3")) from eq_of_returns (by decide!),
    by decide,
    show parseExpression 20 (Lexer.start "1+2") =
      .ok (Addition (NumericLiteral "1" 0 1) (NumericLiteral "2" 2 3),
        Lexer.after 3 (Lexer.start "1+2")) from eq_of_returns (by decide!),
    (C33_stops_without_end 20 (Lexer.start "1+2") (Lexer.after 3 (Lexer.start "1+2"))
      (Addition (NumericLiteral "1" 0 1) (NumericLiteral "2" 2 3))).1
      (eq_of_returns (by decide!)),
    (C33_stops_without_end 20 (Lexer.start "a = b") (Lexer.after 1 (Lexer.start "a = b"))
      (.identifier ⟨"a", 0, 1⟩)).2 (eq_of_returns (by decide!)) ⟨"=", .Equals, 2, 3⟩
      (by decide) rfl⟩

end Parser

namespace Parser

/-- C32: on a lexer made from a source and advanced by calls of `skip`, `parseExpression`
comes to a result: with `20 * src.length + 10` units of fuel or more it does not run out of
fuel, and its result is the same for all these amounts (every call that comes back to the
same function has consumed a token first, and every token consumed takes at least one
character of the source). Where it returns a tree, none of the tokens it consumed is
`EndOfFile`, and they are the first of the tokens that lie before any `EndOfFile` token:
they are no more than the tokens of the source that are not `EndOfFile`. -/
theorem C32_terminates (src : List Char) (L0 L : Lexer 2)
    (hnew : Lexer.new 2 src = .ok L0) (hreach : Lexer.Reaches L0 L) :
    (∀ fuel, 20 * src.length + 10 ≤ fuel →
      parseExpression fuel L ≠ .error .out_of_fuel ∧
      parseExpression fuel L = parseExpression (20 * src.length + 10) L) ∧
    (∀ f x M, parseExpression f L = .ok (x, M) →
      ∃ ts, Lexer.Takes L ts M ∧ (∀ t ∈ ts, t.type ≠ .EndOfFile) ∧
        ∀ us E e, Lexer.Takes L us E → E.peek = .ok e → e.type = .EndOfFile →
          ts <+: us ∧
          ts.length ≤ (us.filter (fun u => decide (u.type ≠ .EndOfFile))).length) := by
  obtain ⟨lo, hfed⟩ := Lexer.Fed.reaches hreach (Lexer.Fed.new hnew)
  constructor
  · intro fuel hf
    obtain ⟨h1, h2⟩ := expression_settles hfed fuel hf
    refine ⟨fun h0 => ?_, h2⟩
    have := h1 _ h0
    cases this
  · intro f x M h
    obtain ⟨ts, htakes, hder⟩ := expression_derives h
    have hne := hder.no_end
    refine ⟨ts, htakes, hne, fun us E e hus he hty => ?_⟩
    have hpre := htakes.starts hne hus he hty
    refine ⟨hpre, ?_⟩
    have hsub := (hpre.sublist.filter (fun u => decide (u.type ≠ .EndOfFile))).length_le
    rw [List.filter_eq_self.mpr (fun t ht => by simpa using hne t ht)] at hsub
    exact hsub

theorem C32_witness :
    Lexer.new 2 "1+2".toList = .ok (Lexer.start "1+2") ∧
    parseExpression (20 * "1+2".toList.length + 10) (Lexer.start "1+2") =
      .ok (Addition (NumericLiteral "1" 0 1) (NumericLiteral "2" 2 3),
        Lexer.after 3 (Lexer.start "1+2")) ∧
    (∀ fuel, 20 * "1+2".toList.length + 10 ≤ fuel →
      parseExpression fuel (Lexer.start "1+2") ≠ .error .out_of_fuel ∧
      parseExpression fuel (Lexer.start "1+2") =
        parseExpression (20 * "1+2".toList.length + 10) (Lexer.start "1+2")) :=
  ⟨by decide, eq_of_returns (by decide!),
    (C32_terminates "1+2".toList (Lexer.start "1+2") (Lexer.start "1+2") (by decide)
      (.refl _)).1⟩

end Parser

/-- C35 (the code breaks it). The text `1 \xff 2` tokenizes without error through
`EndOfFile`: the byte 0xFF at offset 2 reads as the end of the file, and every further
token is the `EndOfFile` token at offset 2. The offset 4 holds the digit `2`, which is no
white space; the text holds no `/`, so no comment; and the offset lies in the span of no
token, nor between the end of a token and the start of a token. -/
theorem C35_bytes_dropped_after_byte_ff :
    "1 \xff 2".toList = ['1', ' ', '\xff', ' ', '2'] ∧
    Lexer.tokenize 1 "1 \xff 2".toList 3 =
      .ok [⟨"1", .NumericLiteral, 0, 1⟩, ⟨"", .EndOfFile, 2, 2⟩, ⟨"", .EndOfFile, 2, 2⟩,
        ⟨"", .EndOfFile, 2, 2⟩] ∧
    isspace '2' = false ∧ '/' ∉ "1 \xff 2".toList ∧
    (∀ t ∈ [(⟨"1", .NumericLiteral, 0, 1⟩ : Token), ⟨"", .EndOfFile, 2, 2⟩],
      ¬ (t.from_ ≤ 4 ∧ 4 < t.to_) ∧ ¬ 4 < t.from_) := by
  decide

end frontend
